import Mathlib

/-!
# B+ tree (`BPlusTree.h`): shallow embedding and verification

The C++ class `BPlusTree<order, Key, Value, Compare>` keeps its nodes on the heap and links
them with raw pointers.  The embedding keeps that shape:

* a node is a record of its count `n`, the `IS_LEAF` flag and the three arrays
  `keys[order]`, `values[order]` and `ptr[...]` (two slots in a leaf, `order + 1` in an
  internal node); arrays are total functions on slot numbers and every access checks the
  capacity of the C++ array;
* the heap is a map from addresses to nodes, `delete` empties a cell and `new` takes the
  next unused address;
* every operation is a function into `Option`; `none` stands for an execution that leaves
  defined behaviour (an access outside an array, a null or dangling pointer, a lock or unlock
  of the mutex of a null or freed node, a failed `assert`, a count that would drop below
  zero) or that does not terminate;
* `Compare` is `std::less<Key>`: the strict order of a linear order on `K`.

`Key keys[order]` and `new Value[order]` are not initialised by the constructor of `Node`;
the contents of a new node are taken from a parameter `Fresh`.
-/

namespace BPlusTree

/-- Heap node: the fields of `struct Node`. -/
structure Node (K V : Type) where
  n : Nat
  IS_LEAF : Bool
  keys : Nat → K
  values : Nat → V
  ptr : Nat → Option Nat

/-- Contents of uninitialised memory: the arrays `keys` and `values` of a node allocated at a
given address, and the four bytes of the local variable `saved_order` of `deserialize`. -/
structure Fresh (K V : Type) where
  keys : Nat → Nat → K
  values : Nat → Nat → V
  savedOrder : Nat → Nat := fun _ => 0

/-- The heap: address to node; `none` is unallocated or freed memory. -/
abbrev Heap (K V : Type) := Nat → Option (Node K V)

/-- The fields of `class BPlusTree`, with the heap and the allocation counter.  `size` is the
32-bit `int size`; `size++` and `size--` go through `wrapInt`. -/
structure Tree (K V : Type) where
  heap : Heap K V
  next : Nat
  size : Int
  root : Option Nat
  head : Option Nat

/-- The value of a 32-bit `int` after an arithmetic step: the result modulo `2^32`, taken in
`[-2^31, 2^31)`. -/
def wrapInt (x : Int) : Int := (x + 2147483648) % 4294967296 - 2147483648

section Model

variable {K V : Type} [LinearOrder K]

/-- Constructor `Node(bool isLeaf)` for a node placed at address `a`. -/
def newNode (fr : Fresh K V) (a : Nat) (isLeaf : Bool) : Node K V :=
  { n := 0, IS_LEAF := isLeaf, keys := fr.keys a, values := fr.values a, ptr := fun _ => none }

/-- Constructor `BPlusTree()`. -/
def empty : Tree K V :=
  { heap := fun _ => none, next := 0, size := 0, root := none, head := none }

/-- The `while (i <= j)` loop of `Node::search`. -/
def searchLoop (keys : Nat → K) (key : K) : Nat → Nat → Nat → Option Nat
  | 0, _, _ => none
  | fuel + 1, i, j =>
    if i ≤ j then
      let mid := i + (j - i) / 2
      if keys mid = key then some mid
      else if keys mid < key then searchLoop keys key fuel (mid + 1) j
      else searchLoop keys key fuel i (mid - 1)
    else some i

/-- `Node::search`. -/
def Node.search (order : Nat) (nd : Node K V) (key : K) : Option Nat :=
  if order < nd.n then none
  else if nd.n = 0 then some 0
  else if ¬ nd.keys 0 < key then some 0
  else if nd.keys (nd.n - 1) < key then some nd.n
  else searchLoop nd.keys key nd.n 1 (nd.n - 1)

/-- `Node::hasKey`: compares `keys[arg]` without looking at `n`. -/
def Node.hasKey (order : Nat) (nd : Node K V) (key : K) : Option Bool :=
  match nd.search order key with
  | none => none
  | some arg => if arg < order then some (decide (nd.keys arg = key)) else none

/-- `Node::isUpOver`. -/
def Node.isUpOver (order : Nat) (nd : Node K V) : Bool := decide (order ≤ nd.n)

/-- `Node::isDownOver`. -/
def Node.isDownOver (order : Nat) (nd : Node K V) : Bool := decide (nd.n < (order - 1) / 2)

/-- The shifting loop of the leaf `Node::insert`; slot `i = arg + c + 1` runs downwards. -/
def shiftLeaf (arg : Nat) : Nat → Node K V → Node K V
  | 0, nd => nd
  | c + 1, nd =>
    shiftLeaf arg c { nd with
      keys := Function.update nd.keys (arg + c + 1) (nd.keys (arg + c))
      values := Function.update nd.values (arg + c + 1) (nd.values (arg + c)) }

/-- `Node::insert(Key, Value, compare)` on a leaf. -/
def Node.insert (order : Nat) (nd : Node K V) (key : K) (value : V) : Option (Node K V) :=
  if nd.IS_LEAF then
    match nd.search order key with
    | none => none
    | some arg =>
      if nd.n < order then
        let s := shiftLeaf arg (nd.n - arg) nd
        some { s with
          keys := Function.update s.keys arg key
          values := Function.update s.values arg value
          n := s.n + 1 }
      else none
  else none

/-- The shifting loop of the internal `Node::insert`. -/
def shiftInternal (arg : Nat) : Nat → Node K V → Node K V
  | 0, nd => nd
  | c + 1, nd =>
    shiftInternal arg c { nd with
      keys := Function.update nd.keys (arg + c + 1) (nd.keys (arg + c))
      ptr := Function.update nd.ptr (arg + c + 2) (nd.ptr (arg + c + 1)) }

/-- `Node::insert(Key, Node*, compare)` on an internal node. -/
def Node.insertInternal (order : Nat) (nd : Node K V) (key : K) (rightChild : Option Nat) :
    Option (Node K V) :=
  if nd.IS_LEAF then none
  else
    match nd.search order key with
    | none => none
    | some arg =>
      if nd.n < order then
        let s := shiftInternal arg (nd.n - arg) nd
        some { s with
          keys := Function.update s.keys arg key
          ptr := Function.update s.ptr (arg + 1) rightChild
          n := s.n + 1 }
      else none

/-- `Node::update`. -/
def Node.update (order : Nat) (nd : Node K V) (key : K) (value : V) : Option (Node K V) :=
  if nd.IS_LEAF then
    match nd.search order key with
    | none => none
    | some arg =>
      if arg < order then some { nd with values := Function.update nd.values arg value }
      else none
  else none

/-- The loop of `Node::remove`, `c` iterations starting at slot `i`. -/
def removeLoop : Nat → Nat → Node K V → Node K V
  | 0, _, nd => nd
  | c + 1, i, nd =>
    removeLoop c (i + 1)
      (if nd.IS_LEAF then
        { nd with
          keys := Function.update nd.keys i (nd.keys (i + 1))
          values := Function.update nd.values i (nd.values (i + 1)) }
      else
        { nd with
          keys := Function.update nd.keys i (nd.keys (i + 1))
          ptr := Function.update nd.ptr (i + 1) (nd.ptr (i + 2)) })

/-- `Node::remove`. -/
def Node.remove (order : Nat) (nd : Node K V) (key : K) : Option (Node K V) :=
  match nd.search order key with
  | none => none
  | some arg =>
    let s := removeLoop (nd.n - 1 - arg) arg nd
    let s1 := if s.IS_LEAF then s else { s with ptr := Function.update s.ptr s.n none }
    if s1.n = 0 then none else some { s1 with n := s1.n - 1 }

/-- Apply `f` to the node stored at `a`. -/
def modify (h : Heap K V) (a : Nat) (f : Node K V → Node K V) : Option (Heap K V) :=
  match h a with
  | none => none
  | some nd => some (Function.update h a (some (f nd)))

/-- Assignment `a->ptr[i] = v`. -/
def setPtr (h : Heap K V) (a i : Nat) (v : Option Nat) : Option (Heap K V) :=
  modify h a (fun nd => { nd with ptr := Function.update nd.ptr i v })

/-- `Node::insertNextNode`. -/
def insertNextNode (h : Heap K V) (a b : Nat) : Option (Heap K V) :=
  match h a, h b with
  | some this, some _ =>
    if this.IS_LEAF then
      match setPtr h b 1 (this.ptr 1) with
      | none => none
      | some h1 =>
        match (match this.ptr 1 with
               | none => some h1
               | some c => setPtr h1 c 0 (some b)) with
        | none => none
        | some h2 =>
          match setPtr h2 a 1 (some b) with
          | none => none
          | some h3 => setPtr h3 b 0 (some a)
    else none
  | _, _ => none

/-- `Node::removeNextNode`. -/
def removeNextNode (h : Heap K V) (a : Nat) : Option (Heap K V) :=
  match h a with
  | none => none
  | some this =>
    if this.IS_LEAF then
      match this.ptr 1 with
      | none => none
      | some b =>
        match h b with
        | none => none
        | some nb =>
          match (match nb.ptr 1 with
                 | none => some h
                 | some c => setPtr h c 0 (some a)) with
          | none => none
          | some h1 =>
            match h1 a with
            | none => none
            | some this1 =>
              match this1.ptr 1 with
              | none => some h1
              | some b1 =>
                match h1 b1 with
                | none => none
                | some nb1 => setPtr h1 a 1 (nb1.ptr 1)
    else none

/-- The copying loop of the leaf branch of `Node::split`. -/
def splitLeafLoop (src : Node K V) : Nat → Nat → Nat → Node K V → Node K V
  | 0, _, _, dst => dst
  | c + 1, i, j, dst =>
    splitLeafLoop src c (i + 1) (j + 1)
      { dst with
        keys := Function.update dst.keys i (src.keys j)
        values := Function.update dst.values i (src.values j)
        n := dst.n + 1 }

/-- The copying loop of the internal branch of `Node::split`; returns source and new node. -/
def splitInternalLoop : Nat → Nat → Nat → Node K V → Node K V → Node K V × Node K V
  | 0, _, _, src, dst => (src, dst)
  | c + 1, i, j, src, dst =>
    splitInternalLoop c (i + 1) (j + 1)
      { src with ptr := Function.update src.ptr (j + 1) none }
      { dst with
        keys := Function.update dst.keys i (src.keys j)
        ptr := Function.update dst.ptr (i + 1) (src.ptr (j + 1))
        n := dst.n + 1 }

/-- `Node::split` of the node at `a`; the new node is placed at address `nx`. -/
def split (order : Nat) (fr : Fresh K V) (h : Heap K V) (nx a : Nat) : Option (Heap K V) :=
  match h a with
  | none => none
  | some this =>
    if order < this.n then none
    else
      let mid := order / 2
      if this.IS_LEAF then
        let dst := splitLeafLoop this (this.n - mid) 0 mid (newNode fr nx true)
        match insertNextNode (Function.update h nx (some dst)) a nx with
        | none => none
        | some h1 => modify h1 a (fun nd => { nd with n := mid })
      else if order < mid + 1 then none
      else
        let dst0 := newNode fr nx false
        let dst1 := { dst0 with ptr := Function.update dst0.ptr 0 (this.ptr (mid + 1)) }
        let src1 := { this with ptr := Function.update this.ptr (mid + 1) none }
        let r := splitInternalLoop (this.n - (mid + 1)) 0 (mid + 1) src1 dst1
        some (Function.update (Function.update h nx (some r.2)) a (some { r.1 with n := mid }))

/-- The loop of the leaf `Node::merge`; both nodes are read from the heap in every round. -/
def mergeLeafLoop (order a r : Nat) : Nat → Nat → Heap K V → Option (Heap K V)
  | 0, _, _ => none
  | fuel + 1, i, h =>
    match h a, h r with
    | some this, some right =>
      if i < right.n then
        if this.n < order ∧ i < order ∧ this.IS_LEAF ∧ right.IS_LEAF then
          mergeLeafLoop order a r fuel (i + 1)
            (Function.update h a (some { this with
              keys := Function.update this.keys this.n (right.keys i)
              values := Function.update this.values this.n (right.values i)
              n := this.n + 1 }))
        else none
      else some h
    | _, _ => none

/-- `Node::merge(Node*)` on leaves: `a` absorbs `r`, which is unlinked and freed. -/
def merge (order : Nat) (h : Heap K V) (a r : Nat) : Option (Heap K V) :=
  match h a with
  | none => none
  | some this =>
    if this.IS_LEAF then
      match mergeLeafLoop order a r (order + 1) 0 h with
      | none => none
      | some h1 =>
        match removeNextNode h1 a with
        | none => none
        | some h2 => some (Function.update h2 r none)
    else none

/-- The loop of the internal `Node::merge`. -/
def mergeInternalLoop (order a r : Nat) : Nat → Nat → Heap K V → Option (Heap K V)
  | 0, _, _ => none
  | fuel + 1, i, h =>
    match h a, h r with
    | some this, some right =>
      if i < right.n then
        if this.n < order ∧ i < order ∧ ¬ this.IS_LEAF ∧
            i + 1 < (if right.IS_LEAF then 2 else order + 1) then
          mergeInternalLoop order a r fuel (i + 1)
            (Function.update h a (some { this with
              keys := Function.update this.keys this.n (right.keys i)
              ptr := Function.update this.ptr (this.n + 1) (right.ptr (i + 1))
              n := this.n + 1 }))
        else none
      else some h
    | _, _ => none

/-- `Node::merge(Key, Node*)` on internal nodes. -/
def mergeInternal (order : Nat) (h : Heap K V) (a : Nat) (key : K) (r : Nat) :
    Option (Heap K V) :=
  match h a, h r with
  | some this, some right =>
    if ¬ this.IS_LEAF ∧ this.n < order then
      let h0 := Function.update h a (some { this with
        keys := Function.update this.keys this.n key
        ptr := Function.update this.ptr (this.n + 1) (right.ptr 0)
        n := this.n + 1 })
      match mergeInternalLoop order a r (order + 1) 0 h0 with
      | none => none
      | some h1 => some (Function.update h1 r none)
    else none
  | _, _ => none

/-- The descent loop of `findNodeByKey`; the stack is a list with its top first. -/
def findLoop (order : Nat) (h : Heap K V) (key : K) : Nat → Nat → List Nat → Option (List Nat)
  | 0, _, _ => none
  | fuel + 1, a, stk =>
    match h a with
    | none => none
    | some nd =>
      if nd.IS_LEAF then some stk
      else
        match nd.search order key with
        | none => none
        | some arg =>
          let arg1 := if arg < nd.n ∧ nd.keys arg = key then arg + 1 else arg
          if arg1 < order + 1 then
            match nd.ptr arg1 with
            | none => none
            | some c => findLoop order h key fuel c (c :: stk)
          else none

/-- `BPlusTree::findNodeByKey`; `t.next` bounds the number of nodes, hence the depth. -/
def findNodeByKey (order : Nat) (t : Tree K V) (key : K) : Option (List Nat) :=
  match t.root with
  | none => none
  | some a => findLoop order t.heap key (t.next + 1) a [a]

/-- `BPlusTree::adjustNodeForUpOver`; the new right node is placed at `nx`. -/
def adjustNodeForUpOver (order : Nat) (fr : Fresh K V) (h : Heap K V) (nx node parent : Nat) :
    Option (Heap K V) :=
  match h node with
  | none => none
  | some nd =>
    let mid := order / 2
    if mid < order then
      let key := nd.keys mid
      match split order fr h nx node with
      | none => none
      | some h1 =>
        match h1 parent with
        | none => none
        | some p =>
          match p.insertInternal order key (some nx) with
          | none => none
          | some p1 => some (Function.update h1 parent (some p1))
    else none

/-- The `while (!nodePathStack.empty())` loop of `maintainAfterInsert`.  The result carries the
heap, the allocation counter and the node the loop ended on (`none` after a `return`). -/
def upLoop (order : Nat) (fr : Fresh K V) :
    List Nat → Nat → Heap K V → Nat → Option (Heap K V × Nat × Option Nat)
  | [], node, h, nx => some (h, nx, some node)
  | parent :: stk, node, h, nx =>
    match h node with
    | none => none
    | some nd =>
      if nd.isUpOver order then
        match adjustNodeForUpOver order fr h nx node parent with
        | none => none
        | some h1 => upLoop order fr stk parent h1 (nx + 1)
      else some (h, nx, none)

/-- `BPlusTree::maintainAfterInsert`. -/
def maintainAfterInsert (order : Nat) (fr : Fresh K V) (t : Tree K V) (stk : List Nat) :
    Option (Tree K V) :=
  match stk with
  | [] => none
  | top :: rest =>
    match upLoop order fr rest top t.heap t.next with
    | none => none
    | some (h, nx, none) => some { t with heap := h, next := nx }
    | some (h, nx, some node) =>
      match h node with
      | none => none
      | some nd =>
        if nd.isUpOver order then
          let parent := newNode fr nx false
          let parent1 := { parent with ptr := Function.update parent.ptr 0 (some node) }
          let h1 := Function.update h nx (some parent1)
          match adjustNodeForUpOver order fr h1 (nx + 1) node nx with
          | none => none
          | some h2 => some { t with heap := h2, next := nx + 2, root := some nx }
        else some { t with heap := h, next := nx }

/-- `BPlusTree::insert`; the second component is the returned `int`. -/
def insert (order : Nat) (fr : Fresh K V) (t : Tree K V) (key : K) (value : V) :
    Option (Tree K V × Nat) :=
  match t.root with
  | none =>
    match (newNode fr t.next true).insert order key value with
    | none => none
    | some nd =>
      some ({ t with heap := Function.update t.heap t.next (some nd), next := t.next + 1,
                     root := some t.next, head := some t.next }, 0)
  | some _ =>
    match findNodeByKey order t key with
    | none => none
    | some [] => none
    | some (node :: rest) =>
      match t.heap node with
      | none => none
      | some nd =>
        match nd.hasKey order key with
        | none => none
        | some true =>
          match nd.update order key value with
          | none => none
          | some nd1 => some ({ t with heap := Function.update t.heap node (some nd1) }, 1)
        | some false =>
          match nd.insert order key value with
          | none => none
          | some nd1 =>
            match maintainAfterInsert order fr
                { t with heap := Function.update t.heap node (some nd1) } (node :: rest) with
            | none => none
            | some t1 => some ({ t1 with size := wrapInt (t1.size + 1) }, 0)

/-- The pointer scan `while (parent->ptr[++arg] != node)` of `adjustNodeForDownOver`. -/
def scanPtr (order : Nat) (p : Node K V) (node : Nat) : Nat → Nat → Option Nat
  | 0, _ => none
  | fuel + 1, arg =>
    if arg < (if p.IS_LEAF then 2 else order + 1) then
      if p.ptr arg = some node then some arg else scanPtr order p node fuel (arg + 1)
    else none

/-- Read `a->ptr[i]` with the capacity of the array checked. -/
def rdPtr (order : Nat) (nd : Node K V) (i : Nat) : Option (Option Nat) :=
  if i < (if nd.IS_LEAF then 2 else order + 1) then some (nd.ptr i) else none

/-- Apply a fallible node operation to the node stored at `a`. -/
def modifyM (h : Heap K V) (a : Nat) (f : Node K V → Option (Node K V)) : Option (Heap K V) :=
  match h a with
  | none => none
  | some nd =>
    match f nd with
    | none => none
    | some nd1 => some (Function.update h a (some nd1))

/-- Assignment `a->keys[i] = k`. -/
def setKey (order : Nat) (h : Heap K V) (a i : Nat) (k : K) : Option (Heap K V) :=
  if i < order then modify h a (fun nd => { nd with keys := Function.update nd.keys i k })
  else none

/-- The left-sibling borrow of `adjustNodeForDownOver`. -/
def borrowLeft (order : Nat) (h : Heap K V) (node parent arg l : Nat) : Option (Heap K V) :=
  match h node, h l, h parent with
  | some nd, some left, some p =>
    match (if nd.IS_LEAF then
             (if 0 < left.n ∧ left.n - 1 < order ∧ left.IS_LEAF then
               modifyM h node
                 (fun x => x.insert order (left.keys (left.n - 1)) (left.values (left.n - 1)))
             else none)
           else
             (if 0 < arg ∧ arg - 1 < order then
               match modifyM h node
                   (fun x => x.insertInternal order (p.keys (arg - 1)) (nd.ptr 0)) with
               | none => none
               | some h1 =>
                 match h1 l with
                 | none => none
                 | some left1 =>
                   match rdPtr order left1 left1.n with
                   | none => none
                   | some lp => setPtr h1 node 0 lp
             else none)) with
    | none => none
    | some h2 =>
      match h2 l with
      | none => none
      | some left2 =>
        if 0 < left2.n ∧ left2.n - 1 < order ∧ 0 < arg then
          match setKey order h2 parent (arg - 1) (left2.keys (left2.n - 1)) with
          | none => none
          | some h3 =>
            match h3 l with
            | none => none
            | some left3 =>
              if 0 < left3.n ∧ left3.n - 1 < order then
                modifyM h3 l (fun x => x.remove order (left3.keys (left3.n - 1)))
              else none
        else none
  | _, _, _ => none

/-- The right-sibling borrow of `adjustNodeForDownOver`. -/
def borrowRight (order : Nat) (h : Heap K V) (node parent arg r : Nat) : Option (Heap K V) :=
  match h node, h r, h parent with
  | some nd, some right, some p =>
    if arg < order ∧ 0 < order then
      if nd.IS_LEAF then
        if right.IS_LEAF then
          match modifyM h node (fun x => x.insert order (right.keys 0) (right.values 0)) with
          | none => none
          | some h1 =>
            match h1 r with
            | none => none
            | some right1 =>
              match modifyM h1 r (fun x => x.remove order (right1.keys 0)) with
              | none => none
              | some h2 =>
                match h2 r with
                | none => none
                | some right2 => setKey order h2 parent arg (right2.keys 0)
        else none
      else
        match modifyM h node (fun x => x.insertInternal order (p.keys arg) (right.ptr 0)) with
        | none => none
        | some h1 =>
          match h1 r with
          | none => none
          | some right1 =>
            match setPtr h1 r 0 (right1.ptr 1) with
            | none => none
            | some h2 =>
              match h2 r with
              | none => none
              | some right2 =>
                match setKey order h2 parent arg (right2.keys 0) with
                | none => none
                | some h3 =>
                  match h3 r with
                  | none => none
                  | some right3 => modifyM h3 r (fun x => x.remove order (right3.keys 0))
    else none
  | _, _, _ => none

/-- `BPlusTree::adjustNodeForDownOver`. -/
def adjustNodeForDownOver (order : Nat) (h : Heap K V) (node parent : Nat) :
    Option (Heap K V) :=
  match h node, h parent with
  | some nd, some p =>
    let mid := (order - 1) / 2
    match (if nd.n ≠ 0 then (if 0 < order then p.search order (nd.keys 0) else none)
           else scanPtr order p node (order + 2) 0) with
    | none => none
    | some arg =>
      match (if 0 < arg then rdPtr order p (arg - 1) else some none),
            (if arg < p.n then rdPtr order p (arg + 1) else some none) with
      | some left, some right =>
        match (match left with
               | none => some false
               | some l => (h l).map (fun (x : Node K V) => decide (mid < x.n))) with
        | none => none
        | some true =>
          match left with
          | some l => borrowLeft order h node parent arg l
          | none => none
        | some false =>
          match (match right with
                 | none => some false
                 | some r => (h r).map (fun (x : Node K V) => decide (mid < x.n))) with
          | none => none
          | some true =>
            match right with
            | some r => borrowRight order h node parent arg r
            | none => none
          | some false =>
            match left, right with
            | some l, _ =>
              if arg - 1 < order then
                let key := p.keys (arg - 1)
                match h l with
                | none => none
                | some ln =>
                  match (if ln.IS_LEAF then merge order h l node
                         else mergeInternal order h l key node) with
                  | none => none
                  | some h1 => modifyM h1 parent (fun x => x.remove order key)
              else none
            | none, some r =>
              if arg < order then
                let key := p.keys arg
                match (if nd.IS_LEAF then merge order h node r
                       else mergeInternal order h node key r) with
                | none => none
                | some h1 => modifyM h1 parent (fun x => x.remove order key)
              else none
            | none, none => some h
      | _, _ => none
  | _, _ => none

/-- The `while (!nodePathStack.empty())` loop of `maintainAfterRemove`; the flag of the result
tells whether the loop ran to its end (`true`) or left through `return` (`false`), and the
address is the last value of `node`. -/
def downLoop (order : Nat) : List Nat → Nat → Heap K V → Option (Heap K V × Nat × Bool)
  | [], node, h => some (h, node, true)
  | parent :: stk, node, h =>
    match h node with
    | none => none
    | some nd =>
      if nd.isDownOver order then
        match adjustNodeForDownOver order h node parent with
        | none => none
        | some h1 => downLoop order stk parent h1
      else some (h, node, false)

/-- `BPlusTree::maintainAfterRemove`. -/
def maintainAfterRemove (order : Nat) (t : Tree K V) (stk : List Nat) : Option (Tree K V) :=
  match stk with
  | [] => none
  | top :: rest =>
    match downLoop order rest top t.heap with
    | none => none
    | some (h, _, false) => some { t with heap := h }
    | some (h, node, true) =>
      match t.root with
      | none => none
      | some ra =>
        match h ra with
        | none => none
        | some rn =>
          if rn.n ≠ 0 then some { t with heap := h }
          else
            match h node with
            | none => none
            | some nd =>
              if rn.IS_LEAF then
                some { t with heap := Function.update h node none, root := none, head := none }
              else
                some { t with heap := Function.update h node none, root := nd.ptr 0 }

/-- The statements of `BPlusTree::remove` up to its `return`: the tree and the `int` that is
returned.  The lock taken on the located leaf is still held at this point. -/
def removeBody (order : Nat) (t : Tree K V) (key : K) : Option (Tree K V × Nat) :=
  match t.root with
  | none => some (t, 1)
  | some _ =>
    match findNodeByKey order t key with
    | none => none
    | some [] => none
    | some (node :: rest) =>
      match t.heap node with
      | none => none
      | some nd =>
        match nd.hasKey order key with
        | none => none
        | some false => some (t, 1)
        | some true =>
          match nd.remove order key with
          | none => none
          | some nd1 =>
            match maintainAfterRemove order
                { t with heap := Function.update t.heap node (some nd1) } (node :: rest) with
            | none => none
            | some t1 => some ({ t1 with size := wrapInt (t1.size - 1) }, 0)

/-- The leaf whose `mtx` the `std::unique_lock lock` of `remove` holds: the top of the stack
of `findNodeByKey`.  No lock is taken when the tree has no root. -/
def lockedLeaf (order : Nat) (t : Tree K V) (key : K) : Option Nat :=
  match t.root with
  | none => none
  | some _ =>
    match findNodeByKey order t key with
    | some (node :: _) => some node
    | _ => none

/-- `BPlusTree::remove`; the second component is the returned `int`.  Every `return` that
follows the lock runs the destructor of `lock`, which unlocks `node->mtx`: when
`maintainAfterRemove` has freed the located leaf (it was merged into its left sibling, or it
was the root and lost its last key), the mutex is destroyed while locked and unlocked in
freed memory. -/
def remove (order : Nat) (t : Tree K V) (key : K) : Option (Tree K V × Nat) :=
  match removeBody order t key with
  | none => none
  | some (t1, r) =>
    match lockedLeaf order t key with
    | none => some (t1, r)
    | some node =>
      match t1.heap node with
      | none => none
      | some _ => some (t1, r)

/-- The keys `keys[0..n)` of a node. -/
def Node.keyList (nd : Node K V) : List K := (List.range nd.n).map nd.keys

/-- The entries `(keys[i], values[i])`, `i < n`, of a leaf. -/
def Node.entries (nd : Node K V) : List (K × V) :=
  (List.range nd.n).map (fun i => (nd.keys i, nd.values i))

/-- The `while (p)` loop of `leafTraversal`: the leaves met along the `ptr[1]` links. -/
def leafLoop (h : Heap K V) : Nat → Option Nat → Option (List (Node K V))
  | 0, _ => none
  | _ + 1, none => some []
  | fuel + 1, some a =>
    match h a with
    | none => none
    | some nd =>
      match leafLoop h fuel (nd.ptr 1) with
      | none => none
      | some rest => some (nd :: rest)

/-- `BPlusTree::leafTraversal`: the keys it prints, one group per leaf. -/
def leafTraversal (t : Tree K V) : Option (List (List K)) :=
  (leafLoop t.heap (t.next + 1) t.head).map (fun l => l.map Node.keyList)

/-- The key sequence of the leaf scan. -/
def leafKeys (t : Tree K V) : Option (List K) :=
  (leafTraversal t).map List.flatten

/-- The key/value sequence of the leaf scan. -/
def leafEntries (t : Tree K V) : Option (List (K × V)) :=
  (leafLoop t.heap (t.next + 1) t.head).map (fun l => (l.map Node.entries).flatten)

/-- A call of the public interface. -/
inductive Op (K V : Type) where
  | ins (key : K) (value : V)
  | rem (key : K)

/-- One call: the new tree and the returned `int`. -/
def step (order : Nat) (fr : Fresh K V) (t : Tree K V) : Op K V → Option (Tree K V × Nat)
  | .ins key value => insert order fr t key value
  | .rem key => remove order t key

/-- A sequence of calls, with the list of returned values. -/
def run (order : Nat) (fr : Fresh K V) : List (Op K V) → Tree K V → Option (Tree K V × List Nat)
  | [], t => some (t, [])
  | op :: ops, t =>
    match step order fr t op with
    | none => none
    | some (t1, r) =>
      match run order fr ops t1 with
      | none => none
      | some (t2, rs) => some (t2, r :: rs)

/-- What a caller sees of a run from the empty tree: the returned values, the leaf scan with
values, and the `size` field. -/
def observe (order : Nat) (fr : Fresh K V) (ops : List (Op K V)) :
    Option (List Nat × List (K × V) × Int) :=
  match run order fr ops empty with
  | none => none
  | some (t, rs) =>
    match leafEntries t with
    | none => none
    | some es => some (rs, es, t.size)

/-- The byte image of a fixed-width type (`reinterpret_cast<const char*>`): `width` bytes. -/
structure Codec (α : Type) where
  width : Nat
  enc : α → List Nat
  dec : List Nat → α

/-- The four bytes of a 32-bit `int`, least significant first. -/
def encInt (x : Int) : List Nat :=
  let u := (x % 4294967296).toNat
  [u % 256, u / 256 % 256, u / 65536 % 256, u / 16777216 % 256]

/-- The 32-bit `int` stored in four bytes. -/
def decInt (b0 b1 b2 b3 : Nat) : Int :=
  let u := b0 % 256 + 256 * (b1 % 256) + 65536 * (b2 % 256) + 16777216 * (b3 % 256)
  if u < 2147483648 then (u : Int) else (u : Int) - 4294967296

/-- The bytes of `keys[0..n)` or `values[0..n)`. -/
def encArray {α : Type} (c : Codec α) (arr : Nat → α) (n : Nat) : List Nat :=
  ((List.range n).map (fun i => c.enc (arr i))).flatten

/-- Read `n` elements into the slots `i, i + 1, ...` of an array; `none` when the stream ends. -/
def decArray {α : Type} (c : Codec α) : Nat → Nat → (Nat → α) → List Nat →
    Option ((Nat → α) × List Nat)
  | 0, _, arr, bs => some (arr, bs)
  | n + 1, i, arr, bs =>
    if bs.length < c.width then none
    else decArray c n (i + 1) (Function.update arr i (c.dec (bs.take c.width))) (bs.drop c.width)

/-- The children loop of `serialize_node`. -/
def serializeKids (ser : Option Nat → Option (List Nat)) (nd : Node K V) :
    Nat → Nat → Option (List Nat)
  | 0, _ => some []
  | c + 1, i =>
    match ser (nd.ptr i) with
    | none => none
    | some bs =>
      match serializeKids ser nd c (i + 1) with
      | none => none
      | some rest => some (bs ++ rest)

/-- The recursive closure `serialize_node` of `BPlusTree::serialize`. -/
def serializeNode (order : Nat) (ck : Codec K) (cv : Codec V) (h : Heap K V) :
    Nat → Option Nat → Option (List Nat)
  | 0, _ => none
  | _ + 1, none => some [1]
  | fuel + 1, some a =>
    match h a with
    | none => none
    | some nd =>
      if order < nd.n then none
      else
        let head := [0] ++ encInt nd.n ++ [if nd.IS_LEAF then 1 else 0] ++ encArray ck nd.keys nd.n
        if nd.IS_LEAF then some (head ++ encArray cv nd.values nd.n)
        else
          match serializeKids (serializeNode order ck cv h fuel) nd (nd.n + 1) 0 with
          | none => none
          | some rest => some (head ++ rest)

/-- `BPlusTree::serialize`: the bytes written to the stream. -/
def serialize (order : Nat) (ck : Codec K) (cv : Codec V) (t : Tree K V) : Option (List Nat) :=
  match serializeNode order ck cv t.heap (t.next + 1) t.root with
  | none => none
  | some body => some (encInt order ++ encInt t.size ++ body)

/-- The children loop of `deserialize_node`: child `i` is read and stored in `ptr[i]` of `a`. -/
def deserializeKids
    (rd : Heap K V → Nat → List Nat → Option (Option Nat × Heap K V × Nat × List Nat))
    (a : Nat) : Nat → Nat → Heap K V → Nat → List Nat → Option (Heap K V × Nat × List Nat)
  | 0, _, h, nx, bs => some (h, nx, bs)
  | c + 1, i, h, nx, bs =>
    match rd h nx bs with
    | none => none
    | some (p, h1, nx1, bs1) =>
      match setPtr h1 a i p with
      | none => none
      | some h2 => deserializeKids rd a c (i + 1) h2 nx1 bs1

/-- The recursive closure `deserialize_node` of `BPlusTree::deserialize`: the pointer it
returns, the heap, the allocation counter and the rest of the stream. -/
def deserializeNode (order : Nat) (fr : Fresh K V) (ck : Codec K) (cv : Codec V) :
    Nat → Heap K V → Nat → List Nat → Option (Option Nat × Heap K V × Nat × List Nat)
  | 0, _, _, _ => none
  | fuel + 1, h, nx, bs =>
    match bs with
    | [] => none
    | isNull :: bs1 =>
      if isNull ≠ 0 then some (none, h, nx, bs1)
      else
        match bs1 with
        | n0 :: n1 :: n2 :: n3 :: isLeaf :: bs2 =>
          let n := decInt n0 n1 n2 n3
          if n < 0 ∨ (order : Int) < n then none
          else
            let node := { newNode fr nx (decide (isLeaf ≠ 0)) with n := n.toNat }
            match decArray ck n.toNat 0 node.keys bs2 with
            | none => none
            | some (keys, bs3) =>
              if isLeaf ≠ 0 then
                match decArray cv n.toNat 0 node.values bs3 with
                | none => none
                | some (values, bs4) =>
                  some (some nx,
                    Function.update h nx (some { node with keys := keys, values := values }),
                    nx + 1, bs4)
              else
                match deserializeKids (deserializeNode order fr ck cv fuel) nx (n.toNat + 1) 0
                    (Function.update h nx (some { node with keys := keys })) (nx + 1) bs3 with
                | none => none
                | some (h1, nx1, bs4) => some (some nx, h1, nx1, bs4)
        | _ => none

/-- The children loop of `collect_leaves`. -/
def collectKids (col : Option Nat → Option (List Nat)) (nd : Node K V) :
    Nat → Nat → Option (List Nat)
  | 0, _ => some []
  | c + 1, i =>
    match col (nd.ptr i) with
    | none => none
    | some l =>
      match collectKids col nd c (i + 1) with
      | none => none
      | some rest => some (l ++ rest)

/-- The recursive closure `collect_leaves` of `BPlusTree::deserialize`. -/
def collectLeaves (order : Nat) (h : Heap K V) : Nat → Option Nat → Option (List Nat)
  | 0, _ => none
  | _ + 1, none => some []
  | fuel + 1, some a =>
    match h a with
    | none => none
    | some nd =>
      if nd.IS_LEAF then some [a]
      else if order < nd.n then none
      else collectKids (collectLeaves order h fuel) nd (nd.n + 1) 0

/-- The linking loop of `BPlusTree::deserialize` over the collected leaves. -/
def linkLeaves : Option Nat → List Nat → Heap K V → Option (Heap K V)
  | _, [], h => some h
  | prev, a :: rest, h =>
    match setPtr h a 1 rest.head? with
    | none => none
    | some h1 =>
      match setPtr h1 a 0 prev with
      | none => none
      | some h2 => linkLeaves (some a) rest h2

/-- The value of `saved_order` after `in.read(&saved_order, 4)`: the bytes taken from the
stream, and, where the stream ends before the fourth byte, the bytes the variable held
before. -/
def savedOrder (fr : Fresh K V) (bs : List Nat) : Int :=
  decInt (bs.getD 0 (fr.savedOrder 0)) (bs.getD 1 (fr.savedOrder 1))
    (bs.getD 2 (fr.savedOrder 2)) (bs.getD 3 (fr.savedOrder 3))

/-- `BPlusTree::deserialize`.  `some none` is the returned `nullptr`, `some (some t)` the
returned tree.  No read is checked: on a stream of fewer than four bytes `saved_order` is
compared as `in.read` left it.  `none` is an execution that passes the comparison and then
reads past the end of the stream or outside an array. -/
def deserialize (order : Nat) (fr : Fresh K V) (ck : Codec K) (cv : Codec V) (bs : List Nat) :
    Option (Option (Tree K V)) :=
  match bs with
  | o0 :: o1 :: o2 :: o3 :: bs1 =>
    if decInt o0 o1 o2 o3 ≠ (order : Int) then some none
    else
      match bs1 with
      | s0 :: s1 :: s2 :: s3 :: bs2 =>
        match deserializeNode order fr ck cv (bs2.length + 1) (fun _ => none) 0 bs2 with
        | none => none
        | some (root, h, nx, _) =>
          match root with
          | none =>
            some (some { heap := h, next := nx, size := decInt s0 s1 s2 s3, root := none,
                         head := none })
          | some r =>
            match collectLeaves order h (nx + 1) (some r) with
            | none => none
            | some leaves =>
              match linkLeaves none leaves h with
              | none => none
              | some h1 =>
                some (some { heap := h1, next := nx, size := decInt s0 s1 s2 s3,
                             root := some r, head := leaves.head? })
      | _ => none
  | _ => if savedOrder fr bs ≠ (order : Int) then some none else none

/-- The inner `while (layerSize--)` loop of `levelOrderTraversal`: the key groups printed for
one layer and the queue left for the next one.  The lock on `node->mtx` is taken before the
null test, so a null entry is a null dereference. -/
def levelLayer (order : Nat) (h : Heap K V) :
    List (Option Nat) → Option (List (List K) × List (Option Nat))
  | [] => some ([], [])
  | none :: _ => none
  | some a :: rest =>
    match h a with
    | none => none
    | some nd =>
      if order < nd.n then none
      else
        match levelLayer order h rest with
        | none => none
        | some (out, q) =>
          some (nd.keyList :: out,
            (if nd.IS_LEAF then [] else (List.range (nd.n + 1)).map nd.ptr) ++ q)

/-- The outer `while (!q.empty())` loop of `levelOrderTraversal`. -/
def levelLoop (order : Nat) (h : Heap K V) : Nat → List (Option Nat) → Option (List (List (List K)))
  | 0, _ => none
  | _ + 1, [] => some []
  | fuel + 1, a :: q =>
    match levelLayer order h (a :: q) with
    | none => none
    | some (out, q1) =>
      match levelLoop order h fuel q1 with
      | none => none
      | some outs => some (out :: outs)

/-- `BPlusTree::levelOrderTraversal`: the key groups it prints, layer by layer. -/
def levelOrderTraversal (order : Nat) (t : Tree K V) : Option (List (List (List K))) :=
  levelLoop order t.heap (t.next + 2) [t.root]

end Model

/-- New arrays that happen to be filled with zeros. -/
def zeroFresh : Fresh Int Nat := { keys := fun _ _ => 0, values := fun _ _ => 0 }

/-- The byte image of a 32-bit `int` key. -/
def intCodec : Codec Int :=
  { width := 4, enc := encInt,
    dec := fun l => decInt (l.getD 0 0) (l.getD 1 0) (l.getD 2 0) (l.getD 3 0) }

/-- The byte image of a value stored in one byte. -/
def byteCodec : Codec Nat := { width := 1, enc := fun x => [x % 256], dec := fun l => l.getD 0 0 }

/-! ## Theorems -/

/-- Abstract B+ tree read off the heap: a leaf with its address and entries, or an internal
node with its address, separator keys and children. -/
inductive BT (K V : Type) where
  | leaf (a : Nat) (es : List (K × V))
  | node (a : Nat) (ks : List K) (cs : List (BT K V))

namespace BT

variable {K V : Type}

/-- Address of the top node. -/
def addr : BT K V → Nat
  | leaf a _ => a
  | node a _ _ => a

/-- Number of keys of the top node. -/
def count : BT K V → Nat
  | leaf _ es => es.length
  | node _ ks _ => ks.length

mutual
/-- The leaves from left to right, each with its address and entries. -/
def leafList : BT K V → List (Nat × List (K × V))
  | leaf a es => [(a, es)]
  | node _ _ cs => leafListL cs
/-- The leaves of a list of trees. -/
def leafListL : List (BT K V) → List (Nat × List (K × V))
  | [] => []
  | c :: cs => leafList c ++ leafListL cs
end

mutual
/-- All node addresses, parents before children, children left to right. -/
def addrs : BT K V → List Nat
  | leaf a _ => [a]
  | node a _ cs => a :: addrsL cs
/-- The node addresses of a list of trees. -/
def addrsL : List (BT K V) → List Nat
  | [] => []
  | c :: cs => addrs c ++ addrsL cs
end

/-- Addresses of the leaves from left to right. -/
def leaves (t : BT K V) : List Nat := t.leafList.map Prod.fst

/-- Entries of all leaves from left to right. -/
def entries (t : BT K V) : List (K × V) := (t.leafList.map Prod.snd).flatten

/-- Keys of all leaves from left to right. -/
def keys (t : BT K V) : List K := t.entries.map Prod.fst

end BT

section Spec

variable {K V : Type} [LinearOrder K]

/-- The live keys of a node are strictly increasing. -/
def Node.sortedKeys (nd : Node K V) : Prop := ∀ i j, i < j → j < nd.n → nd.keys i < nd.keys j

/-- `r` is the first slot in `[0, n)` whose key is greater than `key` (`n` if none): the
child slot `findNodeByKey` descends into. -/
def Node.routeAt (nd : Node K V) (key : K) (r : Nat) : Prop :=
  r ≤ nd.n ∧ (∀ x, x < r → nd.keys x ≤ key) ∧ (∀ x, r ≤ x → x < nd.n → key < nd.keys x)

/-- `r` is the first slot in `[0, n)` whose key is not smaller than `key` (`n` if none). -/
def Node.lowerAt (nd : Node K V) (key : K) (r : Nat) : Prop :=
  r ≤ nd.n ∧ (∀ x, x < r → nd.keys x < key) ∧ (∀ x, r ≤ x → x < nd.n → key ≤ nd.keys x)

/-- The lower bound that remains after passing the separators `ks`: the last of them, or
`lo` if there is none. -/
def lastB (lo : WithBot K) : List K → WithBot K
  | [] => lo
  | k :: ks => lastB (k : WithBot K) ks

/-- Children `cs` separated by the keys `ks` inside `[lo, hi)`: child `i` satisfies `P`
between separator `i - 1` (or `lo`) and separator `i` (or `hi`); there is one child more than
there are separators. -/
def Kids (P : WithBot K → WithTop K → BT K V → Prop) :
    WithBot K → WithTop K → List K → List (BT K V) → Prop
  | lo, hi, [], [c] => P lo hi c
  | lo, hi, k :: ks, c :: cs => P lo (k : WithTop K) c ∧ Kids P (k : WithBot K) hi ks cs
  | _, _, _, _ => False

/-- The children to the left of a position: as many children as separators, each child
bounded above by its own separator. -/
def KidsPre (P : WithBot K → WithTop K → BT K V → Prop) :
    WithBot K → List K → List (BT K V) → Prop
  | _, [], [] => True
  | lo, k :: ks, c :: cs => P lo (k : WithTop K) c ∧ KidsPre P (k : WithBot K) ks cs
  | _, _, _ => False

/-- Data-model invariant of a subtree of depth `d` whose keys lie in `[lo, hi)`: node keys
strictly increasing, `cmin ≤ n ≤ cmax` at the top node and `(order-1)/2 ≤ n ≤ order-1` below
it, `n + 1` children per internal node, all leaves at depth `d`, separators partition the
keys of the children. -/
def Good (order : Nat) : Nat → Nat → Nat → WithBot K → WithTop K → BT K V → Prop
  | 0, cmin, cmax, lo, hi, .leaf _ es =>
    cmin ≤ es.length ∧ es.length ≤ cmax ∧ (es.map Prod.fst).Sorted (· < ·) ∧
      ∀ k ∈ es.map Prod.fst, lo ≤ (k : WithBot K) ∧ (k : WithTop K) < hi
  | d + 1, cmin, cmax, lo, hi, .node _ ks cs =>
    cmin ≤ ks.length ∧ ks.length ≤ cmax ∧ ks.Sorted (· < ·) ∧
      (∀ k ∈ ks, lo < (k : WithBot K) ∧ (k : WithTop K) < hi) ∧
      Kids (Good order d ((order - 1) / 2) (order - 1)) lo hi ks cs
  | _, _, _, _, _, _ => False

/-- The upper bound in front of the separators `ks`: the first of them, or `hi`. -/
def headB (hi : WithTop K) : List K → WithTop K
  | [] => hi
  | k :: _ => (k : WithTop K)

/-- Effect of `insert` on a subtree when `key` is new, before the top node of the subtree is
looked at by `maintainAfterInsert`: the entry enters the leaf on the search path, and every
overflowing node below the top is split, the new right nodes taking the addresses
`nx, nx + 1, ...` in the order of the splits.  The last argument is the next unused
address. -/
inductive Ins (order : Nat) (key : K) (value : V) : BT K V → Nat → BT K V → Nat → Prop
  | leaf (a : Nat) (es1 es2 : List (K × V)) (nx : Nat) :
      (∀ e ∈ es1, e.1 < key) → (∀ e ∈ es2, key < e.1) →
      Ins order key value (.leaf a (es1 ++ es2)) nx (.leaf a (es1 ++ (key, value) :: es2)) nx
  | keep (a : Nat) (kpre kpost : List K) (pre post : List (BT K V)) (c c1 : BT K V)
      (nx nx1 : Nat) :
      kpre.length = pre.length → (∀ x ∈ kpre, x ≤ key) → (∀ x ∈ kpost, key < x) →
      Ins order key value c nx c1 nx1 → c1.count < order →
      Ins order key value (.node a (kpre ++ kpost) (pre ++ c :: post)) nx
        (.node a (kpre ++ kpost) (pre ++ c1 :: post)) nx1
  | splitLeaf (a : Nat) (kpre kpost : List K) (pre post : List (BT K V)) (c : BT K V)
      (b : Nat) (el er : List (K × V)) (e : K × V) (nx nx1 : Nat) :
      kpre.length = pre.length → (∀ x ∈ kpre, x ≤ key) → (∀ x ∈ kpost, key < x) →
      Ins order key value c nx (.leaf b (el ++ e :: er)) nx1 →
      el.length = order / 2 → (el ++ e :: er).length = order →
      Ins order key value (.node a (kpre ++ kpost) (pre ++ c :: post)) nx
        (.node a (kpre ++ e.1 :: kpost) (pre ++ .leaf b el :: .leaf nx1 (e :: er) :: post))
        (nx1 + 1)
  | splitNode (a : Nat) (kpre kpost : List K) (pre post : List (BT K V)) (c : BT K V)
      (b : Nat) (kl kr : List K) (s : K) (cl cr : List (BT K V)) (nx nx1 : Nat) :
      kpre.length = pre.length → (∀ x ∈ kpre, x ≤ key) → (∀ x ∈ kpost, key < x) →
      Ins order key value c nx (.node b (kl ++ s :: kr) (cl ++ cr)) nx1 →
      kl.length = order / 2 → cl.length = order / 2 + 1 → (kl ++ s :: kr).length = order →
      Ins order key value (.node a (kpre ++ kpost) (pre ++ c :: post)) nx
        (.node a (kpre ++ s :: kpost) (pre ++ .node b kl cl :: .node nx1 kr cr :: post))
        (nx1 + 1)

/-- The search path of `key`: `findNodeByKey` ends in the leaf `lf`, having passed the
internal nodes `stk` (listed from the parent of the leaf up to the top node). -/
inductive Path (key : K) : BT K V → List Nat → Nat → Prop
  | leaf (a : Nat) (es : List (K × V)) : Path key (.leaf a es) [] a
  | node (a : Nat) (kpre kpost : List K) (pre post : List (BT K V)) (c : BT K V)
      (stk : List Nat) (lf : Nat) :
      kpre.length = pre.length → (∀ x ∈ kpre, x ≤ key) → (∀ x ∈ kpost, key < x) →
      Path key c stk lf →
      Path key (.node a (kpre ++ kpost) (pre ++ c :: post)) (stk ++ [a]) lf

/-- The heap `h` holds the tree `t`: each node of `t` is the cell at its address, with the
count, flag, live keys and values, and child pointers of `t`.  The links `ptr[0]`, `ptr[1]`
of leaves and all slots beyond `n` are left free. -/
inductive Rep (h : Heap K V) : BT K V → Prop
  | leaf {a : Nat} {es : List (K × V)} {nd : Node K V} :
      h a = some nd → nd.IS_LEAF = true → nd.entries = es → Rep h (.leaf a es)
  | node {a : Nat} {ks : List K} {cs : List (BT K V)} {nd : Node K V} :
      h a = some nd → nd.IS_LEAF = false → nd.keyList = ks →
      (List.range cs.length).map nd.ptr = cs.map (fun c => some c.addr) →
      (∀ c ∈ cs, Rep h c) → Rep h (.node a ks cs)

/-- The part of a cell that `Rep` reads: leaf links are blanked. -/
def core (x : Option (Node K V)) : Option (Node K V) :=
  x.map (fun nd => if nd.IS_LEAF then { nd with ptr := fun _ => none } else nd)

/-- The part of a cell that `Chain` reads: the leaf flag and the two links. -/
def links (x : Option (Node K V)) : Option (Bool × Option Nat × Option Nat) :=
  x.map (fun nd => (nd.IS_LEAF, nd.ptr 0, nd.ptr 1))

/-- The link out of a list of leaves: its first element, or `next` when it is empty. -/
def firstOr (l : List Nat) (next : Option Nat) : Option Nat :=
  match l with
  | [] => next
  | b :: _ => some b

/-- The link into a list of leaves from the left: the last element, or `prev`. -/
def lastOr (prev : Option Nat) : List Nat → Option Nat
  | [] => prev
  | b :: l => lastOr (some b) l

/-- The leaves `l` form a doubly linked list in the heap, entered from `prev` and left
towards `next`. -/
def Chain (h : Heap K V) : Option Nat → List Nat → Option Nat → Prop
  | _, [], _ => True
  | prev, a :: rest, next =>
    links (h a) = some (true, prev, firstOr rest next) ∧ Chain h (some a) rest next

/-- State invariant of a tree object: either empty, or the heap holds a tree satisfying the
data model, at pairwise distinct allocated addresses, with the leaf chain running through
its leaves from `head`. -/
def Inv (order : Nat) (t : Tree K V) : Prop :=
  (t.root = none ∧ t.head = none) ∨
  ∃ (bt : BT K V) (d : Nat),
    t.root = some bt.addr ∧ Rep t.heap bt ∧ Good order d 1 (order - 1) ⊥ ⊤ bt ∧
    bt.addrs.Nodup ∧ (∀ a ∈ bt.addrs, a < t.next) ∧
    Chain t.heap none bt.leaves none ∧ t.head = bt.leaves.head?

/-- Neighbouring children and the separator between them, along a node: `P k l r` holds for
every separator `k` with the child `l` on its left and the child `r` on its right. -/
def SepLists (P : K → BT K V → BT K V → Prop) : List K → List (BT K V) → Prop
  | [], [_] => True
  | k :: ks, l :: r :: cs => P k l r ∧ SepLists P ks (r :: cs)
  | _, _ => False

/-- The relation `P` holds between every separator of every internal node of the tree and the
two subtrees next to it. -/
inductive SepAll (P : K → BT K V → BT K V → Prop) : BT K V → Prop
  | leaf (a : Nat) (es : List (K × V)) : SepAll P (.leaf a es)
  | node (a : Nat) (ks : List K) (cs : List (BT K V)) :
      SepLists P ks cs → (∀ c ∈ cs, SepAll P c) → SepAll P (.node a ks cs)

/-- The separator is the minimum key stored in the subtree on its right. -/
def SepIsMin (k : K) (_l r : BT K V) : Prop := k ∈ r.keys ∧ ∀ x ∈ r.keys, k ≤ x

/-- The separator is above every key stored in the subtree on its left and a lower bound of
the keys stored in the subtree on its right. -/
def SepBounds (k : K) (l r : BT K V) : Prop := (∀ x ∈ l.keys, x < k) ∧ ∀ x ∈ r.keys, k ≤ x

/-- The separator is a key stored in the subtree on its right. -/
def SepMem (k : K) (_l r : BT K V) : Prop := k ∈ r.keys

/-- State invariant of a tree object that has only seen `insert` calls: the invariant `Inv`,
and every separator is the minimum key stored in the subtree on its right. -/
def InvSep (order : Nat) (t : Tree K V) : Prop :=
  (t.root = none ∧ t.head = none) ∨
  ∃ (bt : BT K V) (d : Nat),
    t.root = some bt.addr ∧ Rep t.heap bt ∧ Good order d 1 (order - 1) ⊥ ⊤ bt ∧
    bt.addrs.Nodup ∧ (∀ a ∈ bt.addrs, a < t.next) ∧
    Chain t.heap none bt.leaves none ∧ t.head = bt.leaves.head? ∧ SepAll SepIsMin bt

end Spec

section RootCell

variable {K V : Type}

/-- The heap after `maintainAfterInsert` has created the new root cell. -/
def rootHeap (fr : Fresh K V) (h : Heap K V) (nx node : Nat) : Heap K V :=
  Function.update h nx
    (some { newNode fr nx false with
            ptr := Function.update (newNode fr nx false).ptr 0 (some node) })

end RootCell

section StreamSpec

variable {K V : Type}

/-- A fixed-width byte image: every value takes `width` bytes, and reading the bytes back
gives the value. -/
def Codec.Lawful {α : Type} (c : Codec α) : Prop :=
  (∀ x, (c.enc x).length = c.width) ∧ ∀ x, c.dec (c.enc x) = x

mutual
/-- The node structure of a tree: the tree with every address replaced by 0. -/
def BT.shape : BT K V → BT K V
  | .leaf _ es => .leaf 0 es
  | .node _ ks cs => .node 0 ks (BT.shapeL cs)
/-- The node structures of a list of trees. -/
def BT.shapeL : List (BT K V) → List (BT K V)
  | [] => []
  | c :: cs => BT.shape c :: BT.shapeL cs
end

mutual
/-- The bytes `serialize_node` writes for a tree: null flag, count, leaf flag, keys, then the
values of a leaf or the children of an internal node. -/
def BT.ser (ck : Codec K) (cv : Codec V) : BT K V → List Nat
  | .leaf _ es =>
    [0] ++ encInt (es.length : Int) ++ [1] ++ (es.map (fun e => ck.enc e.1)).flatten
      ++ (es.map (fun e => cv.enc e.2)).flatten
  | .node _ ks cs =>
    [0] ++ encInt (ks.length : Int) ++ [0] ++ (ks.map ck.enc).flatten ++ BT.serL ck cv cs
/-- The bytes written for a list of children. -/
def BT.serL (ck : Codec K) (cv : Codec V) : List (BT K V) → List Nat
  | [] => []
  | c :: cs => BT.ser ck cv c ++ BT.serL ck cv cs
end

/-- Well-formed tree of depth `d`: at most `order` keys per node, one child more than keys in
every internal node, all leaves at depth `d`. -/
def Wf (order : Nat) : Nat → BT K V → Prop
  | 0, .leaf _ es => es.length ≤ order
  | d + 1, .node _ ks cs =>
    ks.length ≤ order ∧ cs.length = ks.length + 1 ∧ ∀ c ∈ cs, Wf order d c
  | _, _ => False

/-- Reading the bytes of the tree `c` with `rd` at any allocation counter `nx` builds a copy
of `c` at the addresses `nx, ..., nx1 - 1`, touches no other cell and consumes exactly the
bytes of `c`. -/
def DeserOk (ck : Codec K) (cv : Codec V)
    (rd : Heap K V → Nat → List Nat → Option (Option Nat × Heap K V × Nat × List Nat))
    (c : BT K V) : Prop :=
  ∀ (h : Heap K V) (nx : Nat) (rest : List Nat),
    ∃ (c1 : BT K V) (h1 : Heap K V) (nx1 : Nat),
      rd h nx (c.ser ck cv ++ rest) = some (some nx, h1, nx1, rest) ∧ c1.addr = nx ∧
      c1.shape = c.shape ∧ Rep h1 c1 ∧ nx < nx1 ∧ (∀ a ∈ c1.addrs, nx ≤ a ∧ a < nx1) ∧
      c1.addrs.Nodup ∧ ∀ x, x < nx ∨ nx1 ≤ x → h1 x = h x

/-- The trees `t` and `t1` have the same node structure: both are empty, or the nodes reached
from their roots have the same counts, leaf flags, live keys and values, and child shape. -/
def SameStructure [LinearOrder K] (order : Nat) (t t1 : Tree K V) : Prop :=
  (t.root = none ∧ t1.root = none) ∨
  ∃ (bt bt1 : BT K V) (d : Nat),
    t.root = some bt.addr ∧ Rep t.heap bt ∧ Good order d 1 (order - 1) ⊥ ⊤ bt ∧
    t1.root = some bt1.addr ∧ Rep t1.heap bt1 ∧ Good order d 1 (order - 1) ⊥ ⊤ bt1 ∧
    bt1.shape = bt.shape

end StreamSpec

/-- The byte image of a key or value stored in one byte. -/
def octetCodec : Codec (Fin 256) :=
  { width := 1, enc := fun x => [x.val],
    dec := fun l => ⟨l.getD 0 0 % 256, Nat.mod_lt _ (by decide)⟩ }

/-- New arrays of one-byte keys and values that happen to be filled with zeros. -/
def octetFresh : Fresh (Fin 256) (Fin 256) := { keys := fun _ _ => 0, values := fun _ _ => 0 }

/-- A tree of one-byte keys and values that consists of one leaf with the entry `(5, 7)`. -/
def octetLeafTree : Tree (Fin 256) (Fin 256) :=
  { heap := fun a =>
      if a = 0 then
        some { n := 1, IS_LEAF := true, keys := fun _ => 5, values := fun _ => 7,
               ptr := fun _ => none }
      else none,
    next := 1, size := 1, root := some 0, head := some 0 }

section RemoveSpec

variable {K V : Type} [LinearOrder K]

/-- Effect of `remove` on a subtree of a tree whose nodes hold at least one key (orders 3 and
4), before the top node of the subtree is looked at by `maintainAfterRemove`: the entry `e`
leaves the leaf on the search path, and every node below the top that is left without a key
borrows from its left or right sibling or is merged with it. -/
inductive Del (e : K × V) : BT K V → BT K V → Prop
  | leaf (a : Nat) (es1 es2 : List (K × V)) :
      Del e (.leaf a (es1 ++ e :: es2)) (.leaf a (es1 ++ es2))
  | keep (a : Nat) (kpre kpost : List K) (pre post : List (BT K V)) (c c1 : BT K V) :
      kpre.length = pre.length → Del e c c1 → 1 ≤ c1.count →
      Del e (.node a (kpre ++ kpost) (pre ++ c :: post))
        (.node a (kpre ++ kpost) (pre ++ c1 :: post))
  | borrowLeftLeaf (a : Nat) (kpre kpost : List K) (s : K) (pre post : List (BT K V))
      (c : BT K V) (l b : Nat) (el : List (K × V)) (e1 : K × V) :
      kpre.length = pre.length → Del e c (.leaf b []) → 1 ≤ el.length →
      Del e (.node a (kpre ++ s :: kpost) (pre ++ .leaf l (el ++ [e1]) :: c :: post))
        (.node a (kpre ++ e1.1 :: kpost) (pre ++ .leaf l el :: .leaf b [e1] :: post))
  | borrowLeftNode (a : Nat) (kpre kpost : List K) (s : K) (pre post : List (BT K V))
      (c : BT K V) (l b : Nat) (kl : List K) (k1 : K) (cl : List (BT K V)) (y x : BT K V) :
      kpre.length = pre.length → Del e c (.node b [] [x]) → 1 ≤ kl.length →
      Del e (.node a (kpre ++ s :: kpost)
          (pre ++ .node l (kl ++ [k1]) (cl ++ [y]) :: c :: post))
        (.node a (kpre ++ k1 :: kpost) (pre ++ .node l kl cl :: .node b [s] [y, x] :: post))
  | borrowRightLeaf (a : Nat) (kpre kpost : List K) (s : K) (pre post : List (BT K V))
      (c : BT K V) (r b : Nat) (e1 e2 : K × V) (er : List (K × V)) :
      kpre.length = pre.length → Del e c (.leaf b []) →
      Del e (.node a (kpre ++ s :: kpost) (pre ++ c :: .leaf r (e1 :: e2 :: er) :: post))
        (.node a (kpre ++ e2.1 :: kpost) (pre ++ .leaf b [e1] :: .leaf r (e2 :: er) :: post))
  | borrowRightNode (a : Nat) (kpre kpost : List K) (s : K) (pre post : List (BT K V))
      (c : BT K V) (r b : Nat) (k1 k2 : K) (kr : List K) (y x : BT K V)
      (cr : List (BT K V)) :
      kpre.length = pre.length → Del e c (.node b [] [x]) →
      Del e (.node a (kpre ++ s :: kpost)
          (pre ++ c :: .node r (k1 :: k2 :: kr) (y :: cr) :: post))
        (.node a (kpre ++ k1 :: kpost)
          (pre ++ .node b [s] [x, y] :: .node r (k2 :: kr) cr :: post))
  | mergeLeftLeaf (a : Nat) (kpre kpost : List K) (s : K) (pre post : List (BT K V))
      (c : BT K V) (l b : Nat) (el : List (K × V)) :
      kpre.length = pre.length → Del e c (.leaf b []) →
      Del e (.node a (kpre ++ s :: kpost) (pre ++ .leaf l el :: c :: post))
        (.node a (kpre ++ kpost) (pre ++ .leaf l el :: post))
  | mergeLeftNode (a : Nat) (kpre kpost : List K) (s : K) (pre post : List (BT K V))
      (c : BT K V) (l b : Nat) (kl : List K) (cl : List (BT K V)) (x : BT K V) :
      kpre.length = pre.length → Del e c (.node b [] [x]) → kl.length ≤ 1 →
      Del e (.node a (kpre ++ s :: kpost) (pre ++ .node l kl cl :: c :: post))
        (.node a (kpre ++ kpost) (pre ++ .node l (kl ++ [s]) (cl ++ [x]) :: post))
  | mergeRightLeaf (a : Nat) (kpre kpost : List K) (s : K) (pre post : List (BT K V))
      (c : BT K V) (r b : Nat) (er : List (K × V)) :
      kpre.length = pre.length → Del e c (.leaf b []) →
      Del e (.node a (kpre ++ s :: kpost) (pre ++ c :: .leaf r er :: post))
        (.node a (kpre ++ kpost) (pre ++ .leaf b er :: post))
  | mergeRightNode (a : Nat) (kpre kpost : List K) (s : K) (pre post : List (BT K V))
      (c : BT K V) (r b : Nat) (kr : List K) (cr : List (BT K V)) (x : BT K V) :
      kpre.length = pre.length → Del e c (.node b [] [x]) → kr.length ≤ 1 →
      Del e (.node a (kpre ++ s :: kpost) (pre ++ c :: .node r kr cr :: post))
        (.node a (kpre ++ kpost) (pre ++ .node b (s :: kr) (x :: cr) :: post))

end RemoveSpec

section RemoveStepSpec

variable {K V : Type} [LinearOrder K]

/-- One round of the loop of `maintainAfterRemove` at the parent `a` of the empty node `b`:
in the heap `h1`, which holds the tree `T1`, the call `adjustNodeForDownOver(b, a)` returns,
the new heap holds a tree `T2` that `Del` relates to the tree `bt` before the removal, nothing
outside `T1` changes, and the leaf chain runs through the leaves of `T2`. -/
def DownStep (order : Nat) (e : K × V) (h1 : Heap K V) (b a : Nat) (bt T1 : BT K V)
    (Lpre Lpost : List Nat) : Prop :=
  ∃ (T2 : BT K V) (h2 : Heap K V), Del e bt T2 ∧
    adjustNodeForDownOver order h1 b a = some h2 ∧ Rep h2 T2 ∧
    (∀ x, x ∉ T1.addrs → core (h2 x) = core (h1 x)) ∧
    Chain h2 none (Lpre ++ (T2.leaves ++ Lpost)) none ∧ T2.addr = a

end RemoveStepSpec

section FuncTest

/-- The calls of `func_test` in `main.cpp` up to the first `remove(5)`; the values are
numbers in place of the strings. -/
def funcTestOps : List (Op Int Nat) :=
  [.ins 10 10, .ins 20 20, .ins 5 5, .ins 15 15, .ins 25 25, .ins 18 18, .ins 30 30, .rem 5]

/-- The tree of `func_test` after these calls, on zero-filled fresh memory. -/
def funcTestTree : Tree Int Nat :=
  match run 3 zeroFresh funcTestOps empty with
  | some (t, _) => t
  | none => empty

end FuncTest

section StepDefs

variable {K V : Type} [LinearOrder K]

/-- A sorted leaf with the keys 0, 10, 20. -/
def searchDemoNode : Node Int Nat :=
  { n := 3, IS_LEAF := true, keys := fun j => 10 * (j : Int), values := fun _ => 0,
    ptr := fun _ => none }

/-- A sorted leaf of an order-3 tree with the single key `-5`; the unused slots hold `0`. -/
def staleSlotNode : Node Int Nat :=
  { n := 1, IS_LEAF := true, keys := fun j => if j = 0 then -5 else 0,
    values := fun _ => 0, ptr := fun _ => none }

/-- The index `arg` that `adjustNodeForDownOver(node, parent)` computes in its first lines:
`parent->search(node->keys[0])` for a node with keys, the pointer scan for an empty node. -/
def childIndex (order : Nat) (h : Heap K V) (node parent : Nat) : Option Nat :=
  match h node, h parent with
  | some nd, some p =>
    if nd.n ≠ 0 then (if 0 < order then p.search order (nd.keys 0) else none)
    else scanPtr order p node (order + 2) 0
  | _, _ => none

/-- A path of `findNodeByKey` for `key`, listed from the root to the leaf: every node but
the last is an internal node, the next node is its child `ptr[j]` where `j` is the number of
its keys that are at most `key` (so a key equal to the separator `keys[i]` goes to the child
`i + 1` on its right), and the last node is a leaf. -/
def Routed (h : Heap K V) (key : K) : List Nat → Prop
  | [] => False
  | [a] => ∃ nd, h a = some nd ∧ nd.IS_LEAF = true
  | a :: b :: rest =>
    (∃ nd j, h a = some nd ∧ nd.IS_LEAF = false ∧ j ≤ nd.n ∧ nd.ptr j = some b ∧
      (∀ i, i < j → nd.keys i ≤ key) ∧ (∀ i, j ≤ i → i < nd.n → key < nd.keys i) ∧
      (∀ i, i < nd.n → nd.keys i = key → j = i + 1)) ∧
    Routed h key (b :: rest)

/-- What a `remove` call that takes an entry out does to the root: `t` holds the tree `bt` of
depth `d`; when the loop of `maintainAfterRemove` has ended the heap `h1` holds `bt1`, the
tree after the removal of the entry `e` and the borrows and merges below the root.  Then
either the root still holds a key and stays the root, or the root is a leaf without a key
and the tree becomes empty (`root` and `head` absent), or the root is an internal node
without a key, it is freed and its only child `x` becomes the root of a tree of depth `d - 1`
(`head` stays). -/
def RootOutcome (order : Nat) (t t1 : Tree K V) : Prop :=
  ∃ (bt : BT K V) (d : Nat) (e : K × V) (bt1 : BT K V) (h1 : Heap K V),
    t.root = some bt.addr ∧ Rep t.heap bt ∧ Good order d 1 (order - 1) ⊥ ⊤ bt ∧
    Del e bt bt1 ∧ Rep h1 bt1 ∧
    ((1 ≤ bt1.count ∧ t1.heap = h1 ∧ t1.root = t.root ∧ t1.head = t.head ∧
        Good order d 1 (order - 1) ⊥ ⊤ bt1) ∨
      (∃ a, bt1 = .leaf a [] ∧ d = 0 ∧ t1.root = none ∧ t1.head = none) ∨
      (∃ a x d1, bt1 = .node a [] [x] ∧ d = d1 + 1 ∧ t1.root = some x.addr ∧
        t1.head = t.head ∧ t1.heap = Function.update h1 a none ∧ Rep t1.heap x ∧
        Good order d1 1 (order - 1) ⊥ ⊤ x))

/-- The keys `keys[0..n)` of the node at address `a`. -/
def keysAt (h : Heap K V) (a : Nat) : Option (List K) := (h a).map Node.keyList

/-- The child pointers `ptr[0..n]` of the node at address `a`. -/
def childrenAt (h : Heap K V) (a : Nat) : Option (List (Option Nat)) :=
  (h a).map (fun nd => (List.range (nd.n + 1)).map nd.ptr)

/-- The heap inside `remove` when `Node::remove` has taken the key out of the leaf `lf` and
`maintainAfterRemove` has not yet run. -/
def afterLeafRemove (order : Nat) (t : Tree K V) (lf : Nat) (key : K) : Option (Heap K V) :=
  modifyM t.heap lf (fun x => x.remove order key)

end StepDefs

section StepDemos

/-- Seven `insert` calls on an order-5 tree. -/
def order5Ops : List (Op Int Nat) :=
  [.ins 1 1, .ins 2 2, .ins 3 3, .ins 4 4, .ins 5 5, .ins 6 6, .ins 7 7]

/-- The order-5 tree after `order5Ops`: root `3 5` over the leaves `1 2`, `3 4`, `5 6 7`. -/
def order5Tree : Tree Int Nat :=
  match run 5 zeroFresh order5Ops empty with
  | some (t, _) => t
  | none => empty

/-- Ten `insert` calls on an order-5 tree. -/
def borrowDemoOps : List (Op Int Nat) :=
  [.ins 1 1, .ins 2 2, .ins 3 3, .ins 4 4, .ins 5 5, .ins 6 6, .ins 7 7, .ins 8 8, .ins 9 9,
   .ins 0 0]

/-- The order-5 tree after `borrowDemoOps`: root `3 5 7` over the leaves `0 1 2`, `3 4`,
`5 6`, `7 8 9`. -/
def borrowDemoTree : Tree Int Nat :=
  match run 5 zeroFresh borrowDemoOps empty with
  | some (t, _) => t
  | none => empty

/-- Calls on an order-3 tree that end in a root `2 3` over the leaves `1`, `2`, `3`. -/
def mergeDemoOps : List (Op Int Nat) :=
  [.ins 1 1, .ins 2 2, .ins 3 3, .ins 4 4, .rem 4]

/-- The order-3 tree after `mergeDemoOps`. -/
def mergeDemoTree : Tree Int Nat :=
  match run 3 zeroFresh mergeDemoOps empty with
  | some (t, _) => t
  | none => empty

/-- The heap inside `remove(2)` on `mergeDemoTree` when leaf 2 has been emptied. -/
def mergeDemoHeap : Heap Int Nat :=
  match afterLeafRemove 3 mergeDemoTree 2 2 with
  | some h => h
  | none => fun _ => none

/-- Calls on an order-3 tree that end in a root `2` over the leaves `1` and `3`. -/
def sepDemoOps : List (Op Int Nat) := [.ins 1 1, .ins 2 2, .ins 3 3, .rem 2]

/-- The order-3 tree after `sepDemoOps`. -/
def sepDemoTree : Tree Int Nat :=
  match run 3 zeroFresh sepDemoOps empty with
  | some (t, _) => t
  | none => empty

/-- The tree that the heap of `sepDemoTree` holds. -/
def sepDemoBT : BT Int Nat := .node 1 [2] [.leaf 0 [(1, 1)], .leaf 2 [(3, 3)]]

end StepDemos

/-- The leaf at address 0 inside `insert(30, 30)` on the order-3 tree with the leaves
`[10, 20]` and `[40, 50]`: it holds three entries and is about to be split. -/
def splitDemoLeaf : Node Int Nat :=
  { n := 3, IS_LEAF := true, keys := fun i => 10 * ((i : Int) + 1), values := fun i => 10 * (i + 1),
    ptr := fun i => if i = 1 then some 1 else none }

/-- The right neighbour of `splitDemoLeaf`, at address 1. -/
def splitDemoNext : Node Int Nat :=
  { n := 2, IS_LEAF := true, keys := fun i => 10 * ((i : Int) + 4), values := fun i => 10 * (i + 4),
    ptr := fun i => if i = 0 then some 0 else none }

/-- The parent of the two leaves, at address 2, with the separator 40. -/
def splitDemoParent : Node Int Nat :=
  { n := 1, IS_LEAF := false, keys := fun _ => 40, values := fun _ => 0,
    ptr := fun i => if i = 0 then some 0 else if i = 1 then some 1 else none }

/-- The heap with `splitDemoLeaf`, `splitDemoNext` and `splitDemoParent`. -/
def splitDemoHeap : Heap Int Nat := fun a =>
  if a = 0 then some splitDemoLeaf
  else if a = 1 then some splitDemoNext
  else if a = 2 then some splitDemoParent
  else none

/-- An internal node of an order-3 tree that holds three keys and four children and is about
to be split. -/
def splitDemoInner : Node Int Nat :=
  { n := 3, IS_LEAF := false, keys := fun i => 10 * ((i : Int) + 1), values := fun _ => 0,
    ptr := fun i => if i < 4 then some (i + 10) else none }

/-- The parent of `splitDemoInner`, with the separator 100 and a second child at address 20. -/
def splitDemoTop : Node Int Nat :=
  { n := 1, IS_LEAF := false, keys := fun _ => 100, values := fun _ => 0,
    ptr := fun i => if i = 0 then some 0 else if i = 1 then some 20 else none }

/-- The heap with `splitDemoInner` at address 0 and `splitDemoTop` at address 2. -/
def splitDemoInnerHeap : Heap Int Nat := fun a =>
  if a = 0 then some splitDemoInner
  else if a = 2 then some splitDemoTop
  else none

/-- The pointer structure that `deserialize_node` builds: a null pointer, a leaf, or an
internal node with the structures behind its child pointers. -/
inductive PT where
  | null
  | leaf (a : Nat)
  | node (a : Nat) (cs : List PT)

namespace PT

/-- The pointer to the structure. -/
def ptr : PT → Option Nat
  | null => none
  | leaf a => some a
  | node a _ => some a

mutual
/-- All node addresses, parents before children, children left to right. -/
def addrs : PT → List Nat
  | null => []
  | leaf a => [a]
  | node a cs => a :: addrsL cs
/-- The node addresses of a list of structures. -/
def addrsL : List PT → List Nat
  | [] => []
  | c :: cs => addrs c ++ addrsL cs
end

mutual
/-- The leaves in left-to-right depth-first order. -/
def leaves : PT → List Nat
  | null => []
  | leaf a => [a]
  | node _ cs => leavesL cs
/-- The leaves of a list of structures. -/
def leavesL : List PT → List Nat
  | [] => []
  | c :: cs => leaves c ++ leavesL cs
end

end PT

section LinkSpec

variable {K V : Type}

/-- The heap `h` holds the pointer structure `pt`: a leaf is a cell with the leaf flag, an
internal node is a cell without it whose pointers `ptr[0..n]` lead to its children. -/
inductive RepP (h : Heap K V) : PT → Prop
  | null : RepP h .null
  | leaf {a : Nat} {nd : Node K V} : h a = some nd → nd.IS_LEAF = true → RepP h (.leaf a)
  | node {a : Nat} {cs : List PT} {nd : Node K V} :
      h a = some nd → nd.IS_LEAF = false →
      (List.range (nd.n + 1)).map nd.ptr = cs.map PT.ptr →
      (∀ c ∈ cs, RepP h c) → RepP h (.node a cs)

/-- The addresses met from `start` along the links `ptr[i]` until the link is null. -/
def followLinks (h : Heap K V) (i : Nat) : Nat → Option Nat → Option (List Nat)
  | 0, _ => none
  | _ + 1, none => some []
  | fuel + 1, some a =>
    match h a with
    | none => none
    | some nd =>
      match followLinks h i fuel (nd.ptr i) with
      | none => none
      | some rest => some (a :: rest)

/-- What a returning call of `deserialize_node` leaves behind: the returned pointer `p` leads
to a structure built at the addresses `nx, ..., nx1 - 1`, and no other cell has changed. -/
def Built (h : Heap K V) (nx : Nat) (p : Option Nat) (h1 : Heap K V) (nx1 : Nat) : Prop :=
  ∃ pt : PT, pt.ptr = p ∧ RepP h1 pt ∧ nx ≤ nx1 ∧ (∀ a ∈ pt.addrs, nx ≤ a ∧ a < nx1) ∧
    pt.addrs.Nodup ∧ ∀ x, x < nx ∨ nx1 ≤ x → h1 x = h x

end LinkSpec

/-- A stream for order 3 with one-byte keys and values: the order, the size 2, a root with
the key 5 and two leaves with the entries `(3, 30)` and `(5, 50)`. -/
def linkDemoStream : List Nat :=
  [3, 0, 0, 0] ++ [2, 0, 0, 0] ++ [0, 1, 0, 0, 0, 0, 5] ++ [0, 1, 0, 0, 0, 1, 3, 30]
    ++ [0, 1, 0, 0, 0, 1, 5, 50]

/-- The tree that `deserialize` returns for `linkDemoStream`. -/
def linkDemoTree : Tree (Fin 256) (Fin 256) :=
  match deserialize 3 octetFresh octetCodec octetCodec linkDemoStream with
  | some (some t) => t
  | _ => empty

/-- One step of the insertion path that touches an array or a count: slot `i` of `keys`, of
`values`, of the child array `ptr` of an internal node, of the two links `ptr` of a leaf,
or the assignment of the value `n` to the count of a node. -/
inductive Acc where
  | key (i : Nat)
  | val (i : Nat)
  | child (i : Nat)
  | link (i : Nat)
  | count (n : Nat)

/-- The step stays inside the node: `keys[order]`, `values[order]`, `ptr[order + 1]` of an
internal node, `ptr[2]` of a leaf, and a count of at most `order`. -/
def Acc.ok (order : Nat) : Acc → Bool
  | .key i => decide (i < order)
  | .val i => decide (i < order)
  | .child i => decide (i < order + 1)
  | .link i => decide (i < 2)
  | .count n => decide (n ≤ order)

section Accesses

variable {K V : Type} [LinearOrder K]

/-- The slots of `keys` read by the `while (i <= j)` loop of `Node::search`: `keys[mid]` for
the test of equality and again for the comparison. -/
def searchLoopAcc (keys : Nat → K) (key : K) : Nat → Nat → Nat → List Acc
  | 0, _, _ => []
  | fuel + 1, i, j =>
    if i ≤ j then
      let mid := i + (j - i) / 2
      if keys mid = key then [.key mid]
      else if keys mid < key then .key mid :: .key mid :: searchLoopAcc keys key fuel (mid + 1) j
      else .key mid :: .key mid :: searchLoopAcc keys key fuel i (mid - 1)
    else []

/-- The slots read by `Node::search`: `keys[0]` and `keys[n - 1]` in the two shortcuts, then
the loop. -/
def Node.searchAcc (nd : Node K V) (key : K) : List Acc :=
  if nd.n = 0 then []
  else if ¬ nd.keys 0 < key then [.key 0]
  else if nd.keys (nd.n - 1) < key then [.key 0, .key (nd.n - 1)]
  else .key 0 :: .key (nd.n - 1) :: searchLoopAcc nd.keys key nd.n 1 (nd.n - 1)

/-- The slots read by `Node::hasKey`: the search, then `keys[arg]`. -/
def Node.hasKeyAcc (order : Nat) (nd : Node K V) (key : K) : List Acc :=
  nd.searchAcc key ++
    match nd.search order key with
    | none => []
    | some arg => [.key arg]

/-- The slots touched by `Node::update`: the search, then `values[arg]`. -/
def Node.updateAcc (order : Nat) (nd : Node K V) (key : K) : List Acc :=
  nd.searchAcc key ++
    match nd.search order key with
    | none => []
    | some arg => [.val arg]

/-- The slots touched by the shifting loop of the leaf `Node::insert`, slot `i = arg + c + 1`
running downwards. -/
def shiftLeafAcc (arg : Nat) : Nat → List Acc
  | 0 => []
  | c + 1 =>
    .key (arg + c + 1) :: .key (arg + c) :: .val (arg + c + 1) :: .val (arg + c)
      :: shiftLeafAcc arg c

/-- The slots touched by `Node::insert(Key, Value, compare)`: search, shift, the new entry
at `arg`, and the new count. -/
def Node.insertAcc (order : Nat) (nd : Node K V) (key : K) : List Acc :=
  nd.searchAcc key ++
    match nd.search order key with
    | none => []
    | some arg => shiftLeafAcc arg (nd.n - arg) ++ [.key arg, .val arg, .count (nd.n + 1)]

/-- The slots touched by the shifting loop of the internal `Node::insert`. -/
def shiftInternalAcc (arg : Nat) : Nat → List Acc
  | 0 => []
  | c + 1 =>
    .key (arg + c + 1) :: .key (arg + c) :: .child (arg + c + 2) :: .child (arg + c + 1)
      :: shiftInternalAcc arg c

/-- The slots touched by `Node::insert(Key, Node*, compare)`: search, shift, the new key at
`arg` with its right child at `arg + 1`, and the new count. -/
def Node.insertInternalAcc (order : Nat) (nd : Node K V) (key : K) : List Acc :=
  nd.searchAcc key ++
    match nd.search order key with
    | none => []
    | some arg =>
      shiftInternalAcc arg (nd.n - arg) ++ [.key arg, .child (arg + 1), .count (nd.n + 1)]

/-- The slots written by the constructor `Node(bool isLeaf)`: it clears `ptr[0..1]` of a leaf
and `ptr[0..order]` of an internal node. -/
def newNodeAcc (order : Nat) (isLeaf : Bool) : List Acc :=
  if isLeaf then [.link 0, .link 1] else (List.range (order + 1)).map Acc.child

/-- The slots touched by the copying loop of the leaf branch of `Node::split`: slot `i` of
the new node, slot `j` of the old one, and the count of the new node. -/
def splitLeafAcc : Nat → Nat → Nat → List Acc
  | 0, _, _ => []
  | c + 1, i, j =>
    .key i :: .key j :: .val i :: .val j :: .count (i + 1) :: splitLeafAcc c (i + 1) (j + 1)

/-- The slots touched by the copying loop of the internal branch of `Node::split`. -/
def splitInternalAcc : Nat → Nat → Nat → List Acc
  | 0, _, _ => []
  | c + 1, i, j =>
    .key i :: .key j :: .child (i + 1) :: .child (j + 1) :: .count (i + 1) :: .child (j + 1)
      :: splitInternalAcc c (i + 1) (j + 1)

/-- The links touched by `Node::insertNextNode`. -/
def insertNextNodeAcc (this : Node K V) : List Acc :=
  [.link 1, .link 1, .link 1] ++ (if this.ptr 1 = none then [] else [.link 1, .link 0])
    ++ [.link 1, .link 0]

/-- The slots touched by `Node::split` on the node `this`: the constructor of the new node,
the copy, and the count the node is left with. -/
def splitAcc (order : Nat) (this : Node K V) : List Acc :=
  let mid := order / 2
  newNodeAcc order this.IS_LEAF ++
    if this.IS_LEAF then
      splitLeafAcc (this.n - mid) 0 mid ++ insertNextNodeAcc this ++ [.count mid]
    else
      .child 0 :: .child (mid + 1) :: .child (mid + 1)
        :: (splitInternalAcc (this.n - (mid + 1)) 0 (mid + 1) ++ [.count mid])

/-- The slots touched by `adjustNodeForUpOver`: `keys[mid]` of the node, the split, and the
insertion into the parent. -/
def adjustNodeForUpOverAcc (order : Nat) (fr : Fresh K V) (h : Heap K V)
    (nx node parent : Nat) : List Acc :=
  match h node with
  | none => []
  | some nd =>
    .key (order / 2) :: (splitAcc order nd ++
      match split order fr h nx node with
      | none => []
      | some h1 =>
        match h1 parent with
        | none => []
        | some p => p.insertInternalAcc order (nd.keys (order / 2)))

/-- The slots touched by the `while` loop of `maintainAfterInsert`. -/
def upLoopAcc (order : Nat) (fr : Fresh K V) : List Nat → Nat → Heap K V → Nat → List Acc
  | [], _, _, _ => []
  | parent :: stk, node, h, nx =>
    match h node with
    | none => []
    | some nd =>
      if nd.isUpOver order then
        adjustNodeForUpOverAcc order fr h nx node parent ++
          match adjustNodeForUpOver order fr h nx node parent with
          | none => []
          | some h1 => upLoopAcc order fr stk parent h1 (nx + 1)
      else []

/-- The slots touched by `maintainAfterInsert`: the loop, then the constructor and `ptr[0]`
of a new root and the split of the old one. -/
def maintainAfterInsertAcc (order : Nat) (fr : Fresh K V) (t : Tree K V) (stk : List Nat) :
    List Acc :=
  match stk with
  | [] => []
  | top :: rest =>
    upLoopAcc order fr rest top t.heap t.next ++
      match upLoop order fr rest top t.heap t.next with
      | some (h, nx, some node) =>
        match h node with
        | none => []
        | some nd =>
          if nd.isUpOver order then
            let parent := newNode fr nx false
            let parent1 := { parent with ptr := Function.update parent.ptr 0 (some node) }
            let h1 := Function.update h nx (some parent1)
            newNodeAcc order false ++ .child 0 :: adjustNodeForUpOverAcc order fr h1 (nx + 1) node nx
          else []
      | _ => []

/-- The slots touched by the descent loop of `findNodeByKey`: the search in every internal
node, `keys[arg]` when `arg < n`, and the child pointer that is followed. -/
def findLoopAcc (order : Nat) (h : Heap K V) (key : K) : Nat → Nat → List Acc
  | 0, _ => []
  | fuel + 1, a =>
    match h a with
    | none => []
    | some nd =>
      if nd.IS_LEAF then []
      else
        nd.searchAcc key ++
          match nd.search order key with
          | none => []
          | some arg =>
            let arg1 := if arg < nd.n ∧ nd.keys arg = key then arg + 1 else arg
            (if arg < nd.n then [.key arg] else []) ++
              .child arg1 ::
                match nd.ptr arg1 with
                | none => []
                | some c => findLoopAcc order h key fuel c

/-- The slots touched by `BPlusTree::insert`: on an empty tree the constructor of the new
root and the insertion into it; otherwise the descent, `hasKey` on the leaf, and then the update of the leaf or the
insertion into the leaf followed by `maintainAfterInsert`. -/
def insertAcc (order : Nat) (fr : Fresh K V) (t : Tree K V) (key : K) (value : V) : List Acc :=
  match t.root with
  | none => newNodeAcc order true ++ (newNode fr t.next true).insertAcc order key
  | some a =>
    findLoopAcc order t.heap key (t.next + 1) a ++
      match findNodeByKey order t key with
      | some (node :: rest) =>
        match t.heap node with
        | none => []
        | some nd =>
          nd.hasKeyAcc order key ++
            match nd.hasKey order key with
            | none => []
            | some true => nd.updateAcc order key
            | some false =>
              nd.insertAcc order key ++
                match nd.insert order key value with
                | none => []
                | some nd1 =>
                  maintainAfterInsertAcc order fr
                    { t with heap := Function.update t.heap node (some nd1) } (node :: rest)
      | _ => []

end Accesses

section RoomySpec

variable {K V : Type}

mutual
/-- Every node of the tree holds at most `order - 1` keys, and every internal node has one
child more than it has keys. -/
def BT.roomy (order : Nat) : BT K V → Prop
  | .leaf _ es => es.length < order
  | .node _ ks cs => ks.length < order ∧ cs.length = ks.length + 1 ∧ BT.roomyL order cs
/-- Every tree of the list is roomy. -/
def BT.roomyL (order : Nat) : List (BT K V) → Prop
  | [] => True
  | c :: cs => BT.roomy order c ∧ BT.roomyL order cs
end

/-- A tree object in which every node holds at most `order - 1` keys: either empty, or the
heap holds a tree of such nodes at pairwise distinct allocated addresses, with the leaf
chain running through its leaves.  Nothing is asked of the order of the keys, of the minimal
occupancy or of the depth of the leaves. -/
def Roomy (order : Nat) (t : Tree K V) : Prop :=
  t.root = none ∨
  ∃ bt : BT K V, t.root = some bt.addr ∧ Rep t.heap bt ∧ bt.roomy order ∧ bt.addrs.Nodup ∧
    (∀ a ∈ bt.addrs, a < t.next) ∧ Chain t.heap none bt.leaves none

end RoomySpec

section PointerSpec

variable {K V : Type}

mutual
/-- The pointer structure of a tree: its nodes and child pointers without the keys. -/
def BT.pointers : BT K V → PT
  | .leaf a _ => .leaf a
  | .node a _ cs => .node a (BT.pointersL cs)
/-- The pointer structures of a list of trees. -/
def BT.pointersL : List (BT K V) → List PT
  | [] => []
  | c :: cs => BT.pointers c :: BT.pointersL cs
end

end PointerSpec

section Runs

/-- C2: the leaf scan is not always the sorted list of the inserted keys.  With order 3,
`insert(-5, 1)` followed by `insert(0, 2)` on a leaf whose unused slot `keys[1]` holds `0`
reports Updated for the second call and the key `0` never reaches the leaf scan. -/
theorem insert_lost_on_fresh_slot_collision :
    observe 3 zeroFresh [.ins (-5) 1, .ins 0 2] = some ([0, 1], [(-5, 1)], 0) := by
  rfl

/-- C3: `insert` can return 1 for a key that is not in the leaf scan.  After
`insert(5), insert(10), remove(10)` the scan is `5`, and `insert(10, 3)` returns 1 and leaves
the scan at `5`. -/
theorem insert_updated_on_stale_slot :
    observe 3 zeroFresh [.ins 5 1, .ins 10 2, .rem 10] = some ([0, 0, 0], [(5, 1)], 0) ∧
    observe 3 zeroFresh [.ins 5 1, .ins 10 2, .rem 10, .ins 10 3]
      = some ([0, 0, 0, 1], [(5, 1)], 0) := by
  constructor <;> rfl

/-- C4: after `insert(-5, 1)` the calls `insert(0, 2)` and `insert(0, 3)` both return 1 when
the unused slot of the leaf holds `0`, and no value is stored with key `0` in the leaf scan. -/
theorem second_insert_value_not_stored :
    observe 3 zeroFresh [.ins (-5) 1, .ins 0 2, .ins 0 3] = some ([0, 1, 1], [(-5, 1)], 0) := by
  rfl

/-- C6: removing a key that has just been removed is not always reported as NotFound.  After
`insert` of 5, 10, 20, 7 and `remove(7)` the leaf scan is 5, 10, 20; the second `remove(7)`
returns 0, not 1, takes key 5 out of the leaf scan and decrements `size`.  After
`insert(5), insert(10), remove(10)` the second `remove(10)` reaches `return 0` with key 5 and
the whole tree deleted and `size` decremented to -1; the root leaf it has freed is the leaf
whose mutex it holds, so the unlock at the return leaves defined behaviour. -/
theorem remove_absent_key_removes_other :
    observe 3 zeroFresh [.ins 5 1, .ins 10 2, .ins 20 3, .ins 7 4, .rem 7]
      = some ([0, 0, 0, 0, 0], [(5, 1), (10, 2), (20, 3)], 2) ∧
    observe 3 zeroFresh [.ins 5 1, .ins 10 2, .ins 20 3, .ins 7 4, .rem 7, .rem 7]
      = some ([0, 0, 0, 0, 0, 0], [(10, 2), (20, 3)], 1) ∧
    observe 3 zeroFresh [.ins 5 1, .ins 10 2, .rem 10] = some ([0, 0, 0], [(5, 1)], 0) ∧
    (run 3 zeroFresh [.ins 5 1, .ins 10 2, .rem 10] empty).bind
        (fun s => (removeBody 3 s.1 10).bind
          (fun q => (leafEntries q.1).map
            (fun es => (q.2, es, q.1.size, q.1.root, q.1.head,
              (lockedLeaf 3 s.1 10).map (fun a => (a, (q.1.heap a).isSome))))))
      = some (0, [], -1, none, none, some (0, false)) ∧
    observe 3 zeroFresh [.ins 5 1, .ins 10 2, .rem 10, .rem 10] = none := by
  refine ⟨?_, ?_, ?_, ?_, ?_⟩ <;> rfl

/-- C7: the first `insert` into a new tree does not count: afterwards the leaf scan holds one
key and `size` is 0; after three distinct keys `size` is 2. -/
theorem size_misses_first_insert :
    observe 3 zeroFresh [.ins 10 1] = some ([0], [(10, 1)], 0) ∧
    observe 3 zeroFresh [.ins 10 1, .ins 20 2, .ins 30 3]
      = some ([0, 0, 0], [(10, 1), (20, 2), (30, 3)], 2) := by
  constructor <;> rfl

/-- C10: with order 5 the calls `insert 1..7, insert 0, remove 7, remove 6` all return 0 and
end in a root with keys `2 5` whose third child holds `2 5`: key 2 of that child is smaller
than the separator 5 on its left, and the leaf scan is `0 1 3 4 2 5`. -/
theorem order5_remove_breaks_partition :
    observe 5 zeroFresh
        [.ins 1 0, .ins 2 0, .ins 3 0, .ins 4 0, .ins 5 0, .ins 6 0, .ins 7 0, .ins 0 0,
         .rem 7, .rem 6]
      = some ([0, 0, 0, 0, 0, 0, 0, 0, 0, 0],
              [(0, 0), (1, 0), (3, 0), (4, 0), (2, 0), (5, 0)], 5) ∧
    (run 5 zeroFresh
        [.ins 1 0, .ins 2 0, .ins 3 0, .ins 4 0, .ins 5 0, .ins 6 0, .ins 7 0, .ins 0 0,
         .rem 7, .rem 6] empty).bind (fun r => levelOrderTraversal 5 r.1)
      = some [[[2, 5]], [[0, 1], [3, 4], [2, 5]]] := by
  constructor <;> rfl

end Runs

section Stream

variable {K V : Type}

theorem encInt_natCast (n : Nat) (hn : n < 2147483648) :
    encInt (n : Int) = [n % 256, n / 256 % 256, n / 65536 % 256, n / 16777216 % 256] := by
  have h : ((n : Int) % 4294967296).toNat = n := by omega
  simp [encInt, h]

theorem decInt_bytes (n : Nat) (hn : n < 2147483648) :
    decInt (n % 256) (n / 256 % 256) (n / 65536 % 256) (n / 16777216 % 256) = (n : Int) := by
  unfold decInt
  simp only [Nat.mod_mod]
  have : n % 256 + 256 * (n / 256 % 256) + 65536 * (n / 65536 % 256)
      + 16777216 * (n / 16777216 % 256) = n := by omega
  rw [this]
  simp [hn]

theorem savedOrder_cons (fr : Fresh K V) (o0 o1 o2 o3 : Nat) (rest : List Nat) :
    savedOrder fr (o0 :: o1 :: o2 :: o3 :: rest) = decInt o0 o1 o2 o3 := rfl

/-- `deserialize` returns `nullptr` exactly when the value it finds in `saved_order` after the
first read is not the expected order. -/
theorem deserialize_eq_some_none_iff (order : Nat) (fr : Fresh K V) (ck : Codec K)
    (cv : Codec V) (bs : List Nat) :
    deserialize order fr ck cv bs = some none ↔ savedOrder fr bs ≠ (order : Int) := by
  constructor
  · intro h
    unfold deserialize at h
    split at h
    · rename_i o0 o1 o2 o3 bs1
      rw [savedOrder_cons]
      by_cases hc : decInt o0 o1 o2 o3 = (order : Int)
      · simp only [hc, ne_eq, not_true_eq_false, ↓reduceIte] at h
        exfalso
        split at h
        · split at h
          · simp at h
          · split at h
            · simp at h
            · split at h
              · simp at h
              · split at h <;> simp at h
        · simp at h
      · exact hc
    · by_cases hc : savedOrder fr bs = (order : Int)
      · simp [hc] at h
      · exact hc
  · intro hne
    unfold deserialize
    split
    · rename_i o0 o1 o2 o3 bs1
      rw [savedOrder_cons] at hne
      simp [hne]
    · simp [hne]

/-- C9 as stated fails on the code.  On the empty stream nothing is read into `saved_order`;
with zeros in the variable the order-3 `deserialize` returns `nullptr`, although the stream
does not start with four bytes that differ from the expected order. -/
theorem deserialize_rejects_empty_stream :
    deserialize 3 zeroFresh intCodec byteCodec [] = some none ∧
      ¬ ∃ o0 o1 o2 o3 rest, ([] : List Nat) = o0 :: o1 :: o2 :: o3 :: rest ∧
        decInt o0 o1 o2 o3 ≠ ((3 : Nat) : Int) := by
  refine ⟨rfl, ?_⟩
  rintro ⟨o0, o1, o2, o3, rest, h, -⟩
  cases h

/-- C9, amended: `deserialize` returns `nullptr` exactly when the value found in `saved_order`
after the first read differs from the expected order.  For a stream of at least four bytes
that value is the 32-bit order stored in its first four bytes, so such a stream is rejected
exactly when its stored order differs; for a shorter stream it is made of the bytes present
and of what the variable held before.  In particular every stream written by `serialize`
for an order-4 tree is rejected by the order-3 `deserialize`. -/
theorem deserialize_rejects_iff_saved_order_differs (order : Nat) (fr : Fresh K V)
    (ck : Codec K) (cv : Codec V) :
    (∀ bs, deserialize order fr ck cv bs = some none ↔ savedOrder fr bs ≠ (order : Int)) ∧
    (∀ o0 o1 o2 o3 rest, savedOrder fr (o0 :: o1 :: o2 :: o3 :: rest) = decInt o0 o1 o2 o3) ∧
    (∀ o0 o1 o2 o3 rest, deserialize order fr ck cv (o0 :: o1 :: o2 :: o3 :: rest) = some none ↔
      decInt o0 o1 o2 o3 ≠ (order : Int)) ∧
    (∀ (t : Tree K V) (bs : List Nat), serialize 4 ck cv t = some bs →
      deserialize 3 fr ck cv bs = some none) := by
  refine ⟨fun bs => deserialize_eq_some_none_iff order fr ck cv bs,
    fun o0 o1 o2 o3 rest => rfl, ?_, ?_⟩
  · intro o0 o1 o2 o3 rest
    rw [deserialize_eq_some_none_iff, savedOrder_cons]
  · intro t bs h
    unfold serialize at h
    split at h
    · simp at h
    · rename_i body _
      simp only [Option.some.injEq] at h
      subst h
      refine (deserialize_eq_some_none_iff 3 fr ck cv _).2 ?_
      rw [encInt_natCast 4 (by decide)]
      show decInt (4 % 256) (4 / 256 % 256) (4 / 65536 % 256) (4 / 16777216 % 256) ≠ _
      decide

/-- The stream of the empty order-4 tree is `4 0 0 0 | 0 0 0 0 | 1` and order 3 rejects it. -/
theorem deserialize_rejects_iff_saved_order_differs_witness :
    serialize 4 intCodec byteCodec (empty : Tree Int Nat) = some [4, 0, 0, 0, 0, 0, 0, 0, 1] ∧
    deserialize 3 zeroFresh intCodec byteCodec [4, 0, 0, 0, 0, 0, 0, 0, 1] = some none :=
  ⟨rfl,
    (deserialize_rejects_iff_saved_order_differs 3 zeroFresh intCodec byteCodec).2.2.2
      empty _ rfl⟩

end Stream

section NodeLemmas

variable {K V : Type} [LinearOrder K]

theorem lowerAt_unique {nd : Node K V} {key : K} {r s : Nat}
    (hr : nd.lowerAt key r) (hs : nd.lowerAt key s) : r = s := by
  obtain ⟨hr1, hr2, hr3⟩ := hr
  obtain ⟨hs1, hs2, hs3⟩ := hs
  by_contra hne
  rcases Nat.lt_or_gt_of_ne hne with h | h
  · exact absurd (hs2 r h) (not_lt.2 (hr3 r le_rfl (by omega)))
  · exact absurd (hr2 s h) (not_lt.2 (hs3 s le_rfl (by omega)))

theorem searchLoop_spec (keys : Nat → K) (key : K) (n : Nat)
    (hs : ∀ i j, i < j → j < n → keys i < keys j) :
    ∀ fuel i j, 1 ≤ i → i ≤ j + 1 → j < n → j + 1 - i < fuel →
      (∀ x, x < i → keys x < key) → (∀ x, j < x → x < n → key ≤ keys x) →
      ∃ r, searchLoop keys key fuel i j = some r ∧ r ≤ n ∧
        (∀ x, x < r → keys x < key) ∧ (∀ x, r ≤ x → x < n → key ≤ keys x) := by
  intro fuel
  induction fuel with
  | zero => intro i j _ _ _ hf; omega
  | succ fuel ih =>
    intro i j hi hij hjn hf hlo hhi
    unfold searchLoop
    by_cases hle : i ≤ j
    · simp only [hle, ↓reduceIte]
      have hmid1 : i ≤ i + (j - i) / 2 := Nat.le_add_right _ _
      have hmid2 : i + (j - i) / 2 ≤ j := by omega
      by_cases heq : keys (i + (j - i) / 2) = key
      · simp only [heq, ↓reduceIte]
        refine ⟨_, rfl, by omega, ?_, ?_⟩
        · intro x hx
          rw [← heq]
          exact hs x _ hx (by omega)
        · intro x hx hxn
          rw [← heq]
          rcases Nat.eq_or_lt_of_le hx with h | h
          · rw [h]
          · exact le_of_lt (hs _ x h hxn)
      · simp only [heq, ↓reduceIte]
        by_cases hlt : keys (i + (j - i) / 2) < key
        · simp only [hlt, ↓reduceIte]
          apply ih _ _ (by omega) (by omega) hjn (by omega) _ hhi
          intro x hx
          rcases Nat.eq_or_lt_of_le (Nat.lt_succ_iff.1 hx) with h | h
          · rw [h]; exact hlt
          · exact lt_trans (hs x _ h (by omega)) hlt
        · simp only [hlt, ↓reduceIte]
          apply ih _ _ hi (by omega) (by omega) (by omega) hlo
          intro x hx hxn
          have hge : key ≤ keys (i + (j - i) / 2) := not_lt.1 hlt
          rcases Nat.eq_or_lt_of_le (show i + (j - i) / 2 ≤ x by omega) with h | h
          · rw [← h]; exact hge
          · exact le_trans hge (le_of_lt (hs _ x h hxn))
    · simp only [hle, ↓reduceIte]
      refine ⟨i, rfl, by omega, hlo, ?_⟩
      intro x hx hxn
      exact hhi x (by omega) hxn

theorem search_spec (order : Nat) {nd : Node K V} (key : K) (hn : nd.n ≤ order)
    (hs : nd.sortedKeys) : ∃ r, nd.search order key = some r ∧ nd.lowerAt key r := by
  unfold Node.search Node.lowerAt
  have h1 : ¬ order < nd.n := by omega
  simp only [h1, ↓reduceIte]
  by_cases h0 : nd.n = 0
  · simp only [h0, ↓reduceIte]
    exact ⟨0, rfl, le_rfl, by intro x hx; omega, by intro x _ hx; omega⟩
  · simp only [h0, ↓reduceIte]
    by_cases hk0 : nd.keys 0 < key
    · simp only [hk0, not_true_eq_false, ↓reduceIte]
      by_cases hkn : nd.keys (nd.n - 1) < key
      · simp only [hkn, ↓reduceIte]
        refine ⟨nd.n, rfl, le_rfl, ?_, by intro x h1 h2; omega⟩
        intro x hx
        rcases Nat.eq_or_lt_of_le (show x ≤ nd.n - 1 by omega) with h | h
        · rw [h]; exact hkn
        · exact lt_trans (hs x _ h (by omega)) hkn
      · simp only [hkn, ↓reduceIte]
        apply searchLoop_spec nd.keys key nd.n hs nd.n 1 (nd.n - 1) le_rfl (by omega) (by omega)
          (by omega)
        · intro x hx
          have : x = 0 := by omega
          rw [this]; exact hk0
        · intro x hx hxn; omega
    · simp only [hk0, not_false_eq_true, ↓reduceIte]
      refine ⟨0, rfl, Nat.zero_le _, by intro x hx; omega, ?_⟩
      intro x _ hxn
      have hge : key ≤ nd.keys 0 := not_lt.1 hk0
      rcases Nat.eq_zero_or_pos x with h | h
      · rw [h]; exact hge
      · exact le_trans hge (le_of_lt (hs 0 x h hxn))

end NodeLemmas

section ListLemmas
variable {α : Type}

theorem map_range_eq_iff (f : Nat → α) (n : Nat) (l : List α) :
    (List.range n).map f = l ↔ l.length = n ∧ ∀ i (h : i < l.length), l[i] = f i := by
  constructor
  · rintro rfl
    simp
  · rintro ⟨hl, hp⟩
    apply List.ext_getElem
    · simp [hl]
    · intro i h1 h2
      simp [hp i h2]

theorem map_range_insert (f g : Nat → α) (n a : Nat) (v : α) (ha : a ≤ n)
    (h1 : ∀ x, x < a → g x = f x) (h2 : g a = v) (h3 : ∀ x, a < x → x ≤ n → g x = f (x - 1)) :
    (List.range (n + 1)).map g
      = ((List.range n).map f).take a ++ v :: ((List.range n).map f).drop a := by
  apply List.ext_getElem
  · simp; omega
  · intro i hi1 hi2
    simp only [List.length_map, List.length_range] at hi1
    simp only [List.getElem_map, List.getElem_range]
    rcases Nat.lt_trichotomy i a with h | h | h
    · rw [List.getElem_append_left (by simp; omega)]
      simp [h1 i h]
    · subst h
      rw [List.getElem_append_right (by simp)]
      simp [h2, Nat.min_eq_left ha]
    · rw [List.getElem_append_right (by simp; omega)]
      have e : i - (List.take a (List.map f (List.range n))).length = (i - a - 1) + 1 := by
        simp; omega
      simp only [e, List.getElem_cons_succ, List.getElem_drop, List.getElem_map,
        List.getElem_range]
      rw [h3 i h (by omega)]
      congr 1
      omega

theorem map_range_remove (f g : Nat → α) (n a : Nat) (ha : a < n)
    (h1 : ∀ x, x < a → g x = f x) (h3 : ∀ x, a ≤ x → x + 1 < n → g x = f (x + 1)) :
    (List.range (n - 1)).map g
      = ((List.range n).map f).take a ++ ((List.range n).map f).drop (a + 1) := by
  apply List.ext_getElem
  · simp; omega
  · intro i hi1 hi2
    simp only [List.length_map, List.length_range] at hi1
    simp only [List.getElem_map, List.getElem_range]
    rcases Nat.lt_or_ge i a with h | h
    · rw [List.getElem_append_left (by simp; omega)]
      simp [h1 i h]
    · rw [List.getElem_append_right (by simp; omega)]
      simp only [List.getElem_drop, List.getElem_map, List.getElem_range]
      rw [h3 i h (by omega)]
      congr 1
      simp
      omega

end ListLemmas

section KidsLemmas

variable {K V : Type}

theorem Kids_length {P : WithBot K → WithTop K → BT K V → Prop} :
    ∀ (ks : List K) (cs : List (BT K V)) (lo : WithBot K) (hi : WithTop K),
      Kids P lo hi ks cs → cs.length = ks.length + 1
  | [], [], _, _, h => by simp [Kids] at h
  | [], [_], _, _, _ => by simp
  | [], _ :: _ :: _, _, _, h => by simp [Kids] at h
  | _ :: _, [], _, _, h => by simp [Kids] at h
  | _ :: ks, _ :: cs, _, _, h => by
    simp only [Kids] at h
    simp [Kids_length ks cs _ _ h.2]

theorem Kids_mono {P Q : WithBot K → WithTop K → BT K V → Prop}
    (hPQ : ∀ lo hi c, P lo hi c → Q lo hi c) :
    ∀ (ks : List K) (cs : List (BT K V)) (lo : WithBot K) (hi : WithTop K),
      Kids P lo hi ks cs → Kids Q lo hi ks cs
  | [], [], _, _, h => by simp [Kids] at h
  | [], [_], _, _, h => by simp only [Kids] at h ⊢; exact hPQ _ _ _ h
  | [], _ :: _ :: _, _, _, h => by simp [Kids] at h
  | _ :: _, [], _, _, h => by simp [Kids] at h
  | _ :: ks, _ :: cs, _, _, h => by
    simp only [Kids] at h ⊢
    exact ⟨hPQ _ _ _ h.1, Kids_mono hPQ ks cs _ _ h.2⟩

/-- Splitting the children at a child position. -/
theorem Kids_split {P : WithBot K → WithTop K → BT K V → Prop} (hi : WithTop K)
    (kpost : List K) (rest : List (BT K V)) :
    ∀ (kpre : List K) (pre : List (BT K V)) (lo : WithBot K), kpre.length = pre.length →
      (Kids P lo hi (kpre ++ kpost) (pre ++ rest) ↔
        KidsPre P lo kpre pre ∧ Kids P (lastB lo kpre) hi kpost rest)
  | [], [], lo, _ => by simp [KidsPre, lastB]
  | [], _ :: _, _, h => by simp at h
  | _ :: _, [], _, h => by simp at h
  | k :: kpre, c :: pre, lo, h => by
    have ih := Kids_split (P := P) hi kpost rest kpre pre (k : WithBot K) (by simpa using h)
    simp only [List.cons_append, Kids, KidsPre, lastB, List.append_eq, ih, and_assoc]

/-- Splitting the children at a separator. -/
theorem Kids_splitKey {P : WithBot K → WithTop K → BT K V → Prop} (hi : WithTop K) (s : K)
    (kr : List K) (cr : List (BT K V)) :
    ∀ (kl : List K) (cl : List (BT K V)) (lo : WithBot K), cl.length = kl.length + 1 →
      (Kids P lo hi (kl ++ s :: kr) (cl ++ cr) ↔
        Kids P lo (s : WithTop K) kl cl ∧ Kids P (s : WithBot K) hi kr cr)
  | [], [], _, h => by simp at h
  | [], [c], lo, _ => by simp [Kids]
  | [], _ :: _ :: _, _, h => by simp at h
  | _ :: _, [], _, h => by simp at h
  | k :: kl, c :: cl, lo, h => by
    have ih := Kids_splitKey (P := P) hi s kr cr kl cl (k : WithBot K) (by simpa using h)
    simp only [List.cons_append, Kids, List.append_eq, ih, and_assoc]

theorem Kids_head {P : WithBot K → WithTop K → BT K V → Prop} {lo : WithBot K}
    {hi : WithTop K} {ks : List K} {c : BT K V} {post : List (BT K V)}
    (h : Kids P lo hi ks (c :: post)) :
    P lo (headB hi ks) c ∧
      (∀ c1, P lo (headB hi ks) c1 → Kids P lo hi ks (c1 :: post)) ∧
      (∀ (l r : BT K V) (s : K), P lo (s : WithTop K) l → P (s : WithBot K) (headB hi ks) r →
        Kids P lo hi (s :: ks) (l :: r :: post)) := by
  cases ks with
  | nil =>
    cases post with
    | nil =>
      simp only [Kids, headB] at h ⊢
      exact ⟨h, fun c1 h1 => h1, fun l r s hl hr => ⟨hl, hr⟩⟩
    | cons p post => simp [Kids] at h
  | cons k ks =>
    simp only [Kids, headB] at h ⊢
    exact ⟨h.1, fun c1 h1 => ⟨h1, h.2⟩, fun l r s hl hr => ⟨hl, hr, h.2⟩⟩

/-- Focus on the child at position `pre.length`. -/
theorem Kids_focus {P : WithBot K → WithTop K → BT K V → Prop} {lo : WithBot K}
    {hi : WithTop K} {kpre kpost : List K} {pre post : List (BT K V)} {c : BT K V}
    (hlen : kpre.length = pre.length)
    (h : Kids P lo hi (kpre ++ kpost) (pre ++ c :: post)) :
    P (lastB lo kpre) (headB hi kpost) c ∧
      (∀ c1, P (lastB lo kpre) (headB hi kpost) c1 →
        Kids P lo hi (kpre ++ kpost) (pre ++ c1 :: post)) ∧
      (∀ (l r : BT K V) (s : K), P (lastB lo kpre) (s : WithTop K) l → P (s : WithBot K) (headB hi kpost) r →
        Kids P lo hi (kpre ++ s :: kpost) (pre ++ l :: r :: post)) := by
  rw [Kids_split hi kpost _ kpre pre lo hlen] at h
  obtain ⟨h1, h2, h3⟩ := Kids_head h.2
  refine ⟨h1, fun c1 hc => ?_, fun l r s hl hr => ?_⟩
  · rw [Kids_split hi kpost _ kpre pre lo hlen]
    exact ⟨h.1, h2 c1 hc⟩
  · rw [Kids_split hi (s :: kpost) _ kpre pre lo hlen]
    exact ⟨h.1, h3 l r s hl hr⟩

theorem lastB_append_singleton (lo : WithBot K) (ks : List K) (k : K) :
    lastB lo (ks ++ [k]) = (k : WithBot K) := by
  induction ks generalizing lo with
  | nil => simp [lastB]
  | cons x ks ih => simp [lastB, ih]

end KidsLemmas

section Pure

variable {K V : Type} [LinearOrder K]

theorem lastB_ge (lo : WithBot K) (ks : List K) (hs : ks.Sorted (· < ·))
    (hb : ∀ x ∈ ks, lo < (x : WithBot K)) :
    lo ≤ lastB lo ks ∧ ∀ x ∈ ks, (x : WithBot K) ≤ lastB lo ks := by
  induction ks generalizing lo with
  | nil => simp [lastB]
  | cons k ks ih =>
    have hs' : ks.Sorted (· < ·) := hs.of_cons
    have hk : ∀ x ∈ ks, (k : WithBot K) < (x : WithBot K) := by
      intro x hx
      exact WithBot.coe_lt_coe.2 (List.rel_of_sorted_cons hs x hx)
    obtain ⟨h1, h2⟩ := ih (k : WithBot K) hs' hk
    refine ⟨le_trans (le_of_lt (hb k (List.mem_cons_self _ _))) h1, ?_⟩
    intro x hx
    rcases List.mem_cons.1 hx with rfl | hx
    · exact h1
    · exact h2 x hx

theorem lastB_le_key (lo : WithBot K) (ks : List K) (key : K) (hlo : lo ≤ (key : WithBot K))
    (h : ∀ x ∈ ks, x ≤ key) : lastB lo ks ≤ (key : WithBot K) := by
  induction ks generalizing lo with
  | nil => simpa [lastB] using hlo
  | cons k ks ih =>
    exact ih (k : WithBot K) (WithBot.coe_le_coe.2 (h k (List.mem_cons_self _ _)))
      (fun x hx => h x (List.mem_cons_of_mem _ hx))

theorem headB_le (hi : WithTop K) (ks : List K) (hs : ks.Sorted (· < ·))
    (hb : ∀ x ∈ ks, (x : WithTop K) < hi) :
    headB hi ks ≤ hi ∧ ∀ x ∈ ks, headB hi ks ≤ (x : WithTop K) := by
  cases ks with
  | nil => simp [headB]
  | cons k ks =>
    refine ⟨le_of_lt (hb k (List.mem_cons_self _ _)), ?_⟩
    intro x hx
    rcases List.mem_cons.1 hx with rfl | hx
    · exact le_rfl
    · exact le_of_lt (WithTop.coe_lt_coe.2 (List.rel_of_sorted_cons hs x hx))

theorem key_lt_headB (hi : WithTop K) (ks : List K) (key : K) (hhi : (key : WithTop K) < hi)
    (h : ∀ x ∈ ks, key < x) : (key : WithTop K) < headB hi ks := by
  cases ks with
  | nil => simpa [headB] using hhi
  | cons k ks => exact WithTop.coe_lt_coe.2 (h k (List.mem_cons_self _ _))

/-- Inserting a separator between the bounds of a child position keeps the separators
sorted and inside the bounds of the node. -/
theorem sorted_insert_sep {lo : WithBot K} {hi : WithTop K} {kpre kpost : List K} {s : K}
    (hs : (kpre ++ kpost).Sorted (· < ·))
    (hb : ∀ x ∈ kpre ++ kpost, lo < (x : WithBot K) ∧ (x : WithTop K) < hi)
    (h1 : lastB lo kpre < (s : WithBot K)) (h2 : (s : WithTop K) < headB hi kpost) :
    (kpre ++ s :: kpost).Sorted (· < ·) ∧
      ∀ x ∈ kpre ++ s :: kpost, lo < (x : WithBot K) ∧ (x : WithTop K) < hi := by
  have hs1 : kpre.Sorted (· < ·) := (List.pairwise_append.1 hs).1
  have hs2 : kpost.Sorted (· < ·) := (List.pairwise_append.1 hs).2.1
  have hb1 : ∀ x ∈ kpre, lo < (x : WithBot K) :=
    fun x hx => (hb x (List.mem_append_left _ hx)).1
  have hb2 : ∀ x ∈ kpost, (x : WithTop K) < hi :=
    fun x hx => (hb x (List.mem_append_right _ hx)).2
  obtain ⟨hl1, hl2⟩ := lastB_ge lo kpre hs1 hb1
  obtain ⟨hh1, hh2⟩ := headB_le hi kpost hs2 hb2
  constructor
  · refine List.pairwise_append.2 ⟨hs1, ?_, ?_⟩
    · refine List.pairwise_cons.2 ⟨?_, hs2⟩
      intro y hy
      exact WithTop.coe_lt_coe.1 (lt_of_lt_of_le h2 (hh2 y hy))
    · intro x hx y hy
      have hxs : x < s := WithBot.coe_lt_coe.1 (lt_of_le_of_lt (hl2 x hx) h1)
      rcases List.mem_cons.1 hy with rfl | hy
      · exact hxs
      · exact lt_trans hxs (WithTop.coe_lt_coe.1 (lt_of_lt_of_le h2 (hh2 y hy)))
  · intro x hx
    rcases List.mem_append.1 hx with hx | hx
    · exact hb x (List.mem_append_left _ hx)
    · rcases List.mem_cons.1 hx with rfl | hx
      · exact ⟨lt_of_le_of_lt hl1 h1, lt_of_lt_of_le h2 hh1⟩
      · exact hb x (List.mem_append_right _ hx)

theorem Good_count {order : Nat} :
    ∀ {d cmin cmax : Nat} {lo : WithBot K} {hi : WithTop K} {bt : BT K V},
      Good order d cmin cmax lo hi bt → cmin ≤ bt.count ∧ bt.count ≤ cmax
  | 0, _, _, _, _, .leaf _ _, h => by simp only [Good] at h; exact ⟨h.1, h.2.1⟩
  | 0, _, _, _, _, .node _ _ _, h => by simp [Good] at h
  | _ + 1, _, _, _, _, .leaf _ _, h => by simp [Good] at h
  | _ + 1, _, _, _, _, .node _ _ _, h => by simp only [Good] at h; exact ⟨h.1, h.2.1⟩

theorem Good_recount {order : Nat} :
    ∀ {d cmin cmax cmin1 cmax1 : Nat} {lo : WithBot K} {hi : WithTop K} {bt : BT K V},
      Good order d cmin cmax lo hi bt → cmin1 ≤ bt.count → bt.count ≤ cmax1 →
      Good order d cmin1 cmax1 lo hi bt
  | 0, _, _, _, _, _, _, .leaf _ _, h, h1, h2 => by
    simp only [Good] at h ⊢; exact ⟨h1, h2, h.2.2⟩
  | 0, _, _, _, _, _, _, .node _ _ _, h, _, _ => by simp [Good] at h
  | _ + 1, _, _, _, _, _, _, .leaf _ _, h, _, _ => by simp [Good] at h
  | _ + 1, _, _, _, _, _, _, .node _ _ _, h, h1, h2 => by
    simp only [Good] at h ⊢; exact ⟨h1, h2, h.2.2⟩

end Pure

section Pure2

variable {K V : Type} [LinearOrder K]

theorem Good_leaf_split {order : Nat} (nx : Nat) (ho : 3 ≤ order) {cmin cmax : Nat}
    {lo : WithBot K} {hi : WithTop K} {b : Nat} {el er : List (K × V)} {e : K × V}
    (h : Good order 0 cmin cmax lo hi (.leaf b (el ++ e :: er)))
    (h1 : el.length = order / 2) (h2 : (el ++ e :: er).length = order) :
    Good order 0 ((order - 1) / 2) (order - 1) lo (e.1 : WithTop K) (.leaf b el) ∧
      Good order 0 ((order - 1) / 2) (order - 1) (e.1 : WithBot K) hi (.leaf nx (e :: er)) ∧
      lo < (e.1 : WithBot K) ∧ (e.1 : WithTop K) < hi := by
  simp only [Good, List.map_append, List.map_cons] at h ⊢
  obtain ⟨-, -, hs, hb⟩ := h
  have hp := List.pairwise_append.1 hs
  have hlen : er.length + 1 = order - order / 2 := by
    simp only [List.length_append, List.length_cons] at h2; omega
  have he : lo ≤ (e.1 : WithBot K) ∧ (e.1 : WithTop K) < hi :=
    hb e.1 (by simp)
  have hlt : ∀ x ∈ el.map Prod.fst, x < e.1 := fun x hx => hp.2.2 x hx e.1 (by simp)
  refine ⟨⟨by omega, by omega, hp.1, ?_⟩, ⟨by simp only [List.length_cons]; omega,
    by simp only [List.length_cons]; omega, hp.2.1, ?_⟩, ?_, he.2⟩
  · intro k hk
    exact ⟨(hb k (by simp [List.mem_append, List.mem_map.1 hk])).1,
      WithTop.coe_lt_coe.2 (hlt k hk)⟩
  · intro k hk
    refine ⟨?_, (hb k (by
      rcases List.mem_cons.1 hk with h | h
      · simp [h]
      · exact List.mem_append_right _ (List.mem_cons_of_mem _ h))).2⟩
    rcases List.mem_cons.1 hk with h | h
    · rw [h]
    · exact WithBot.coe_le_coe.2 (le_of_lt (List.rel_of_sorted_cons hp.2.1 k h))
  · cases el with
    | nil => simp at h1; omega
    | cons x el =>
      have hx : x.1 ∈ (x :: el).map Prod.fst := by simp
      exact lt_of_le_of_lt (hb x.1 (by simp)).1 (WithBot.coe_lt_coe.2 (hlt x.1 hx))

theorem Good_node_split {order : Nat} (nx : Nat) (ho : 3 ≤ order) {d cmin cmax : Nat}
    {lo : WithBot K} {hi : WithTop K} {b : Nat} {kl kr : List K} {s : K} {cl cr : List (BT K V)}
    (h : Good order (d + 1) cmin cmax lo hi (.node b (kl ++ s :: kr) (cl ++ cr)))
    (h1 : kl.length = order / 2) (h2 : cl.length = order / 2 + 1)
    (h3 : (kl ++ s :: kr).length = order) :
    Good order (d + 1) ((order - 1) / 2) (order - 1) lo (s : WithTop K) (.node b kl cl) ∧
      Good order (d + 1) ((order - 1) / 2) (order - 1) (s : WithBot K) hi (.node nx kr cr) ∧
      lo < (s : WithBot K) ∧ (s : WithTop K) < hi := by
  simp only [Good] at h ⊢
  obtain ⟨-, -, hs, hb, hk⟩ := h
  have hp := List.pairwise_append.1 hs
  have hlen : kr.length + 1 = order - order / 2 := by
    simp only [List.length_append, List.length_cons] at h3; omega
  rw [Kids_splitKey hi s kr cr kl cl lo (by omega)] at hk
  have hsb := hb s (by simp)
  refine ⟨⟨by omega, by omega, hp.1, ?_, hk.1⟩, ⟨by omega, by omega, hp.2.1.of_cons, ?_, hk.2⟩,
    hsb.1, hsb.2⟩
  · intro k hk1
    exact ⟨(hb k (List.mem_append_left _ hk1)).1,
      WithTop.coe_lt_coe.2 (hp.2.2 k hk1 s (by simp))⟩
  · intro k hk1
    exact ⟨WithBot.coe_lt_coe.2 (List.rel_of_sorted_cons hp.2.1 k hk1),
      (hb k (List.mem_append_right _ (List.mem_cons_of_mem _ hk1))).2⟩

theorem Ins_addr {order : Nat} {key : K} {value : V} {bt bt1 : BT K V} {nx nx1 : Nat}
    (h : Ins order key value bt nx bt1 nx1) : bt1.addr = bt.addr := by
  cases h <;> rfl

theorem Ins_next {order : Nat} {key : K} {value : V} {bt bt1 : BT K V} {nx nx1 : Nat}
    (h : Ins order key value bt nx bt1 nx1) : nx ≤ nx1 := by
  induction h with
  | leaf => exact le_rfl
  | keep _ _ _ _ _ _ _ _ _ _ _ _ _ _ ih => exact ih
  | splitLeaf _ _ _ _ _ _ _ _ _ _ _ _ _ _ _ _ _ _ ih => omega
  | splitNode _ _ _ _ _ _ _ _ _ _ _ _ _ _ _ _ _ _ _ _ _ ih => omega

theorem Ins_good {order : Nat} {key : K} {value : V} (ho : 3 ≤ order) {bt bt1 : BT K V}
    {nx nx1 : Nat} (h : Ins order key value bt nx bt1 nx1) :
    ∀ {d cmin cmax : Nat} {lo : WithBot K} {hi : WithTop K},
      Good order d cmin cmax lo hi bt → cmax < order → lo ≤ (key : WithBot K) →
      (key : WithTop K) < hi → Good order d cmin (cmax + 1) lo hi bt1 := by
  induction h with
  | leaf a es1 es2 nx h1 h2 =>
    intro d cmin cmax lo hi hg hc hlo hhi
    cases d with
    | succ d => simp [Good] at hg
    | zero =>
      simp only [Good, List.map_append, List.map_cons, List.length_append,
        List.length_cons] at hg ⊢
      obtain ⟨g1, g2, g3, g4⟩ := hg
      have hp := List.pairwise_append.1 g3
      refine ⟨by omega, by omega, ?_, ?_⟩
      · refine List.pairwise_append.2 ⟨hp.1, List.pairwise_cons.2 ⟨?_, hp.2.1⟩, ?_⟩
        · intro y hy
          obtain ⟨e, he, rfl⟩ := List.mem_map.1 hy
          exact h2 e he
        · intro x hx y hy
          obtain ⟨e, he, rfl⟩ := List.mem_map.1 hx
          rcases List.mem_cons.1 hy with rfl | hy
          · exact h1 e he
          · exact hp.2.2 _ hx y hy
      · intro k hk
        rcases List.mem_append.1 hk with hk | hk
        · exact g4 k (List.mem_append_left _ hk)
        · rcases List.mem_cons.1 hk with rfl | hk
          · exact ⟨hlo, hhi⟩
          · exact g4 k (List.mem_append_right _ hk)
  | keep a kpre kpost pre post c c1 nx nx1 hlen hk1 hk2 _ hcnt ih =>
    intro d cmin cmax lo hi hg hc hlo hhi
    cases d with
    | zero => simp [Good] at hg
    | succ d =>
      simp only [Good] at hg ⊢
      obtain ⟨g1, g2, g3, g4, g5⟩ := hg
      obtain ⟨f1, f2, -⟩ := Kids_focus hlen g5
      have hkey1 := lastB_le_key lo kpre key hlo hk1
      have hkey2 := key_lt_headB hi kpost key hhi hk2
      have hc1 := ih f1 (by omega) hkey1 hkey2
      have hc2 := Good_recount hc1 (Good_count hc1).1 (show c1.count ≤ order - 1 by omega)
      exact ⟨g1, by omega, g3, g4, f2 c1 hc2⟩
  | splitLeaf a kpre kpost pre post c b el er e nx nx1 hlen hk1 hk2 _ hel htot ih =>
    intro d cmin cmax lo hi hg hc hlo hhi
    cases d with
    | zero => simp [Good] at hg
    | succ d =>
      simp only [Good] at hg ⊢
      obtain ⟨g1, g2, g3, g4, g5⟩ := hg
      obtain ⟨f1, -, f3⟩ := Kids_focus hlen g5
      have hkey1 := lastB_le_key lo kpre key hlo hk1
      have hkey2 := key_lt_headB hi kpost key hhi hk2
      have hc1 := ih f1 (by omega) hkey1 hkey2
      cases d with
      | succ d => simp [Good] at hc1
      | zero =>
        obtain ⟨s1, s2, s3, s4⟩ := Good_leaf_split nx1 ho hc1 hel htot
        obtain ⟨t1, t2⟩ := sorted_insert_sep g3 g4 s3 s4
        refine ⟨by simp only [List.length_append, List.length_cons] at g1 ⊢; omega,
          by simp only [List.length_append, List.length_cons] at g2 ⊢; omega, t1, t2,
          f3 _ _ _ s1 s2⟩
  | splitNode a kpre kpost pre post c b kl kr s cl cr nx nx1 hlen hk1 hk2 _ hkl hcl htot ih =>
    intro d cmin cmax lo hi hg hc hlo hhi
    cases d with
    | zero => simp [Good] at hg
    | succ d =>
      simp only [Good] at hg ⊢
      obtain ⟨g1, g2, g3, g4, g5⟩ := hg
      obtain ⟨f1, -, f3⟩ := Kids_focus hlen g5
      have hkey1 := lastB_le_key lo kpre key hlo hk1
      have hkey2 := key_lt_headB hi kpost key hhi hk2
      have hc1 := ih f1 (by omega) hkey1 hkey2
      cases d with
      | zero => simp [Good] at hc1
      | succ d =>
        obtain ⟨s1, s2, s3, s4⟩ := Good_node_split nx1 ho hc1 hkl hcl htot
        obtain ⟨t1, t2⟩ := sorted_insert_sep g3 g4 s3 s4
        refine ⟨by simp only [List.length_append, List.length_cons] at g1 ⊢; omega,
          by simp only [List.length_append, List.length_cons] at g2 ⊢; omega, t1, t2,
          f3 _ _ _ s1 s2⟩

end Pure2

section NodeList

variable {K V : Type}

theorem keyList_length (nd : Node K V) : nd.keyList.length = nd.n := by
  simp [Node.keyList]

theorem entries_length (nd : Node K V) : nd.entries.length = nd.n := by
  simp [Node.entries]

theorem entries_map_fst (nd : Node K V) : nd.entries.map Prod.fst = nd.keyList := by
  simp [Node.entries, Node.keyList]

theorem keyList_getElem (nd : Node K V) (i : Nat) (h : i < nd.keyList.length) :
    nd.keyList[i] = nd.keys i := by
  simp [Node.keyList]

theorem mem_keyList {nd : Node K V} {x : K} : x ∈ nd.keyList ↔ ∃ i, i < nd.n ∧ nd.keys i = x := by
  simp [Node.keyList]

theorem mem_take_keyList {nd : Node K V} {x : K} {r : Nat} (hr : r ≤ nd.n) :
    x ∈ nd.keyList.take r ↔ ∃ i, i < r ∧ nd.keys i = x := by
  have : nd.keyList.take r = (List.range r).map nd.keys := by
    simp only [Node.keyList, ← List.map_take]
    congr 1
    rw [List.take_range, Nat.min_eq_left hr]
  rw [this]
  simp

theorem mem_drop_keyList {nd : Node K V} {x : K} {r : Nat} :
    x ∈ nd.keyList.drop r ↔ ∃ i, r ≤ i ∧ i < nd.n ∧ nd.keys i = x := by
  constructor
  · intro h
    obtain ⟨i, hi, rfl⟩ := List.mem_iff_getElem.1 h
    simp only [List.length_drop, keyList_length] at hi
    refine ⟨r + i, by omega, by omega, ?_⟩
    simp [Node.keyList]
  · rintro ⟨i, h1, h2, rfl⟩
    apply List.mem_iff_getElem.2
    refine ⟨i - r, by simp [keyList_length]; omega, ?_⟩
    simp [Node.keyList]
    congr 1
    omega

/-- Pointer of the child at a position, read from the list form of the child pointers. -/
theorem ptr_at {α : Type} (f : Nat → Option Nat) (g : α → Option Nat) (pre post : List α)
    (c : α) (h : (List.range (pre ++ c :: post).length).map f = (pre ++ c :: post).map g) :
    f pre.length = g c := by
  have h1 := congrArg (fun l => l[pre.length]?) h
  simp only [List.getElem?_map] at h1
  rw [List.getElem?_range (by simp), List.getElem?_append_right (le_refl _)] at h1
  simpa using h1

end NodeList

section NodeOrder

variable {K V : Type} [LinearOrder K]

theorem sortedKeys_iff (nd : Node K V) : nd.sortedKeys ↔ nd.keyList.Sorted (· < ·) := by
  unfold Node.sortedKeys List.Sorted
  rw [List.pairwise_iff_getElem]
  constructor
  · intro h i j hi hj hij
    rw [keyList_getElem, keyList_getElem]
    exact h i j hij (by simpa [keyList_length] using hj)
  · intro h i j hij hj
    have := h i j (by rw [keyList_length]; omega) (by rw [keyList_length]; omega) hij
    rwa [keyList_getElem, keyList_getElem] at this

theorem lowerAt_of_split {nd : Node K V} {key : K} {kpre kpost : List K}
    (hk : nd.keyList = kpre ++ kpost) (h1 : ∀ x ∈ kpre, x < key) (h2 : ∀ x ∈ kpost, key ≤ x) :
    nd.lowerAt key kpre.length := by
  have hn : nd.n = kpre.length + kpost.length := by
    rw [← keyList_length, hk, List.length_append]
  refine ⟨by omega, ?_, ?_⟩
  · intro x hx
    have hxl : x < (kpre ++ kpost).length := by simp; omega
    have : nd.keys x = (kpre ++ kpost)[x] := by
      rw [← keyList_getElem nd x (by rw [keyList_length]; omega)]
      simp [hk]
    rw [this, List.getElem_append_left hx]
    exact h1 _ (List.getElem_mem _)
  · intro x hx hxn
    have hxl : x < (kpre ++ kpost).length := by simp; omega
    have : nd.keys x = (kpre ++ kpost)[x] := by
      rw [← keyList_getElem nd x (by rw [keyList_length]; omega)]
      simp [hk]
    rw [this, List.getElem_append_right hx]
    exact h2 _ (List.getElem_mem _)

theorem routeAt_of_split {nd : Node K V} {key : K} {kpre kpost : List K}
    (hk : nd.keyList = kpre ++ kpost) (h1 : ∀ x ∈ kpre, x ≤ key) (h2 : ∀ x ∈ kpost, key < x) :
    nd.routeAt key kpre.length := by
  have hn : nd.n = kpre.length + kpost.length := by
    rw [← keyList_length, hk, List.length_append]
  refine ⟨by omega, ?_, ?_⟩
  · intro x hx
    have hxl : x < (kpre ++ kpost).length := by simp; omega
    have : nd.keys x = (kpre ++ kpost)[x] := by
      rw [← keyList_getElem nd x (by rw [keyList_length]; omega)]
      simp [hk]
    rw [this, List.getElem_append_left hx]
    exact h1 _ (List.getElem_mem _)
  · intro x hx hxn
    have hxl : x < (kpre ++ kpost).length := by simp; omega
    have : nd.keys x = (kpre ++ kpost)[x] := by
      rw [← keyList_getElem nd x (by rw [keyList_length]; omega)]
      simp [hk]
    rw [this, List.getElem_append_right hx]
    exact h2 _ (List.getElem_mem _)

theorem routeAt_unique {nd : Node K V} {key : K} {r s : Nat}
    (hr : nd.routeAt key r) (hs : nd.routeAt key s) : r = s := by
  obtain ⟨hr1, hr2, hr3⟩ := hr
  obtain ⟨hs1, hs2, hs3⟩ := hs
  by_contra hne
  rcases Nat.lt_or_gt_of_ne hne with h | h
  · exact absurd (hs2 r h) (not_le.2 (hr3 r le_rfl (by omega)))
  · exact absurd (hr2 s h) (not_le.2 (hs3 s le_rfl (by omega)))

/-- The child slot computed by `findNodeByKey` from the result of `search`. -/
theorem routeAt_of_lowerAt {nd : Node K V} {key : K} {arg : Nat} (hs : nd.sortedKeys)
    (h : nd.lowerAt key arg) :
    nd.routeAt key (if arg < nd.n ∧ nd.keys arg = key then arg + 1 else arg) := by
  obtain ⟨h1, h2, h3⟩ := h
  by_cases hc : arg < nd.n ∧ nd.keys arg = key
  · simp only [hc, and_self, ↓reduceIte]
    refine ⟨by omega, ?_, ?_⟩
    · intro x hx
      rcases Nat.eq_or_lt_of_le (Nat.lt_succ_iff.1 hx) with h | h
      · rw [h, hc.2]
      · exact le_of_lt (h2 x h)
    · intro x hx hxn
      rw [← hc.2]
      exact hs arg x (by omega) hxn
  · simp only [hc, ↓reduceIte]
    refine ⟨h1, fun x hx => le_of_lt (h2 x hx), ?_⟩
    intro x hx hxn
    rcases Nat.eq_or_lt_of_le hx with h | h
    · subst h
      exact lt_of_le_of_ne (h3 arg le_rfl hxn) (fun e => hc ⟨hxn, e.symm⟩)
    · exact lt_of_le_of_lt (h3 arg le_rfl (by omega)) (hs arg x h hxn)

end NodeOrder

section NodeOps

variable {K V : Type} [LinearOrder K]

omit [LinearOrder K] in
theorem shiftLeaf_spec (arg : Nat) : ∀ (c : Nat) (nd : Node K V),
    (shiftLeaf arg c nd).n = nd.n ∧ (shiftLeaf arg c nd).IS_LEAF = nd.IS_LEAF ∧
    (shiftLeaf arg c nd).ptr = nd.ptr ∧
    (∀ x, (shiftLeaf arg c nd).keys x
      = if arg < x ∧ x ≤ arg + c then nd.keys (x - 1) else nd.keys x) ∧
    (∀ x, (shiftLeaf arg c nd).values x
      = if arg < x ∧ x ≤ arg + c then nd.values (x - 1) else nd.values x) := by
  intro c
  induction c with
  | zero =>
    intro nd
    refine ⟨rfl, rfl, rfl, ?_, ?_⟩ <;>
    · intro x
      have : ¬ (arg < x ∧ x ≤ arg) := by omega
      simp only [shiftLeaf, Nat.add_zero, if_neg this]
  | succ c ih =>
    intro nd
    obtain ⟨h1, h2, h3, h4, h5⟩ := ih
      { nd with
        keys := Function.update nd.keys (arg + c + 1) (nd.keys (arg + c))
        values := Function.update nd.values (arg + c + 1) (nd.values (arg + c)) }
    refine ⟨h1, h2, h3, ?_, ?_⟩
    · intro x
      rw [shiftLeaf, h4 x]
      simp only [Function.update_apply]
      split_ifs <;> first | rfl | (exfalso; omega) | (congr 1; omega)
    · intro x
      rw [shiftLeaf, h5 x]
      simp only [Function.update_apply]
      split_ifs <;> first | rfl | (exfalso; omega) | (congr 1; omega)

omit [LinearOrder K] in
theorem shiftInternal_spec (arg : Nat) : ∀ (c : Nat) (nd : Node K V),
    (shiftInternal arg c nd).n = nd.n ∧ (shiftInternal arg c nd).IS_LEAF = nd.IS_LEAF ∧
    (shiftInternal arg c nd).values = nd.values ∧
    (∀ x, (shiftInternal arg c nd).keys x
      = if arg < x ∧ x ≤ arg + c then nd.keys (x - 1) else nd.keys x) ∧
    (∀ x, (shiftInternal arg c nd).ptr x
      = if arg + 1 < x ∧ x ≤ arg + c + 1 then nd.ptr (x - 1) else nd.ptr x) := by
  intro c
  induction c with
  | zero =>
    intro nd
    refine ⟨rfl, rfl, rfl, ?_, ?_⟩
    · intro x
      have : ¬ (arg < x ∧ x ≤ arg) := by omega
      simp only [shiftInternal, Nat.add_zero, if_neg this]
    · intro x
      have : ¬ (arg + 1 < x ∧ x ≤ arg + 1) := by omega
      simp only [shiftInternal, Nat.add_zero, if_neg this]
  | succ c ih =>
    intro nd
    obtain ⟨h1, h2, h3, h4, h5⟩ := ih
      { nd with
        keys := Function.update nd.keys (arg + c + 1) (nd.keys (arg + c))
        ptr := Function.update nd.ptr (arg + c + 2) (nd.ptr (arg + c + 1)) }
    refine ⟨h1, h2, h3, ?_, ?_⟩
    · intro x
      rw [shiftInternal, h4 x]
      simp only [Function.update_apply]
      split_ifs <;> first | rfl | (exfalso; omega) | (congr 1; omega)
    · intro x
      rw [shiftInternal, h5 x]
      simp only [Function.update_apply]
      split_ifs <;> first | rfl | (exfalso; omega) | (congr 1; omega)

/-- Leaf `Node::insert`: the entry is placed at the slot found by `search`. -/
theorem Node.insert_spec {order : Nat} {nd : Node K V} (key : K) (value : V)
    (hl : nd.IS_LEAF = true) (hn : nd.n < order) (hs : nd.sortedKeys) :
    ∃ nd1 arg, nd.insert order key value = some nd1 ∧ nd.lowerAt key arg ∧
      nd1.IS_LEAF = true ∧ nd1.ptr = nd.ptr ∧ nd1.n = nd.n + 1 ∧
      nd1.entries = nd.entries.take arg ++ (key, value) :: nd.entries.drop arg := by
  obtain ⟨arg, hsearch, hlow⟩ := search_spec order key (le_of_lt hn) hs
  obtain ⟨s1, s2, s3, s4, s5⟩ := shiftLeaf_spec arg (nd.n - arg) nd
  have hins : nd.insert order key value = some
      { shiftLeaf arg (nd.n - arg) nd with
        keys := Function.update (shiftLeaf arg (nd.n - arg) nd).keys arg key
        values := Function.update (shiftLeaf arg (nd.n - arg) nd).values arg value
        n := (shiftLeaf arg (nd.n - arg) nd).n + 1 } := by
    simp only [Node.insert, hl, hsearch, hn, ↓reduceIte]
  refine ⟨_, arg, hins, hlow, ?_, ?_, ?_, ?_⟩
  · simpa using s2.trans hl
  · simpa using s3
  · simp [s1]
  · have ha := hlow.1
    simp only [Node.entries, s1]
    apply map_range_insert _ _ nd.n arg _ ha
    · intro x hx
      have : ¬ (arg < x ∧ x ≤ arg + (nd.n - arg)) := by omega
      simp [Function.update_apply, s4 x, s5 x, this, Nat.ne_of_lt hx]
    · simp
    · intro x hx hxn
      have : arg < x ∧ x ≤ arg + (nd.n - arg) := by omega
      simp [Function.update_apply, s4 x, s5 x, this, Nat.ne_of_gt hx]

/-- Internal `Node::insert`: key and right child are placed at the slot found by `search`. -/
theorem Node.insertInternal_spec (order : Nat) {nd : Node K V} (key : K) (r : Option Nat)
    (hl : nd.IS_LEAF = false) (hn : nd.n < order) (hs : nd.sortedKeys) :
    ∃ nd1 arg, nd.insertInternal order key r = some nd1 ∧ nd.lowerAt key arg ∧
      nd1.IS_LEAF = false ∧ nd1.n = nd.n + 1 ∧
      nd1.keyList = nd.keyList.take arg ++ key :: nd.keyList.drop arg ∧
      (List.range (nd.n + 2)).map nd1.ptr
        = ((List.range (nd.n + 1)).map nd.ptr).take (arg + 1) ++
            r :: ((List.range (nd.n + 1)).map nd.ptr).drop (arg + 1) := by
  obtain ⟨arg, hsearch, hlow⟩ := search_spec order key (le_of_lt hn) hs
  obtain ⟨s1, s2, s3, s4, s5⟩ := shiftInternal_spec arg (nd.n - arg) nd
  have hins : nd.insertInternal order key r = some
      { shiftInternal arg (nd.n - arg) nd with
        keys := Function.update (shiftInternal arg (nd.n - arg) nd).keys arg key
        ptr := Function.update (shiftInternal arg (nd.n - arg) nd).ptr (arg + 1) r
        n := (shiftInternal arg (nd.n - arg) nd).n + 1 } := by
    simp only [Node.insertInternal, hl, hsearch, hn, ↓reduceIte, Bool.false_eq_true]
  refine ⟨_, arg, hins, hlow, ?_, ?_, ?_, ?_⟩
  · simpa using s2.trans hl
  · simp [s1]
  · have ha := hlow.1
    simp only [Node.keyList, s1]
    apply map_range_insert _ _ nd.n arg _ ha
    · intro x hx
      have : ¬ (arg < x ∧ x ≤ arg + (nd.n - arg)) := by omega
      simp [Function.update_apply, s4 x, this, Nat.ne_of_lt hx]
    · simp
    · intro x hx hxn
      have : arg < x ∧ x ≤ arg + (nd.n - arg) := by omega
      simp [Function.update_apply, s4 x, this, Nat.ne_of_gt hx]
  · have ha := hlow.1
    apply map_range_insert _ _ (nd.n + 1) (arg + 1) _ (by omega)
    · intro x hx
      have h1 : ¬ (arg + 1 < x ∧ x ≤ arg + (nd.n - arg) + 1) := by omega
      simp [Function.update_apply, s5 x, h1, Nat.ne_of_lt hx]
    · simp
    · intro x hx hxn
      have h1 : arg + 1 < x ∧ x ≤ arg + (nd.n - arg) + 1 := by omega
      simp [Function.update_apply, s5 x, h1, Nat.ne_of_gt hx]

/-- `Node::hasKey` on a leaf below its capacity: it is defined, and `false` only if the key is
not among the live keys. -/
theorem Node.hasKey_spec {order : Nat} {nd : Node K V} (key : K) (hn : nd.n < order)
    (hs : nd.sortedKeys) :
    ∃ b arg, nd.hasKey order key = some b ∧ nd.search order key = some arg ∧
      nd.lowerAt key arg ∧ (b = true ↔ nd.keys arg = key) ∧
      (key ∈ nd.keyList → b = true ∧ arg < nd.n) := by
  obtain ⟨arg, hsearch, hlow⟩ := search_spec order key (le_of_lt hn) hs
  have ha : arg < order := lt_of_le_of_lt hlow.1 hn
  refine ⟨decide (nd.keys arg = key), arg, by simp [Node.hasKey, hsearch, ha], hsearch, hlow,
    by simp, ?_⟩
  intro hmem
  obtain ⟨i, hi, rfl⟩ := mem_keyList.1 hmem
  obtain ⟨h1, h2, h3⟩ := hlow
  have hge : arg ≤ i := by
    by_contra hc
    exact absurd (h2 i (by omega)) (lt_irrefl _)
  have hle : i ≤ arg := by
    by_contra hc
    have hlt := hs arg i (by omega) hi
    exact absurd (h3 arg le_rfl (by omega)) (not_le.2 hlt)
  have : arg = i := le_antisymm hge hle
  subst this
  exact ⟨by simp, hi⟩

/-- `Node::update`: the value at the slot found by `search` is overwritten. -/
theorem Node.update_spec {order : Nat} {nd : Node K V} (key : K) (value : V) {arg : Nat}
    (hl : nd.IS_LEAF = true) (hsearch : nd.search order key = some arg) (ha : arg < order)
    (hk : nd.keys arg = key) :
    ∃ nd1, nd.update order key value = some nd1 ∧ nd1.IS_LEAF = true ∧ nd1.ptr = nd.ptr ∧
      nd1.n = nd.n ∧ nd1.keys = nd.keys ∧
      nd1.entries = nd.entries.set arg (key, value) := by
  have hupd : nd.update order key value
      = some { nd with values := Function.update nd.values arg value } := by
    simp only [Node.update, hl, hsearch, ha, ↓reduceIte]
  refine ⟨_, hupd, hl, rfl, rfl, rfl, ?_⟩
  apply List.ext_getElem
  · simp [Node.entries]
  · intro i h1 h2
    simp only [Node.entries, List.getElem_map, List.getElem_range, List.getElem_set,
      Function.update_apply]
    by_cases h : arg = i
    · subst h; simp [hk]
    · have h' : ¬ i = arg := fun e => h e.symm
      simp [h, h']

end NodeOps

section TreeLists

variable {K V : Type}

theorem leafListL_append (l1 l2 : List (BT K V)) :
    BT.leafListL (l1 ++ l2) = BT.leafListL l1 ++ BT.leafListL l2 := by
  induction l1 with
  | nil => simp [BT.leafListL]
  | cons c l1 ih => simp [BT.leafListL, ih]

theorem addrsL_append (l1 l2 : List (BT K V)) :
    BT.addrsL (l1 ++ l2) = BT.addrsL l1 ++ BT.addrsL l2 := by
  induction l1 with
  | nil => simp [BT.addrsL]
  | cons c l1 ih => simp [BT.addrsL, ih]

theorem addrs_node_split (a : Nat) (ks : List K) (pre post : List (BT K V)) (c : BT K V) :
    (BT.node a ks (pre ++ c :: post)).addrs
      = a :: (BT.addrsL pre ++ (c.addrs ++ BT.addrsL post)) := by
  simp [BT.addrs, addrsL_append, BT.addrsL]

theorem leaves_node_split (a : Nat) (ks : List K) (pre post : List (BT K V)) (c : BT K V) :
    (BT.node a ks (pre ++ c :: post)).leaves
      = (BT.leafListL pre).map Prod.fst ++ (c.leaves ++ (BT.leafListL post).map Prod.fst) := by
  simp [BT.leaves, BT.leafList, leafListL_append, BT.leafListL]

theorem addr_mem_addrs (t : BT K V) : t.addr ∈ t.addrs := by
  cases t <;> simp [BT.addr, BT.addrs]

theorem mem_addrsL {cs : List (BT K V)} {x : Nat} :
    x ∈ BT.addrsL cs ↔ ∃ c ∈ cs, x ∈ c.addrs := by
  induction cs with
  | nil => simp [BT.addrsL]
  | cons c cs ih => simp [BT.addrsL, ih]

theorem addrsL_nodup_mem {cs : List (BT K V)} (h : (BT.addrsL cs).Nodup) {c : BT K V}
    (hc : c ∈ cs) : c.addrs.Nodup := by
  induction cs with
  | nil => simp at hc
  | cons d cs ih =>
    simp only [BT.addrsL] at h
    have hp := List.nodup_append.1 h
    rcases List.mem_cons.1 hc with rfl | hc
    · exact hp.1
    · exact ih hp.2.1 hc

mutual
/-- Leaf addresses are node addresses. -/
theorem leaves_subset_addrs : ∀ (t : BT K V) (x : Nat), x ∈ t.leaves → x ∈ t.addrs
  | .leaf a es, x, h => by simpa [BT.leaves, BT.leafList, BT.addrs] using h
  | .node a ks cs, x, h => by
    simp only [BT.leaves, BT.leafList] at h
    simp only [BT.addrs, List.mem_cons]
    exact Or.inr (leavesL_subset_addrsL cs x h)
/-- Leaf addresses of a list of trees are node addresses. -/
theorem leavesL_subset_addrsL :
    ∀ (cs : List (BT K V)) (x : Nat), x ∈ (BT.leafListL cs).map Prod.fst → x ∈ BT.addrsL cs
  | [], x, h => by simp [BT.leafListL] at h
  | c :: cs, x, h => by
    simp only [BT.leafListL, List.map_append, List.mem_append] at h
    simp only [BT.addrsL, List.mem_append]
    rcases h with h | h
    · exact Or.inl (leaves_subset_addrs c x h)
    · exact Or.inr (leavesL_subset_addrsL cs x h)
end

end TreeLists

section HeapBasics

variable {K V : Type}

theorem core_eq_some_of_internal {x : Option (Node K V)} {nd : Node K V}
    (h : core x = some nd) (hl : nd.IS_LEAF = false) : x = some nd := by
  cases x with
  | none => simp [core] at h
  | some y =>
    simp only [core, Option.map_some', Option.some.injEq] at h
    by_cases hy : y.IS_LEAF = true
    · simp only [hy, ↓reduceIte] at h
      rw [← h] at hl
      simp [hy] at hl
    · simp only [hy, Bool.false_eq_true, ↓reduceIte] at h
      rw [h]

theorem core_eq_leaf {x y : Option (Node K V)} {nd : Node K V} (h : core y = core x)
    (hx : x = some nd) (hl : nd.IS_LEAF = true) :
    ∃ nd1, y = some nd1 ∧ nd1.IS_LEAF = true ∧ nd1.n = nd.n ∧ nd1.keys = nd.keys ∧
      nd1.values = nd.values := by
  subst hx
  cases y with
  | none => simp [core] at h
  | some z =>
    simp only [core, Option.map_some', hl, ↓reduceIte, Option.some.injEq] at h
    by_cases hz : z.IS_LEAF = true
    · simp only [hz, ↓reduceIte] at h
      have h1 := congrArg Node.n h
      have h2 := congrArg Node.keys h
      have h3 := congrArg Node.values h
      exact ⟨z, rfl, hz, h1, h2, h3⟩
    · simp only [hz, Bool.false_eq_true, ↓reduceIte] at h
      rw [h] at hz
      simp at hz

/-- Frame rule for `Rep`: cells of the tree that keep their core keep the tree. -/
theorem Rep_frame {h h1 : Heap K V} {t : BT K V} (hr : Rep h t)
    (hf : ∀ a ∈ t.addrs, core (h1 a) = core (h a)) : Rep h1 t := by
  induction hr with
  | @leaf a es nd ha hl he =>
    obtain ⟨nd1, h1a, hl1, hn, hk, hv⟩ :=
      core_eq_leaf (hf a (by simp [BT.addrs])) ha hl
    refine Rep.leaf h1a hl1 ?_
    rw [← he]
    simp [Node.entries, hn, hk, hv]
  | @node a ks cs nd ha hl hk hp hc ih =>
    have hcore : core (h1 a) = some nd := by
      rw [hf a (by simp [BT.addrs]), ha]
      simp [core, hl]
    have h1a := core_eq_some_of_internal hcore hl
    refine Rep.node h1a hl hk hp ?_
    intro c hcm
    apply ih c hcm
    intro x hx
    apply hf
    simp only [BT.addrs, List.mem_cons]
    exact Or.inr (mem_addrsL.2 ⟨c, hcm, hx⟩)

theorem Rep_cell {h : Heap K V} {t : BT K V} (hr : Rep h t) :
    ∃ nd, h t.addr = some nd ∧ nd.n = t.count := by
  cases hr with
  | @leaf a es nd ha hl he =>
    exact ⟨nd, ha, by rw [← he]; simp [BT.count, Node.entries]⟩
  | @node a ks cs nd ha hl hk hp hc =>
    exact ⟨nd, ha, by rw [← hk]; simp [BT.count, Node.keyList]⟩

theorem Chain_frame {h h1 : Heap K V} :
    ∀ (l : List Nat) (prev next : Option Nat), Chain h prev l next →
      (∀ x ∈ l, links (h1 x) = links (h x)) → Chain h1 prev l next
  | [], _, _, _, _ => by simp [Chain]
  | a :: l, prev, next, hc, hf => by
    simp only [Chain] at hc ⊢
    refine ⟨by rw [hf a (List.mem_cons_self _ _)]; exact hc.1, ?_⟩
    exact Chain_frame l (some a) next hc.2 (fun x hx => hf x (List.mem_cons_of_mem _ hx))

theorem Chain_nil {h : Heap K V} (prev next : Option Nat) : Chain h prev [] next ↔ True :=
  Iff.rfl

theorem Chain_cons {h : Heap K V} (prev next : Option Nat) (a : Nat) (rest : List Nat) :
    Chain h prev (a :: rest) next ↔
      links (h a) = some (true, prev, firstOr rest next) ∧ Chain h (some a) rest next :=
  Iff.rfl

theorem firstOr_append (l1 l2 : List Nat) (next : Option Nat) :
    firstOr (l1 ++ l2) next = firstOr l1 (firstOr l2 next) := by
  cases l1 <;> rfl

theorem Chain_append {h : Heap K V} (l1 l2 : List Nat) (next : Option Nat) :
    ∀ prev : Option Nat,
      Chain h prev (l1 ++ l2) next ↔
        Chain h prev l1 (firstOr l2 next) ∧ Chain h (lastOr prev l1) l2 next := by
  induction l1 with
  | nil => intro prev; simp [Chain_nil, lastOr]
  | cons a l1 ih =>
    intro prev
    rw [List.cons_append, Chain_cons, Chain_cons, ih, lastOr, firstOr_append, and_assoc]

end HeapBasics

section SplitLemmas

variable {K V : Type}

theorem splitLeafLoop_spec (src : Node K V) : ∀ (c i j : Nat) (dst : Node K V),
    (splitLeafLoop src c i j dst).n = dst.n + c ∧
    (splitLeafLoop src c i j dst).IS_LEAF = dst.IS_LEAF ∧
    (splitLeafLoop src c i j dst).ptr = dst.ptr ∧
    (∀ x, (splitLeafLoop src c i j dst).keys x
      = if i ≤ x ∧ x < i + c then src.keys (j + (x - i)) else dst.keys x) ∧
    (∀ x, (splitLeafLoop src c i j dst).values x
      = if i ≤ x ∧ x < i + c then src.values (j + (x - i)) else dst.values x) := by
  intro c
  induction c with
  | zero =>
    intro i j dst
    refine ⟨rfl, rfl, rfl, ?_, ?_⟩ <;>
    · intro x
      have : ¬ (i ≤ x ∧ x < i) := by omega
      simp only [splitLeafLoop, Nat.add_zero, if_neg this]
  | succ c ih =>
    intro i j dst
    obtain ⟨h1, h2, h3, h4, h5⟩ := ih (i + 1) (j + 1)
      { dst with
        keys := Function.update dst.keys i (src.keys j)
        values := Function.update dst.values i (src.values j)
        n := dst.n + 1 }
    refine ⟨by rw [splitLeafLoop, h1]; simp only; omega, by rw [splitLeafLoop, h2],
      by rw [splitLeafLoop, h3], ?_, ?_⟩
    · intro x
      rw [splitLeafLoop, h4 x]
      simp only [Function.update_apply]
      split_ifs <;> first | rfl | (exfalso; omega) | (congr 1; omega)
    · intro x
      rw [splitLeafLoop, h5 x]
      simp only [Function.update_apply]
      split_ifs <;> first | rfl | (exfalso; omega) | (congr 1; omega)

theorem splitInternalLoop_spec : ∀ (c i j : Nat) (src dst : Node K V),
    (splitInternalLoop c i j src dst).2.n = dst.n + c ∧
    (splitInternalLoop c i j src dst).2.IS_LEAF = dst.IS_LEAF ∧
    (∀ x, (splitInternalLoop c i j src dst).2.keys x
      = if i ≤ x ∧ x < i + c then src.keys (j + (x - i)) else dst.keys x) ∧
    (∀ x, (splitInternalLoop c i j src dst).2.ptr x
      = if i + 1 ≤ x ∧ x < i + 1 + c then src.ptr (j + 1 + (x - (i + 1))) else dst.ptr x) ∧
    (splitInternalLoop c i j src dst).1.n = src.n ∧
    (splitInternalLoop c i j src dst).1.IS_LEAF = src.IS_LEAF ∧
    (splitInternalLoop c i j src dst).1.keys = src.keys ∧
    (splitInternalLoop c i j src dst).1.values = src.values ∧
    (∀ x, (splitInternalLoop c i j src dst).1.ptr x
      = if j + 1 ≤ x ∧ x < j + 1 + c then none else src.ptr x) := by
  intro c
  induction c with
  | zero =>
    intro i j src dst
    refine ⟨rfl, rfl, ?_, ?_, rfl, rfl, rfl, rfl, ?_⟩
    · intro x
      have : ¬ (i ≤ x ∧ x < i) := by omega
      simp only [splitInternalLoop, Nat.add_zero, if_neg this]
    · intro x
      have : ¬ (i + 1 ≤ x ∧ x < i + 1) := by omega
      simp only [splitInternalLoop, Nat.add_zero, if_neg this]
    · intro x
      have : ¬ (j + 1 ≤ x ∧ x < j + 1) := by omega
      simp only [splitInternalLoop, Nat.add_zero, if_neg this]
  | succ c ih =>
    intro i j src dst
    obtain ⟨h1, h2, h3, h4, h5, h6, h7, h8, h9⟩ := ih (i + 1) (j + 1)
      { src with ptr := Function.update src.ptr (j + 1) none }
      { dst with
        keys := Function.update dst.keys i (src.keys j)
        ptr := Function.update dst.ptr (i + 1) (src.ptr (j + 1))
        n := dst.n + 1 }
    refine ⟨by rw [splitInternalLoop, h1]; simp only; omega, by rw [splitInternalLoop, h2],
      ?_, ?_, by rw [splitInternalLoop, h5], by rw [splitInternalLoop, h6],
      by rw [splitInternalLoop, h7], by rw [splitInternalLoop, h8], ?_⟩
    · intro x
      rw [splitInternalLoop, h3 x]
      simp only [Function.update_apply]
      split_ifs <;> first | rfl | (exfalso; omega) | (congr 1; omega)
    · intro x
      rw [splitInternalLoop, h4 x]
      simp only [Function.update_apply]
      split_ifs <;> first | rfl | (exfalso; omega) | (congr 1; omega)
    · intro x
      rw [splitInternalLoop, h9 x]
      simp only [Function.update_apply]
      split_ifs <;> first | rfl | (exfalso; omega)

end SplitLemmas

section SplitHeap

variable {K V : Type}

theorem modify_eq {h : Heap K V} {a : Nat} {nd : Node K V} (f : Node K V → Node K V)
    (ha : h a = some nd) : modify h a f = some (Function.update h a (some (f nd))) := by
  simp [modify, ha]

theorem setPtr_eq {h : Heap K V} {a : Nat} {nd : Node K V} (i : Nat) (v : Option Nat)
    (ha : h a = some nd) :
    setPtr h a i v
      = some (Function.update h a (some { nd with ptr := Function.update nd.ptr i v })) := by
  simp [setPtr, modify, ha]

/-- Leaf branch of `Node::split`, cell by cell. -/
theorem split_leaf_cells {order : Nat} (fr : Fresh K V) {h : Heap K V} {nx a : Nat}
    {nd : Node K V} (ha : h a = some nd) (hl : nd.IS_LEAF = true) (hn : nd.n ≤ order)
    (hne : a ≠ nx)
    (hnext : ∀ c, nd.ptr 1 = some c → c ≠ a ∧ c ≠ nx ∧ ∃ ndc, h c = some ndc) :
    ∃ h1, split order fr h nx a = some h1 ∧
      h1 a = some { nd with n := order / 2, ptr := Function.update nd.ptr 1 (some nx) } ∧
      (∃ nb, h1 nx = some nb ∧ nb.IS_LEAF = true ∧ nb.n = nd.n - order / 2 ∧
        (∀ x, x < nd.n - order / 2 →
          nb.keys x = nd.keys (order / 2 + x) ∧ nb.values x = nd.values (order / 2 + x)) ∧
        nb.ptr 0 = some a ∧ nb.ptr 1 = nd.ptr 1) ∧
      (∀ c ndc, nd.ptr 1 = some c → h c = some ndc →
        h1 c = some { ndc with ptr := Function.update ndc.ptr 0 (some nx) }) ∧
      (∀ x, x ≠ a → x ≠ nx → nd.ptr 1 ≠ some x → h1 x = h x) := by
  obtain ⟨s1, s2, s3, s4, s5⟩ :=
    splitLeafLoop_spec nd (nd.n - order / 2) 0 (order / 2) (newNode fr nx true)
  simp only [newNode, Nat.zero_add] at s1 s2 s3 s4 s5
  have hno : ¬ order < nd.n := by omega
  have hne' : nx ≠ a := fun e => hne e.symm
  have hkv : ∀ x, x < nd.n - order / 2 →
      (splitLeafLoop nd (nd.n - order / 2) 0 (order / 2)
        { n := 0, IS_LEAF := true, keys := fr.keys nx, values := fr.values nx,
          ptr := fun _ => none }).keys x = nd.keys (order / 2 + x) ∧
      (splitLeafLoop nd (nd.n - order / 2) 0 (order / 2)
        { n := 0, IS_LEAF := true, keys := fr.keys nx, values := fr.values nx,
          ptr := fun _ => none }).values x = nd.values (order / 2 + x) := by
    intro x hx
    have hc : 0 ≤ x ∧ x < nd.n - order / 2 := by omega
    rw [s4 x, s5 x, if_pos hc, if_pos hc]
    simp
  cases hp : nd.ptr 1 with
  | none =>
    simp only [split, ha, hno, ↓reduceIte, hl, insertNextNode, Function.update_same,
        Function.update_noteq hne, setPtr, modify, hp, Function.update_noteq hne',
        Function.update_idem, newNode]
    refine ⟨_, rfl, ?_, ⟨_, (Function.update_noteq hne' _ _).trans (Function.update_same _ _ _),
      s2, s1, hkv, ?_, ?_⟩, ?_, ?_⟩
    · simp [Function.update_same]
    · simp
    · simp [s3]
    · intro c ndc hc
      simp at hc
    · intro x hxa hxn _
      simp [Function.update_noteq hxa, Function.update_noteq hxn]
  | some c =>
    obtain ⟨hca, hcn, ndc, hc⟩ := hnext c hp
    have hac : a ≠ c := fun e => hca e.symm
    have hnc : nx ≠ c := fun e => hcn e.symm
    simp only [split, ha, hno, ↓reduceIte, hl, insertNextNode, Function.update_same,
        Function.update_noteq hne, setPtr, modify, hp, Function.update_noteq hne',
        Function.update_noteq hcn, Function.update_noteq hca, Function.update_noteq hac,
        Function.update_noteq hnc, hc, Function.update_idem, newNode]
    refine ⟨_, rfl, ?_, ⟨_, (Function.update_noteq hne' _ _).trans (Function.update_same _ _ _),
      s2, s1, hkv, ?_, ?_⟩, ?_, ?_⟩
    · simp [Function.update_same]
    · simp
    · simp [s3]
    · intro c1 ndc1 hc1 hh
      simp only [Option.some.injEq] at hc1
      subst hc1
      rw [hc] at hh
      simp only [Option.some.injEq] at hh
      subst hh
      simp [Function.update_noteq hca, Function.update_noteq hcn]
    · intro x hxa hxn hxc
      have hxc' : x ≠ c := fun e => hxc (by rw [e])
      simp [Function.update_noteq hxa, Function.update_noteq hxn, Function.update_noteq hxc']

/-- Internal branch of `Node::split`, cell by cell. -/
theorem split_internal_cells {order : Nat} (fr : Fresh K V) {h : Heap K V} {nx a : Nat}
    {nd : Node K V} (ha : h a = some nd) (hl : nd.IS_LEAF = false) (hn : nd.n ≤ order)
    (ho : 2 ≤ order) (hne : a ≠ nx) :
    ∃ h1, split order fr h nx a = some h1 ∧
      (∃ na, h1 a = some na ∧ na.IS_LEAF = false ∧ na.n = order / 2 ∧ na.keys = nd.keys ∧
        (∀ x, x ≤ order / 2 → na.ptr x = nd.ptr x)) ∧
      (∃ nb, h1 nx = some nb ∧ nb.IS_LEAF = false ∧ nb.n = nd.n - (order / 2 + 1) ∧
        (∀ x, x < nd.n - (order / 2 + 1) → nb.keys x = nd.keys (order / 2 + 1 + x)) ∧
        (∀ x, x ≤ nd.n - (order / 2 + 1) → nb.ptr x = nd.ptr (order / 2 + 1 + x))) ∧
      (∀ x, x ≠ a → x ≠ nx → h1 x = h x) := by
  obtain ⟨s1, s2, s3, s4, s5, s6, s7, -, s9⟩ :=
    splitInternalLoop_spec (nd.n - (order / 2 + 1)) 0 (order / 2 + 1)
      { nd with ptr := Function.update nd.ptr (order / 2 + 1) none }
      { newNode fr nx false with
        ptr := Function.update (newNode fr nx false).ptr 0 (nd.ptr (order / 2 + 1)) }
  simp only [newNode, Nat.zero_add, hl] at s1 s2 s3 s4 s5 s6 s7 s9
  have hno : ¬ order < nd.n := by omega
  have hmid : ¬ order < order / 2 + 1 := by omega
  have hne' : nx ≠ a := fun e => hne e.symm
  simp only [split, ha, hno, ↓reduceIte, hl, hmid, Bool.false_eq_true, newNode]
  refine ⟨_, rfl, ⟨_, Function.update_same _ _ _, ?_, rfl, ?_, ?_⟩,
    ⟨_, (Function.update_noteq hne' _ _).trans (Function.update_same _ _ _), s2, s1, ?_, ?_⟩,
    ?_⟩
  · exact s6
  · simpa using s7
  · intro x hx
    have hc : ¬ (order / 2 + 1 + 1 ≤ x ∧ x < order / 2 + 1 + 1 + (nd.n - (order / 2 + 1))) := by
      omega
    simp only [s9 x, if_neg hc]
    exact Function.update_noteq (by omega) _ _
  · intro x hx
    have hc : 0 ≤ x ∧ x < nd.n - (order / 2 + 1) := by omega
    rw [s3 x, if_pos hc]
    simp
  · intro x hx
    rcases Nat.eq_zero_or_pos x with h0 | h0
    · subst h0
      have hc : ¬ (1 ≤ 0 ∧ 0 < 1 + (nd.n - (order / 2 + 1))) := by omega
      rw [s4 0, if_neg hc]
      simp
    · have hc : 1 ≤ x ∧ x < 1 + (nd.n - (order / 2 + 1)) := by omega
      rw [s4 x, if_pos hc, Function.update_noteq (by omega)]
      congr 1
      omega
  · intro x hxa hxn
    simp [Function.update_noteq hxa, Function.update_noteq hxn]

end SplitHeap

section Adjust

variable {K V : Type} [LinearOrder K]

omit [LinearOrder K] in
theorem take_succ_split {α : Type} (pre post : List α) (c : α) :
    (pre ++ c :: post).take (pre.length + 1) = pre ++ [c] ∧
      (pre ++ c :: post).drop (pre.length + 1) = post := by
  constructor
  · rw [List.take_append_eq_append_take]
    simp
  · rw [List.drop_append_eq_append_drop]
    simp

omit [LinearOrder K] in
theorem take_split {α : Type} (pre post : List α) :
    (pre ++ post).take pre.length = pre ∧ (pre ++ post).drop pre.length = post := by
  simp

/-- The parent part of `adjustNodeForUpOver`: separator and new right child enter the
parent at the position of the split child. -/
theorem parent_insert_spec (order : Nat) {p : Node K V} {kpre kpost : List K}
    {ppre ppost : List (Option Nat)} {b : Option Nat} (sep : K) (r : Option Nat)
    (hl : p.IS_LEAF = false) (hn : p.n < order) (hk : p.keyList = kpre ++ kpost)
    (hs : (kpre ++ kpost).Sorted (· < ·))
    (hp : (List.range (p.n + 1)).map p.ptr = ppre ++ b :: ppost)
    (hlen : kpre.length = ppre.length)
    (h1 : ∀ x ∈ kpre, x < sep) (h2 : ∀ x ∈ kpost, sep ≤ x) :
    ∃ p1, p.insertInternal order sep r = some p1 ∧ p1.IS_LEAF = false ∧ p1.n = p.n + 1 ∧
      p1.keyList = kpre ++ sep :: kpost ∧
      (List.range (p1.n + 1)).map p1.ptr = ppre ++ b :: r :: ppost := by
  have hsk : p.sortedKeys := (sortedKeys_iff p).2 (hk ▸ hs)
  obtain ⟨p1, arg, e1, e2, e3, e4, e5, e6⟩ := Node.insertInternal_spec order sep r hl hn hsk
  have harg : arg = kpre.length := lowerAt_unique e2 (lowerAt_of_split hk h1 h2)
  subst harg
  refine ⟨p1, e1, e3, e4, ?_, ?_⟩
  · rw [e5, hk, (take_split kpre kpost).1, (take_split kpre kpost).2]
  · rw [e4, e6, hp, hlen, (take_succ_split ppre ppost b).1, (take_succ_split ppre ppost b).2]
    simp

/-- `adjustNodeForUpOver` on an overflowing leaf `b` with parent `a`, cell by cell. -/
theorem adjust_leaf_cells {order : Nat} (fr : Fresh K V) {h : Heap K V} (nx a b : Nat)
    {cn p : Node K V} {kpre kpost : List K} (ppre ppost : List (Option Nat))
    (ho : 3 ≤ order) (hb : h b = some cn) (hbl : cn.IS_LEAF = true) (hbn : cn.n = order)
    (ha : h a = some p) (hl : p.IS_LEAF = false) (hn : p.n < order)
    (hk : p.keyList = kpre ++ kpost) (hs : (kpre ++ kpost).Sorted (· < ·))
    (hp : (List.range (p.n + 1)).map p.ptr = ppre ++ some b :: ppost)
    (hlen : kpre.length = ppre.length)
    (h1 : ∀ x ∈ kpre, x < cn.keys (order / 2)) (h2 : ∀ x ∈ kpost, cn.keys (order / 2) ≤ x)
    (hab : a ≠ b) (han : a ≠ nx) (hbx : b ≠ nx)
    (hnext : ∀ c, cn.ptr 1 = some c → c ≠ b ∧ c ≠ nx ∧ c ≠ a ∧ ∃ ndc, h c = some ndc) :
    ∃ h2 p1, adjustNodeForUpOver order fr h nx b a = some h2 ∧
      h2 a = some p1 ∧ p1.IS_LEAF = false ∧ p1.n = p.n + 1 ∧
      p1.keyList = kpre ++ cn.keys (order / 2) :: kpost ∧
      (List.range (p1.n + 1)).map p1.ptr = ppre ++ some b :: some nx :: ppost ∧
      h2 b = some { cn with n := order / 2, ptr := Function.update cn.ptr 1 (some nx) } ∧
      (∃ nb, h2 nx = some nb ∧ nb.IS_LEAF = true ∧ nb.n = order - order / 2 ∧
        (∀ x, x < order - order / 2 →
          nb.keys x = cn.keys (order / 2 + x) ∧ nb.values x = cn.values (order / 2 + x)) ∧
        nb.ptr 0 = some b ∧ nb.ptr 1 = cn.ptr 1) ∧
      (∀ c ndc, cn.ptr 1 = some c → h c = some ndc →
        h2 c = some { ndc with ptr := Function.update ndc.ptr 0 (some nx) }) ∧
      (∀ x, x ≠ a → x ≠ b → x ≠ nx → cn.ptr 1 ≠ some x → h2 x = h x) := by
  obtain ⟨hs1, e1, e2, e3, e4, e5⟩ := split_leaf_cells fr hb hbl (le_of_eq hbn) hbx
    (fun c hc => ⟨(hnext c hc).1, (hnext c hc).2.1, (hnext c hc).2.2.2⟩)
  have hpa : hs1 a = some p := by
    rw [e5 a hab han (fun e => (hnext a e).2.2.1 rfl)]
    exact ha
  obtain ⟨p1, q1, q2, q3, q4, q5⟩ :=
    parent_insert_spec order (cn.keys (order / 2)) (some nx) hl hn hk hs hp hlen h1 h2
  have hmid : order / 2 < order := by omega
  refine ⟨Function.update hs1 a (some p1), p1, ?_, Function.update_same _ _ _, q2, q3, q4, q5,
    ?_, ?_, ?_, ?_⟩
  · simp only [adjustNodeForUpOver, hb, hmid, ↓reduceIte, e1, hpa, q1]
  · rw [Function.update_noteq (fun e => hab e.symm), e2]
  · obtain ⟨nb, f1, f2, f3, f4, f5, f6⟩ := e3
    refine ⟨nb, ?_, f2, by rw [f3, hbn], ?_, f5, f6⟩
    · rw [Function.update_noteq (fun e => han e.symm), f1]
    · intro x hx
      exact f4 x (by rw [hbn]; exact hx)
  · intro c ndc hc hh
    rw [Function.update_noteq (hnext c hc).2.2.1]
    exact e4 c ndc hc hh
  · intro x hxa hxb hxn hxc
    rw [Function.update_noteq hxa]
    exact e5 x hxb hxn hxc

/-- `adjustNodeForUpOver` on an overflowing internal node `b` with parent `a`, cell by
cell. -/
theorem adjust_internal_cells {order : Nat} (fr : Fresh K V) {h : Heap K V} (nx a b : Nat)
    {cn p : Node K V} {kpre kpost : List K} (ppre ppost : List (Option Nat))
    (ho : 3 ≤ order) (hb : h b = some cn) (hbl : cn.IS_LEAF = false) (hbn : cn.n = order)
    (ha : h a = some p) (hl : p.IS_LEAF = false) (hn : p.n < order)
    (hk : p.keyList = kpre ++ kpost) (hs : (kpre ++ kpost).Sorted (· < ·))
    (hp : (List.range (p.n + 1)).map p.ptr = ppre ++ some b :: ppost)
    (hlen : kpre.length = ppre.length)
    (h1 : ∀ x ∈ kpre, x < cn.keys (order / 2)) (h2 : ∀ x ∈ kpost, cn.keys (order / 2) ≤ x)
    (hab : a ≠ b) (han : a ≠ nx) (hbx : b ≠ nx) :
    ∃ h2 p1, adjustNodeForUpOver order fr h nx b a = some h2 ∧
      h2 a = some p1 ∧ p1.IS_LEAF = false ∧ p1.n = p.n + 1 ∧
      p1.keyList = kpre ++ cn.keys (order / 2) :: kpost ∧
      (List.range (p1.n + 1)).map p1.ptr = ppre ++ some b :: some nx :: ppost ∧
      (∃ na, h2 b = some na ∧ na.IS_LEAF = false ∧ na.n = order / 2 ∧ na.keys = cn.keys ∧
        (∀ x, x ≤ order / 2 → na.ptr x = cn.ptr x)) ∧
      (∃ nb, h2 nx = some nb ∧ nb.IS_LEAF = false ∧ nb.n = order - (order / 2 + 1) ∧
        (∀ x, x < order - (order / 2 + 1) → nb.keys x = cn.keys (order / 2 + 1 + x)) ∧
        (∀ x, x ≤ order - (order / 2 + 1) → nb.ptr x = cn.ptr (order / 2 + 1 + x))) ∧
      (∀ x, x ≠ a → x ≠ b → x ≠ nx → h2 x = h x) := by
  obtain ⟨hs1, e1, e2, e3, e5⟩ :=
    split_internal_cells fr hb hbl (le_of_eq hbn) (by omega) hbx
  have hpa : hs1 a = some p := by
    rw [e5 a hab han]
    exact ha
  obtain ⟨p1, q1, q2, q3, q4, q5⟩ :=
    parent_insert_spec order (cn.keys (order / 2)) (some nx) hl hn hk hs hp hlen h1 h2
  have hmid : order / 2 < order := by omega
  refine ⟨Function.update hs1 a (some p1), p1, ?_, Function.update_same _ _ _, q2, q3, q4, q5,
    ?_, ?_, ?_⟩
  · simp only [adjustNodeForUpOver, hb, hmid, ↓reduceIte, e1, hpa, q1]
  · obtain ⟨na, f1, f2, f3, f4, f5⟩ := e2
    exact ⟨na, by rw [Function.update_noteq (fun e => hab e.symm), f1], f2, f3, f4, f5⟩
  · obtain ⟨nb, f1, f2, f3, f4, f5⟩ := e3
    refine ⟨nb, by rw [Function.update_noteq (fun e => han e.symm), f1], f2, by rw [f3, hbn],
      ?_, ?_⟩
    · intro x hx
      exact f4 x (by rw [hbn]; exact hx)
    · intro x hx
      exact f5 x (by rw [hbn]; exact hx)
  · intro x hxa hxb hxn
    rw [Function.update_noteq hxa]
    exact e5 x hxb hxn

end Adjust

section InsAddrs

variable {K V : Type} [LinearOrder K]

theorem Ins_addrs_perm {order : Nat} {key : K} {value : V} {bt bt1 : BT K V} {nx nx1 : Nat}
    (h : Ins order key value bt nx bt1 nx1) :
    bt1.addrs.Perm (bt.addrs ++ List.range' nx (nx1 - nx)) := by
  induction h with
  | leaf a es1 es2 nx h1 h2 => simp [BT.addrs]
  | keep a kpre kpost pre post c c1 nx nx1 hlen hk1 hk2 _ hcnt ih =>
    rw [addrs_node_split, addrs_node_split]
    rw [← Multiset.coe_eq_coe] at ih ⊢
    simp only [← Multiset.cons_coe, ← Multiset.coe_add] at ih ⊢
    rw [ih]
    simp only [Multiset.cons_add]
    congr 1
    abel
  | splitLeaf a kpre kpost pre post c b el er e nx nx1 hlen hk1 hk2 hins hel htot ih =>
    have hle := Ins_next hins
    have hr : List.range' nx (nx1 + 1 - nx) = List.range' nx (nx1 - nx) ++ [nx1] := by
      have : nx1 + 1 - nx = (nx1 - nx) + 1 := by omega
      rw [this, List.range'_concat]
      simp
      omega
    rw [addrs_node_split, hr]
    simp only [BT.addrs, addrsL_append, BT.addrsL] at ih ⊢
    rw [← Multiset.coe_eq_coe] at ih ⊢
    simp only [← Multiset.cons_coe, ← Multiset.coe_add, List.singleton_append,
      ← Multiset.singleton_add, Multiset.coe_nil, add_zero] at ih ⊢
    rw [ih]
    abel
  | splitNode a kpre kpost pre post c b kl kr s cl cr nx nx1 hlen hk1 hk2 hins hkl hcl htot ih =>
    have hle := Ins_next hins
    have hr : List.range' nx (nx1 + 1 - nx) = List.range' nx (nx1 - nx) ++ [nx1] := by
      have : nx1 + 1 - nx = (nx1 - nx) + 1 := by omega
      rw [this, List.range'_concat]
      simp
      omega
    rw [addrs_node_split, hr]
    simp only [BT.addrs, addrsL_append, BT.addrsL] at ih ⊢
    rw [← Multiset.coe_eq_coe] at ih ⊢
    simp only [← Multiset.cons_coe, ← Multiset.coe_add, List.singleton_append,
      ← Multiset.singleton_add, Multiset.coe_nil, add_zero] at ih ⊢
    have ih' : ({b} : Multiset Nat) + ↑(BT.addrsL cl) + ↑(BT.addrsL cr)
        = ↑c.addrs + ↑(List.range' nx (nx1 - nx)) := by
      rw [← ih]; abel
    calc _ = {a} + (↑(BT.addrsL pre) + (({b} : Multiset Nat) + ↑(BT.addrsL cl)
              + ↑(BT.addrsL cr)) + {nx1} + ↑(BT.addrsL post)) := by abel
      _ = _ := by rw [ih']; abel

theorem Ins_mem_addrs {order : Nat} {key : K} {value : V} {bt bt1 : BT K V} {nx nx1 : Nat}
    (h : Ins order key value bt nx bt1 nx1) (x : Nat) :
    x ∈ bt1.addrs ↔ x ∈ bt.addrs ∨ (nx ≤ x ∧ x < nx1) := by
  rw [(Ins_addrs_perm h).mem_iff, List.mem_append, List.mem_range']
  have := Ins_next h
  constructor
  · rintro (h1 | ⟨i, hi, rfl⟩)
    · exact Or.inl h1
    · exact Or.inr ⟨by omega, by omega⟩
  · rintro (h1 | ⟨h1, h2⟩)
    · exact Or.inl h1
    · exact Or.inr ⟨x - nx, by omega, by omega⟩

theorem Ins_nodup {order : Nat} {key : K} {value : V} {bt bt1 : BT K V} {nx nx1 : Nat}
    (h : Ins order key value bt nx bt1 nx1) (hn : bt.addrs.Nodup)
    (hlt : ∀ a ∈ bt.addrs, a < nx) : bt1.addrs.Nodup := by
  rw [(Ins_addrs_perm h).nodup_iff, List.nodup_append]
  refine ⟨hn, List.nodup_range' _ _, ?_⟩
  intro x hx hx2
  have := hlt x hx
  rw [List.mem_range'] at hx2
  obtain ⟨i, _, rfl⟩ := hx2
  omega

end InsAddrs

section Helpers

variable {K V : Type}

theorem map_range_take {α : Type} (f g : Nat → α) (m n : Nat) (hm : m ≤ n)
    (h : ∀ x, x < m → f x = g x) :
    (List.range m).map f = ((List.range n).map g).take m := by
  apply List.ext_getElem
  · simp [hm]
  · intro i h1 h2
    simp only [List.length_map, List.length_range] at h1
    simp [h i h1]

theorem map_range_drop {α : Type} (f g : Nat → α) (m n : Nat)
    (h : ∀ x, x < n - m → f x = g (m + x)) :
    (List.range (n - m)).map f = ((List.range n).map g).drop m := by
  apply List.ext_getElem
  · simp
  · intro i h1 h2
    simp only [List.length_map, List.length_range] at h1
    simp [h i h1]

theorem links_update_ne {h : Heap K V} {a x : Nat} (v : Option (Node K V)) (hx : x ≠ a) :
    links (Function.update h a v x) = links (h x) := by
  rw [Function.update_noteq hx]

/-- Linking a new leaf `nx` after `b` turns the chain through `l1 ++ b :: l2` into the chain
through `l1 ++ b :: nx :: l2`. -/
theorem Chain_insert_after {h h1 : Heap K V} {l1 l2 : List Nat} {b nx : Nat}
    (pb nb : Option Nat)
    (hc : Chain h none (l1 ++ b :: l2) none) (hnd : (l1 ++ b :: l2).Nodup)
    (hnx : nx ∉ l1 ++ b :: l2)
    (hb : links (h b) = some (true, pb, nb))
    (hb1 : links (h1 b) = some (true, pb, some nx))
    (hn1 : links (h1 nx) = some (true, some b, nb))
    (hc1 : ∀ c, nb = some c → ∀ pc nc, links (h c) = some (true, pc, nc) →
      links (h1 c) = some (true, some nx, nc))
    (hfr : ∀ x, x ∈ l1 ∨ x ∈ l2 → nb ≠ some x → links (h1 x) = links (h x)) :
    Chain h1 none (l1 ++ b :: nx :: l2) none := by
  rw [Chain_append] at hc ⊢
  obtain ⟨c1, c2⟩ := hc
  rw [Chain_cons] at c2
  have hmem : ∀ x ∈ l1, x ≠ b ∧ x ≠ nx ∧ x ∉ l2 := by
    intro x hx
    have hp := List.nodup_append.1 hnd
    refine ⟨fun e => hp.2.2 hx (e ▸ List.mem_cons_self _ _), ?_, ?_⟩
    · rintro rfl
      exact hnx (List.mem_append_left _ hx)
    · intro h2
      exact hp.2.2 hx (List.mem_cons_of_mem _ h2)
  have hbl2 : b ∉ l2 := (List.nodup_cons.1 (List.nodup_append.1 hnd).2.1).1
  have hl2nd : l2.Nodup := (List.nodup_cons.1 (List.nodup_append.1 hnd).2.1).2
  have hpn : pb = lastOr none l1 ∧ nb = firstOr l2 none := by
    rw [hb] at c2
    simpa using c2.1
  have hnb : nb = firstOr l2 none := hpn.2
  refine ⟨?_, ?_⟩
  · apply Chain_frame l1 none _ c1
    intro x hx
    obtain ⟨h1', h2', h3'⟩ := hmem x hx
    apply hfr x (Or.inl hx)
    rw [hnb]
    cases l2 with
    | nil => simp [firstOr]
    | cons y l2 =>
      simp only [firstOr, ne_eq, Option.some.injEq]
      rintro rfl
      exact h3' (List.mem_cons_self _ _)
  · rw [Chain_cons, Chain_cons]
    refine ⟨?_, ?_, ?_⟩
    · rw [hb1, hpn.1]
      rfl
    · rw [hn1, hnb]
    · cases l2 with
      | nil => exact (Chain_nil _ _).2 trivial
      | cons y l2 =>
        have c3 := c2.2
        rw [Chain_cons] at c3 ⊢
        have hy : nb = some y := by rw [hnb]; rfl
        refine ⟨hc1 y hy _ _ c3.1, ?_⟩
        apply Chain_frame l2 (some y) _ c3.2
        intro x hx
        have hxy : x ≠ y := by
          rintro rfl
          exact (List.nodup_cons.1 hl2nd).1 hx
        apply hfr x (Or.inr (List.mem_cons_of_mem _ hx))
        rw [hy]
        simpa using fun e => hxy e.symm

end Helpers

section RepParts

variable {K V : Type}

theorem Rep_node_parts {h : Heap K V} {a : Nat} {ks : List K} {pre post : List (BT K V)}
    {c : BT K V} (hr : Rep h (.node a ks (pre ++ c :: post))) :
    ∃ nd, h a = some nd ∧ nd.IS_LEAF = false ∧ nd.keyList = ks ∧
      (List.range (pre ++ c :: post).length).map nd.ptr
        = pre.map (fun t => some t.addr) ++ some c.addr :: post.map (fun t => some t.addr) ∧
      Rep h c ∧ (∀ t ∈ pre, Rep h t) ∧ (∀ t ∈ post, Rep h t) := by
  cases hr with
  | @node a ks cs nd ha hl hk hp hc =>
    refine ⟨nd, ha, hl, hk, by simpa using hp, hc c (by simp), ?_, ?_⟩
    · intro t ht
      exact hc t (by simp [ht])
    · intro t ht
      exact hc t (by simp [ht])

theorem nodup_node_parts {a : Nat} {ks : List K} {pre post : List (BT K V)} {c : BT K V}
    (hn : (BT.node a ks (pre ++ c :: post)).addrs.Nodup) :
    a ∉ BT.addrsL pre ∧ a ∉ c.addrs ∧ a ∉ BT.addrsL post ∧ c.addrs.Nodup ∧
      (∀ x ∈ c.addrs, x ∉ BT.addrsL pre ∧ x ∉ BT.addrsL post) ∧
      (BT.addrsL pre).Nodup ∧ (BT.addrsL post).Nodup ∧
      (∀ x ∈ BT.addrsL pre, x ∉ BT.addrsL post) := by
  rw [addrs_node_split, List.nodup_cons, List.nodup_append, List.nodup_append] at hn
  obtain ⟨h1, h2, ⟨h3, h4, h5⟩, h6⟩ := hn
  simp only [List.mem_append, not_or] at h1
  refine ⟨h1.1, h1.2.1, h1.2.2, h3, ?_, h2, h4, ?_⟩
  · intro x hx
    exact ⟨fun hp => h6 hp (List.mem_append_left _ hx), fun hp => h5 hx hp⟩
  · intro x hx hp
    exact h6 hx (List.mem_append_right _ hp)

theorem mem_addrs_node {a : Nat} {ks : List K} {pre post : List (BT K V)} {c : BT K V}
    {x : Nat} :
    x ∈ (BT.node a ks (pre ++ c :: post)).addrs ↔
      x = a ∨ x ∈ BT.addrsL pre ∨ x ∈ c.addrs ∨ x ∈ BT.addrsL post := by
  rw [addrs_node_split]
  simp

theorem Rep_node_build {h : Heap K V} {a : Nat} {ks : List K} {cs : List (BT K V)}
    {nd : Node K V} (ha : h a = some nd) (hl : nd.IS_LEAF = false) (hk : nd.keyList = ks)
    (hp : (List.range cs.length).map nd.ptr = cs.map (fun t => some t.addr))
    (hc : ∀ t ∈ cs, Rep h t) : Rep h (.node a ks cs) :=
  Rep.node ha hl hk hp hc

theorem Rep_list_frame {h h1 : Heap K V} {l : List (BT K V)} (hr : ∀ t ∈ l, Rep h t)
    (hf : ∀ x ∈ BT.addrsL l, core (h1 x) = core (h x)) : ∀ t ∈ l, Rep h1 t := by
  intro t ht
  exact Rep_frame (hr t ht) (fun x hx => hf x (mem_addrsL.2 ⟨t, ht, hx⟩))

theorem core_setPtr_leaf {nd : Node K V} (hl : nd.IS_LEAF = true) (i : Nat) (v : Option Nat) :
    core (some { nd with ptr := Function.update nd.ptr i v }) = core (some nd) := by
  simp [core, hl]

theorem links_leaf_of_some {x : Option (Node K V)} {p n : Option Nat}
    (h : links x = some (true, p, n)) :
    ∃ nd, x = some nd ∧ nd.IS_LEAF = true ∧ nd.ptr 0 = p ∧ nd.ptr 1 = n := by
  cases x with
  | none => simp [links] at h
  | some nd =>
    simp only [links, Option.map_some', Option.some.injEq, Prod.mk.injEq] at h
    exact ⟨nd, rfl, h.1, h.2.1, h.2.2⟩

end RepParts

section UpLoopSteps

variable {K V : Type} [LinearOrder K]

theorem upLoop_cons_ok {order : Nat} (fr : Fresh K V) {h : Heap K V} {node parent nx : Nat}
    {stk : List Nat} {nd : Node K V} (hn : h node = some nd) (hlt : nd.n < order) :
    upLoop order fr (parent :: stk) node h nx = some (h, nx, none) := by
  have : ¬ order ≤ nd.n := by omega
  simp [upLoop, hn, Node.isUpOver, this]

theorem upLoop_cons_over {order : Nat} (fr : Fresh K V) {h h1 : Heap K V}
    {node parent nx : Nat} {stk : List Nat} {nd : Node K V} (hn : h node = some nd)
    (hge : order ≤ nd.n) (hadj : adjustNodeForUpOver order fr h nx node parent = some h1) :
    upLoop order fr (parent :: stk) node h nx = upLoop order fr stk parent h1 (nx + 1) := by
  simp [upLoop, hn, Node.isUpOver, hge, hadj]

end UpLoopSteps

section MainUp

variable {K V : Type} [LinearOrder K]

omit [LinearOrder K] in
theorem step_keep_rep {h0 h1 : Heap K V} {a nx : Nat} {ks : List K}
    {pre post : List (BT K V)} {c c1 : BT K V}
    (hr0 : Rep h0 (.node a ks (pre ++ c :: post)))
    (hnd : (BT.node a ks (pre ++ c :: post)).addrs.Nodup)
    (hlt : ∀ x ∈ (BT.node a ks (pre ++ c :: post)).addrs, x < nx)
    (haddr : c1.addr = c.addr) (hr1 : Rep h1 c1)
    (hf : ∀ x, x ∉ c.addrs → x < nx → core (h1 x) = core (h0 x)) :
    Rep h1 (.node a ks (pre ++ c1 :: post)) := by
  obtain ⟨nd, ha, hl, hk, hp, -, hpre, hpost⟩ := Rep_node_parts hr0
  obtain ⟨n1, n2, n3, n4, n5, n6, n7, n8⟩ := nodup_node_parts hnd
  have hca : core (h1 a) = some nd := by
    rw [hf a n2 (hlt a (mem_addrs_node.2 (Or.inl rfl))), ha]
    simp [core, hl]
  refine Rep_node_build (core_eq_some_of_internal hca hl) hl hk ?_ ?_
  · simp only [List.length_append, List.length_cons, List.map_append, List.map_cons] at hp ⊢
    rw [haddr]
    exact hp
  · intro t ht
    rcases List.mem_append.1 ht with ht | ht
    · refine Rep_frame (hpre t ht) (fun x hx => ?_)
      have hxm : x ∈ BT.addrsL pre := mem_addrsL.2 ⟨t, ht, hx⟩
      exact hf x (fun hc => (n5 x hc).1 hxm)
        (hlt x (mem_addrs_node.2 (Or.inr (Or.inl hxm))))
    · rcases List.mem_cons.1 ht with rfl | ht
      · exact hr1
      · refine Rep_frame (hpost t ht) (fun x hx => ?_)
        have hxm : x ∈ BT.addrsL post := mem_addrsL.2 ⟨t, ht, hx⟩
        exact hf x (fun hc => (n5 x hc).2 hxm)
          (hlt x (mem_addrs_node.2 (Or.inr (Or.inr (Or.inr hxm)))))

omit [LinearOrder K] in
theorem keys_at_split {nd : Node K V} {kl kr : List K} {s : K} {m : Nat}
    (hk : nd.keyList = kl ++ s :: kr) (hm : kl.length = m) : nd.keys m = s := by
  have hlt : m < nd.keyList.length := by rw [hk]; simp; omega
  have h2 : nd.keyList[m]? = some s := by
    rw [hk, ← hm, List.getElem?_append_right (le_refl _)]
    simp
  rw [List.getElem?_eq_getElem hlt, keyList_getElem] at h2
  exact Option.some.inj h2

omit [LinearOrder K] in
theorem entries_at_split {nd : Node K V} {el er : List (K × V)} {e : K × V} {m : Nat}
    (hk : nd.entries = el ++ e :: er) (hm : el.length = m) : nd.keys m = e.1 := by
  have hk' : nd.keyList = el.map Prod.fst ++ e.1 :: er.map Prod.fst := by
    rw [← entries_map_fst, hk]; simp
  exact keys_at_split hk' (by simpa using hm)

/-- Parent step of `maintainAfterInsert` when the child is an overflowing leaf. -/
theorem step_split_leaf {order : Nat} (ho : 3 ≤ order) (fr : Fresh K V) (L1 L2 : List Nat)
    {h0 h1 : Heap K V}
    {a b nx nx1 : Nat} {kpre kpost : List K} {pre post : List (BT K V)} {c : BT K V}
    {el er : List (K × V)} {e : K × V}
    (hr0 : Rep h0 (.node a (kpre ++ kpost) (pre ++ c :: post)))
    (hlen : kpre.length = pre.length)
    (hcs : (pre ++ c :: post).length = (kpre ++ kpost).length + 1)
    (hnd : (BT.node a (kpre ++ kpost) (pre ++ c :: post)).addrs.Nodup)
    (hlt : ∀ x ∈ (BT.node a (kpre ++ kpost) (pre ++ c :: post)).addrs, x < nx)
    (hnx : nx ≤ nx1) (hb : c.addr = b) (hr1 : Rep h1 (.leaf b (el ++ e :: er)))
    (hel : el.length = order / 2) (htot : (el ++ e :: er).length = order)
    (hf : ∀ x, x ∉ c.addrs → x < nx → core (h1 x) = core (h0 x))
    (hsorted : (kpre ++ kpost).Sorted (· < ·)) (hcnt : (kpre ++ kpost).length < order)
    (hsep1 : ∀ x ∈ kpre, x < e.1) (hsep2 : ∀ x ∈ kpost, e.1 ≤ x)
    (hch : Chain h1 none (L1 ++ b :: L2) none) (hchnd : (L1 ++ b :: L2).Nodup)
    (hL : ∀ x, x ∈ L1 ∨ x ∈ L2 → x < nx ∧ x ≠ a) :
    ∃ h2, adjustNodeForUpOver order fr h1 nx1 b a = some h2 ∧
      Rep h2 (.node a (kpre ++ e.1 :: kpost)
        (pre ++ .leaf b el :: .leaf nx1 (e :: er) :: post)) ∧
      (∀ x, x ∉ (BT.node a (kpre ++ kpost) (pre ++ c :: post)).addrs → x < nx →
        core (h2 x) = core (h0 x)) ∧
      Chain h2 none (L1 ++ b :: nx1 :: L2) none := by
  obtain ⟨nd, ha, hl, hk, hp, -, hpre, hpost⟩ := Rep_node_parts hr0
  obtain ⟨n1, n2, n3, n4, n5, n6, n7, n8⟩ := nodup_node_parts hnd
  have hbmem : b ∈ c.addrs := hb ▸ addr_mem_addrs c
  have halt : a < nx := hlt a (mem_addrs_node.2 (Or.inl rfl))
  have hblt : b < nx := hlt b (mem_addrs_node.2 (Or.inr (Or.inr (Or.inl hbmem))))
  have hab : a ≠ b := fun e => n2 (e ▸ hbmem)
  have hca : core (h1 a) = some nd := by
    rw [hf a n2 halt, ha]
    simp [core, hl]
  have h1a := core_eq_some_of_internal hca hl
  -- the leaf cell
  cases hr1 with
  | @leaf _ _ cn hcb hcl hce =>
  have hcn : cn.n = order := by rw [← entries_length, hce, htot]
  have hkey : cn.keys (order / 2) = e.1 := entries_at_split hce hel
  have hndn : nd.n = (kpre ++ kpost).length := by rw [← hk, keyList_length]
  -- the chain around `b`
  have hch' := hch
  rw [Chain_append, Chain_cons] at hch'
  obtain ⟨cnb, hcnb, -, hp0, hp1⟩ := links_leaf_of_some hch'.2.1
  have hcnb' : cnb = cn := by rw [hcb] at hcnb; exact (Option.some.inj hcnb).symm
  subst hcnb'
  have hb2 : b ∉ L2 := (List.nodup_cons.1 (List.nodup_append.1 hchnd).2.1).1
  have hnext : ∀ x, cnb.ptr 1 = some x →
      x ∈ L2 ∧ ∃ ndc, h1 x = some ndc ∧ ndc.IS_LEAF = true := by
    intro x hx
    rw [hp1] at hx
    cases L2 with
    | nil => simp [firstOr] at hx
    | cons y L2 =>
      simp only [firstOr, Option.some.injEq] at hx
      subst hx
      have := hch'.2.2
      rw [Chain_cons] at this
      obtain ⟨ndc, q1, q2, -, -⟩ := links_leaf_of_some this.1
      exact ⟨List.mem_cons_self _ _, ndc, q1, q2⟩
  obtain ⟨h2, p1, e1, e2, e3, e4, e5, e6, e7, ⟨nb, f1, f2, f3, f4, f5, f6⟩, e8, e9⟩ :=
    adjust_leaf_cells fr nx1 a b (pre.map (fun t => some t.addr))
      (post.map (fun t => some t.addr)) ho hcb hcl hcn h1a hl (by omega) hk hsorted
      (by
        have : nd.n + 1 = (pre ++ c :: post).length := by omega
        rw [this, hp, hb])
      (by simpa using hlen) (by rw [hkey]; exact hsep1) (by rw [hkey]; exact hsep2)
      hab (by omega) (by omega)
      (fun x hx => by
        obtain ⟨hx2, ndc, hndc, -⟩ := hnext x hx
        refine ⟨fun e => hb2 (e ▸ hx2), ?_, (hL x (Or.inr hx2)).2, ndc, hndc⟩
        have := (hL x (Or.inr hx2)).1
        omega)
  have hcore2 : ∀ x, x ≠ a → x ≠ b → x ≠ nx1 → core (h2 x) = core (h1 x) := by
    intro x hxa hxb hxn
    by_cases hx : cnb.ptr 1 = some x
    · obtain ⟨-, ndc, hndc, hleaf⟩ := hnext x hx
      rw [e8 x ndc hx hndc, hndc]
      exact core_setPtr_leaf hleaf _ _
    · rw [e9 x hxa hxb hxn hx]
  have hcore0 : ∀ x, x ∉ c.addrs → x ≠ a → x < nx → core (h2 x) = core (h0 x) := by
    intro x hxc hxa hxl
    rw [hcore2 x hxa (fun e => hxc (e ▸ hbmem)) (by omega)]
    exact hf x hxc hxl
  refine ⟨h2, e1, ?_, ?_, ?_⟩
  · refine Rep_node_build e2 e3 (by rw [e5, hkey]) ?_ ?_
    · have : (pre ++ BT.leaf b el :: BT.leaf nx1 (e :: er) :: post).length = p1.n + 1 := by
        simp only [List.length_append, List.length_cons] at hcs hndn ⊢
        omega
      rw [this, e6]
      simp [BT.addr]
    · intro t ht
      rcases List.mem_append.1 ht with ht | ht
      · refine Rep_frame (hpre t ht) (fun x hx => ?_)
        have hxm : x ∈ BT.addrsL pre := mem_addrsL.2 ⟨t, ht, hx⟩
        exact hcore0 x (fun hc => (n5 x hc).1 hxm) (fun e => n1 (e ▸ hxm))
          (hlt x (mem_addrs_node.2 (Or.inr (Or.inl hxm))))
      · rcases List.mem_cons.1 ht with rfl | ht
        · refine Rep.leaf e7 hcl ?_
          simp only [Node.entries]
          rw [map_range_take _ (fun i => (cnb.keys i, cnb.values i)) (order / 2) cnb.n
            (by omega) (fun x _ => rfl)]
          have := hce
          simp only [Node.entries] at this
          rw [this, ← hel]
          simp
        · rcases List.mem_cons.1 ht with rfl | ht
          · refine Rep.leaf f1 f2 ?_
            simp only [Node.entries, f3]
            have hd := map_range_drop (fun i => (nb.keys i, nb.values i))
              (fun i => (cnb.keys i, cnb.values i)) (order / 2) order
              (fun x hx => by simp only [(f4 x hx).1, (f4 x hx).2])
            rw [hd]
            have := hce
            simp only [Node.entries, hcn] at this
            rw [this, ← hel]
            simp
          · refine Rep_frame (hpost t ht) (fun x hx => ?_)
            have hxm : x ∈ BT.addrsL post := mem_addrsL.2 ⟨t, ht, hx⟩
            exact hcore0 x (fun hc => (n5 x hc).2 hxm) (fun e => n3 (e ▸ hxm))
              (hlt x (mem_addrs_node.2 (Or.inr (Or.inr (Or.inr hxm)))))
  · intro x hx hxl
    rw [mem_addrs_node] at hx
    simp only [not_or] at hx
    exact hcore0 x hx.2.2.1 hx.1 hxl
  · refine Chain_insert_after (cnb.ptr 0) (cnb.ptr 1) hch hchnd ?_ ?_ ?_ ?_ ?_ ?_
    · intro hmem
      rcases List.mem_append.1 hmem with hm | hm
      · have := (hL nx1 (Or.inl hm)).1
        omega
      · rcases List.mem_cons.1 hm with hm | hm
        · omega
        · have := (hL nx1 (Or.inr hm)).1
          omega
    · simp [links, hcb, hcl]
    · simp [links, e7, hcl]
    · simp [links, f1, f2, f5, f6]
    · intro x hx pc nc hlx
      obtain ⟨-, ndc, hndc, -⟩ := hnext x hx
      rw [e8 x ndc hx hndc]
      rw [hndc] at hlx
      simp only [links, Option.map_some', Option.some.injEq, Prod.mk.injEq] at hlx ⊢
      simp [hlx.1, hlx.2.2]
    · intro x hx hne
      have hxa := (hL x hx).2
      have hxl := (hL x hx).1
      have hxb : x ≠ b := by
        rintro rfl
        rcases hx with hx | hx
        · exact (List.nodup_append.1 hchnd).2.2 hx (List.mem_cons_self _ _)
        · exact hb2 hx
      rw [e9 x hxa hxb (by omega) hne]

/-- Parent step of `maintainAfterInsert` when the child is an overflowing internal node. -/
theorem step_split_node {order : Nat} (ho : 3 ≤ order) (fr : Fresh K V) {h0 h1 : Heap K V}
    {a b nx nx1 : Nat} {kpre kpost : List K} {pre post : List (BT K V)} {c : BT K V}
    {kl kr : List K} {s : K} {cl cr : List (BT K V)}
    (hr0 : Rep h0 (.node a (kpre ++ kpost) (pre ++ c :: post)))
    (hlen : kpre.length = pre.length)
    (hcs : (pre ++ c :: post).length = (kpre ++ kpost).length + 1)
    (hnd : (BT.node a (kpre ++ kpost) (pre ++ c :: post)).addrs.Nodup)
    (hlt : ∀ x ∈ (BT.node a (kpre ++ kpost) (pre ++ c :: post)).addrs, x < nx)
    (hnx : nx ≤ nx1) (hb : c.addr = b)
    (hr1 : Rep h1 (.node b (kl ++ s :: kr) (cl ++ cr)))
    (hkl : kl.length = order / 2) (hcl : cl.length = order / 2 + 1)
    (htot : (kl ++ s :: kr).length = order)
    (hccs : (cl ++ cr).length = (kl ++ s :: kr).length + 1)
    (hnd1 : (BT.node b (kl ++ s :: kr) (cl ++ cr)).addrs.Nodup)
    (hmem1 : ∀ x ∈ (BT.node b (kl ++ s :: kr) (cl ++ cr)).addrs, x ≠ a ∧ x < nx1)
    (hf : ∀ x, x ∉ c.addrs → x < nx → core (h1 x) = core (h0 x))
    (hsorted : (kpre ++ kpost).Sorted (· < ·)) (hcnt : (kpre ++ kpost).length < order)
    (hsep1 : ∀ x ∈ kpre, x < s) (hsep2 : ∀ x ∈ kpost, s ≤ x) :
    ∃ h2, adjustNodeForUpOver order fr h1 nx1 b a = some h2 ∧
      Rep h2 (.node a (kpre ++ s :: kpost)
        (pre ++ .node b kl cl :: .node nx1 kr cr :: post)) ∧
      (∀ x, x ∉ (BT.node a (kpre ++ kpost) (pre ++ c :: post)).addrs → x < nx →
        core (h2 x) = core (h0 x)) ∧
      (∀ x, x ≠ a → x ≠ b → x ≠ nx1 → h2 x = h1 x) := by
  obtain ⟨nd, ha, hl, hk, hp, -, hpre, hpost⟩ := Rep_node_parts hr0
  obtain ⟨n1, n2, n3, n4, n5, n6, n7, n8⟩ := nodup_node_parts hnd
  have hbmem : b ∈ c.addrs := hb ▸ addr_mem_addrs c
  have halt : a < nx := hlt a (mem_addrs_node.2 (Or.inl rfl))
  have hblt : b < nx := hlt b (mem_addrs_node.2 (Or.inr (Or.inr (Or.inl hbmem))))
  have hab : a ≠ b := fun e => n2 (e ▸ hbmem)
  have hca : core (h1 a) = some nd := by
    rw [hf a n2 halt, ha]
    simp [core, hl]
  have h1a := core_eq_some_of_internal hca hl
  have hndn : nd.n = (kpre ++ kpost).length := by rw [← hk, keyList_length]
  cases hr1 with
  | @node _ _ _ cn hcb hcleaf hck hcp hcc =>
  have hcn : cn.n = order := by rw [← keyList_length, hck, htot]
  have hkey : cn.keys (order / 2) = s := keys_at_split hck hkl
  obtain ⟨h2, p1, e1, e2, e3, e4, e5, e6, ⟨na, g1, g2, g3, g4, g5⟩,
      ⟨nb, f1, f2, f3, f4, f5⟩, e9⟩ :=
    adjust_internal_cells fr nx1 a b (pre.map (fun t => some t.addr))
      (post.map (fun t => some t.addr)) ho hcb hcleaf hcn h1a hl (by omega) hk hsorted
      (by
        have : nd.n + 1 = (pre ++ c :: post).length := by omega
        rw [this, hp, hb])
      (by simpa using hlen) (by rw [hkey]; exact hsep1) (by rw [hkey]; exact hsep2)
      hab (by omega) (by omega)
  have hcore0 : ∀ x, x ∉ c.addrs → x ≠ a → x < nx → core (h2 x) = core (h0 x) := by
    intro x hxc hxa hxl
    rw [e9 x hxa (fun e => hxc (e ▸ hbmem)) (by omega)]
    exact hf x hxc hxl
  have hnd1' := hnd1
  simp only [BT.addrs, List.nodup_cons, addrsL_append, List.mem_append, not_or] at hnd1'
  have hkids : ∀ t ∈ cl ++ cr, Rep h2 t := by
    intro t ht
    refine Rep_frame (hcc t ht) (fun x hx => ?_)
    have hxm : x ∈ BT.addrsL (cl ++ cr) := mem_addrsL.2 ⟨t, ht, hx⟩
    have hxa : x ∈ (BT.node b (kl ++ s :: kr) (cl ++ cr)).addrs := by
      simp only [BT.addrs, List.mem_cons]
      exact Or.inr hxm
    have hxb : x ≠ b := by
      rintro rfl
      rw [addrsL_append, List.mem_append] at hxm
      rcases hxm with hxm | hxm
      · exact hnd1'.1.1 hxm
      · exact hnd1'.1.2 hxm
    rw [e9 x (hmem1 x hxa).1 hxb (by have := (hmem1 x hxa).2; omega)]
  have hcp' : (List.range (order + 1)).map cn.ptr
      = cl.map (fun t => some t.addr) ++ cr.map (fun t => some t.addr) := by
    have : (cl ++ cr).length = order + 1 := by rw [hccs, htot]
    rw [this] at hcp
    simpa using hcp
  refine ⟨h2, e1, ?_, ?_, e9⟩
  · refine Rep_node_build e2 e3 (by rw [e5, hkey]) ?_ ?_
    · have : (pre ++ BT.node b kl cl :: BT.node nx1 kr cr :: post).length = p1.n + 1 := by
        simp only [List.length_append, List.length_cons] at hcs hndn ⊢
        omega
      rw [this, e6]
      simp [BT.addr]
    · intro t ht
      rcases List.mem_append.1 ht with ht | ht
      · refine Rep_frame (hpre t ht) (fun x hx => ?_)
        have hxm : x ∈ BT.addrsL pre := mem_addrsL.2 ⟨t, ht, hx⟩
        exact hcore0 x (fun hc => (n5 x hc).1 hxm) (fun e => n1 (e ▸ hxm))
          (hlt x (mem_addrs_node.2 (Or.inr (Or.inl hxm))))
      · rcases List.mem_cons.1 ht with rfl | ht
        · refine Rep_node_build g1 g2 ?_ ?_ (fun t ht => hkids t (List.mem_append_left _ ht))
          · simp only [Node.keyList, g3, g4]
            rw [map_range_take cn.keys cn.keys (order / 2) cn.n (by omega) (fun x _ => rfl)]
            have := hck
            simp only [Node.keyList] at this
            rw [this, ← hkl]
            simp
          · rw [hcl, map_range_take na.ptr cn.ptr (order / 2 + 1) (order + 1) (by omega)
              (fun x hx => g5 x (by omega)), hcp', ← hcl]
            simp
        · rcases List.mem_cons.1 ht with rfl | ht
          · have hcrl : cr.length = order - (order / 2 + 1) + 1 := by
              simp only [List.length_append, List.length_cons] at hccs htot
              omega
            refine Rep_node_build f1 f2 ?_ ?_
              (fun t ht => hkids t (List.mem_append_right _ ht))
            · simp only [Node.keyList, f3]
              have hd := map_range_drop nb.keys cn.keys (order / 2 + 1) order
                (fun x hx => f4 x hx)
              rw [hd]
              have := hck
              simp only [Node.keyList, hcn] at this
              rw [this, ← hkl]
              simp
            · have hd := map_range_drop nb.ptr cn.ptr (order / 2 + 1) (order + 1)
                (fun x hx => f5 x (by omega))
              have he : order + 1 - (order / 2 + 1) = cr.length := by omega
              rw [he] at hd
              rw [hd, hcp', ← hcl]
              simp
          · refine Rep_frame (hpost t ht) (fun x hx => ?_)
            have hxm : x ∈ BT.addrsL post := mem_addrsL.2 ⟨t, ht, hx⟩
            exact hcore0 x (fun hc => (n5 x hc).2 hxm) (fun e => n3 (e ▸ hxm))
              (hlt x (mem_addrs_node.2 (Or.inr (Or.inr (Or.inr hxm)))))
  · intro x hx hxl
    rw [mem_addrs_node] at hx
    simp only [not_or] at hx
    exact hcore0 x hx.2.2.1 hx.1 hxl

end MainUp

section MainInduction

variable {K V : Type} [LinearOrder K]

omit [LinearOrder K] in
theorem leaves_leaf (a : Nat) (es : List (K × V)) : (BT.leaf a es).leaves = [a] := rfl

omit [LinearOrder K] in
theorem leaves_node_two (a : Nat) (ks : List K) (pre post : List (BT K V)) (l r : BT K V) :
    (BT.node a ks (pre ++ l :: r :: post)).leaves
      = (BT.leafListL pre).map Prod.fst ++ (l.leaves ++ (r.leaves
          ++ (BT.leafListL post).map Prod.fst)) := by
  simp [BT.leaves, BT.leafList, leafListL_append, BT.leafListL]

omit [LinearOrder K] in
theorem leaves_node_cat (a b : Nat) (_ks ks1 : List K) (cl cr : List (BT K V)) (nx : Nat)
    (kl kr : List K) :
    (BT.node b ks1 (cl ++ cr)).leaves = (BT.node a kl cl).leaves ++ (BT.node nx kr cr).leaves := by
  simp [BT.leaves, BT.leafList, leafListL_append]

theorem Good_zero_leaves {order cmin cmax : Nat} {lo : WithBot K} {hi : WithTop K}
    {c : BT K V} (h : Good order 0 cmin cmax lo hi c) : c.leaves = [c.addr] := by
  cases c with
  | leaf a es => rfl
  | node a ks cs => simp [Good] at h

/-- The loop of `maintainAfterInsert` on the part of the path inside a subtree: it performs
the splits described by `Ins`, keeps the heap a representation of the result, and either
leaves through `return` or arrives at the top node of the subtree. -/
theorem upLoop_spec {order : Nat} (ho : 3 ≤ order) (fr : Fresh K V) (key : K) (value : V)
    {lf : Nat} {ndl ndl1 : Node K V} {h0 : Heap K V} {nx : Nat}
    (hlf : h0 lf = some ndl) (habs : key ∉ ndl.keyList)
    (hins : ndl.insert order key value = some ndl1) :
    ∀ {bt : BT K V} {s : List Nat}, Path key bt s lf →
    ∀ {d cmin cmax : Nat} {lo : WithBot K} {hi : WithTop K} (Lpre Lpost : List Nat),
      Good order d cmin cmax lo hi bt → cmax < order → lo ≤ (key : WithBot K) →
      (key : WithTop K) < hi → Rep h0 bt → bt.addrs.Nodup → (∀ a ∈ bt.addrs, a < nx) →
      Chain h0 none (Lpre ++ (bt.leaves ++ Lpost)) none →
      (Lpre ++ (bt.leaves ++ Lpost)).Nodup →
      (∀ x, x ∈ Lpre ∨ x ∈ Lpost → x < nx ∧ x ∉ bt.addrs) →
      ∃ bt1 nx1 h1, Ins order key value bt nx bt1 nx1 ∧ Rep h1 bt1 ∧
        (∀ x, x ∉ bt.addrs → x < nx → core (h1 x) = core (h0 x)) ∧
        Chain h1 none (Lpre ++ (bt1.leaves ++ Lpost)) none ∧
        ∀ stk,
          upLoop order fr (s ++ stk) lf (Function.update h0 lf (some ndl1)) nx
              = upLoop order fr stk bt.addr h1 nx1 ∨
            (bt1.count < order ∧
              upLoop order fr (s ++ stk) lf (Function.update h0 lf (some ndl1)) nx
                = some (h1, nx1, none)) := by
  intro bt s hpath
  induction hpath with
  | leaf a es =>
    intro d cmin cmax lo hi Lpre Lpost hg hc hlo hhi hr hnd hlt hch hchnd hL
    cases d with
    | succ d => simp [Good] at hg
    | zero =>
      simp only [Good] at hg
      obtain ⟨g1, g2, g3, g4⟩ := hg
      cases hr with
      | @leaf _ _ nd ha hl he =>
        have hnd' : nd = ndl := by rw [hlf] at ha; exact (Option.some.inj ha).symm
        subst hnd'
        have hn : nd.n < order := by rw [← entries_length, he]; omega
        have hsk : nd.sortedKeys := by
          rw [sortedKeys_iff, ← entries_map_fst, he]; exact g3
        obtain ⟨nd1, arg, i1, i2, i3, i4, i5, i6⟩ := Node.insert_spec key value hl hn hsk
        have hnd1 : nd1 = ndl1 := by rw [hins] at i1; exact (Option.some.inj i1).symm
        subst hnd1
        have hlow1 : ∀ e ∈ es.take arg, e.1 < key := by
          intro e hem
          have : e.1 ∈ nd.keyList.take arg := by
            rw [← entries_map_fst, he, ← List.map_take]
            exact List.mem_map_of_mem _ hem
          obtain ⟨i, hi1, hi2⟩ := (mem_take_keyList i2.1).1 this
          rw [← hi2]
          exact i2.2.1 i hi1
        have hlow2 : ∀ e ∈ es.drop arg, key < e.1 := by
          intro e hem
          have hmem : e.1 ∈ nd.keyList.drop arg := by
            rw [← entries_map_fst, he, ← List.map_drop]
            exact List.mem_map_of_mem _ hem
          obtain ⟨i, hi1, hi2, hi3⟩ := mem_drop_keyList.1 hmem
          have hle : key ≤ e.1 := by rw [← hi3]; exact i2.2.2 i hi1 hi2
          refine lt_of_le_of_ne hle ?_
          intro heq
          exact habs (heq ▸ List.mem_of_mem_drop hmem)
        have hI := @Ins.leaf K V _ order key value a (es.take arg)
          (es.drop arg) nx hlow1 hlow2
        rw [List.take_append_drop] at hI
        refine ⟨_, nx, Function.update h0 a (some nd1), hI, ?_, ?_, ?_, ?_⟩
        · exact Rep.leaf (Function.update_same _ _ _) i3 (by rw [i6, he])
        · intro x hx _
          rw [Function.update_noteq (fun e => hx (by simp [BT.addrs, e]))]
        · refine Chain_frame _ none none hch (fun x _ => ?_)
          by_cases hxa : x = a
          · subst hxa
            simp [links, ha, i3, hl, i4]
          · rw [Function.update_noteq hxa]
        · intro stk
          exact Or.inl rfl
  | node a kpre kpost pre post c s lf hlen hk1 hk2 hp ih =>
    intro d cmin cmax lo hi Lpre Lpost hg hc hlo hhi hr hnd hlt hch hchnd hL
    cases d with
    | zero => simp [Good] at hg
    | succ d =>
      simp only [Good] at hg
      obtain ⟨g1, g2, g3, g4, g5⟩ := hg
      obtain ⟨f1, -, -⟩ := Kids_focus hlen g5
      have hcs := Kids_length _ _ _ _ g5
      have hkey1 := lastB_le_key lo kpre key hlo hk1
      have hkey2 := key_lt_headB hi kpost key hhi hk2
      obtain ⟨nd, ha, hl, hk, hpp, hrc, hpre, hpost⟩ := Rep_node_parts hr
      obtain ⟨n1, n2, n3, n4, n5, n6, n7, n8⟩ := nodup_node_parts hnd
      have hltc : ∀ x ∈ c.addrs, x < nx :=
        fun x hx => hlt x (mem_addrs_node.2 (Or.inr (Or.inr (Or.inl hx))))
      have halt : a < nx := hlt a (mem_addrs_node.2 (Or.inl rfl))
      have hleq : Lpre ++ ((BT.node a (kpre ++ kpost) (pre ++ c :: post)).leaves ++ Lpost)
          = (Lpre ++ (BT.leafListL pre).map Prod.fst) ++ (c.leaves
              ++ ((BT.leafListL post).map Prod.fst ++ Lpost)) := by
        rw [leaves_node_split]
        simp only [List.append_assoc]
      rw [hleq] at hch hchnd
      have hL' : ∀ x, x ∈ Lpre ++ (BT.leafListL pre).map Prod.fst ∨
          x ∈ (BT.leafListL post).map Prod.fst ++ Lpost → x < nx ∧ x ∉ c.addrs ∧ x ≠ a := by
        intro x hx
        rcases hx with hx | hx
        · rcases List.mem_append.1 hx with hx | hx
          · have := hL x (Or.inl hx)
            rw [mem_addrs_node] at this
            simp only [not_or] at this
            exact ⟨this.1, this.2.2.2.1, this.2.1⟩
          · have hxm := leavesL_subset_addrsL pre x hx
            exact ⟨hlt x (mem_addrs_node.2 (Or.inr (Or.inl hxm))),
              fun hc => (n5 x hc).1 hxm, fun e => n1 (e ▸ hxm)⟩
        · rcases List.mem_append.1 hx with hx | hx
          · have hxm := leavesL_subset_addrsL post x hx
            exact ⟨hlt x (mem_addrs_node.2 (Or.inr (Or.inr (Or.inr hxm)))),
              fun hc => (n5 x hc).2 hxm, fun e => n3 (e ▸ hxm)⟩
          · have := hL x (Or.inr hx)
            rw [mem_addrs_node] at this
            simp only [not_or] at this
            exact ⟨this.1, this.2.2.2.1, this.2.1⟩
      obtain ⟨c1, nx1, h1, hI, hr1, hf1, hch1, hloop⟩ :=
        ih hlf _ _ f1 (by omega) hkey1 hkey2 hrc n4 hltc hch hchnd
          (fun x hx => ⟨(hL' x hx).1, (hL' x hx).2.1⟩)
      have haddr := Ins_addr hI
      have hnx := Ins_next hI
      have hg1 := Ins_good ho hI f1 (by omega) hkey1 hkey2
      obtain ⟨cn, hcn, hcnn⟩ := Rep_cell hr1
      rw [haddr] at hcn
      have hbtcount : (kpre ++ kpost).length < order := by omega
      -- the outcome when the child does not overflow
      have keepCase : c1.count < order →
          ∃ bt1 nx1' h1', Ins order key value (.node a (kpre ++ kpost) (pre ++ c :: post)) nx
            bt1 nx1' ∧ Rep h1' bt1 ∧
            (∀ x, x ∉ (BT.node a (kpre ++ kpost) (pre ++ c :: post)).addrs → x < nx →
              core (h1' x) = core (h0 x)) ∧
            Chain h1' none (Lpre ++ (bt1.leaves ++ Lpost)) none ∧
            bt1.count < order ∧ h1' = h1 ∧ nx1' = nx1 ∧
            bt1.addr = a := by
        intro hlt1
        refine ⟨_, nx1, h1, Ins.keep a kpre kpost pre post c c1 nx nx1 hlen hk1 hk2 hI hlt1,
          step_keep_rep hr hnd hlt haddr hr1 hf1, ?_, ?_, hbtcount, rfl, rfl, rfl⟩
        · intro x hx hxl
          rw [mem_addrs_node] at hx
          simp only [not_or] at hx
          exact hf1 x hx.2.2.1 hxl
        · rw [leaves_node_split]
          simpa only [List.append_assoc] using hch1
      by_cases hover : order ≤ c1.count
      · -- the child overflows
        have hcnt1 : c1.count = order := by
          have := (Good_count hg1).2
          omega
        obtain ⟨s1, s2⟩ := lastB_ge lo kpre (List.pairwise_append.1 g3).1
          (fun x hx => (g4 x (List.mem_append_left _ hx)).1)
        obtain ⟨t1, t2⟩ := headB_le hi kpost (List.pairwise_append.1 g3).2.1
          (fun x hx => (g4 x (List.mem_append_right _ hx)).2)
        cases c1 with
        | leaf b es1 =>
          cases d with
          | succ d => simp [Good] at hg1
          | zero =>
            simp only [BT.count] at hcnt1
            change b = c.addr at haddr
            have hes : es1 = es1.take (order / 2) ++ (es1.drop (order / 2)) :=
              (List.take_append_drop _ _).symm
            obtain ⟨e, er, hdrop⟩ : ∃ e er, es1.drop (order / 2) = e :: er := by
              cases hd : es1.drop (order / 2) with
              | nil =>
                have := congrArg List.length hd
                simp at this
                omega
              | cons e er => exact ⟨e, er, rfl⟩
            rw [hdrop] at hes
            have hel : (es1.take (order / 2)).length = order / 2 := by
              simp; omega
            generalize helv : es1.take (order / 2) = el at hes hel
            subst hes
            have htot : (el ++ e :: er).length = order := hcnt1
            obtain ⟨q1, q2, q3, q4⟩ := Good_leaf_split nx1 ho hg1 hel htot
            have hsep1 : ∀ x ∈ kpre, x < e.1 := fun x hx =>
              WithBot.coe_lt_coe.1 (lt_of_le_of_lt (s2 x hx) q3)
            have hsep2 : ∀ x ∈ kpost, e.1 ≤ x := fun x hx =>
              le_of_lt (WithTop.coe_lt_coe.1 (lt_of_lt_of_le q4 (t2 x hx)))
            rw [leaves_leaf] at hch1
            obtain ⟨h2, a1, a2, a3, a4⟩ := step_split_leaf ho fr
              (Lpre ++ (BT.leafListL pre).map Prod.fst)
              ((BT.leafListL post).map Prod.fst ++ Lpost) hr hlen hcs hnd hlt hnx
              haddr.symm hr1 hel htot hf1 g3 hbtcount hsep1 hsep2
              (by simpa using hch1)
              (by
                rw [Good_zero_leaves f1, ← haddr] at hchnd
                simpa using hchnd)
              (fun x hx => ⟨(hL' x hx).1, (hL' x hx).2.2⟩)
            refine ⟨_, nx1 + 1, h2,
              Ins.splitLeaf a kpre kpost pre post c b _ er e nx nx1 hlen hk1 hk2 hI hel htot,
              a2, a3, ?_, ?_⟩
            · rw [leaves_node_two, leaves_leaf, leaves_leaf]
              simpa only [List.append_assoc, List.singleton_append, List.cons_append,
                List.nil_append] using a4
            · intro stk
              refine Or.inl ?_
              rcases hloop (a :: stk) with hl1 | hl1
              · rw [List.append_assoc, List.singleton_append, hl1]
                exact upLoop_cons_over fr hcn (by rw [hcnn]; simp [BT.count, hcnt1])
                  (by rw [← haddr]; exact a1)
              · exfalso
                have := hl1.1
                simp only [BT.count] at this
                omega
        | node b ks1 cs1 =>
          cases d with
          | zero => simp [Good] at hg1
          | succ d =>
            simp only [BT.count] at hcnt1
            change b = c.addr at haddr
            have hg1' := hg1
            simp only [Good] at hg1'
            have hcs1 := Kids_length _ _ _ _ hg1'.2.2.2.2
            have hks : ks1 = ks1.take (order / 2) ++ (ks1.drop (order / 2)) :=
              (List.take_append_drop _ _).symm
            obtain ⟨sk, kr, hdrop⟩ : ∃ sk kr, ks1.drop (order / 2) = sk :: kr := by
              cases hd : ks1.drop (order / 2) with
              | nil =>
                have := congrArg List.length hd
                simp at this
                omega
              | cons e er => exact ⟨e, er, rfl⟩
            rw [hdrop] at hks
            have hcsd : cs1 = cs1.take (order / 2 + 1) ++ cs1.drop (order / 2 + 1) :=
              (List.take_append_drop _ _).symm
            have hkl : (ks1.take (order / 2)).length = order / 2 := by
              simp; omega
            have hcl : (cs1.take (order / 2 + 1)).length = order / 2 + 1 := by
              simp; omega
            generalize hclv : cs1.take (order / 2 + 1) = cl at hcsd hcl
            generalize hcrv : cs1.drop (order / 2 + 1) = cr at hcsd
            generalize hklv : ks1.take (order / 2) = kl at hks hkl
            subst hks hcsd
            have htot : (kl ++ sk :: kr).length = order := hcnt1
            obtain ⟨q1, q2, q3, q4⟩ := Good_node_split nx1 ho hg1 hkl hcl htot
            have hsep1 : ∀ x ∈ kpre, x < sk := fun x hx =>
              WithBot.coe_lt_coe.1 (lt_of_le_of_lt (s2 x hx) q3)
            have hsep2 : ∀ x ∈ kpost, sk ≤ x := fun x hx =>
              le_of_lt (WithTop.coe_lt_coe.1 (lt_of_lt_of_le q4 (t2 x hx)))
            have hnd1 := Ins_nodup hI n4 hltc
            have hmem1 : ∀ x ∈ (BT.node b (kl ++ sk :: kr) (cl ++ cr)).addrs,
                x ≠ a ∧ x < nx1 := by
              intro x hx
              rcases (Ins_mem_addrs hI x).1 hx with h | h
              · exact ⟨fun e => n2 (e ▸ h), lt_of_lt_of_le (hltc x h) hnx⟩
              · exact ⟨by omega, h.2⟩
            obtain ⟨h2, a1, a2, a3, a4⟩ := step_split_node ho fr hr hlen hcs hnd hlt hnx
              haddr.symm hr1 hkl hcl htot hcs1 hnd1 hmem1 hf1 g3 hbtcount hsep1 hsep2
            refine ⟨_, nx1 + 1, h2,
              Ins.splitNode a kpre kpost pre post c b kl kr sk cl cr nx nx1 hlen hk1 hk2 hI
                hkl hcl htot,
              a2, a3, ?_, ?_⟩
            · rw [leaves_node_two, ← List.append_assoc (BT.node b kl cl).leaves,
                ← leaves_node_cat b b (kl ++ sk :: kr) (kl ++ sk :: kr) cl cr nx1 kl kr]
              refine Chain_frame _ none none
                (by simpa only [List.append_assoc] using hch1) (fun x hx => ?_)
              have hx' : x ≠ a ∧ x ≠ b ∧ x ≠ nx1 := by
                simp only [List.mem_append] at hx
                rcases hx with hx | (hx | hx | hx) | hx
                · have := hL' x (Or.inl (List.mem_append_left _ hx))
                  exact ⟨this.2.2, fun e => this.2.1 (e ▸ haddr ▸ addr_mem_addrs c),
                    by omega⟩
                · have := hL' x (Or.inl (List.mem_append_right _ hx))
                  exact ⟨this.2.2, fun e => this.2.1 (e ▸ haddr ▸ addr_mem_addrs c),
                    by omega⟩
                · have hxa := leaves_subset_addrs _ x hx
                  have hm := hmem1 x hxa
                  refine ⟨hm.1, ?_, by omega⟩
                  rintro rfl
                  have hn1' := hnd1
                  simp only [BT.addrs, List.nodup_cons] at hn1'
                  simp only [BT.leaves, BT.leafList] at hx
                  exact hn1'.1 (leavesL_subset_addrsL _ _ hx)
                · have := hL' x (Or.inr (List.mem_append_left _ hx))
                  exact ⟨this.2.2, fun e => this.2.1 (e ▸ haddr ▸ addr_mem_addrs c),
                    by omega⟩
                · have := hL' x (Or.inr (List.mem_append_right _ hx))
                  exact ⟨this.2.2, fun e => this.2.1 (e ▸ haddr ▸ addr_mem_addrs c),
                    by omega⟩
              rw [a4 x hx'.1 hx'.2.1 hx'.2.2]
            · intro stk
              refine Or.inl ?_
              rcases hloop (a :: stk) with hl1 | hl1
              · rw [List.append_assoc, List.singleton_append, hl1]
                exact upLoop_cons_over fr hcn (by rw [hcnn]; simp [BT.count, hcnt1])
                  (by rw [← haddr]; exact a1)
              · exfalso
                have := hl1.1
                simp only [BT.count] at this
                omega
      · -- the child does not overflow
        obtain ⟨bt1, nx1', h1', k1, k2, k3, k4, k5, rfl, rfl, k6⟩ := keepCase (by omega)
        refine ⟨bt1, _, _, k1, k2, k3, k4, ?_⟩
        intro stk
        refine Or.inr ⟨k5, ?_⟩
        rcases hloop (a :: stk) with hl1 | hl1
        · rw [List.append_assoc, List.singleton_append, hl1]
          exact upLoop_cons_ok fr hcn (by rw [hcnn]; omega)
        · rw [List.append_assoc, List.singleton_append]
          exact hl1.2

end MainInduction

section FindLemmas

variable {K V : Type} [LinearOrder K]

omit [LinearOrder K] in
theorem list_split_at {α : Type} (l : List α) (i : Nat) (hi : i < l.length) :
    ∃ pre c post, l = pre ++ c :: post ∧ pre.length = i :=
  ⟨l.take i, l[i], l.drop (i + 1), by
    rw [← List.drop_eq_getElem_cons hi, List.take_append_drop],
    by simp; omega⟩

omit [LinearOrder K] in
theorem list_split_le {α : Type} (l : List α) (i : Nat) (hi : i ≤ l.length) :
    ∃ pre post, l = pre ++ post ∧ pre.length = i :=
  ⟨l.take i, l.drop i, (List.take_append_drop _ _).symm, by simp; omega⟩

/-- `findNodeByKey` descends along the search path. -/
theorem findLoop_spec {order : Nat} (key : K) {h : Heap K V} :
    ∀ {d : Nat} {bt : BT K V} {cmin cmax : Nat} {lo : WithBot K} {hi : WithTop K},
      Good order d cmin cmax lo hi bt → cmax ≤ order → Rep h bt →
      ∃ s lf, Path key bt s lf ∧
        ∀ fuel stk, d < fuel →
          findLoop order h key fuel bt.addr (bt.addr :: stk) = some (lf :: (s ++ stk)) := by
  intro d
  induction d with
  | zero =>
    intro bt cmin cmax lo hi hg hc hr
    cases bt with
    | node a ks cs => simp [Good] at hg
    | leaf a es =>
      refine ⟨[], a, Path.leaf a es, ?_⟩
      intro fuel stk hf
      cases hr with
      | @leaf _ _ nd ha hl he =>
        cases fuel with
        | zero => omega
        | succ fuel => simp [findLoop, BT.addr, ha, hl]
  | succ d ih =>
    intro bt cmin cmax lo hi hg hc hr
    cases bt with
    | leaf a es => simp [Good] at hg
    | node a ks cs =>
      simp only [Good] at hg
      obtain ⟨g1, g2, g3, g4, g5⟩ := hg
      have hcs := Kids_length _ _ _ _ g5
      cases hr with
      | @node _ _ _ nd ha hl hk hp hcr =>
        have hn : nd.n = ks.length := by rw [← hk, keyList_length]
        have hsk : nd.sortedKeys := by rw [sortedKeys_iff, hk]; exact g3
        obtain ⟨arg, hsearch, hlow⟩ := search_spec order key (by omega) hsk
        have hroute := routeAt_of_lowerAt hsk hlow
        generalize harg1 : (if arg < nd.n ∧ nd.keys arg = key then arg + 1 else arg) = arg1
          at hroute
        have ha1 : arg1 ≤ nd.n := hroute.1
        obtain ⟨pre, c, post, hcsd, hprelen⟩ := list_split_at cs arg1 (by omega)
        obtain ⟨kpre, kpost, hksd, hkprelen⟩ := list_split_le ks arg1 (by omega)
        subst hcsd hksd
        have hk1 : ∀ x ∈ kpre, x ≤ key := by
          intro x hx
          have : x ∈ nd.keyList.take arg1 := by rw [hk, ← hkprelen]; simpa using hx
          obtain ⟨i, hi1, hi2⟩ := (mem_take_keyList ha1).1 this
          rw [← hi2]
          exact hroute.2.1 i hi1
        have hk2 : ∀ x ∈ kpost, key < x := by
          intro x hx
          have : x ∈ nd.keyList.drop arg1 := by rw [hk, ← hkprelen]; simpa using hx
          obtain ⟨i, hi1, hi2, hi3⟩ := mem_drop_keyList.1 this
          rw [← hi3]
          exact hroute.2.2 i hi1 hi2
        obtain ⟨f1, -, -⟩ := Kids_focus (by omega) g5
        obtain ⟨s, lf, hpath, hfind⟩ := ih f1 (by omega) (hcr c (by simp))
        refine ⟨s ++ [a], lf,
          Path.node a kpre kpost pre post c s lf (by omega) hk1 hk2 hpath, ?_⟩
        intro fuel stk hf
        cases fuel with
        | zero => omega
        | succ fuel =>
          have hptr : nd.ptr arg1 = some c.addr := by
            rw [← hprelen]
            exact ptr_at nd.ptr (fun t => some t.addr) pre post c hp
          have hlt : arg1 < order + 1 := by omega
          change findLoop order h key (fuel + 1) a (a :: stk) = _
          simp only [findLoop, ha, hl, Bool.false_eq_true, ↓reduceIte, hsearch, harg1,
            hlt, hptr]
          rw [hfind fuel (a :: stk) (by omega)]
          simp

omit [LinearOrder K] in
theorem addrsL_length_pos (c : BT K V) (cs : List (BT K V)) :
    c.addrs.length ≤ (BT.addrsL (c :: cs)).length := by
  simp [BT.addrsL]

/-- A tree of depth `d` has more than `d` nodes. -/
theorem Good_depth_lt {order : Nat} :
    ∀ {d : Nat} {bt : BT K V} {cmin cmax : Nat} {lo : WithBot K} {hi : WithTop K},
      Good order d cmin cmax lo hi bt → d < bt.addrs.length := by
  intro d
  induction d with
  | zero =>
    intro bt cmin cmax lo hi hg
    cases bt with
    | node a ks cs => simp [Good] at hg
    | leaf a es => simp [BT.addrs]
  | succ d ih =>
    intro bt cmin cmax lo hi hg
    cases bt with
    | leaf a es => simp [Good] at hg
    | node a ks cs =>
      simp only [Good] at hg
      obtain ⟨g1, g2, g3, g4, g5⟩ := hg
      cases cs with
      | nil =>
        have := Kids_length _ _ _ _ g5
        simp at this
      | cons c cs =>
        have hc : Good order d ((order - 1) / 2) (order - 1) lo (headB hi ks) c :=
          (Kids_head g5).1
        have := ih hc
        have h2 := addrsL_length_pos c cs
        simp only [BT.addrs, List.length_cons]
        omega

omit [LinearOrder K] in
theorem nodup_length_le {l : List Nat} {n : Nat} (hn : l.Nodup) (hlt : ∀ x ∈ l, x < n) :
    l.length ≤ n := by
  have hs : l ⊆ List.range n := fun x hx => List.mem_range.2 (hlt x hx)
  have := (List.Nodup.subperm hn hs).length_le
  simpa using this

end FindLemmas

section KeysSorted

variable {K V : Type} [LinearOrder K]

omit [LinearOrder K] in
theorem entries_leaf (a : Nat) (es : List (K × V)) : (BT.leaf a es).entries = es := by
  simp [BT.entries, BT.leafList]

omit [LinearOrder K] in
theorem keys_leaf (a : Nat) (es : List (K × V)) : (BT.leaf a es).keys = es.map Prod.fst := by
  simp [BT.keys, entries_leaf]

omit [LinearOrder K] in
theorem entries_node_cons (a b : Nat) (ks ks1 : List K) (c : BT K V) (cs : List (BT K V)) :
    (BT.node a ks (c :: cs)).entries = c.entries ++ (BT.node b ks1 cs).entries := by
  simp [BT.entries, BT.leafList, BT.leafListL]

omit [LinearOrder K] in
theorem keys_node_cons (a b : Nat) (ks ks1 : List K) (c : BT K V) (cs : List (BT K V)) :
    (BT.node a ks (c :: cs)).keys = c.keys ++ (BT.node b ks1 cs).keys := by
  simp [BT.keys, entries_node_cons a b ks ks1]

omit [LinearOrder K] in
theorem keys_node_nil (a : Nat) (ks : List K) : (BT.node a ks ([] : List (BT K V))).keys = [] := by
  simp [BT.keys, BT.entries, BT.leafList, BT.leafListL]

/-- Children that are sorted within their bounds concatenate to a sorted list within the
bounds of the node. -/
theorem Kids_keys_sorted (a : Nat) :
    ∀ (ks : List K) (cs : List (BT K V)) (lo : WithBot K) (hi : WithTop K),
      Kids (fun (lo : WithBot K) (hi : WithTop K) (c : BT K V) => c.keys.Sorted (· < ·) ∧
        ∀ k ∈ c.keys, lo ≤ (k : WithBot K) ∧ (k : WithTop K) < hi) lo hi ks cs →
      ks.Sorted (· < ·) → (∀ k ∈ ks, lo < (k : WithBot K) ∧ (k : WithTop K) < hi) →
      (BT.node a ks cs).keys.Sorted (· < ·) ∧
        ∀ k ∈ (BT.node a ks cs).keys, lo ≤ (k : WithBot K) ∧ (k : WithTop K) < hi
  | [], [], _, _, h, _, _ => by simp [Kids] at h
  | [], [c], lo, hi, h, _, _ => by
    simp only [Kids] at h
    rw [keys_node_cons a a [] [], keys_node_nil, List.append_nil]
    exact h
  | [], _ :: _ :: _, _, _, h, _, _ => by simp [Kids] at h
  | _ :: _, [], _, _, h, _, _ => by simp [Kids] at h
  | k :: ks, c :: cs, lo, hi, h, hs, hb => by
    simp only [Kids] at h
    obtain ⟨⟨h1, h2⟩, h3⟩ := h
    have hklo : lo < (k : WithBot K) := (hb k (List.mem_cons_self _ _)).1
    have hkhi : (k : WithTop K) < hi := (hb k (List.mem_cons_self _ _)).2
    obtain ⟨r1, r2⟩ := Kids_keys_sorted a ks cs (k : WithBot K) hi h3 hs.of_cons
      (fun x hx => ⟨WithBot.coe_lt_coe.2 (List.rel_of_sorted_cons hs x hx),
        (hb x (List.mem_cons_of_mem _ hx)).2⟩)
    rw [keys_node_cons a a (k :: ks) ks]
    refine ⟨List.pairwise_append.2 ⟨h1, r1, ?_⟩, ?_⟩
    · intro x hx y hy
      exact lt_of_lt_of_le (WithTop.coe_lt_coe.1 (h2 x hx).2)
        (WithBot.coe_le_coe.1 (r2 y hy).1)
    · intro x hx
      rcases List.mem_append.1 hx with hx | hx
      · exact ⟨(h2 x hx).1, lt_trans (h2 x hx).2 hkhi⟩
      · exact ⟨le_trans (le_of_lt hklo) (r2 x hx).1, (r2 x hx).2⟩

/-- In a tree satisfying the data model the keys of the leaves, read from left to right,
are strictly increasing. -/
theorem Good_keys_sorted {order : Nat} :
    ∀ {d : Nat} {bt : BT K V} {cmin cmax : Nat} {lo : WithBot K} {hi : WithTop K},
      Good order d cmin cmax lo hi bt →
      bt.keys.Sorted (· < ·) ∧ ∀ k ∈ bt.keys, lo ≤ (k : WithBot K) ∧ (k : WithTop K) < hi := by
  intro d
  induction d with
  | zero =>
    intro bt cmin cmax lo hi hg
    cases bt with
    | node a ks cs => simp [Good] at hg
    | leaf a es =>
      simp only [Good] at hg
      rw [keys_leaf]
      exact ⟨hg.2.2.1, hg.2.2.2⟩
  | succ d ih =>
    intro bt cmin cmax lo hi hg
    cases bt with
    | leaf a es => simp [Good] at hg
    | node a ks cs =>
      simp only [Good] at hg
      obtain ⟨g1, g2, g3, g4, g5⟩ := hg
      exact Kids_keys_sorted a ks cs lo hi (Kids_mono (fun lo hi c hc => ih hc) ks cs lo hi g5)
        g3 g4

end KeysSorted

section Scan

variable {K V : Type}

mutual
/-- The leaf addresses are a sublist of the node addresses. -/
theorem leaves_sublist_addrs : ∀ (t : BT K V), t.leaves.Sublist t.addrs
  | .leaf a es => by simp [BT.leaves, BT.leafList, BT.addrs]
  | .node a ks cs => by
    simp only [BT.leaves, BT.leafList, BT.addrs]
    exact List.Sublist.cons _ (leavesL_sublist_addrsL cs)
/-- The leaf addresses of a list of trees are a sublist of its node addresses. -/
theorem leavesL_sublist_addrsL :
    ∀ (cs : List (BT K V)), ((BT.leafListL cs).map Prod.fst).Sublist (BT.addrsL cs)
  | [] => by simp [BT.leafListL, BT.addrsL]
  | c :: cs => by
    simp only [BT.leafListL, List.map_append, BT.addrsL]
    exact List.Sublist.append (leaves_sublist_addrs c) (leavesL_sublist_addrsL cs)
end

theorem leaves_nodup {t : BT K V} (h : t.addrs.Nodup) : t.leaves.Nodup :=
  List.Nodup.sublist (leaves_sublist_addrs t) h

theorem leaves_length_le {t : BT K V} {n : Nat} (hn : t.addrs.Nodup)
    (hlt : ∀ x ∈ t.addrs, x < n) : t.leaves.length ≤ n :=
  le_trans (leaves_sublist_addrs t).length_le (nodup_length_le hn hlt)

theorem mem_leafListL {p : Nat × List (K × V)} :
    ∀ {cs : List (BT K V)}, p ∈ BT.leafListL cs ↔ ∃ c ∈ cs, p ∈ c.leafList
  | [] => by simp [BT.leafListL]
  | c :: cs => by
    simp only [BT.leafListL, List.mem_append, List.mem_cons, exists_eq_or_imp]
    rw [mem_leafListL]

/-- Every leaf of a represented tree is the cell at its address. -/
theorem Rep_leafList {h : Heap K V} {t : BT K V} (hr : Rep h t) :
    ∀ p ∈ t.leafList, ∃ nd, h p.1 = some nd ∧ nd.IS_LEAF = true ∧ nd.entries = p.2 := by
  induction hr with
  | @leaf a es nd ha hl he =>
    intro p hp
    simp only [BT.leafList, List.mem_singleton] at hp
    subst hp
    exact ⟨nd, ha, hl, he⟩
  | @node a ks cs nd ha hl hk hp hc ih =>
    intro p hp
    simp only [BT.leafList] at hp
    obtain ⟨c, hc1, hc2⟩ := mem_leafListL.1 hp
    exact ih c hc1 p hc2

/-- Loop of `leafTraversal` along a chain: it visits exactly the cells of the chain. -/
theorem leafLoop_chain {h : Heap K V} :
    ∀ (l : List (Nat × List (K × V))) (prev : Option Nat) (fuel : Nat),
      Chain h prev (l.map Prod.fst) none →
      (∀ p ∈ l, ∃ nd, h p.1 = some nd ∧ nd.IS_LEAF = true ∧ nd.entries = p.2) →
      l.length < fuel →
      ∃ nds, leafLoop h fuel (firstOr (l.map Prod.fst) none) = some nds ∧
        nds.map Node.entries = l.map Prod.snd
  | [], prev, fuel, _, _, hf => by
    obtain ⟨f, rfl⟩ : ∃ f, fuel = f + 1 := ⟨fuel - 1, by simp at hf; omega⟩
    exact ⟨[], by simp [firstOr, leafLoop], rfl⟩
  | p :: l, prev, fuel, hc, hcell, hf => by
    obtain ⟨f, rfl⟩ : ∃ f, fuel = f + 1 := ⟨fuel - 1, by simp at hf; omega⟩
    simp only [List.map_cons, Chain] at hc
    obtain ⟨nd, hnd, hl, he⟩ := hcell p (List.mem_cons_self _ _)
    obtain ⟨nds, h1, h2⟩ := leafLoop_chain l (some p.1) f hc.2
      (fun q hq => hcell q (List.mem_cons_of_mem _ hq)) (by simp at hf; omega)
    have hlk := hc.1
    rw [hnd] at hlk
    simp only [links, Option.map_some', Option.some.injEq, Prod.mk.injEq] at hlk
    refine ⟨nd :: nds, ?_, by simp [he, h2]⟩
    change leafLoop h (f + 1) (some p.1) = _
    simp only [leafLoop, hnd, hlk.2.2, h1]

/-- The leaf scan of a state satisfying the invariant returns the entries of the tree. -/
theorem leafEntries_of_rep {t : Tree K V} {bt : BT K V} (hr : Rep t.heap bt)
    (hn : bt.addrs.Nodup) (hlt : ∀ a ∈ bt.addrs, a < t.next)
    (hc : Chain t.heap none bt.leaves none) (hh : t.head = bt.leaves.head?) :
    leafEntries t = some bt.entries ∧ leafKeys t = some bt.keys := by
  have hlen : bt.leafList.length < t.next + 1 := by
    have := leaves_length_le hn hlt
    simp only [BT.leaves, List.length_map] at this
    omega
  obtain ⟨nds, h1, h2⟩ := leafLoop_chain bt.leafList none (t.next + 1) hc (Rep_leafList hr) hlen
  have hhead : t.head = firstOr (bt.leafList.map Prod.fst) none := by
    rw [hh, BT.leaves]
    cases bt.leafList.map Prod.fst <;> rfl
  rw [← hhead] at h1
  refine ⟨by simp [leafEntries, h1, h2, BT.entries], ?_⟩
  simp only [leafKeys, leafTraversal, h1, Option.map_some', Option.some.injEq, BT.keys,
    BT.entries, ← h2]
  simp only [List.map_flatten, List.map_map]
  congr 1
  apply List.map_congr_left
  intro nd _
  simp [entries_map_fst]

end Scan

section SepLists

variable {K V : Type}

/-- The keys below a node are the keys below its children, from left to right. -/
theorem keys_node_append (a b c : Nat) (ks ks1 ks2 : List K) (l1 l2 : List (BT K V)) :
    (BT.node a ks (l1 ++ l2)).keys = (BT.node b ks1 l1).keys ++ (BT.node c ks2 l2).keys := by
  simp [BT.keys, BT.entries, BT.leafList, leafListL_append]

/-- Membership of the separators in the subtrees on their right does not look at the first
child. -/
theorem SepLists_head (c c1 : BT K V) :
    ∀ (ks : List K) (post : List (BT K V)),
      SepLists SepMem ks (c :: post) → SepLists SepMem ks (c1 :: post)
  | [], [], _ => trivial
  | [], _ :: _, h => by simp [SepLists] at h
  | _ :: _, [], h => by simp [SepLists] at h
  | _ :: _, _ :: _, h => h

/-- Replacing a child by a tree that stores at least its keys keeps every separator a key of
the subtree on its right. -/
theorem SepLists_replace {c c1 : BT K V} (hsub : ∀ k ∈ c.keys, k ∈ c1.keys) (kpost : List K)
    (post : List (BT K V)) :
    ∀ (kpre : List K) (pre : List (BT K V)), kpre.length = pre.length →
      SepLists SepMem (kpre ++ kpost) (pre ++ c :: post) →
      SepLists SepMem (kpre ++ kpost) (pre ++ c1 :: post)
  | [], [], _, h => SepLists_head c c1 kpost post h
  | [], _ :: _, hl, _ => by simp at hl
  | _ :: _, [], hl, _ => by simp at hl
  | k :: kpre, [l], hl, h => by
    have hk : kpre = [] := by
      cases kpre with
      | nil => rfl
      | cons _ _ => simp at hl
    subst hk
    simp only [List.cons_append, List.nil_append, SepLists] at h ⊢
    exact ⟨hsub k h.1, SepLists_head c c1 kpost post h.2⟩
  | k :: kpre, l :: l2 :: pre, hl, h => by
    simp only [List.cons_append, SepLists] at h ⊢
    exact ⟨h.1, SepLists_replace hsub kpost post kpre (l2 :: pre)
      (by simpa using hl) h.2⟩

/-- Splitting a child in two, under a new separator that is a key of the right half, keeps
every separator a key of the subtree on its right, when the separators in front of the child
that are keys of the child are keys of its left half. -/
theorem SepLists_split {c cl cr : BT K V} {s : K} (hs : s ∈ cr.keys) (kpost : List K)
    (post : List (BT K V)) :
    ∀ (kpre : List K) (pre : List (BT K V)), kpre.length = pre.length →
      (∀ k ∈ kpre, k ∈ c.keys → k ∈ cl.keys) →
      SepLists SepMem (kpre ++ kpost) (pre ++ c :: post) →
      SepLists SepMem (kpre ++ s :: kpost) (pre ++ cl :: cr :: post)
  | [], [], _, _, h => by
    simp only [List.nil_append, SepLists] at h ⊢
    exact ⟨hs, SepLists_head c cr kpost post h⟩
  | [], _ :: _, hl, _, _ => by simp at hl
  | _ :: _, [], hl, _, _ => by simp at hl
  | k :: kpre, [l], hl, hk, h => by
    have hk0 : kpre = [] := by
      cases kpre with
      | nil => rfl
      | cons _ _ => simp at hl
    subst hk0
    simp only [List.cons_append, List.nil_append, SepLists] at h ⊢
    exact ⟨hk k (List.mem_cons_self _ _) h.1, hs, SepLists_head c cr kpost post h.2⟩
  | k :: kpre, l :: l2 :: pre, hl, hk, h => by
    simp only [List.cons_append, SepLists] at h ⊢
    exact ⟨h.1, SepLists_split hs kpost post kpre (l2 :: pre) (by simpa using hl)
      (fun x hx => hk x (List.mem_cons_of_mem _ hx)) h.2⟩

/-- The relation at the separator between two neighbouring children. -/
theorem SepLists_mid {P : K → BT K V → BT K V → Prop} {s : K} {l r : BT K V} (kpost : List K)
    (post : List (BT K V)) :
    ∀ (kpre : List K) (pre : List (BT K V)), kpre.length = pre.length →
      SepLists P (kpre ++ s :: kpost) (pre ++ l :: r :: post) → P s l r
  | [], [], _, h => by
    simp only [List.nil_append, SepLists] at h
    exact h.1
  | [], _ :: _, hl, _ => by simp at hl
  | _ :: _, [], hl, _ => by simp at hl
  | k :: kpre, [l1], hl, h => by
    have hk0 : kpre = [] := by
      cases kpre with
      | nil => rfl
      | cons _ _ => simp at hl
    subst hk0
    simp only [List.cons_append, List.nil_append, SepLists] at h
    exact h.2.1
  | k :: kpre, l1 :: l2 :: pre, hl, h => by
    simp only [List.cons_append, SepLists] at h
    exact SepLists_mid kpost post kpre (l2 :: pre) (by simpa using hl) h.2

/-- Cutting a node at the separator `s`: both halves keep the relation, and `s` stands in
front of the first child of the right half. -/
theorem SepLists_cut {P : K → BT K V → BT K V → Prop} {s : K} {kr : List K}
    {cr : List (BT K V)} :
    ∀ (kl : List K) (cl : List (BT K V)), cl.length = kl.length + 1 →
      SepLists P (kl ++ s :: kr) (cl ++ cr) →
      SepLists P kl cl ∧ SepLists P kr cr ∧ ∃ l r rest, cr = r :: rest ∧ P s l r
  | [], [], hl, _ => by simp at hl
  | [], [x], _, h => by
    cases cr with
    | nil => simp [SepLists] at h
    | cons r rest =>
      simp only [List.nil_append, List.singleton_append, SepLists] at h ⊢
      exact ⟨trivial, h.2, x, r, rest, rfl, h.1⟩
  | [], _ :: _ :: _, hl, _ => by simp at hl
  | _ :: _, [], hl, _ => by simp at hl
  | _ :: _, [_], hl, _ => by simp at hl
  | k :: kl, x :: y :: cl, hl, h => by
    simp only [List.cons_append, SepLists] at h ⊢
    obtain ⟨h1, h2, h3⟩ := SepLists_cut kl (y :: cl) (by simpa using hl) h.2
    exact ⟨⟨h.1, h1⟩, h2, h3⟩

/-- Cutting an internal node at the separator `s`: both halves keep every separator a key of
the subtree on its right, and `s` is a key of the right half. -/
theorem SepAll_cut {b nx : Nat} {kl kr : List K} {s : K} {cl cr : List (BT K V)}
    (hl : cl.length = kl.length + 1)
    (h : SepAll SepMem (.node b (kl ++ s :: kr) (cl ++ cr))) :
    SepAll SepMem (.node b kl cl) ∧ SepAll SepMem (.node nx kr cr) ∧
      s ∈ (BT.node nx kr cr).keys := by
  cases h with
  | node _ _ _ hs hc =>
    obtain ⟨h1, h2, l, r, rest, hcr, hm⟩ := SepLists_cut kl cl hl hs
    refine ⟨SepAll.node b kl cl h1 (fun c hx => hc c (List.mem_append_left _ hx)),
      SepAll.node nx kr cr h2 (fun c hx => hc c (List.mem_append_right _ hx)), ?_⟩
    subst hcr
    rw [keys_node_cons nx nx kr kr]
    exact List.mem_append_left _ hm

end SepLists

section PathLemmas

variable {K V : Type} [LinearOrder K]

omit [LinearOrder K] in
theorem head_append_congr {A X X1 B : List Nat} (h : X1.head? = X.head?) :
    (A ++ (X1 ++ B)).head? = (A ++ (X ++ B)).head? := by
  cases A with
  | cons a A => rfl
  | nil =>
    cases X with
    | nil =>
      cases X1 with
      | nil => rfl
      | cons x X1 => simp at h
    | cons x X =>
      cases X1 with
      | nil => simp at h
      | cons x1 X1 => simpa using h

/-- An insertion keeps the first leaf of the tree. -/
theorem Ins_leaves_head {order : Nat} {key : K} {value : V} {bt bt1 : BT K V} {nx nx1 : Nat}
    (h : Ins order key value bt nx bt1 nx1) : bt1.leaves.head? = bt.leaves.head? := by
  induction h with
  | leaf => rfl
  | keep a kpre kpost pre post c c1 nx nx1 _ _ _ _ _ ih =>
    rw [leaves_node_split, leaves_node_split]
    exact head_append_congr ih
  | splitLeaf a kpre kpost pre post c b el er e nx nx1 _ _ _ _ _ _ ih =>
    rw [leaves_node_two, leaves_node_split, ← List.append_assoc (BT.leaf b el).leaves]
    exact head_append_congr (by rw [← ih]; rfl)
  | splitNode a kpre kpost pre post c b kl kr s cl cr nx nx1 _ _ _ _ _ _ _ ih =>
    rw [leaves_node_two, leaves_node_split, ← List.append_assoc (BT.node b kl cl).leaves,
      ← leaves_node_cat b b (kl ++ s :: kr) (kl ++ s :: kr) cl cr nx1 kl kr]
    exact head_append_congr ih

omit [LinearOrder K] in
theorem Path_leaf_mem_aux (x : Nat) (c : BT K V) (pre post : List (BT K V)) (a : Nat)
    (ks : List K) (h : x ∈ c.addrs) : x ∈ (BT.node a ks (pre ++ c :: post)).addrs :=
  mem_addrs_node.2 (Or.inr (Or.inr (Or.inl h)))

/-- The leaf at the end of a search path is a node of the tree. -/
theorem Path_leaf_mem {key : K} {bt : BT K V} {s : List Nat} {lf : Nat}
    (hp : Path key bt s lf) : lf ∈ bt.addrs := by
  induction hp with
  | leaf a es => simp [BT.addrs]
  | node a kpre kpost pre post c s lf _ _ _ _ ih =>
    exact Path_leaf_mem_aux lf c pre post a _ ih

/-- The leaf at the end of a search path is a cell of the heap holding a sorted leaf within
the capacity. -/
theorem Path_leaf_cell {order : Nat} {key : K} {h : Heap K V} {bt : BT K V} {s : List Nat}
    {lf : Nat} (hp : Path key bt s lf) :
    ∀ {d cmin cmax : Nat} {lo : WithBot K} {hi : WithTop K},
      Good order d cmin cmax lo hi bt → cmax ≤ order - 1 → Rep h bt →
      ∃ ndl, h lf = some ndl ∧ ndl.IS_LEAF = true ∧ ndl.sortedKeys ∧ ndl.n ≤ order - 1 ∧
        lf ∈ bt.addrs := by
  induction hp with
  | leaf a es =>
    intro d cmin cmax lo hi hg hc hr
    cases d with
    | succ d => simp [Good] at hg
    | zero =>
      simp only [Good] at hg
      cases hr with
      | @leaf _ _ nd ha hl he =>
        refine ⟨nd, ha, hl, ?_, ?_, by simp [BT.addrs]⟩
        · rw [sortedKeys_iff, ← entries_map_fst, he]
          exact hg.2.2.1
        · rw [← entries_length, he]
          omega
  | node a kpre kpost pre post c s lf hlen hk1 hk2 hp ih =>
    intro d cmin cmax lo hi hg hc hr
    cases d with
    | zero => simp [Good] at hg
    | succ d =>
      simp only [Good] at hg
      obtain ⟨f1, -, -⟩ := Kids_focus hlen hg.2.2.2.2
      obtain ⟨nd, ha, hl, hk, hpp, hrc, hpre, hpost⟩ := Rep_node_parts hr
      obtain ⟨ndl, q1, q2, q3, q4, q5⟩ := ih f1 le_rfl hrc
      exact ⟨ndl, q1, q2, q3, q4, mem_addrs_node.2 (Or.inr (Or.inr (Or.inl q5)))⟩

/-- Overwriting the leaf at the end of a search path by a leaf with the same live keys keeps
the shape of the tree. -/
theorem Path_leaf_update {key : K} {h : Heap K V} {bt : BT K V} {s : List Nat} {lf : Nat}
    {nd1 : Node K V} (hl1 : nd1.IS_LEAF = true) (hp : Path key bt s lf) :
    ∀ {nx : Nat}, Rep h bt → bt.addrs.Nodup → (∀ a ∈ bt.addrs, a < nx) →
      (∀ ndl, h lf = some ndl → nd1.keyList = ndl.keyList) →
      ∃ bt1, Rep (Function.update h lf (some nd1)) bt1 ∧ bt1.addr = bt.addr ∧
        bt1.addrs = bt.addrs ∧ bt1.leaves = bt.leaves ∧ bt1.keys = bt.keys ∧
        (∀ (order d cmin cmax : Nat) (lo : WithBot K) (hi : WithTop K),
          Good order d cmin cmax lo hi bt → Good order d cmin cmax lo hi bt1) ∧
        (SepAll SepMem bt → SepAll SepMem bt1) := by
  induction hp with
  | leaf a es =>
    intro nx hr hnd hlt hk
    cases hr with
    | @leaf _ _ nd ha hl he =>
      have hkeys := hk nd ha
      have hmap : nd1.entries.map Prod.fst = es.map Prod.fst := by
        rw [entries_map_fst, hkeys, ← entries_map_fst, he]
      refine ⟨.leaf a nd1.entries, Rep.leaf (Function.update_same _ _ _) hl1 rfl, rfl, rfl, rfl,
        ?_, ?_, fun _ => SepAll.leaf _ _⟩
      · rw [keys_leaf, keys_leaf, hmap]
      · intro order d cmin cmax lo hi hg
        cases d with
        | succ d => simp [Good] at hg
        | zero =>
          simp only [Good] at hg ⊢
          have hlen : nd1.entries.length = es.length := by
            have := congrArg List.length hmap
            simpa using this
          rw [hmap, hlen]
          exact hg
  | node a kpre kpost pre post c s lf hlen hk1 hk2 hp ih =>
    intro nx hr hnd hlt hk
    obtain ⟨nd, ha, hl, hkk, hpp, hrc, hpre, hpost⟩ := Rep_node_parts hr
    obtain ⟨n1, n2, n3, n4, n5, n6, n7, n8⟩ := nodup_node_parts hnd
    have hltc : ∀ x ∈ c.addrs, x < nx :=
      fun x hx => hlt x (mem_addrs_node.2 (Or.inr (Or.inr (Or.inl hx))))
    obtain ⟨c1, r1, r2, r3, r4, r5, r6, r7⟩ := ih hrc n4 hltc hk
    have hlfc : ∀ x, x ∉ c.addrs → x ≠ lf := by
      intro x hx e
      subst e
      exact hx (Path_leaf_mem hp)
    refine ⟨.node a (kpre ++ kpost) (pre ++ c1 :: post), ?_, rfl, ?_, ?_, ?_, ?_, ?_⟩
    · exact step_keep_rep hr hnd hlt r2 r1
        (fun x hx _ => by rw [Function.update_noteq (hlfc x hx)])
    · rw [addrs_node_split, addrs_node_split, r3]
    · rw [leaves_node_split, leaves_node_split, r4]
    · simp only [BT.keys, BT.entries, BT.leafList, leafListL_append, BT.leafListL,
        List.map_append, List.flatten_append] at r5 ⊢
      rw [r5]
    · intro order d cmin cmax lo hi hg
      cases d with
      | zero => simp [Good] at hg
      | succ d =>
        simp only [Good] at hg ⊢
        obtain ⟨g1, g2, g3, g4, g5⟩ := hg
        obtain ⟨f1, f2, -⟩ := Kids_focus hlen g5
        exact ⟨g1, g2, g3, g4, f2 c1 (r6 _ _ _ _ _ _ f1)⟩
    · intro hsep
      cases hsep with
      | node _ _ _ hs hc =>
        refine SepAll.node _ _ _
          (SepLists_replace (fun k hk => by rw [r5]; exact hk) kpost post kpre pre hlen hs) ?_
        intro x hx
        rcases List.mem_append.1 hx with hx | hx
        · exact hc x (List.mem_append_left _ hx)
        · rcases List.mem_cons.1 hx with rfl | hx
          · exact r7 (hc c (List.mem_append_right _ (List.mem_cons_self _ _)))
          · exact hc x (List.mem_append_right _ (List.mem_cons_of_mem _ hx))

end PathLemmas

section RootSplit

variable {K V : Type} [LinearOrder K]

omit [LinearOrder K] in
theorem rootHeap_ne (fr : Fresh K V) (h : Heap K V) {nx node x : Nat} (hx : x ≠ nx) :
    rootHeap fr h nx node x = h x := by
  simp [rootHeap, Function.update_noteq hx]

omit [LinearOrder K] in
theorem rootHeap_rep (fr : Fresh K V) {h : Heap K V} {nx : Nat} {bt : BT K V}
    (hr : Rep h bt) (hlt : ∀ a ∈ bt.addrs, a < nx) :
    Rep (rootHeap fr h nx bt.addr) bt ∧
      Rep (rootHeap fr h nx bt.addr) (.node nx [] [bt]) := by
  have h1 : Rep (rootHeap fr h nx bt.addr) bt :=
    Rep_frame hr (fun a ha => by rw [rootHeap_ne fr h (Nat.ne_of_lt (hlt a ha))])
  have hcell : rootHeap fr h nx bt.addr nx = some { newNode fr nx false with
      ptr := Function.update (newNode fr nx false).ptr 0 (some bt.addr) } := by
    simp [rootHeap]
  refine ⟨h1, Rep_node_build hcell rfl rfl ?_ ?_⟩
  · simp [List.range_succ]
  · intro t ht
    simp only [List.mem_singleton] at ht
    subst ht
    exact h1

/-- Growth of the tree: an overfull root is split under a new root. -/
theorem root_split {order : Nat} (ho : 3 ≤ order) (fr : Fresh K V) {h1 : Heap K V}
    {bt1 : BT K V} {nx1 d : Nat} (hr : Rep h1 bt1) (hg : Good order d 1 order ⊥ ⊤ bt1)
    (hcnt : bt1.count = order) (hnd : bt1.addrs.Nodup) (hlt : ∀ a ∈ bt1.addrs, a < nx1)
    (hch : Chain h1 none bt1.leaves none) :
    ∃ h2 bt2, adjustNodeForUpOver order fr (rootHeap fr h1 nx1 bt1.addr) (nx1 + 1) bt1.addr nx1
        = some h2 ∧ bt2.addr = nx1 ∧ Rep h2 bt2 ∧ Good order (d + 1) 1 (order - 1) ⊥ ⊤ bt2 ∧
      bt2.addrs.Nodup ∧ (∀ a ∈ bt2.addrs, a < nx1 + 2) ∧ Chain h2 none bt2.leaves none ∧
      bt2.leaves = bt1.leaves ++ (if d = 0 then [nx1 + 1] else []) ∧ bt2.keys = bt1.keys ∧
      (SepAll SepMem bt1 → SepAll SepMem bt2) := by
  obtain ⟨hrN, hrR⟩ := rootHeap_rep fr hr hlt
  have hchN : Chain (rootHeap fr h1 nx1 bt1.addr) none bt1.leaves none :=
    Chain_frame _ none none hch (fun x hx => by
      rw [rootHeap_ne fr h1 (Nat.ne_of_lt (hlt x (leaves_subset_addrs _ x hx)))])
  have hndR : (BT.node nx1 ([] ++ []) ([] ++ bt1 :: [])).addrs.Nodup := by
    rw [addrs_node_split]
    simp only [BT.addrsL, List.nil_append, List.append_nil, List.nodup_cons]
    exact ⟨fun hm => absurd (hlt _ hm) (lt_irrefl _), hnd⟩
  have hltR : ∀ x ∈ (BT.node nx1 ([] ++ []) ([] ++ bt1 :: [])).addrs, x < nx1 + 1 := by
    intro x hx
    rw [addrs_node_split] at hx
    simp only [BT.addrsL, List.nil_append, List.append_nil, List.mem_cons] at hx
    rcases hx with rfl | hx
    · omega
    · have := hlt x hx
      omega
  cases bt1 with
  | leaf b es1 =>
    cases d with
    | succ d => simp [Good] at hg
    | zero =>
      simp only [BT.count] at hcnt
      have hes : es1 = es1.take (order / 2) ++ (es1.drop (order / 2)) :=
        (List.take_append_drop _ _).symm
      obtain ⟨e, er, hdrop⟩ : ∃ e er, es1.drop (order / 2) = e :: er := by
        cases hd : es1.drop (order / 2) with
        | nil =>
          have := congrArg List.length hd
          simp at this
          omega
        | cons e er => exact ⟨e, er, rfl⟩
      rw [hdrop] at hes
      have hel : (es1.take (order / 2)).length = order / 2 := by
        simp; omega
      generalize helv : es1.take (order / 2) = el at hes hel
      subst hes
      have htot : (el ++ e :: er).length = order := hcnt
      obtain ⟨q1, q2, q3, q4⟩ := Good_leaf_split (nx1 + 1) ho hg hel htot
      have hbl : b < nx1 := hlt b (by simp [BT.addrs])
      obtain ⟨h2, a1, a2, a3, a4⟩ := @step_split_leaf K V _ order ho fr [] []
        (rootHeap fr h1 nx1 b) (rootHeap fr h1 nx1 b) nx1 b (nx1 + 1) (nx1 + 1)
        [] [] [] [] _ _ _ _
        hrR rfl rfl hndR hltR le_rfl rfl hrN hel htot (fun _ _ _ => rfl)
        (by simp) (by simp; omega) (by simp) (by simp)
        (by simpa [leaves_leaf] using hchN) (by simp) (by simp)
      refine ⟨h2, _, a1, ?_, a2, ?_, ?_, ?_, ?_, ?_, ?_, ?_⟩
      rotate_right
      · intro _
        refine SepAll.node _ _ _ ?_ ?_
        · simp only [List.nil_append, SepLists, SepMem, keys_leaf, List.map_cons,
            List.mem_cons, true_or, and_self]
        · intro x hx
          simp only [List.nil_append, List.mem_cons, List.mem_singleton, List.not_mem_nil,
            or_false] at hx
          rcases hx with rfl | rfl <;> exact SepAll.leaf _ _
      · rfl
      · simp only [Good, List.nil_append, Kids, List.length_singleton, le_refl,
          List.sorted_singleton, List.mem_singleton, forall_eq, true_and]
        exact ⟨by omega, ⟨q3, q4⟩, q1, q2⟩
      · simp only [List.nil_append, BT.addrs, BT.addrsL, List.append_nil,
          List.singleton_append, List.nodup_cons, List.mem_cons, List.mem_singleton,
          List.not_mem_nil, not_false_eq_true, List.nodup_nil, and_true, not_or]
        omega
      · intro x hx
        simp only [List.nil_append, BT.addrs, BT.addrsL, List.append_nil,
          List.singleton_append, List.mem_cons, List.mem_singleton, List.not_mem_nil,
          or_false] at hx
        omega
      · simpa [BT.leaves, BT.leafList, BT.leafListL] using a4
      · simp [BT.leaves, BT.leafList, BT.leafListL]
      · simp [BT.keys, BT.entries, BT.leafList, BT.leafListL]
  | node b ks1 cs1 =>
    cases d with
    | zero => simp [Good] at hg
    | succ d =>
      simp only [BT.count] at hcnt
      have hg' := hg
      simp only [Good] at hg'
      have hcs1 := Kids_length _ _ _ _ hg'.2.2.2.2
      have hks : ks1 = ks1.take (order / 2) ++ (ks1.drop (order / 2)) :=
        (List.take_append_drop _ _).symm
      obtain ⟨sk, kr, hdrop⟩ : ∃ sk kr, ks1.drop (order / 2) = sk :: kr := by
        cases hd : ks1.drop (order / 2) with
        | nil =>
          have := congrArg List.length hd
          simp at this
          omega
        | cons e er => exact ⟨e, er, rfl⟩
      rw [hdrop] at hks
      have hcsd : cs1 = cs1.take (order / 2 + 1) ++ cs1.drop (order / 2 + 1) :=
        (List.take_append_drop _ _).symm
      have hkl : (ks1.take (order / 2)).length = order / 2 := by
        simp; omega
      have hcl : (cs1.take (order / 2 + 1)).length = order / 2 + 1 := by
        simp; omega
      generalize hclv : cs1.take (order / 2 + 1) = cl at hcsd hcl
      generalize hcrv : cs1.drop (order / 2 + 1) = cr at hcsd
      generalize hklv : ks1.take (order / 2) = kl at hks hkl
      subst hks hcsd
      have htot : (kl ++ sk :: kr).length = order := hcnt
      obtain ⟨q1, q2, q3, q4⟩ := Good_node_split (nx1 + 1) ho hg hkl hcl htot
      have hbl : b < nx1 := hlt b (by simp [BT.addrs])
      have hmem1 : ∀ x ∈ (BT.node b (kl ++ sk :: kr) (cl ++ cr)).addrs,
          x ≠ nx1 ∧ x < nx1 + 1 := by
        intro x hx
        have := hlt x hx
        omega
      obtain ⟨h2, a1, a2, a3, a4⟩ := @step_split_node K V _ order ho fr
        (rootHeap fr h1 nx1 b) (rootHeap fr h1 nx1 b) nx1 b (nx1 + 1) (nx1 + 1)
        [] [] [] [] _ _ _ _ _ _
        hrR rfl rfl hndR hltR le_rfl rfl hrN hkl hcl htot hcs1 hnd hmem1 (fun _ _ _ => rfl)
        (by simp) (by simp; omega) (by simp) (by simp)
      have hleaves : (BT.node nx1 ([] ++ sk :: [])
          ([] ++ BT.node b kl cl :: BT.node (nx1 + 1) kr cr :: [])).leaves
            = (BT.node b (kl ++ sk :: kr) (cl ++ cr)).leaves := by
        simp [BT.leaves, BT.leafList, BT.leafListL, leafListL_append]
      refine ⟨h2, _, a1, ?_, a2, ?_, ?_, ?_, ?_, ?_, ?_, ?_⟩
      rotate_right
      · intro hsep
        obtain ⟨p1, p2, p3⟩ := @SepAll_cut K V b (nx1 + 1) kl kr sk cl cr (by omega) hsep
        refine SepAll.node _ _ _ ?_ ?_
        · simp only [List.nil_append, SepLists, SepMem, and_true]
          exact p3
        · intro x hx
          simp only [List.nil_append, List.mem_cons, List.mem_singleton, List.not_mem_nil,
            or_false] at hx
          rcases hx with rfl | rfl
          · exact p1
          · exact p2
      · rfl
      · simp only [Good, List.nil_append, Kids, List.length_singleton, le_refl,
          List.sorted_singleton, List.mem_singleton, forall_eq, true_and]
        exact ⟨by omega, ⟨q3, q4⟩, q1, q2⟩
      · have hnd' := hnd
        simp only [BT.addrs, addrsL_append, List.nodup_cons, List.mem_append, not_or,
          List.nodup_append] at hnd'
        have hlt' : ∀ x, x ∈ BT.addrsL cl ∨ x ∈ BT.addrsL cr → x < nx1 := by
          intro x hx
          refine hlt x ?_
          simp only [BT.addrs, addrsL_append, List.mem_cons, List.mem_append]
          exact Or.inr hx
        simp only [List.nil_append, BT.addrs, BT.addrsL, List.append_nil, List.nodup_cons,
          List.mem_cons, List.mem_append, not_or, List.nodup_append, List.cons_append]
        refine ⟨⟨by omega, fun hm => ?_, by omega, fun hm => ?_⟩,
          ⟨hnd'.1.1, by omega, fun hm => hnd'.1.2 hm⟩, hnd'.2.1, ?_, ?_⟩
        · exact absurd (hlt' _ (Or.inl hm)) (lt_irrefl _)
        · exact absurd (hlt' _ (Or.inr hm)) (lt_irrefl _)
        · refine ⟨fun hm => ?_, hnd'.2.2.1⟩
          have := hlt' _ (Or.inr hm)
          omega
        · intro x hx hx2
          rcases List.mem_cons.1 hx2 with rfl | hx2
          · have := hlt' _ (Or.inl hx)
            omega
          · exact hnd'.2.2.2 hx hx2
      · intro x hx
        have hlt' : ∀ x, x ∈ BT.addrsL cl ∨ x ∈ BT.addrsL cr → x < nx1 := by
          intro x hx
          refine hlt x ?_
          simp only [BT.addrs, addrsL_append, List.mem_cons, List.mem_append]
          exact Or.inr hx
        simp only [List.nil_append, BT.addrs, BT.addrsL, List.append_nil, List.mem_cons,
          List.mem_append, List.cons_append] at hx
        rcases hx with rfl | rfl | hx | rfl | hx
        · omega
        · omega
        · have := hlt' x (Or.inl hx); omega
        · omega
        · have := hlt' x (Or.inr hx); omega
      · rw [hleaves]
        refine Chain_frame _ none none hchN (fun x hx => ?_)
        have hxa := leaves_subset_addrs _ x hx
        have hm := hmem1 x hxa
        have hxb : x ≠ b := by
          rintro rfl
          have hn1' := hnd
          simp only [BT.addrs, List.nodup_cons] at hn1'
          simp only [BT.leaves, BT.leafList] at hx
          exact hn1'.1 (leavesL_subset_addrsL _ _ hx)
        rw [a4 x hm.1 hxb (by omega)]
        rfl
      · rw [hleaves]
        simp
      · simp [BT.keys, BT.entries, BT.leafList, BT.leafListL, leafListL_append]

end RootSplit

section InsertInv

variable {K V : Type} [LinearOrder K]

theorem maintain_return {order : Nat} (fr : Fresh K V) {t : Tree K V} {lf : Nat}
    {s : List Nat} {h : Heap K V} {nx : Nat}
    (hl : upLoop order fr s lf t.heap t.next = some (h, nx, none)) :
    maintainAfterInsert order fr t (lf :: s) = some { t with heap := h, next := nx } := by
  simp only [maintainAfterInsert, hl]

theorem maintain_root_ok {order : Nat} (fr : Fresh K V) {t : Tree K V} {lf : Nat}
    {s : List Nat} {h : Heap K V} {nx node : Nat} {nd : Node K V}
    (hl : upLoop order fr s lf t.heap t.next = some (h, nx, some node))
    (hn : h node = some nd) (hlt : nd.n < order) :
    maintainAfterInsert order fr t (lf :: s) = some { t with heap := h, next := nx } := by
  have : ¬ order ≤ nd.n := by omega
  simp [maintainAfterInsert, hl, hn, Node.isUpOver, this]

theorem maintain_root_over {order : Nat} (fr : Fresh K V) {t : Tree K V} {lf : Nat}
    {s : List Nat} {h h2 : Heap K V} {nx node : Nat} {nd : Node K V}
    (hl : upLoop order fr s lf t.heap t.next = some (h, nx, some node))
    (hn : h node = some nd) (hge : order ≤ nd.n)
    (hadj : adjustNodeForUpOver order fr (rootHeap fr h nx node) (nx + 1) node nx = some h2) :
    maintainAfterInsert order fr t (lf :: s)
      = some { t with heap := h2, next := nx + 2, root := some nx } := by
  simp only [rootHeap] at hadj
  simp [maintainAfterInsert, hl, hn, Node.isUpOver, hge, hadj]

/-- `insert` on a state satisfying the invariant: the call returns, and the invariant holds
afterwards. -/
theorem insert_inv {order : Nat} (ho : 3 ≤ order) (fr : Fresh K V) (t : Tree K V) (key : K)
    (value : V) (hinv : Inv order t) :
    ∃ t1 r, insert order fr t key value = some (t1, r) ∧ Inv order t1 := by
  rcases hinv with ⟨hroot, hhead⟩ | ⟨bt, d, hroot, hr, hg, hnd, hlt, hch, hhead⟩
  · -- the empty tree
    have hl0 : (newNode fr t.next true).IS_LEAF = true := rfl
    have hn0 : (newNode fr t.next true).n < order := by simp [newNode]; omega
    obtain ⟨nd1, arg, i1, i2, i3, i4, i5, i6⟩ :=
      Node.insert_spec key value hl0 hn0 (by intro i j _ hj; simp [newNode] at hj)
    have hent : nd1.entries = [(key, value)] := by
      rw [i6]
      simp [Node.entries, newNode]
    have hres : insert order fr t key value
        = some ({ t with heap := Function.update t.heap t.next (some nd1), next := t.next + 1,
                         root := some t.next, head := some t.next }, 0) := by
      simp only [insert, hroot, i1]
    refine ⟨_, 0, hres, Or.inr ⟨.leaf t.next [(key, value)], 0,
      rfl, Rep.leaf (Function.update_same _ _ _) i3 hent, ?_, by simp [BT.addrs], ?_, ?_, rfl⟩⟩
    · simp only [Good, List.length_singleton, le_refl, List.map_cons, List.map_nil,
        List.sorted_singleton, List.mem_singleton, forall_eq, true_and]
      exact ⟨by omega, bot_le, WithTop.coe_lt_top _⟩
    · intro a ha
      simp only [BT.addrs, List.mem_singleton] at ha
      subst ha
      exact Nat.lt_succ_self _
    · simp only [leaves_leaf, Chain, firstOr, and_true, Function.update_same, links,
        Option.map_some', i3, i4]
      rfl
  · -- a tree with a root
    have hdl : d < t.next + 1 := by
      have h1 := Good_depth_lt hg
      have h2 := nodup_length_le hnd hlt
      omega
    obtain ⟨s, lf, hpath, hfind⟩ := findLoop_spec key hg (by omega) hr
    have hfind' := hfind (t.next + 1) [] hdl
    rw [List.append_nil] at hfind'
    obtain ⟨ndl, c1, c2, c3, c4, c5⟩ := Path_leaf_cell hpath hg le_rfl hr
    have hn : ndl.n < order := by omega
    obtain ⟨b, arg, k1, k2, k3, k4, k5⟩ := Node.hasKey_spec key hn c3
    have hstart : insert order fr t key value
        = match b with
          | true =>
            match ndl.update order key value with
            | none => none
            | some nd1 => some ({ t with heap := Function.update t.heap lf (some nd1) }, 1)
          | false =>
            match ndl.insert order key value with
            | none => none
            | some nd1 =>
              match maintainAfterInsert order fr
                  { t with heap := Function.update t.heap lf (some nd1) } (lf :: s) with
              | none => none
              | some t1 => some ({ t1 with size := wrapInt (t1.size + 1) }, 0) := by
      simp only [insert, hroot, findNodeByKey, hfind', c1, k1]
      cases b <;> rfl
    rw [hstart]
    cases b with
    | true =>
      obtain ⟨nd1, u1, u2, u3, u4, u5, u6⟩ :=
        Node.update_spec key value c2 k2 (by have := k3.1; omega) (k4.1 rfl)
      have hkl : nd1.keyList = ndl.keyList := by simp [Node.keyList, u4, u5]
      obtain ⟨bt1, r1, r2, r3, r4, r5, r6, r7⟩ := Path_leaf_update u2 hpath hr hnd hlt
        (fun x hx => by
          rw [c1] at hx
          rw [← Option.some.inj hx]
          exact hkl)
      simp only [u1]
      refine ⟨_, 1, rfl, Or.inr ⟨bt1, d, ?_, r1, r6 _ _ _ _ _ _ hg, ?_, ?_, ?_, ?_⟩⟩
      · simp only [r2]; exact hroot
      · rw [r3]; exact hnd
      · rw [r3]; exact hlt
      · rw [r4]
        refine Chain_frame _ none none hch (fun x _ => ?_)
        by_cases hx : x = lf
        · subst hx
          simp [links, c1, u2, c2, u3]
        · simp only
          rw [Function.update_noteq hx]
      · rw [r4]; exact hhead
    | false =>
      have habs : key ∉ ndl.keyList := fun hm => by simpa using (k5 hm).1
      obtain ⟨ndl1, arg1, i1, i2, i3, i4, i5, i6⟩ := Node.insert_spec key value c2 hn c3
      have hlnd := leaves_nodup hnd
      obtain ⟨bt1, nx1, h1, hI, hr1, hf1, hch1, hloop⟩ :=
        upLoop_spec ho fr key value c1 habs i1 hpath [] [] hg
          (by omega) bot_le (WithTop.coe_lt_top _) hr hnd hlt (by simpa using hch)
          (by simpa using hlnd) (by simp)
      simp only [List.nil_append, List.append_nil] at hch1
      have haddr := Ins_addr hI
      have hnx := Ins_next hI
      have hg1 := Ins_good ho hI hg (by omega) bot_le (WithTop.coe_lt_top _)
      have hnd1 := Ins_nodup hI hnd hlt
      have hlt1 : ∀ a ∈ bt1.addrs, a < nx1 := by
        intro a ha
        rcases (Ins_mem_addrs hI a).1 ha with h | h
        · exact lt_of_lt_of_le (hlt a h) hnx
        · exact h.2
      have hhd := Ins_leaves_head hI
      obtain ⟨cn, hcn, hcnn⟩ := Rep_cell hr1
      have hcase : bt1.count < order →
          Inv order { t with heap := h1, next := nx1, size := wrapInt (t.size + 1) } := by
        intro hc
        refine Or.inr ⟨bt1, d, ?_, hr1, Good_recount hg1 (Good_count hg1).1 (by omega), hnd1,
          hlt1, hch1, ?_⟩
        · simp only [haddr]; exact hroot
        · simp only [hhd]; exact hhead
      have hl := hloop []
      rw [List.append_nil] at hl
      simp only [i1]
      rcases hl with hl | ⟨hc, hl⟩
      · simp only [upLoop] at hl
        by_cases hover : order ≤ bt1.count
        · have hcnt : bt1.count = order := by
            have := (Good_count hg1).2
            omega
          have hg1' : Good order d 1 order ⊥ ⊤ bt1 := by
            have h3 : order - 1 + 1 = order := by omega
            rw [h3] at hg1
            exact hg1
          obtain ⟨h2, bt2, s1, s2, s3, s4, s5, s6, s7, s8, s9, s10⟩ :=
            root_split ho fr hr1 hg1' hcnt hnd1 hlt1 hch1
          rw [haddr] at s1 hcn
          rw [maintain_root_over fr (t := { t with heap := Function.update t.heap lf (some ndl1) })
            hl hcn (by omega) s1]
          refine ⟨_, 0, rfl, Or.inr ⟨bt2, d + 1, ?_, s3, s4, s5, s6, s7, ?_⟩⟩
          · simp only [s2]
          · simp only [s8]
            rw [hhead, ← hhd]
            cases d with
            | zero =>
              rw [Good_zero_leaves hg1]
              rfl
            | succ d => simp
        · rw [haddr] at hcn
          rw [maintain_root_ok fr (t := { t with heap := Function.update t.heap lf (some ndl1) })
            hl hcn (by omega)]
          exact ⟨_, 0, rfl, hcase (by omega)⟩
      · rw [maintain_return fr (t := { t with heap := Function.update t.heap lf (some ndl1) })
          hl]
        exact ⟨_, 0, rfl, hcase hc⟩

end InsertInv

section Reach

variable {K V : Type} [LinearOrder K]

theorem Inv_empty (order : Nat) : Inv order (empty : Tree K V) := Or.inl ⟨rfl, rfl⟩

/-- A sequence of `insert` calls from a state satisfying the invariant runs to the end and
ends in a state satisfying the invariant. -/
theorem run_inserts_inv {order : Nat} (ho : 3 ≤ order) (fr : Fresh K V) :
    ∀ (kvs : List (K × V)) (t : Tree K V), Inv order t →
      ∃ t1 rs, run order fr (kvs.map (fun p => Op.ins p.1 p.2)) t = some (t1, rs) ∧
        Inv order t1
  | [], t, h => ⟨t, [], rfl, h⟩
  | p :: kvs, t, h => by
    obtain ⟨t1, r, h1, h2⟩ := insert_inv ho fr t p.1 p.2 h
    obtain ⟨t2, rs, h3, h4⟩ := run_inserts_inv ho fr kvs t1 h2
    exact ⟨t2, r :: rs, by simp only [List.map_cons, run, step, h1, h3], h4⟩

omit [LinearOrder K] in
theorem leafLoop_none (h : Heap K V) (fuel : Nat) : leafLoop h (fuel + 1) none = some [] := rfl

/-- The leaf scan of a state satisfying the invariant is defined and strictly ascending. -/
theorem leafKeys_sorted_of_inv {order : Nat} {t : Tree K V} (h : Inv order t) :
    ∃ ks, leafKeys t = some ks ∧ ks.Sorted (· < ·) := by
  rcases h with ⟨_, hhead⟩ | ⟨bt, d, _, hr, hg, hnd, hlt, hch, hhead⟩
  · refine ⟨[], ?_, List.sorted_nil⟩
    simp [leafKeys, leafTraversal, hhead, leafLoop_none]
  · exact ⟨bt.keys, (leafEntries_of_rep hr hnd hlt hch hhead).2, (Good_keys_sorted hg).1⟩

end Reach

section Claims

/-- C1: for every order of at least 3 and every finite sequence of `insert` calls on the empty
tree, all calls return, and the key sequence of the leaf scan (`leafTraversal`) is strictly
ascending under the comparator and has no duplicate key; the contents of uninitialised key
slots do not matter. -/
theorem leaf_scan_ascending_after_inserts {K V : Type} [LinearOrder K] (order : Nat)
    (ho : 3 ≤ order) (fr : Fresh K V) (kvs : List (K × V)) :
    ∃ t rs ks, run order fr (kvs.map (fun p => Op.ins p.1 p.2)) empty = some (t, rs) ∧
      leafKeys t = some ks ∧ ks.Sorted (· < ·) ∧ ks.Nodup := by
  obtain ⟨t, rs, h1, h2⟩ := run_inserts_inv ho fr kvs empty (Inv_empty order)
  obtain ⟨ks, h3, h4⟩ := leafKeys_sorted_of_inv h2
  exact ⟨t, rs, ks, h1, h3, h4, h4.nodup⟩

theorem leaf_scan_ascending_after_inserts_witness :
    3 ≤ 3 ∧ ∃ t rs ks,
      run 3 zeroFresh ([((20 : Int), 1), (10, 2), (30, 3), (10, 4)].map
        (fun p => Op.ins p.1 p.2)) empty = some (t, rs) ∧
      leafKeys t = some ks ∧ ks.Sorted (· < ·) ∧ ks.Nodup :=
  ⟨by decide, leaf_scan_ascending_after_inserts 3 (by decide) zeroFresh _⟩

end Claims

section ShapeLemmas

variable {K V : Type}

theorem shapeL_eq_map (cs : List (BT K V)) : BT.shapeL cs = cs.map BT.shape := by
  induction cs with
  | nil => rfl
  | cons c cs ih => simp [BT.shapeL, ih]

theorem Kids_map [LinearOrder K] (f : BT K V → BT K V)
    (P : WithBot K → WithTop K → BT K V → Prop) :
    ∀ (ks : List K) (cs : List (BT K V)) (lo : WithBot K) (hi : WithTop K),
      Kids P lo hi ks (cs.map f) ↔ Kids (fun lo hi c => P lo hi (f c)) lo hi ks cs
  | [], [], _, _ => by simp [Kids]
  | [], [_], _, _ => by simp [Kids]
  | [], _ :: _ :: _, _, _ => by simp [Kids]
  | _ :: _, [], _, _ => by simp [Kids]
  | k :: ks, c :: cs, lo, hi => by
    simp only [List.map_cons, Kids]
    rw [Kids_map f P ks cs]

theorem Kids_congr [LinearOrder K] {P Q : WithBot K → WithTop K → BT K V → Prop}
    (hPQ : ∀ lo hi c, P lo hi c ↔ Q lo hi c) (ks : List K) (cs : List (BT K V))
    (lo : WithBot K) (hi : WithTop K) : Kids P lo hi ks cs ↔ Kids Q lo hi ks cs :=
  ⟨Kids_mono (fun lo hi c => (hPQ lo hi c).1) ks cs lo hi,
    Kids_mono (fun lo hi c => (hPQ lo hi c).2) ks cs lo hi⟩

/-- The data-model invariant depends on the node structure only. -/
theorem Good_shape [LinearOrder K] {order : Nat} :
    ∀ (d : Nat) (bt : BT K V) (cmin cmax : Nat) (lo : WithBot K) (hi : WithTop K),
      Good order d cmin cmax lo hi bt.shape ↔ Good order d cmin cmax lo hi bt := by
  intro d
  induction d with
  | zero =>
    intro bt cmin cmax lo hi
    cases bt with
    | leaf a es => simp [BT.shape, Good]
    | node a ks cs => simp [BT.shape, Good]
  | succ d ih =>
    intro bt cmin cmax lo hi
    cases bt with
    | leaf a es => simp [BT.shape, Good]
    | node a ks cs =>
      simp only [BT.shape, Good, shapeL_eq_map]
      rw [Kids_map, Kids_congr (fun lo hi c => ih c _ _ lo hi)]

theorem Good_of_shape_eq [LinearOrder K] {order d cmin cmax : Nat} {lo : WithBot K}
    {hi : WithTop K} {bt bt1 : BT K V} (hs : bt1.shape = bt.shape)
    (hg : Good order d cmin cmax lo hi bt) : Good order d cmin cmax lo hi bt1 := by
  rw [← Good_shape] at hg ⊢
  rw [hs]
  exact hg

mutual
theorem leafList_shape : ∀ (t : BT K V),
    t.shape.leafList.map Prod.snd = t.leafList.map Prod.snd
  | .leaf a es => by simp [BT.shape, BT.leafList]
  | .node a ks cs => by
    simp only [BT.shape, BT.leafList]
    exact leafListL_shape cs
theorem leafListL_shape : ∀ (cs : List (BT K V)),
    (BT.leafListL (BT.shapeL cs)).map Prod.snd = (BT.leafListL cs).map Prod.snd
  | [] => by simp [BT.shapeL, BT.leafListL]
  | c :: cs => by
    simp only [BT.shapeL, BT.leafListL, List.map_append]
    rw [leafList_shape c, leafListL_shape cs]
end

/-- The entries of the leaves depend on the node structure only. -/
theorem entries_of_shape_eq {bt bt1 : BT K V} (hs : bt1.shape = bt.shape) :
    bt1.entries = bt.entries := by
  simp only [BT.entries]
  rw [← leafList_shape bt1, ← leafList_shape bt, hs]

theorem Kids_forall [LinearOrder K] {P : WithBot K → WithTop K → BT K V → Prop} :
    ∀ (ks : List K) (cs : List (BT K V)) (lo : WithBot K) (hi : WithTop K),
      Kids P lo hi ks cs → ∀ c ∈ cs, ∃ lo hi, P lo hi c
  | [], [], _, _, h => by simp [Kids] at h
  | [], [_], lo, hi, h => by
    simp only [Kids] at h
    intro c hc
    simp only [List.mem_singleton] at hc
    subst hc
    exact ⟨lo, hi, h⟩
  | [], _ :: _ :: _, _, _, h => by simp [Kids] at h
  | _ :: _, [], _, _, h => by simp [Kids] at h
  | k :: ks, c :: cs, lo, hi, h => by
    simp only [Kids] at h
    intro x hx
    rcases List.mem_cons.1 hx with rfl | hx
    · exact ⟨lo, _, h.1⟩
    · exact Kids_forall ks cs _ hi h.2 x hx

/-- A tree satisfying the data model is well formed. -/
theorem Good_wf [LinearOrder K] {order : Nat} :
    ∀ (d : Nat) (bt : BT K V) (cmin cmax : Nat) (lo : WithBot K) (hi : WithTop K),
      Good order d cmin cmax lo hi bt → cmax ≤ order → Wf order d bt := by
  intro d
  induction d with
  | zero =>
    intro bt cmin cmax lo hi hg hc
    cases bt with
    | leaf a es =>
      simp only [Good] at hg
      simp only [Wf]
      omega
    | node a ks cs => simp [Good] at hg
  | succ d ih =>
    intro bt cmin cmax lo hi hg hc
    cases bt with
    | leaf a es => simp [Good] at hg
    | node a ks cs =>
      simp only [Good] at hg
      simp only [Wf]
      refine ⟨by omega, Kids_length _ _ _ _ hg.2.2.2.2, ?_⟩
      intro c hcm
      obtain ⟨lo1, hi1, hP⟩ := Kids_forall ks cs lo hi hg.2.2.2.2 c hcm
      exact ih c _ _ lo1 hi1 hP (by omega)

theorem ser_leaf (ck : Codec K) (cv : Codec V) (a : Nat) (es : List (K × V)) :
    (BT.leaf a es).ser ck cv = 0 :: (encInt (es.length : Int) ++ 1 ::
      ((es.map (fun e => ck.enc e.1)).flatten ++ (es.map (fun e => cv.enc e.2)).flatten)) := by
  simp [BT.ser]

theorem ser_node (ck : Codec K) (cv : Codec V) (a : Nat) (ks : List K) (cs : List (BT K V)) :
    (BT.node a ks cs).ser ck cv = 0 :: (encInt (ks.length : Int) ++ 0 ::
      ((ks.map ck.enc).flatten ++ BT.serL ck cv cs)) := by
  simp [BT.ser]

/-- The bytes of a tree are longer than its depth. -/
theorem Wf_depth_lt_ser {order : Nat} (ck : Codec K) (cv : Codec V) :
    ∀ (d : Nat) (bt : BT K V), Wf order d bt → d < (bt.ser ck cv).length := by
  intro d
  induction d with
  | zero =>
    intro bt h
    cases bt with
    | leaf a es => simp [ser_leaf]
    | node a ks cs => simp [Wf] at h
  | succ d ih =>
    intro bt h
    cases bt with
    | leaf a es => simp [Wf] at h
    | node a ks cs =>
      simp only [Wf] at h
      obtain ⟨-, h2, h3⟩ := h
      cases cs with
      | nil => simp at h2
      | cons c cs =>
        have := ih c (h3 c (List.mem_cons_self _ _))
        simp only [ser_node, BT.serL, List.length_cons, List.length_append]
        omega

end ShapeLemmas

section Bytes

theorem encInt_length (x : Int) : (encInt x).length = 4 := rfl

/-- A 32-bit `int` is read back from its four bytes. -/
theorem decInt_encInt (x : Int) (h1 : -2147483648 ≤ x) (h2 : x < 2147483648) :
    ∃ b0 b1 b2 b3, encInt x = [b0, b1, b2, b3] ∧ decInt b0 b1 b2 b3 = x := by
  refine ⟨_, _, _, _, rfl, ?_⟩
  generalize hu : (x % 4294967296).toNat = u
  have hu1 : (u : Int) = x % 4294967296 := by
    rw [← hu]
    exact Int.toNat_of_nonneg (Int.emod_nonneg _ (by decide))
  have hu2 : u < 4294967296 := by
    have := Int.emod_lt_of_pos x (show (0 : Int) < 4294967296 by decide)
    omega
  unfold decInt
  simp only [Nat.mod_mod]
  have : u % 256 + 256 * (u / 256 % 256) + 65536 * (u / 65536 % 256)
      + 16777216 * (u / 16777216 % 256) = u := by omega
  rw [this]
  split_ifs with hlt
  · omega
  · omega

variable {α : Type}

/-- Reading back the bytes of `n` array elements: the elements land in the slots
`i, ..., i + n - 1`, the other slots keep their contents, and the rest of the stream is left. -/
theorem decArray_spec {c : Codec α} (hc : c.Lawful) :
    ∀ (xs : List α) (i : Nat) (arr : Nat → α) (rest : List Nat),
      ∃ arr1, decArray c xs.length i arr ((xs.map c.enc).flatten ++ rest) = some (arr1, rest) ∧
        (List.range xs.length).map (fun j => arr1 (i + j)) = xs ∧
        ∀ j, j < i → arr1 j = arr j
  | [], i, arr, rest => ⟨arr, by simp [decArray], by simp, fun _ _ => rfl⟩
  | x :: xs, i, arr, rest => by
    obtain ⟨arr1, h1, h2, h3⟩ :=
      decArray_spec hc xs (i + 1) (Function.update arr i x) rest
    refine ⟨arr1, ?_, ?_, ?_⟩
    · have hlen := hc.1 x
      simp only [List.length_cons, decArray, List.map_cons, List.flatten_cons,
        List.append_assoc, List.length_append, hlen]
      rw [if_neg (by omega), ← hlen, List.take_left, List.drop_left, hc.2 x]
      exact h1
    · rw [List.length_cons, List.range_succ_eq_map, List.map_cons, List.map_map]
      have h0 : arr1 (i + 0) = x := by
        rw [Nat.add_zero, h3 i (Nat.lt_succ_self i)]
        exact Function.update_same _ _ _
      rw [h0]
      congr 1
      refine Eq.trans ?_ h2
      apply List.map_congr_left
      intro j _
      simp only [Function.comp_apply]
      congr 1
      omega
    · intro j hj
      rw [h3 j (by omega), Function.update_noteq (by omega)]

end Bytes

section SerializeSpec

variable {K V : Type}

theorem serL_eq_flatten (ck : Codec K) (cv : Codec V) (cs : List (BT K V)) :
    BT.serL ck cv cs = (cs.map (BT.ser ck cv)).flatten := by
  induction cs with
  | nil => rfl
  | cons c cs ih => simp [BT.serL, ih]

theorem leafListL_eq_flatten (cs : List (BT K V)) :
    (BT.leafListL cs).map Prod.fst = (cs.map BT.leaves).flatten := by
  induction cs with
  | nil => rfl
  | cons c cs ih => simp [BT.leafListL, ih, BT.leaves]

theorem ptr_shift {nd : Node K V} {i : Nat} {c : BT K V} {cs : List (BT K V)}
    (hp : (List.range (c :: cs).length).map (fun j => nd.ptr (i + j))
      = (c :: cs).map (fun c => some c.addr)) :
    nd.ptr i = some c.addr ∧
      (List.range cs.length).map (fun j => nd.ptr (i + 1 + j)) = cs.map (fun c => some c.addr) := by
  rw [List.length_cons, List.range_succ_eq_map, List.map_cons, List.map_map, List.map_cons] at hp
  have h1 := List.cons.inj hp
  refine ⟨by simpa using h1.1, ?_⟩
  rw [← h1.2]
  apply List.map_congr_left
  intro j _
  simp only [Function.comp_apply]
  congr 1
  omega

/-- The children loop of `serialize_node`: the bytes of the children in order. -/
theorem serializeKids_spec (ser : Option Nat → Option (List Nat)) (nd : Node K V)
    (g : BT K V → List Nat) :
    ∀ (cs : List (BT K V)) (i : Nat),
      (List.range cs.length).map (fun j => nd.ptr (i + j)) = cs.map (fun c => some c.addr) →
      (∀ c ∈ cs, ser (some c.addr) = some (g c)) →
      serializeKids ser nd cs.length i = some ((cs.map g).flatten)
  | [], _, _, _ => rfl
  | c :: cs, i, hp, hs => by
    obtain ⟨p1, p2⟩ := ptr_shift hp
    have ih := serializeKids_spec ser nd g cs (i + 1) p2
      (fun x hx => hs x (List.mem_cons_of_mem _ hx))
    simp only [List.length_cons, serializeKids, p1, hs c (List.mem_cons_self _ _), ih,
      List.map_cons, List.flatten_cons]

/-- The children loop of `collect_leaves`: the leaves of the children in order. -/
theorem collectKids_spec (col : Option Nat → Option (List Nat)) (nd : Node K V)
    (g : BT K V → List Nat) :
    ∀ (cs : List (BT K V)) (i : Nat),
      (List.range cs.length).map (fun j => nd.ptr (i + j)) = cs.map (fun c => some c.addr) →
      (∀ c ∈ cs, col (some c.addr) = some (g c)) →
      collectKids col nd cs.length i = some ((cs.map g).flatten)
  | [], _, _, _ => rfl
  | c :: cs, i, hp, hs => by
    obtain ⟨p1, p2⟩ := ptr_shift hp
    have ih := collectKids_spec col nd g cs (i + 1) p2
      (fun x hx => hs x (List.mem_cons_of_mem _ hx))
    simp only [List.length_cons, collectKids, p1, hs c (List.mem_cons_self _ _), ih,
      List.map_cons, List.flatten_cons]

theorem ptr_zero_shift {nd : Node K V} {cs : List (BT K V)}
    (hp : (List.range cs.length).map nd.ptr = cs.map (fun c => some c.addr)) :
    (List.range cs.length).map (fun j => nd.ptr (0 + j)) = cs.map (fun c => some c.addr) := by
  rw [← hp]
  apply List.map_congr_left
  intro j _
  simp

/-- `serialize_node` on a represented, well-formed tree writes the bytes of the tree. -/
theorem serializeNode_spec {order : Nat} (ck : Codec K) (cv : Codec V) {h : Heap K V} :
    ∀ (d : Nat) (bt : BT K V), Wf order d bt → Rep h bt → ∀ fuel, d < fuel →
      serializeNode order ck cv h fuel (some bt.addr) = some (bt.ser ck cv) := by
  intro d
  induction d with
  | zero =>
    intro bt hw hr fuel hf
    obtain ⟨f, rfl⟩ : ∃ f, fuel = f + 1 := ⟨fuel - 1, by omega⟩
    cases hr with
    | @node a ks cs nd ha hl hk hp hc => simp [Wf] at hw
    | @leaf a es nd ha hl he =>
      simp only [Wf] at hw
      have hn : nd.n = es.length := by rw [← he, entries_length]
      have h1 : ¬ order < nd.n := by omega
      change serializeNode order ck cv h (f + 1) (some a) = _
      simp only [serializeNode, ha, h1, hl, ↓reduceIte, ser_leaf, ← he]
      simp [encArray, Node.entries, List.map_map, Function.comp_def]
  | succ d ih =>
    intro bt hw hr fuel hf
    obtain ⟨f, rfl⟩ : ∃ f, fuel = f + 1 := ⟨fuel - 1, by omega⟩
    cases hr with
    | @leaf a es nd ha hl he => simp [Wf] at hw
    | @node a ks cs nd ha hl hk hp hc =>
      simp only [Wf] at hw
      obtain ⟨w1, w2, w3⟩ := hw
      have hn : nd.n = ks.length := by rw [← hk, keyList_length]
      have h1 : ¬ order < nd.n := by omega
      have hkids := serializeKids_spec (serializeNode order ck cv h f) nd (BT.ser ck cv) cs 0
        (ptr_zero_shift hp) (fun c hcm => ih c (w3 c hcm) (hc c hcm) f (by omega))
      rw [w2, ← hn] at hkids
      change serializeNode order ck cv h (f + 1) (some a) = _
      simp only [serializeNode, ha, h1, hl, ↓reduceIte, hkids, ser_node, serL_eq_flatten, ← hk]
      simp [encArray, Node.keyList, List.map_map, Function.comp_def]

/-- `collect_leaves` on a represented, well-formed tree returns its leaves from left to
right. -/
theorem collectLeaves_spec {order : Nat} {h : Heap K V} :
    ∀ (d : Nat) (bt : BT K V), Wf order d bt → Rep h bt → ∀ fuel, d < fuel →
      collectLeaves order h fuel (some bt.addr) = some bt.leaves := by
  intro d
  induction d with
  | zero =>
    intro bt hw hr fuel hf
    obtain ⟨f, rfl⟩ : ∃ f, fuel = f + 1 := ⟨fuel - 1, by omega⟩
    cases hr with
    | @node a ks cs nd ha hl hk hp hc => simp [Wf] at hw
    | @leaf a es nd ha hl he =>
      change collectLeaves order h (f + 1) (some a) = _
      simp only [collectLeaves, ha, hl, ↓reduceIte]
      rfl
  | succ d ih =>
    intro bt hw hr fuel hf
    obtain ⟨f, rfl⟩ : ∃ f, fuel = f + 1 := ⟨fuel - 1, by omega⟩
    cases hr with
    | @leaf a es nd ha hl he => simp [Wf] at hw
    | @node a ks cs nd ha hl hk hp hc =>
      simp only [Wf] at hw
      obtain ⟨w1, w2, w3⟩ := hw
      have hn : nd.n = ks.length := by rw [← hk, keyList_length]
      have h1 : ¬ order < nd.n := by omega
      have hkids := collectKids_spec (collectLeaves order h f) nd BT.leaves cs 0
        (ptr_zero_shift hp) (fun c hcm => ih c (w3 c hcm) (hc c hcm) f (by omega))
      rw [w2, ← hn] at hkids
      change collectLeaves order h (f + 1) (some a) = _
      simp only [collectLeaves, ha, h1, hl, Bool.false_eq_true, ↓reduceIte, hkids]
      simp only [BT.leaves, BT.leafList]
      rw [← leafListL_eq_flatten]

end SerializeSpec

section DeserializeSpec

variable {K V : Type}

theorem ptr_unshift {nd : Node K V} {i : Nat} {c : BT K V} {cs : List (BT K V)}
    (h0 : nd.ptr i = some c.addr)
    (hp : (List.range cs.length).map (fun j => nd.ptr (i + 1 + j))
      = cs.map (fun c => some c.addr)) :
    (List.range (c :: cs).length).map (fun j => nd.ptr (i + j))
      = (c :: cs).map (fun c => some c.addr) := by
  rw [List.length_cons, List.range_succ_eq_map, List.map_cons, List.map_map, List.map_cons,
    Nat.add_zero, h0, ← hp]
  congr 1
  apply List.map_congr_left
  intro j _
  simp only [Function.comp_apply]
  congr 1
  omega

/-- The children loop of `deserialize_node`: the children are rebuilt one after the other, and
the pointers `ptr[i], ptr[i+1], ...` of the parent `a` are set to them. -/
theorem deserializeKids_spec (ck : Codec K) (cv : Codec V)
    (rd : Heap K V → Nat → List Nat → Option (Option Nat × Heap K V × Nat × List Nat))
    (a : Nat) (rest : List Nat) :
    ∀ (cs : List (BT K V)) (i : Nat) (h : Heap K V) (nx : Nat) (nd : Node K V),
      (∀ c ∈ cs, DeserOk ck cv rd c) → h a = some nd → a < nx →
      ∃ (cs1 : List (BT K V)) (h1 : Heap K V) (nx1 : Nat) (nd1 : Node K V),
        deserializeKids rd a cs.length i h nx (BT.serL ck cv cs ++ rest) = some (h1, nx1, rest) ∧
        cs1.map BT.shape = cs.map BT.shape ∧ (∀ c ∈ cs1, Rep h1 c) ∧ nx ≤ nx1 ∧
        (∀ x ∈ BT.addrsL cs1, nx ≤ x ∧ x < nx1) ∧ (BT.addrsL cs1).Nodup ∧
        h1 a = some nd1 ∧ nd1.n = nd.n ∧ nd1.IS_LEAF = nd.IS_LEAF ∧ nd1.keys = nd.keys ∧
        (List.range cs1.length).map (fun j => nd1.ptr (i + j))
          = cs1.map (fun c => some c.addr) ∧
        (∀ j, j < i → nd1.ptr j = nd.ptr j) ∧
        ∀ x, x ≠ a → x < nx ∨ nx1 ≤ x → h1 x = h x
  | [], i, h, nx, nd, _, ha, _ =>
    ⟨[], h, nx, nd, by simp [deserializeKids, BT.serL], rfl, by simp, le_rfl,
      by simp [BT.addrsL], by simp [BT.addrsL], ha, rfl, rfl, rfl, rfl, fun _ _ => rfl,
      fun _ _ _ => rfl⟩
  | c :: cs, i, h, nx, nd, hok, ha, han => by
    obtain ⟨c1, hA, nxA, d1, d2, d3, d4, d5, d6, d7, d8⟩ :=
      hok c (List.mem_cons_self _ _) h nx (BT.serL ck cv cs ++ rest)
    have hAa : hA a = some nd := by rw [d8 a (Or.inl han)]; exact ha
    have hset : setPtr hA a i (some nx)
        = some (Function.update hA a
            (some { nd with ptr := Function.update nd.ptr i (some nx) })) := by
      simp [setPtr, modify, hAa]
    obtain ⟨cs1, h1, nx1, nd1, e1, e2, e3, e4, e5, e6, e7, e8, e9, e10, e11, e12, e13⟩ :=
      deserializeKids_spec ck cv rd a rest cs (i + 1)
        (Function.update hA a (some { nd with ptr := Function.update nd.ptr i (some nx) }))
        nxA { nd with ptr := Function.update nd.ptr i (some nx) }
        (fun x hx => hok x (List.mem_cons_of_mem _ hx)) (Function.update_same _ _ _)
        (by omega)
    have hc1 : ∀ x ∈ c1.addrs, h1 x = hA x := by
      intro x hx
      have hb := d6 x hx
      have hxa : x ≠ a := by omega
      rw [e13 x hxa (Or.inl hb.2), Function.update_noteq hxa]
    refine ⟨c1 :: cs1, h1, nx1, nd1, ?_, ?_, ?_, by omega, ?_, ?_, e7, e8, e9, e10, ?_, ?_, ?_⟩
    · simp only [List.length_cons, deserializeKids, BT.serL, List.append_assoc, d1, hset, e1]
    · simp only [List.map_cons, d3, e2]
    · intro t ht
      rcases List.mem_cons.1 ht with rfl | ht
      · exact Rep_frame d4 (fun x hx => by rw [hc1 x hx])
      · exact e3 t ht
    · intro x hx
      simp only [BT.addrsL, List.mem_append] at hx
      rcases hx with hx | hx
      · have := d6 x hx
        omega
      · have := e5 x hx
        omega
    · simp only [BT.addrsL]
      refine List.nodup_append.2 ⟨d7, e6, ?_⟩
      intro x hx hx2
      have := d6 x hx
      have := e5 x hx2
      omega
    · refine ptr_unshift ?_ e11
      rw [e12 i (Nat.lt_succ_self i), d2]
      exact Function.update_same _ _ _
    · intro j hj
      rw [e12 j (by omega)]
      exact Function.update_noteq (by omega) _ _
    · intro x hxa hx
      rw [e13 x hxa (by omega), Function.update_noteq hxa, d8 x (by omega)]

/-- One step of `deserialize_node` on the bytes of a non-null node with `n` keys. -/
theorem deserializeNode_step {order : Nat} (ho : order < 2147483648) (fr : Fresh K V)
    (ck : Codec K) (cv : Codec V) (fuel : Nat) (h : Heap K V) (nx n lf : Nat)
    (body : List Nat) (hn : n ≤ order) :
    deserializeNode order fr ck cv (fuel + 1) h nx (0 :: (encInt (n : Int) ++ lf :: body))
      = match decArray ck n 0 (fr.keys nx) body with
        | none => none
        | some (keys, bs3) =>
          if lf ≠ 0 then
            match decArray cv n 0 (fr.values nx) bs3 with
            | none => none
            | some (values, bs4) =>
              some (some nx,
                Function.update h nx (some { n := n, IS_LEAF := decide (lf ≠ 0), keys := keys,
                                             values := values, ptr := fun _ => none }),
                nx + 1, bs4)
          else
            match deserializeKids (deserializeNode order fr ck cv fuel) nx (n + 1) 0
                (Function.update h nx (some { n := n, IS_LEAF := decide (lf ≠ 0), keys := keys,
                                              values := fr.values nx, ptr := fun _ => none }))
                (nx + 1) bs3 with
            | none => none
            | some (h1, nx1, bs4) => some (some nx, h1, nx1, bs4) := by
  have hn1 : n < 2147483648 := by omega
  have hchk : ¬ ((n : Int) < 0 ∨ (order : Int) < (n : Int)) := by omega
  rw [encInt_natCast n hn1]
  simp only [List.cons_append, List.nil_append, deserializeNode, ne_eq, not_true_eq_false,
    ↓reduceIte, decInt_bytes n hn1, hchk, Int.toNat_ofNat, newNode]

theorem entries_of_arrays {ka : Nat → K} {va : Nat → V} {es : List (K × V)}
    (hk : (List.range es.length).map (fun j => ka (0 + j)) = es.map Prod.fst)
    (hv : (List.range es.length).map (fun j => va (0 + j)) = es.map Prod.snd) :
    (List.range es.length).map (fun i => (ka i, va i)) = es := by
  apply List.ext_getElem
  · simp
  · intro i h1 h2
    have a1 := congrArg (fun l => l[i]?) hk
    have a2 := congrArg (fun l => l[i]?) hv
    simp only [List.getElem?_map, List.getElem?_range h2, Option.map_some', Nat.zero_add,
      List.getElem?_eq_getElem h2] at a1 a2
    simp only [List.getElem_map, List.getElem_range]
    exact Prod.ext (Option.some.inj a1) (Option.some.inj a2)

/-- `deserialize_node` applied to the bytes of a well-formed tree rebuilds the tree. -/
theorem deserializeNode_spec {order : Nat} (ho : order < 2147483648) (fr : Fresh K V)
    {ck : Codec K} {cv : Codec V} (hck : ck.Lawful) (hcv : cv.Lawful) :
    ∀ (d : Nat) (bt : BT K V), Wf order d bt → ∀ fuel, d < fuel →
      DeserOk ck cv (deserializeNode order fr ck cv fuel) bt := by
  intro d
  induction d with
  | zero =>
    intro bt hw fuel hf
    obtain ⟨f, rfl⟩ : ∃ f, fuel = f + 1 := ⟨fuel - 1, by omega⟩
    cases bt with
    | node a ks cs => simp [Wf] at hw
    | leaf a es =>
      simp only [Wf] at hw
      intro h nx rest
      obtain ⟨ka, k1, k2, -⟩ := decArray_spec hck (es.map Prod.fst) 0 (fr.keys nx)
        ((es.map (fun e => cv.enc e.2)).flatten ++ rest)
      obtain ⟨va, v1, v2, -⟩ := decArray_spec hcv (es.map Prod.snd) 0 (fr.values nx) rest
      simp only [List.length_map, List.map_map, Function.comp_def] at k1 k2 v1 v2
      have hstep := deserializeNode_step ho fr ck cv f h nx es.length 1
        ((es.map (fun e => ck.enc e.1)).flatten ++ ((es.map (fun e => cv.enc e.2)).flatten
          ++ rest)) hw
      rw [k1] at hstep
      simp only [ne_eq, one_ne_zero, not_false_eq_true, ↓reduceIte, v1, decide_True] at hstep
      refine ⟨.leaf nx es,
        Function.update h nx (some { n := es.length, IS_LEAF := true, keys := ka, values := va,
                                     ptr := fun _ => none }),
        nx + 1, ?_, rfl, rfl,
        Rep.leaf (Function.update_same _ _ _) ?_ ?_, Nat.lt_succ_self _, ?_, ?_, ?_⟩
      · rw [ser_leaf]
        simp only [List.cons_append, List.append_assoc]
        exact hstep
      · rfl
      · exact entries_of_arrays k2 v2
      · intro x hx
        simp only [BT.addrs, List.mem_singleton] at hx
        omega
      · simp [BT.addrs]
      · intro x hx
        exact Function.update_noteq (by omega) _ _
  | succ d ih =>
    intro bt hw fuel hf
    obtain ⟨f, rfl⟩ : ∃ f, fuel = f + 1 := ⟨fuel - 1, by omega⟩
    cases bt with
    | leaf a es => simp [Wf] at hw
    | node a ks cs =>
      simp only [Wf] at hw
      obtain ⟨w1, w2, w3⟩ := hw
      intro h nx rest
      obtain ⟨ka, k1, k2, -⟩ := decArray_spec hck ks 0 (fr.keys nx)
        (BT.serL ck cv cs ++ rest)
      have hstep := deserializeNode_step ho fr ck cv f h nx ks.length 0
        ((ks.map ck.enc).flatten ++ (BT.serL ck cv cs ++ rest)) w1
      rw [k1] at hstep
      simp only [ne_eq, not_true_eq_false, ↓reduceIte, decide_False] at hstep
      obtain ⟨cs1, h1, nx1, nd1, e1, e2, e3, e4, e5, e6, e7, e8, e9, e10, e11, -, e13⟩ :=
        deserializeKids_spec ck cv (deserializeNode order fr ck cv f) nx rest cs 0
          (Function.update h nx (some { n := ks.length, IS_LEAF := false, keys := ka,
                                        values := fr.values nx, ptr := fun _ => none }))
          (nx + 1) { n := ks.length, IS_LEAF := false, keys := ka,
                     values := fr.values nx, ptr := fun _ => none }
          (fun c hc => ih c (w3 c hc) f (by omega)) (Function.update_same _ _ _)
          (Nat.lt_succ_self _)
      rw [← w2, e1] at hstep
      refine ⟨.node nx ks cs1, h1, nx1, ?_, rfl, ?_, Rep.node e7 e9 ?_ ?_ e3, by omega, ?_, ?_,
        ?_⟩
      · rw [ser_node]
        simp only [List.cons_append, List.append_assoc]
        exact hstep
      · simp only [BT.shape, shapeL_eq_map, e2]
      · simp only [Node.keyList, e8, e10]
        refine Eq.trans ?_ k2
        apply List.map_congr_left
        intro j _
        simp
      · rw [← e11]
        apply List.map_congr_left
        intro j _
        simp
      · intro x hx
        simp only [BT.addrs, List.mem_cons] at hx
        rcases hx with rfl | hx
        · omega
        · have := e5 x hx
          omega
      · simp only [BT.addrs, List.nodup_cons]
        refine ⟨fun hm => ?_, e6⟩
        have := e5 nx hm
        omega
      · intro x hx
        rw [e13 x (by omega) (by omega)]
        exact Function.update_noteq (by omega) _ _

end DeserializeSpec

section RoundTrip

variable {K V : Type}

theorem firstOr_none (l : List Nat) : firstOr l none = l.head? := by
  cases l <;> rfl

/-- The linking loop of `deserialize`: the collected leaves become a doubly linked list, and
nothing but the links of these leaves changes. -/
theorem linkLeaves_spec :
    ∀ (l : List Nat) (prev : Option Nat) (h : Heap K V), l.Nodup →
      (∀ a ∈ l, ∃ nd, h a = some nd ∧ nd.IS_LEAF = true) →
      ∃ h1, linkLeaves prev l h = some h1 ∧ Chain h1 prev l none ∧
        (∀ x, core (h1 x) = core (h x)) ∧ ∀ x, x ∉ l → h1 x = h x
  | [], prev, h, _, _ => ⟨h, rfl, trivial, fun _ => rfl, fun _ _ => rfl⟩
  | a :: rest, prev, h, hnd, hl => by
    obtain ⟨nd, ha, hleaf⟩ := hl a (List.mem_cons_self _ _)
    have hnd' := List.nodup_cons.1 hnd
    have hs1 : setPtr h a 1 rest.head?
        = some (Function.update h a
            (some { nd with ptr := Function.update nd.ptr 1 rest.head? })) := by
      simp [setPtr, modify, ha]
    have hs2 : setPtr (Function.update h a
          (some { nd with ptr := Function.update nd.ptr 1 rest.head? })) a 0 prev
        = some (Function.update h a
            (some { nd with ptr := Function.update (Function.update nd.ptr 1 rest.head?) 0 prev }))
        := by
      simp [setPtr, modify]
    obtain ⟨h1, e1, e2, e3, e4⟩ := linkLeaves_spec rest (some a)
      (Function.update h a
        (some { nd with ptr := Function.update (Function.update nd.ptr 1 rest.head?) 0 prev }))
      hnd'.2
      (fun x hx => by
        have hxa : x ≠ a := fun e => hnd'.1 (e ▸ hx)
        rw [Function.update_noteq hxa]
        exact hl x (List.mem_cons_of_mem _ hx))
    refine ⟨h1, by simp only [linkLeaves, hs1, hs2, e1], ?_, ?_, ?_⟩
    · simp only [Chain]
      refine ⟨?_, e2⟩
      rw [e4 a hnd'.1, Function.update_same, firstOr_none]
      simp [links, hleaf]
    · intro x
      rw [e3 x]
      by_cases hxa : x = a
      · subst hxa
        rw [Function.update_same, ha]
        simp [core, hleaf]
      · rw [Function.update_noteq hxa]
    · intro x hx
      simp only [List.mem_cons, not_or] at hx
      rw [e4 x hx.2, Function.update_noteq hx.1]

theorem leaves_leaf_cells {h : Heap K V} {bt : BT K V} (hr : Rep h bt) :
    ∀ a ∈ bt.leaves, ∃ nd, h a = some nd ∧ nd.IS_LEAF = true := by
  intro a ha
  simp only [BT.leaves, List.mem_map] at ha
  obtain ⟨p, hp, rfl⟩ := ha
  obtain ⟨nd, h1, h2, -⟩ := Rep_leafList hr p hp
  exact ⟨nd, h1, h2⟩

/-- `deserialize` on a stream that starts with the order and a size. -/
theorem deserialize_stream {order : Nat} (ho : order < 2147483648) (fr : Fresh K V)
    (ck : Codec K) (cv : Codec V) (size : Int) (hs1 : -2147483648 ≤ size)
    (hs2 : size < 2147483648) (body : List Nat) :
    deserialize order fr ck cv (encInt (order : Int) ++ encInt size ++ body)
      = match deserializeNode order fr ck cv (body.length + 1) (fun _ => none) 0 body with
        | none => none
        | some (root, h, nx, _) =>
          match root with
          | none =>
            some (some { heap := h, next := nx, size := size, root := none, head := none })
          | some r =>
            match collectLeaves order h (nx + 1) (some r) with
            | none => none
            | some leaves =>
              match linkLeaves none leaves h with
              | none => none
              | some h1 =>
                some (some { heap := h1, next := nx, size := size, root := some r,
                             head := leaves.head? }) := by
  obtain ⟨o0, o1, o2, o3, ho1, ho2⟩ := decInt_encInt (order : Int) (by omega) (by omega)
  obtain ⟨s0, s1, s2, s3, hz1, hz2⟩ := decInt_encInt size hs1 hs2
  rw [ho1, hz1]
  simp only [List.cons_append, List.nil_append, deserialize, ho2, hz2, ne_eq,
    not_true_eq_false, ↓reduceIte]

end RoundTrip

section RoundTripMain

variable {K V : Type} [LinearOrder K]

/-- Serialising a state that satisfies the invariant and reading the bytes back gives a state
that satisfies the invariant and holds a tree of the same node structure. -/
theorem round_trip_inv {order : Nat} (fr : Fresh K V) {ck : Codec K} {cv : Codec V}
    (hck : ck.Lawful) (hcv : cv.Lawful) (ho : order < 2147483648) (t : Tree K V)
    (hinv : Inv order t) (hs1 : -2147483648 ≤ t.size) (hs2 : t.size < 2147483648) :
    ∃ bs t1, serialize order ck cv t = some bs ∧
      deserialize order fr ck cv bs = some (some t1) ∧ t1.size = t.size ∧ Inv order t1 ∧
      SameStructure order t t1 ∧ ∃ es, leafEntries t = some es ∧ leafEntries t1 = some es := by
  rcases hinv with ⟨hroot, hhead⟩ | ⟨bt, d, hroot, hr, hg, hnd, hlt, hch, hhead⟩
  · have hser : serialize order ck cv t
        = some (encInt (order : Int) ++ encInt t.size ++ [1]) := by
      simp [serialize, hroot, serializeNode]
    refine ⟨_, { heap := fun _ => none, next := 0, size := t.size, root := none, head := none },
      hser, ?_, rfl, Or.inl ⟨rfl, rfl⟩, Or.inl ⟨hroot, rfl⟩, [], ?_, ?_⟩
    · rw [deserialize_stream ho fr ck cv t.size hs1 hs2]
      simp [deserializeNode]
    · simp [leafEntries, hhead, leafLoop_none]
    · simp [leafEntries, leafLoop_none]
  · have hdl : d < t.next + 1 := by
      have h1 := Good_depth_lt hg
      have h2 := nodup_length_le hnd hlt
      omega
    have hw : Wf order d bt := Good_wf d bt _ _ _ _ hg (by omega)
    have hser : serialize order ck cv t
        = some (encInt (order : Int) ++ encInt t.size ++ bt.ser ck cv) := by
      simp only [serialize, hroot, serializeNode_spec ck cv d bt hw hr (t.next + 1) hdl]
    obtain ⟨bt1, h1, nx1, d1, d2, d3, d4, d5, d6, d7, -⟩ :=
      deserializeNode_spec ho fr hck hcv d bt hw ((bt.ser ck cv).length + 1)
        (by have := Wf_depth_lt_ser ck cv d bt hw; omega) (fun _ => none) 0 []
    rw [List.append_nil] at d1
    have hg1 : Good order d 1 (order - 1) ⊥ ⊤ bt1 := Good_of_shape_eq d3 hg
    have hw1 : Wf order d bt1 := Good_wf d bt1 _ _ _ _ hg1 (by omega)
    have hlt1 : ∀ a ∈ bt1.addrs, a < nx1 := fun a ha => (d6 a ha).2
    have hdl1 : d < nx1 + 1 := by
      have h1 := Good_depth_lt hg1
      have h2 := nodup_length_le d7 hlt1
      omega
    have hcol := collectLeaves_spec d bt1 hw1 d4 (nx1 + 1) hdl1
    rw [d2] at hcol
    obtain ⟨h2, l1, l2, l3, -⟩ := linkLeaves_spec bt1.leaves none h1 (leaves_nodup d7)
      (leaves_leaf_cells d4)
    have hr2 : Rep h2 bt1 := Rep_frame d4 (fun a _ => l3 a)
    have hdes : deserialize order fr ck cv (encInt (order : Int) ++ encInt t.size ++ bt.ser ck cv)
        = some (some { heap := h2, next := nx1, size := t.size, root := some 0,
                       head := bt1.leaves.head? }) := by
      rw [deserialize_stream ho fr ck cv t.size hs1 hs2]
      simp only [d1, hcol, l1]
    have hle := leafEntries_of_rep hr hnd hlt hch hhead
    have hle1 := leafEntries_of_rep
      (t := { heap := h2, next := nx1, size := t.size, root := some 0, head := bt1.leaves.head? })
      hr2 d7 hlt1 l2 rfl
    refine ⟨_, _, hser, hdes, rfl, Or.inr ⟨bt1, d, ?_, hr2, hg1, d7, hlt1, l2, rfl⟩,
      Or.inr ⟨bt, bt1, d, hroot, hr, hg, ?_, hr2, hg1, d3⟩, bt.entries, hle.1, ?_⟩
    · simp only [d2]
    · simp only [d2]
    · rw [hle1.1, entries_of_shape_eq d3]

theorem octetCodec_lawful : octetCodec.Lawful := by
  refine ⟨fun _ => rfl, fun x => ?_⟩
  apply Fin.ext
  simp only [octetCodec, List.getD_cons_zero]
  exact Nat.mod_eq_of_lt x.isLt

theorem octetLeafTree_inv : Inv 3 octetLeafTree := by
  refine Or.inr ⟨.leaf 0 [(5, 7)], 0, rfl,
    @Rep.leaf (Fin 256) (Fin 256) octetLeafTree.heap 0 [(5, 7)]
      { n := 1, IS_LEAF := true, keys := fun _ => 5, values := fun _ => 7, ptr := fun _ => none }
      rfl rfl rfl,
    ?_, ?_, ?_, ?_, rfl⟩
  · simp [Good]
  · simp [BT.addrs]
  · simp [BT.addrs, octetLeafTree]
  · simp only [leaves_leaf, Chain, and_true]
    rfl

end RoundTripMain

section ClaimRoundTrip

/-- C8: for every tree with fixed-width keys and values that satisfies the data-model
invariants (the empty tree included), of an order and a size that fit a 32-bit `int`,
`serialize` returns, `deserialize` with the same order on the written bytes returns a tree,
and that tree has the same size, the same node structure (counts, leaf flags, live keys and
values, child shape), a rebuilt leaf chain, and the same key/value leaf scan. -/
theorem serialize_deserialize_round_trip {K V : Type} [LinearOrder K] (order : Nat)
    (fr : Fresh K V) (ck : Codec K) (cv : Codec V) (t : Tree K V)
    (hck : ck.Lawful) (hcv : cv.Lawful) (ho : order < 2147483648) (hinv : Inv order t)
    (hs1 : -2147483648 ≤ t.size) (hs2 : t.size < 2147483648) :
    ∃ bs t1, serialize order ck cv t = some bs ∧
      deserialize order fr ck cv bs = some (some t1) ∧ t1.size = t.size ∧ Inv order t1 ∧
      SameStructure order t t1 ∧
      ∃ es, leafEntries t = some es ∧ leafEntries t1 = some es :=
  round_trip_inv fr hck hcv ho t hinv hs1 hs2

theorem serialize_deserialize_round_trip_witness :
    octetCodec.Lawful ∧ 3 < 2147483648 ∧ Inv 3 octetLeafTree ∧
      -2147483648 ≤ octetLeafTree.size ∧ octetLeafTree.size < 2147483648 ∧
      ∃ bs t1, serialize 3 octetCodec octetCodec octetLeafTree = some bs ∧
        deserialize 3 octetFresh octetCodec octetCodec bs = some (some t1) ∧
        t1.size = octetLeafTree.size ∧ Inv 3 t1 ∧ SameStructure 3 octetLeafTree t1 ∧
        ∃ es, leafEntries octetLeafTree = some es ∧ leafEntries t1 = some es :=
  ⟨octetCodec_lawful, by decide, octetLeafTree_inv, by decide, by decide,
    serialize_deserialize_round_trip 3 octetFresh octetCodec octetCodec octetLeafTree
      octetCodec_lawful octetCodec_lawful (by decide) octetLeafTree_inv (by decide)
      (by decide)⟩

end ClaimRoundTrip

section RemoveNode

variable {K V : Type} [LinearOrder K]

omit [LinearOrder K] in
/-- The loop of `Node::remove`: the slots `i, ..., i + c - 1` take the contents of their right
neighbours. -/
theorem removeLoop_spec : ∀ (c i : Nat) (nd : Node K V),
    (removeLoop c i nd).n = nd.n ∧ (removeLoop c i nd).IS_LEAF = nd.IS_LEAF ∧
    (∀ x, (removeLoop c i nd).keys x
      = if i ≤ x ∧ x < i + c then nd.keys (x + 1) else nd.keys x) ∧
    (nd.IS_LEAF = true → (removeLoop c i nd).ptr = nd.ptr ∧
      ∀ x, (removeLoop c i nd).values x
        = if i ≤ x ∧ x < i + c then nd.values (x + 1) else nd.values x) ∧
    (nd.IS_LEAF = false → (removeLoop c i nd).values = nd.values ∧
      ∀ x, (removeLoop c i nd).ptr x
        = if i + 1 ≤ x ∧ x < i + 1 + c then nd.ptr (x + 1) else nd.ptr x)
  | 0, i, nd => by
    refine ⟨rfl, rfl, fun x => ?_, fun _ => ⟨rfl, fun x => ?_⟩, fun _ => ⟨rfl, fun x => ?_⟩⟩
    · simp only [removeLoop, Nat.add_zero]
      rw [if_neg (by omega)]
    · simp only [removeLoop, Nat.add_zero]
      rw [if_neg (by omega)]
    · simp only [removeLoop, Nat.add_zero]
      rw [if_neg (by omega)]
  | c + 1, i, nd => by
    by_cases hl : nd.IS_LEAF = true
    · obtain ⟨s1, s2, s3, s4, -⟩ := removeLoop_spec c (i + 1)
        { nd with keys := Function.update nd.keys i (nd.keys (i + 1))
                  values := Function.update nd.values i (nd.values (i + 1)) }
      obtain ⟨s5, s6⟩ := s4 hl
      have hstep : removeLoop (c + 1) i nd = removeLoop c (i + 1)
          { nd with keys := Function.update nd.keys i (nd.keys (i + 1))
                    values := Function.update nd.values i (nd.values (i + 1)) } := by
        simp only [removeLoop, hl, ↓reduceIte]
      rw [hstep]
      refine ⟨s1, s2, fun x => ?_, fun _ => ⟨s5, fun x => ?_⟩, fun h => ?_⟩
      · rw [s3 x]
        simp only [Function.update_apply]
        split_ifs <;> first | rfl | (exfalso; omega) | (congr 1; omega)
      · rw [s6 x]
        simp only [Function.update_apply]
        split_ifs <;> first | rfl | (exfalso; omega) | (congr 1; omega)
      · rw [hl] at h
        exact absurd h (by simp)
    · have hl' : nd.IS_LEAF = false := by simpa using hl
      obtain ⟨s1, s2, s3, -, s4⟩ := removeLoop_spec c (i + 1)
        { nd with keys := Function.update nd.keys i (nd.keys (i + 1))
                  ptr := Function.update nd.ptr (i + 1) (nd.ptr (i + 2)) }
      obtain ⟨s5, s6⟩ := s4 hl'
      have hstep : removeLoop (c + 1) i nd = removeLoop c (i + 1)
          { nd with keys := Function.update nd.keys i (nd.keys (i + 1))
                    ptr := Function.update nd.ptr (i + 1) (nd.ptr (i + 2)) } := by
        simp only [removeLoop, hl', Bool.false_eq_true, ↓reduceIte]
      rw [hstep]
      refine ⟨s1, s2, fun x => ?_, fun h => ?_, fun _ => ⟨s5, fun x => ?_⟩⟩
      · rw [s3 x]
        simp only [Function.update_apply]
        split_ifs <;> first | rfl | (exfalso; omega) | (congr 1; omega)
      · exact absurd h hl
      · rw [s6 x]
        simp only [Function.update_apply]
        split_ifs <;> first | rfl | (exfalso; omega) | (congr 1; omega)

/-- `Node::remove` on a leaf with at least one key: the slot found by `search` is removed, or
the last slot when `search` points behind the live keys. -/
theorem Node.remove_leaf_spec (order : Nat) {nd : Node K V} (key : K)
    (hl : nd.IS_LEAF = true) (hn : nd.n ≤ order) (hs : nd.sortedKeys) (hpos : 0 < nd.n) :
    ∃ nd1 arg, nd.remove order key = some nd1 ∧ nd.lowerAt key arg ∧
      nd1.IS_LEAF = true ∧ nd1.ptr = nd.ptr ∧ nd1.n = nd.n - 1 ∧
      nd1.entries = nd.entries.take (if arg < nd.n then arg else nd.n - 1)
        ++ nd.entries.drop ((if arg < nd.n then arg else nd.n - 1) + 1) := by
  obtain ⟨arg, hsearch, hlow⟩ := search_spec order key hn hs
  obtain ⟨s1, s2, s3, s4, -⟩ := removeLoop_spec (nd.n - 1 - arg) arg nd
  obtain ⟨s5, s6⟩ := s4 hl
  have hlr : (removeLoop (nd.n - 1 - arg) arg nd).IS_LEAF = true := s2.trans hl
  have hrem : nd.remove order key
      = some { removeLoop (nd.n - 1 - arg) arg nd with
               n := (removeLoop (nd.n - 1 - arg) arg nd).n - 1 } := by
    have hne : ¬ (removeLoop (nd.n - 1 - arg) arg nd).n = 0 := by rw [s1]; omega
    simp only [Node.remove, hsearch, hlr, ↓reduceIte, hne]
  refine ⟨_, arg, hrem, hlow, hlr, s5, by simp [s1], ?_⟩
  have ha := hlow.1
  simp only [Node.entries, s1]
  apply map_range_remove _ _ nd.n _ (by split_ifs <;> omega)
  · intro x hx
    rw [s3 x, s6 x]
    split_ifs at hx ⊢ <;> first | rfl | (exfalso; omega)
  · intro x hx hxn
    rw [s3 x, s6 x]
    split_ifs at hx ⊢ <;> first | rfl | (exfalso; omega)

/-- `Node::remove` on an internal node, called with one of its keys: the key and the child to
its right are removed. -/
theorem Node.remove_internal_spec (order : Nat) (nd : Node K V) (j : Nat)
    (hl : nd.IS_LEAF = false) (hn : nd.n ≤ order) (hs : nd.sortedKeys) (hj : j < nd.n) :
    ∃ nd1, nd.remove order (nd.keys j) = some nd1 ∧ nd1.IS_LEAF = false ∧
      nd1.n = nd.n - 1 ∧
      nd1.keyList = nd.keyList.take j ++ nd.keyList.drop (j + 1) ∧
      (List.range nd.n).map nd1.ptr
        = ((List.range (nd.n + 1)).map nd.ptr).take (j + 1)
          ++ ((List.range (nd.n + 1)).map nd.ptr).drop (j + 2) ∧
      ∀ x, x < nd.n → nd1.ptr x = if x ≤ j then nd.ptr x else nd.ptr (x + 1) := by
  obtain ⟨arg, hsearch, hlow⟩ := search_spec order (nd.keys j) hn hs
  have hlj : nd.lowerAt (nd.keys j) j :=
    ⟨le_of_lt hj, fun x hx => hs x j hx hj, fun x hx hxn => by
      rcases Nat.eq_or_lt_of_le hx with rfl | h
      · exact le_rfl
      · exact le_of_lt (hs j x h hxn)⟩
  have harg : arg = j := lowerAt_unique hlow hlj
  subst harg
  obtain ⟨s1, s2, s3, -, s4⟩ := removeLoop_spec (nd.n - 1 - arg) arg nd
  obtain ⟨s5, s6⟩ := s4 hl
  have hlr : (removeLoop (nd.n - 1 - arg) arg nd).IS_LEAF = false := s2.trans hl
  have hrem : nd.remove order (nd.keys arg)
      = some { removeLoop (nd.n - 1 - arg) arg nd with
               ptr := Function.update (removeLoop (nd.n - 1 - arg) arg nd).ptr
                        (removeLoop (nd.n - 1 - arg) arg nd).n none
               n := (removeLoop (nd.n - 1 - arg) arg nd).n - 1 } := by
    have hne : ¬ (removeLoop (nd.n - 1 - arg) arg nd).n = 0 := by rw [s1]; omega
    simp only [Node.remove, hsearch, hlr, Bool.false_eq_true, ↓reduceIte, hne]
  refine ⟨_, hrem, hlr, by simp [s1], ?_, ?_, ?_⟩
  · simp only [Node.keyList, s1]
    apply map_range_remove _ _ nd.n _ hj
    · intro x hx
      rw [s3 x]
      split_ifs <;> first | rfl | (exfalso; omega)
    · intro x hx hxn
      rw [s3 x]
      split_ifs <;> first | rfl | (exfalso; omega)
  · simp only [s1]
    have := map_range_remove nd.ptr
      (Function.update (removeLoop (nd.n - 1 - arg) arg nd).ptr nd.n none) (nd.n + 1)
      (arg + 1) (by omega)
      (fun x hx => by
        rw [Function.update_noteq (by omega), s6 x]
        split_ifs <;> first | rfl | (exfalso; omega))
      (fun x hx hxn => by
        rw [Function.update_noteq (by omega), s6 x]
        split_ifs <;> first | rfl | (exfalso; omega))
    simpa using this
  · intro x hx
    simp only [s1]
    rw [Function.update_noteq (by omega), s6 x]
    split_ifs <;> first | rfl | (exfalso; omega)

end RemoveNode

section KidsPair

variable {K V : Type} [LinearOrder K]

omit [LinearOrder K] in
theorem Kids_head_lo {P : WithBot K → WithTop K → BT K V → Prop} {lo : WithBot K}
    {hi : WithTop K} {ks : List K} {c : BT K V} {post : List (BT K V)}
    (h : Kids P lo hi ks (c :: post)) (lo1 : WithBot K) (c1 : BT K V)
    (h1 : P lo1 (headB hi ks) c1) : Kids P lo1 hi ks (c1 :: post) := by
  cases ks with
  | nil =>
    cases post with
    | nil =>
      simp only [Kids, headB] at h1 ⊢
      exact h1
    | cons p post => simp [Kids] at h
  | cons k ks =>
    simp only [Kids, headB] at h h1 ⊢
    exact ⟨h1, h.2⟩

omit [LinearOrder K] in
/-- Two neighbouring children `L`, `C` and the separator `s` between them: their bounds, and
how the pair can be replaced by another pair or by a single child. -/
theorem Kids_pair {P : WithBot K → WithTop K → BT K V → Prop} {lo : WithBot K}
    {hi : WithTop K} {kpre kpost : List K} {s : K} {pre post : List (BT K V)} {L C : BT K V}
    (hlen : kpre.length = pre.length)
    (h : Kids P lo hi (kpre ++ s :: kpost) (pre ++ L :: C :: post)) :
    P (lastB lo kpre) (s : WithTop K) L ∧ P (s : WithBot K) (headB hi kpost) C ∧
      (∀ (s1 : K) (L1 C1 : BT K V), P (lastB lo kpre) (s1 : WithTop K) L1 →
        P (s1 : WithBot K) (headB hi kpost) C1 →
        Kids P lo hi (kpre ++ s1 :: kpost) (pre ++ L1 :: C1 :: post)) ∧
      (∀ (M : BT K V), P (lastB lo kpre) (headB hi kpost) M →
        Kids P lo hi (kpre ++ kpost) (pre ++ M :: post)) := by
  rw [Kids_split hi (s :: kpost) _ kpre pre lo hlen] at h
  obtain ⟨h1, h2⟩ := h
  simp only [Kids] at h2
  obtain ⟨h3, h4⟩ := h2
  refine ⟨h3, (Kids_head h4).1, fun s1 L1 C1 hL hC => ?_, fun M hM => ?_⟩
  · rw [Kids_split hi (s1 :: kpost) _ kpre pre lo hlen]
    refine ⟨h1, ?_⟩
    simp only [Kids]
    exact ⟨hL, Kids_head_lo h4 _ C1 hC⟩
  · rw [Kids_split hi kpost _ kpre pre lo hlen]
    exact ⟨h1, Kids_head_lo h4 _ M hM⟩

theorem Kids_bounds_mono {P : WithBot K → WithTop K → BT K V → Prop}
    (hP : ∀ (lo lo1 : WithBot K) (hi hi1 : WithTop K) (c : BT K V), lo1 ≤ lo → hi ≤ hi1 →
      P lo hi c → P lo1 hi1 c) :
    ∀ (ks : List K) (cs : List (BT K V)) (lo lo1 : WithBot K) (hi hi1 : WithTop K),
      lo1 ≤ lo → hi ≤ hi1 → Kids P lo hi ks cs → Kids P lo1 hi1 ks cs
  | [], [], _, _, _, _, _, _, h => by simp [Kids] at h
  | [], [c], lo, lo1, hi, hi1, h1, h2, h => by
    simp only [Kids] at h ⊢
    exact hP lo lo1 hi hi1 c h1 h2 h
  | [], _ :: _ :: _, _, _, _, _, _, _, h => by simp [Kids] at h
  | _ :: _, [], _, _, _, _, _, _, h => by simp [Kids] at h
  | k :: ks, c :: cs, lo, lo1, hi, hi1, h1, h2, h => by
    simp only [Kids] at h ⊢
    exact ⟨hP lo lo1 _ _ c h1 le_rfl h.1,
      Kids_bounds_mono hP ks cs _ _ hi hi1 le_rfl h2 h.2⟩

/-- The key bounds of a subtree can be widened. -/
theorem Good_mono {order : Nat} :
    ∀ (d : Nat) (bt : BT K V) (cmin cmax : Nat) (lo lo1 : WithBot K) (hi hi1 : WithTop K),
      lo1 ≤ lo → hi ≤ hi1 → Good order d cmin cmax lo hi bt →
      Good order d cmin cmax lo1 hi1 bt := by
  intro d
  induction d with
  | zero =>
    intro bt cmin cmax lo lo1 hi hi1 h1 h2 hg
    cases bt with
    | node a ks cs => simp [Good] at hg
    | leaf a es =>
      simp only [Good] at hg ⊢
      exact ⟨hg.1, hg.2.1, hg.2.2.1, fun k hk =>
        ⟨le_trans h1 (hg.2.2.2 k hk).1, lt_of_lt_of_le (hg.2.2.2 k hk).2 h2⟩⟩
  | succ d ih =>
    intro bt cmin cmax lo lo1 hi hi1 h1 h2 hg
    cases bt with
    | leaf a es => simp [Good] at hg
    | node a ks cs =>
      simp only [Good] at hg ⊢
      exact ⟨hg.1, hg.2.1, hg.2.2.1, fun k hk =>
        ⟨lt_of_le_of_lt h1 (hg.2.2.2.1 k hk).1, lt_of_lt_of_le (hg.2.2.2.1 k hk).2 h2⟩,
        Kids_bounds_mono (fun lo lo1 hi hi1 c a b g => ih c _ _ lo lo1 hi hi1 a b g) ks cs
          lo lo1 hi hi1 h1 h2 hg.2.2.2.2⟩

/-- Removing a separator keeps the separators sorted and inside the bounds; the removed
separator lies strictly between the bounds of its position. -/
theorem sorted_remove_sep {lo : WithBot K} {hi : WithTop K} {kpre kpost : List K} {s : K}
    (hs : (kpre ++ s :: kpost).Sorted (· < ·))
    (hb : ∀ x ∈ kpre ++ s :: kpost, lo < (x : WithBot K) ∧ (x : WithTop K) < hi) :
    (kpre ++ kpost).Sorted (· < ·) ∧
      (∀ x ∈ kpre ++ kpost, lo < (x : WithBot K) ∧ (x : WithTop K) < hi) ∧
      lastB lo kpre < (s : WithBot K) ∧ (s : WithTop K) < headB hi kpost := by
  have hp := List.pairwise_append.1 hs
  have hsub : (kpre ++ kpost).Sublist (kpre ++ s :: kpost) :=
    List.Sublist.append_left (List.sublist_cons_self s kpost) kpre
  refine ⟨List.Pairwise.sublist hsub hs, fun x hx => hb x (hsub.subset hx), ?_, ?_⟩
  · have hsb := hb s (by simp)
    clear hsub hb hs
    induction kpre generalizing lo with
    | nil => simpa [lastB] using hsb.1
    | cons k kpre ih =>
      simp only [lastB]
      exact ih ⟨(List.pairwise_cons.1 hp.1).2, hp.2.1, fun x hx y hy =>
          hp.2.2 x (List.mem_cons_of_mem _ hx) y hy⟩
        ⟨WithBot.coe_lt_coe.2 (hp.2.2 k (List.mem_cons_self _ _) s (List.mem_cons_self _ _)),
          hsb.2⟩
  · exact key_lt_headB hi kpost s (hb s (by simp)).2
      (fun x hx => List.rel_of_sorted_cons hp.2.1 x hx)

/-- Two neighbouring children of a node satisfying the data model, and the ways to replace
them. -/
theorem Good_pair {order d cmin cmax : Nat} {lo : WithBot K} {hi : WithTop K} {a : Nat}
    {kpre kpost : List K} {s : K} {pre post : List (BT K V)} {L C : BT K V}
    (hlen : kpre.length = pre.length)
    (hg : Good order (d + 1) cmin cmax lo hi
      (.node a (kpre ++ s :: kpost) (pre ++ L :: C :: post))) :
    Good order d ((order - 1) / 2) (order - 1) (lastB lo kpre) (s : WithTop K) L ∧
      Good order d ((order - 1) / 2) (order - 1) (s : WithBot K) (headB hi kpost) C ∧
      lastB lo kpre < (s : WithBot K) ∧ (s : WithTop K) < headB hi kpost ∧
      (∀ (s1 : K) (L1 C1 : BT K V), lastB lo kpre < (s1 : WithBot K) →
        (s1 : WithTop K) < headB hi kpost →
        Good order d ((order - 1) / 2) (order - 1) (lastB lo kpre) (s1 : WithTop K) L1 →
        Good order d ((order - 1) / 2) (order - 1) (s1 : WithBot K) (headB hi kpost) C1 →
        Good order (d + 1) cmin cmax lo hi
          (.node a (kpre ++ s1 :: kpost) (pre ++ L1 :: C1 :: post))) ∧
      (∀ (M : BT K V),
        Good order d ((order - 1) / 2) (order - 1) (lastB lo kpre) (headB hi kpost) M →
        Good order (d + 1) (cmin - 1) cmax lo hi
          (.node a (kpre ++ kpost) (pre ++ M :: post))) := by
  simp only [Good] at hg
  obtain ⟨g1, g2, g3, g4, g5⟩ := hg
  obtain ⟨p1, p2, p3, p4⟩ := Kids_pair hlen g5
  obtain ⟨r1, r2, r3, r4⟩ := sorted_remove_sep g3 g4
  refine ⟨p1, p2, r3, r4, fun s1 L1 C1 h1 h2 hL hC => ?_, fun M hM => ?_⟩
  · obtain ⟨q1, q2⟩ := sorted_insert_sep r1 r2 h1 h2
    simp only [Good]
    refine ⟨?_, ?_, q1, q2, p3 s1 L1 C1 hL hC⟩
    · simpa using g1
    · simpa using g2
  · simp only [Good]
    refine ⟨?_, ?_, r1, r2, p4 M hM⟩
    · simp only [List.length_append, List.length_cons] at g1 ⊢
      omega
    · simp only [List.length_append, List.length_cons] at g2 ⊢
      omega

end KidsPair

section DelPure

variable {K V : Type} [LinearOrder K]

omit [LinearOrder K] in
theorem Del_addr {e : K × V} {bt bt1 : BT K V} (h : Del e bt bt1) : bt1.addr = bt.addr := by
  cases h <;> rfl

theorem Good_empty_node {order d cmin cmax : Nat} {lo : WithBot K} {hi : WithTop K} {b : Nat}
    {x : BT K V} (h : Good order d cmin cmax lo hi (.node b [] [x])) :
    ∃ d1, d = d1 + 1 ∧ Good order d1 ((order - 1) / 2) (order - 1) lo hi x := by
  cases d with
  | zero => simp [Good] at h
  | succ d =>
    simp only [Good, Kids] at h
    exact ⟨d, rfl, h.2.2.2.2⟩

theorem Good_leaf_depth {order d cmin cmax : Nat} {lo : WithBot K} {hi : WithTop K} {b : Nat}
    {es : List (K × V)} (h : Good order d cmin cmax lo hi (.leaf b es)) : d = 0 := by
  cases d with
  | zero => rfl
  | succ d => simp [Good] at h

theorem Good_node_depth {order d cmin cmax : Nat} {lo : WithBot K} {hi : WithTop K} {b : Nat}
    {ks : List K} {cs : List (BT K V)} (h : Good order d cmin cmax lo hi (.node b ks cs)) :
    ∃ d1, d = d1 + 1 := by
  cases d with
  | zero => simp [Good] at h
  | succ d => exact ⟨d, rfl⟩

/-- The data model after a removal: the top node may have lost one key, everything below is
within its bounds again. -/
theorem Del_good {order : Nat} (hmid : (order - 1) / 2 = 1) {e : K × V}
    {bt bt1 : BT K V} (h : Del e bt bt1) :
    ∀ {d cmin cmax : Nat} {lo : WithBot K} {hi : WithTop K},
      Good order d cmin cmax lo hi bt → Good order d (cmin - 1) cmax lo hi bt1 := by
  induction h with
  | leaf a es1 es2 =>
    intro d cmin cmax lo hi hg
    cases d with
    | succ d => simp [Good] at hg
    | zero =>
      simp only [Good, List.map_append, List.map_cons, List.length_append,
        List.length_cons] at hg ⊢
      obtain ⟨g1, g2, g3, g4⟩ := hg
      have hsub : (es1.map Prod.fst ++ es2.map Prod.fst).Sublist
          (es1.map Prod.fst ++ e.1 :: es2.map Prod.fst) :=
        List.Sublist.append_left (List.sublist_cons_self _ _) _
      exact ⟨by omega, by omega, List.Pairwise.sublist hsub g3,
        fun k hk => g4 k (hsub.subset hk)⟩
  | keep a kpre kpost pre post c c1 hlen _ hcnt ih =>
    intro d cmin cmax lo hi hg
    cases d with
    | zero => simp [Good] at hg
    | succ d =>
      simp only [Good] at hg ⊢
      obtain ⟨g1, g2, g3, g4, g5⟩ := hg
      obtain ⟨f1, f2, -⟩ := Kids_focus hlen g5
      have hc1 := ih f1
      exact ⟨by omega, g2, g3, g4,
        f2 c1 (Good_recount hc1 (by omega) (Good_count hc1).2)⟩
  | borrowLeftLeaf a kpre kpost s pre post c l b el e1 hlen _ hel ih =>
    intro d cmin cmax lo hi hg
    obtain ⟨d1, rfl⟩ := Good_node_depth hg
    obtain ⟨p1, p2, p3, p4, p5, -⟩ := Good_pair hlen hg
    have hd := Good_leaf_depth (ih p2)
    subst hd
    simp only [Good, List.map_append, List.map_cons, List.map_nil, List.length_append,
      List.length_singleton] at p1
    obtain ⟨q1, q2, q3, q4⟩ := p1
    have hq := List.pairwise_append.1 q3
    have hlast : ∀ k ∈ el.map Prod.fst, k < e1.1 :=
      fun k hk => hq.2.2 k hk e1.1 (List.mem_singleton_self _)
    have hb1 := q4 e1.1 (by simp)
    have hlo : lastB lo kpre < (e1.1 : WithBot K) := by
      obtain ⟨k0, hk0⟩ : ∃ k0, k0 ∈ el.map Prod.fst := by
        cases el with
        | nil => simp at hel
        | cons x el => exact ⟨x.1, by simp⟩
      exact lt_of_le_of_lt (q4 k0 (by simp [hk0])).1 (WithBot.coe_lt_coe.2 (hlast k0 hk0))
    have hhi : (e1.1 : WithTop K) < headB hi kpost := lt_trans hb1.2 p4
    refine Good_recount (p5 e1.1 _ _ hlo hhi ?_ ?_) (by
      have := (Good_count hg).1
      simp only [BT.count, List.length_append, List.length_cons] at this ⊢
      omega) (by
      have := (Good_count hg).2
      simp only [BT.count, List.length_append, List.length_cons] at this ⊢
      omega)
    · simp only [Good]
      refine ⟨by omega, by omega, hq.1, fun k hk => ⟨(q4 k (by simp [hk])).1, ?_⟩⟩
      exact WithTop.coe_lt_coe.2 (hlast k hk)
    · simp only [Good, List.map_cons, List.map_nil, List.length_singleton,
        List.sorted_singleton, List.mem_singleton, forall_eq, true_and]
      exact ⟨by omega, by omega, le_rfl, hhi⟩
  | borrowLeftNode a kpre kpost s pre post c l b kl k1 cl y x hlen _ hkl ih =>
    intro d cmin cmax lo hi hg
    obtain ⟨d1, rfl⟩ := Good_node_depth hg
    obtain ⟨p1, p2, p3, p4, p5, -⟩ := Good_pair hlen hg
    obtain ⟨d2, rfl, hx⟩ := Good_empty_node (ih p2)
    simp only [Good] at p1
    obtain ⟨q1, q2, q3, q4, q5⟩ := p1
    have hcl : cl.length = kl.length + 1 := by
      have := Kids_length _ _ _ _ q5
      simp only [List.length_append, List.length_singleton] at this
      omega
    have hq5 := (Kids_splitKey (s : WithTop K) k1 [] [y] kl cl (lastB lo kpre) hcl).1 q5
    simp only [Kids] at hq5
    have hq := List.pairwise_append.1 q3
    have hb1 := q4 k1 (by simp)
    have hhi : (k1 : WithTop K) < headB hi kpost := lt_trans hb1.2 p4
    refine Good_recount (p5 k1 _ _ hb1.1 hhi ?_ ?_) (by
      have := (Good_count hg).1
      simp only [BT.count, List.length_append, List.length_cons] at this ⊢
      omega) (by
      have := (Good_count hg).2
      simp only [BT.count, List.length_append, List.length_cons] at this ⊢
      omega)
    · simp only [Good]
      simp only [List.length_append, List.length_singleton] at q1 q2
      refine ⟨by omega, by omega, hq.1, fun k hk => ⟨(q4 k (by simp [hk])).1, ?_⟩, hq5.1⟩
      exact WithTop.coe_lt_coe.2 (hq.2.2 k hk k1 (List.mem_singleton_self _))
    · simp only [Good, Kids, List.length_singleton, List.sorted_singleton, List.mem_singleton,
        forall_eq, true_and]
      exact ⟨by omega, by omega, ⟨WithBot.coe_lt_coe.2 (WithTop.coe_lt_coe.1 hb1.2), p4⟩,
        hq5.2, hx⟩
  | borrowRightLeaf a kpre kpost s pre post c r b e1 e2 er hlen _ ih =>
    intro d cmin cmax lo hi hg
    obtain ⟨d1, rfl⟩ := Good_node_depth hg
    obtain ⟨p1, p2, p3, p4, p5, -⟩ := Good_pair (L := c) hlen hg
    have hd := Good_leaf_depth (ih p1)
    subst hd
    simp only [Good, List.map_cons, List.length_cons] at p2
    obtain ⟨q1, q2, q3, q4⟩ := p2
    have hb1 := q4 e1.1 (by simp)
    have hb2 := q4 e2.1 (by simp)
    have h12 : e1.1 < e2.1 := List.rel_of_sorted_cons q3 e2.1 (by simp)
    have hlo : lastB lo kpre < (e2.1 : WithBot K) :=
      lt_of_lt_of_le p3 (le_trans hb1.1 (WithBot.coe_le_coe.2 (le_of_lt h12)))
    refine Good_recount (p5 e2.1 _ _ hlo hb2.2 ?_ ?_) (by
      have := (Good_count hg).1
      simp only [BT.count, List.length_append, List.length_cons] at this ⊢
      omega) (by
      have := (Good_count hg).2
      simp only [BT.count, List.length_append, List.length_cons] at this ⊢
      omega)
    · simp only [Good, List.map_cons, List.map_nil, List.length_singleton,
        List.sorted_singleton, List.mem_singleton, forall_eq, true_and]
      exact ⟨by omega, by omega, le_trans (le_of_lt p3) hb1.1, WithTop.coe_lt_coe.2 h12⟩
    · simp only [Good, List.map_cons, List.length_cons]
      refine ⟨by omega, by omega, q3.of_cons, fun k hk => ⟨?_, (q4 k (by simp [hk])).2⟩⟩
      rcases List.mem_cons.1 hk with rfl | hk
      · exact le_rfl
      · exact WithBot.coe_le_coe.2 (le_of_lt (List.rel_of_sorted_cons q3.of_cons k hk))
  | borrowRightNode a kpre kpost s pre post c r b k1 k2 kr y x cr hlen _ ih =>
    intro d cmin cmax lo hi hg
    obtain ⟨d1, rfl⟩ := Good_node_depth hg
    obtain ⟨p1, p2, p3, p4, p5, -⟩ := Good_pair (L := c) hlen hg
    obtain ⟨d2, rfl, hx⟩ := Good_empty_node (ih p1)
    simp only [Good, Kids, List.length_cons] at p2
    obtain ⟨q1, q2, q3, q4, q5, q6⟩ := p2
    have hb1 := q4 k1 (by simp)
    refine Good_recount (p5 k1 _ _ (lt_trans p3 hb1.1) hb1.2 ?_ ?_) (by
      have := (Good_count hg).1
      simp only [BT.count, List.length_append, List.length_cons] at this ⊢
      omega) (by
      have := (Good_count hg).2
      simp only [BT.count, List.length_append, List.length_cons] at this ⊢
      omega)
    · simp only [Good, Kids, List.length_singleton, List.sorted_singleton, List.mem_singleton,
        forall_eq, true_and]
      exact ⟨by omega, by omega, ⟨p3, WithTop.coe_lt_coe.2 (WithBot.coe_lt_coe.1 hb1.1)⟩,
        hx, q5⟩
    · simp only [Good, List.length_cons]
      refine ⟨by omega, by omega, q3.of_cons, fun k hk => ⟨?_, (q4 k (by simp [hk])).2⟩, q6⟩
      exact WithBot.coe_lt_coe.2 (List.rel_of_sorted_cons q3 k hk)
  | mergeLeftLeaf a kpre kpost s pre post c l b el hlen _ ih =>
    intro d cmin cmax lo hi hg
    obtain ⟨d1, rfl⟩ := Good_node_depth hg
    obtain ⟨p1, p2, p3, p4, -, p6⟩ := Good_pair hlen hg
    exact p6 _ (Good_mono _ _ _ _ _ _ _ _ le_rfl (le_of_lt p4) p1)
  | mergeLeftNode a kpre kpost s pre post c l b kl cl x hlen _ hkl ih =>
    intro d cmin cmax lo hi hg
    obtain ⟨d1, rfl⟩ := Good_node_depth hg
    obtain ⟨p1, p2, p3, p4, -, p6⟩ := Good_pair hlen hg
    obtain ⟨d2, rfl, hx⟩ := Good_empty_node (ih p2)
    simp only [Good] at p1
    obtain ⟨q1, q2, q3, q4, q5⟩ := p1
    have hcl := Kids_length _ _ _ _ q5
    refine p6 _ ?_
    simp only [Good, List.length_append, List.length_singleton]
    refine ⟨by omega, by omega, ?_, ?_, ?_⟩
    · refine List.pairwise_append.2 ⟨q3, List.pairwise_singleton _ _, ?_⟩
      intro k hk y hy
      simp only [List.mem_singleton] at hy
      subst hy
      exact WithTop.coe_lt_coe.1 (q4 k hk).2
    · intro k hk
      rcases List.mem_append.1 hk with hk | hk
      · exact ⟨(q4 k hk).1, lt_trans (q4 k hk).2 p4⟩
      · simp only [List.mem_singleton] at hk
        subst hk
        exact ⟨p3, p4⟩
    · rw [Kids_splitKey (headB hi kpost) s [] [x] kl cl (lastB lo kpre) hcl]
      simp only [Kids]
      exact ⟨q5, hx⟩
  | mergeRightLeaf a kpre kpost s pre post c r b er hlen _ ih =>
    intro d cmin cmax lo hi hg
    obtain ⟨d1, rfl⟩ := Good_node_depth hg
    obtain ⟨p1, p2, p3, p4, -, p6⟩ := Good_pair (L := c) hlen hg
    have hd := Good_leaf_depth (ih p1)
    subst hd
    refine p6 _ ?_
    have := Good_mono _ _ _ _ _ (lastB lo kpre) _ _ (le_of_lt p3) le_rfl p2
    simp only [Good] at this ⊢
    exact this
  | mergeRightNode a kpre kpost s pre post c r b kr cr x hlen _ hkr ih =>
    intro d cmin cmax lo hi hg
    obtain ⟨d1, rfl⟩ := Good_node_depth hg
    obtain ⟨p1, p2, p3, p4, -, p6⟩ := Good_pair (L := c) hlen hg
    obtain ⟨d2, rfl, hx⟩ := Good_empty_node (ih p1)
    simp only [Good] at p2
    obtain ⟨q1, q2, q3, q4, q5⟩ := p2
    refine p6 _ ?_
    simp only [Good, List.length_cons, Kids]
    refine ⟨by omega, by omega, ?_, ?_, hx, q5⟩
    · refine List.pairwise_cons.2 ⟨fun k hk => WithBot.coe_lt_coe.1 (q4 k hk).1, q3⟩
    · intro k hk
      rcases List.mem_cons.1 hk with rfl | hk
      · exact ⟨p3, p4⟩
      · exact ⟨lt_trans p3 (q4 k hk).1, (q4 k hk).2⟩

end DelPure

section DelLists

variable {K V : Type}

theorem addrsL_eq_flatten (cs : List (BT K V)) :
    BT.addrsL cs = (cs.map BT.addrs).flatten := by
  induction cs with
  | nil => rfl
  | cons c cs ih => simp [BT.addrsL, ih]

theorem entries_node (a : Nat) (ks : List K) (cs : List (BT K V)) :
    (BT.node a ks cs).entries = (cs.map BT.entries).flatten := by
  induction cs with
  | nil => simp [BT.entries, BT.leafList, BT.leafListL]
  | cons c cs ih =>
    rw [entries_node_cons a a ks ks, ih]
    simp

theorem leaves_node (a : Nat) (ks : List K) (cs : List (BT K V)) :
    (BT.node a ks cs).leaves = (cs.map BT.leaves).flatten := by
  simp only [BT.leaves, BT.leafList]
  exact leafListL_eq_flatten cs

/-- The nodes of the tree after a removal are nodes of the tree before it; the others have
been freed. -/
theorem Del_addrs_multiset {e : K × V} {bt bt1 : BT K V} (h : Del e bt bt1) :
    ∃ fr : Multiset Nat, (↑bt.addrs : Multiset Nat) = ↑bt1.addrs + fr := by
  induction h with
  | leaf a es1 es2 => exact ⟨0, by simp [BT.addrs]⟩
  | keep a kpre kpost pre post c c1 hlen _ hcnt ih =>
    obtain ⟨fr, ih⟩ := ih
    refine ⟨fr, ?_⟩
    simp only [BT.addrs, addrsL_append, BT.addrsL, ← Multiset.cons_coe, ← Multiset.coe_add,
      ← Multiset.singleton_add, Multiset.coe_nil, add_zero] at ih ⊢
    rw [ih]
    abel
  | borrowLeftLeaf a kpre kpost s pre post c l b el e1 hlen _ hel ih =>
    obtain ⟨fr, ih⟩ := ih
    refine ⟨fr, ?_⟩
    simp only [BT.addrs, addrsL_append, BT.addrsL, ← Multiset.cons_coe, ← Multiset.coe_add,
      ← Multiset.singleton_add, Multiset.coe_nil, add_zero] at ih ⊢
    rw [ih]
    abel
  | borrowLeftNode a kpre kpost s pre post c l b kl k1 cl y x hlen _ hkl ih =>
    obtain ⟨fr, ih⟩ := ih
    refine ⟨fr, ?_⟩
    simp only [BT.addrs, addrsL_append, BT.addrsL, ← Multiset.cons_coe, ← Multiset.coe_add,
      ← Multiset.singleton_add, Multiset.coe_nil, add_zero] at ih ⊢
    rw [ih]
    abel
  | borrowRightLeaf a kpre kpost s pre post c r b e1 e2 er hlen _ ih =>
    obtain ⟨fr, ih⟩ := ih
    refine ⟨fr, ?_⟩
    simp only [BT.addrs, addrsL_append, BT.addrsL, ← Multiset.cons_coe, ← Multiset.coe_add,
      ← Multiset.singleton_add, Multiset.coe_nil, add_zero] at ih ⊢
    rw [ih]
    abel
  | borrowRightNode a kpre kpost s pre post c r b k1 k2 kr y x cr hlen _ ih =>
    obtain ⟨fr, ih⟩ := ih
    refine ⟨fr, ?_⟩
    simp only [BT.addrs, addrsL_append, BT.addrsL, ← Multiset.cons_coe, ← Multiset.coe_add,
      ← Multiset.singleton_add, Multiset.coe_nil, add_zero] at ih ⊢
    rw [ih]
    abel
  | mergeLeftLeaf a kpre kpost s pre post c l b el hlen _ ih =>
    obtain ⟨fr, ih⟩ := ih
    refine ⟨fr + {b}, ?_⟩
    simp only [BT.addrs, addrsL_append, BT.addrsL, ← Multiset.cons_coe, ← Multiset.coe_add,
      ← Multiset.singleton_add, Multiset.coe_nil, add_zero] at ih ⊢
    rw [ih]
    abel
  | mergeLeftNode a kpre kpost s pre post c l b kl cl x hlen _ hkl ih =>
    obtain ⟨fr, ih⟩ := ih
    refine ⟨fr + {b}, ?_⟩
    simp only [BT.addrs, addrsL_append, BT.addrsL, ← Multiset.cons_coe, ← Multiset.coe_add,
      ← Multiset.singleton_add, Multiset.coe_nil, add_zero] at ih ⊢
    rw [ih]
    abel
  | mergeRightLeaf a kpre kpost s pre post c r b er hlen _ ih =>
    obtain ⟨fr, ih⟩ := ih
    refine ⟨fr + {r}, ?_⟩
    simp only [BT.addrs, addrsL_append, BT.addrsL, ← Multiset.cons_coe, ← Multiset.coe_add,
      ← Multiset.singleton_add, Multiset.coe_nil, add_zero] at ih ⊢
    rw [ih]
    abel
  | mergeRightNode a kpre kpost s pre post c r b kr cr x hlen _ hkr ih =>
    obtain ⟨fr, ih⟩ := ih
    refine ⟨fr + {r}, ?_⟩
    simp only [BT.addrs, addrsL_append, BT.addrsL, ← Multiset.cons_coe, ← Multiset.coe_add,
      ← Multiset.singleton_add, Multiset.coe_nil, add_zero] at ih ⊢
    rw [ih]
    abel

theorem Del_mem_addrs {e : K × V} {bt bt1 : BT K V} (h : Del e bt bt1) :
    ∀ x ∈ bt1.addrs, x ∈ bt.addrs := by
  obtain ⟨fr, hfr⟩ := Del_addrs_multiset h
  intro x hx
  have : x ∈ (↑bt.addrs : Multiset Nat) := by
    rw [hfr]
    exact Multiset.mem_add.2 (Or.inl (by simpa using hx))
  simpa using this

theorem Del_nodup {e : K × V} {bt bt1 : BT K V} (h : Del e bt bt1) (hn : bt.addrs.Nodup) :
    bt1.addrs.Nodup := by
  obtain ⟨fr, hfr⟩ := Del_addrs_multiset h
  have h1 : (↑bt.addrs : Multiset Nat).Nodup := by simpa using hn
  rw [hfr] at h1
  have := (Multiset.nodup_add.1 h1).1
  simpa using this

/-- The entries of the leaves after a removal: the removed entry is taken out, the others
stay in their order. -/
theorem Del_entries {e : K × V} {bt bt1 : BT K V} (h : Del e bt bt1) :
    ∃ l1 l2, bt.entries = l1 ++ e :: l2 ∧ bt1.entries = l1 ++ l2 := by
  induction h with
  | leaf a es1 es2 => exact ⟨es1, es2, by simp [entries_leaf], by simp [entries_leaf]⟩
  | keep a kpre kpost pre post c c1 hlen _ hcnt ih =>
    obtain ⟨l1, l2, h1, h2⟩ := ih
    refine ⟨(pre.map BT.entries).flatten ++ l1, l2 ++ (post.map BT.entries).flatten, ?_, ?_⟩
    · simp [entries_node, h1]
    · simp [entries_node, h2]
  | borrowLeftLeaf a kpre kpost s pre post c l b el e1 hlen _ hel ih =>
    obtain ⟨l1, l2, h1, h2⟩ := ih
    simp only [entries_leaf, List.nil_eq, List.append_eq_nil] at h2
    obtain ⟨rfl, rfl⟩ := h2
    refine ⟨(pre.map BT.entries).flatten ++ (el ++ [e1]), (post.map BT.entries).flatten,
      ?_, ?_⟩
    · simp [entries_node, entries_leaf, h1]
    · simp [entries_node, entries_leaf]
  | borrowLeftNode a kpre kpost s pre post c l b kl k1 cl y x hlen _ hkl ih =>
    obtain ⟨l1, l2, h1, h2⟩ := ih
    simp only [entries_node, List.map_cons, List.map_nil, List.flatten_cons, List.flatten_nil,
      List.append_nil] at h2
    refine ⟨(pre.map BT.entries).flatten ++ ((cl.map BT.entries).flatten ++ y.entries) ++ l1,
      l2 ++ (post.map BT.entries).flatten, ?_, ?_⟩
    · simp [entries_node, h1]
    · simp [entries_node, h2]
  | borrowRightLeaf a kpre kpost s pre post c r b e1 e2 er hlen _ ih =>
    obtain ⟨l1, l2, h1, h2⟩ := ih
    simp only [entries_leaf, List.nil_eq, List.append_eq_nil] at h2
    obtain ⟨rfl, rfl⟩ := h2
    refine ⟨(pre.map BT.entries).flatten,
      e1 :: e2 :: er ++ (post.map BT.entries).flatten, ?_, ?_⟩
    · simp [entries_node, entries_leaf, h1]
    · simp [entries_node, entries_leaf]
  | borrowRightNode a kpre kpost s pre post c r b k1 k2 kr y x cr hlen _ ih =>
    obtain ⟨l1, l2, h1, h2⟩ := ih
    simp only [entries_node, List.map_cons, List.map_nil, List.flatten_cons, List.flatten_nil,
      List.append_nil] at h2
    refine ⟨(pre.map BT.entries).flatten ++ l1,
      l2 ++ (y.entries ++ (cr.map BT.entries).flatten) ++ (post.map BT.entries).flatten,
      ?_, ?_⟩
    · simp [entries_node, h1]
    · simp [entries_node, h2]
  | mergeLeftLeaf a kpre kpost s pre post c l b el hlen _ ih =>
    obtain ⟨l1, l2, h1, h2⟩ := ih
    simp only [entries_leaf, List.nil_eq, List.append_eq_nil] at h2
    obtain ⟨rfl, rfl⟩ := h2
    refine ⟨(pre.map BT.entries).flatten ++ el, (post.map BT.entries).flatten, ?_, ?_⟩
    · simp [entries_node, entries_leaf, h1]
    · simp [entries_node, entries_leaf]
  | mergeLeftNode a kpre kpost s pre post c l b kl cl x hlen _ hkl ih =>
    obtain ⟨l1, l2, h1, h2⟩ := ih
    simp only [entries_node, List.map_cons, List.map_nil, List.flatten_cons, List.flatten_nil,
      List.append_nil] at h2
    refine ⟨(pre.map BT.entries).flatten ++ (cl.map BT.entries).flatten ++ l1,
      l2 ++ (post.map BT.entries).flatten, ?_, ?_⟩
    · simp [entries_node, h1]
    · simp [entries_node, h2]
  | mergeRightLeaf a kpre kpost s pre post c r b er hlen _ ih =>
    obtain ⟨l1, l2, h1, h2⟩ := ih
    simp only [entries_leaf, List.nil_eq, List.append_eq_nil] at h2
    obtain ⟨rfl, rfl⟩ := h2
    refine ⟨(pre.map BT.entries).flatten, er ++ (post.map BT.entries).flatten, ?_, ?_⟩
    · simp [entries_node, entries_leaf, h1]
    · simp [entries_node, entries_leaf]
  | mergeRightNode a kpre kpost s pre post c r b kr cr x hlen _ hkr ih =>
    obtain ⟨l1, l2, h1, h2⟩ := ih
    simp only [entries_node, List.map_cons, List.map_nil, List.flatten_cons, List.flatten_nil,
      List.append_nil] at h2
    refine ⟨(pre.map BT.entries).flatten ++ l1,
      l2 ++ (cr.map BT.entries).flatten ++ (post.map BT.entries).flatten, ?_, ?_⟩
    · simp [entries_node, h1]
    · simp [entries_node, h2]

end DelLists

section AdjustEval

variable {K V : Type} [LinearOrder K]

omit [LinearOrder K] in
/-- The pointer scan of `adjustNodeForDownOver` finds the first slot that holds the node. -/
theorem scanPtr_spec {order : Nat} {p : Node K V} {b target : Nat} (hl : p.IS_LEAF = false)
    (ht : target ≤ order) (hfound : p.ptr target = some b)
    (hbefore : ∀ i, i < target → p.ptr i ≠ some b) :
    ∀ (fuel i : Nat), i ≤ target → target - i < fuel →
      scanPtr order p b fuel i = some target
  | 0, _, _, h => by omega
  | fuel + 1, i, hi, hf => by
    have hcap : i < order + 1 := by omega
    by_cases hit : i = target
    · subst hit
      simp [scanPtr, hl, hcap, hfound]
    · have hlt : i < target := by omega
      have ih := scanPtr_spec hl ht hfound hbefore fuel (i + 1) (by omega) (by omega)
      simp [scanPtr, hl, hcap, hbefore i hlt, ih]

/-- `adjustNodeForDownOver` on a node without keys whose left sibling can lend a key. -/
theorem adjust_eq_borrowLeft (order arg : Nat) {h : Heap K V} {a b l : Nat}
    {nd p ln : Node K V} (hb : h b = some nd) (hn0 : nd.n = 0) (ha : h a = some p)
    (hl : p.IS_LEAF = false) (hpn : p.n ≤ order) (harg : arg ≤ p.n)
    (hfound : p.ptr arg = some b) (hbefore : ∀ i, i < arg → p.ptr i ≠ some b)
    (hpos : 0 < arg) (hleft : p.ptr (arg - 1) = some l) (hln : h l = some ln)
    (hrich : (order - 1) / 2 < ln.n) :
    adjustNodeForDownOver order h b a = borrowLeft order h b a arg l := by
  have hscan := scanPtr_spec hl (le_trans harg hpn) hfound hbefore (order + 2) 0
    (Nat.zero_le _) (by omega)
  have h1 : arg - 1 < order + 1 := by omega
  by_cases h2 : arg < p.n
  · have h3 : arg + 1 < order + 1 := by omega
    simp [adjustNodeForDownOver, hb, ha, hn0, hscan, hpos, rdPtr, hl, h1, h2, h3, hleft, hln,
      hrich]
  · simp [adjustNodeForDownOver, hb, ha, hn0, hscan, hpos, rdPtr, hl, h1, h2, hleft, hln,
      hrich]

/-- `adjustNodeForDownOver` on a node without keys whose left sibling cannot lend a key (or
does not exist) and whose right sibling can. -/
theorem adjust_eq_borrowRight (order arg : Nat) {h : Heap K V} {a b r : Nat}
    {nd p rn : Node K V} (hb : h b = some nd) (hn0 : nd.n = 0) (ha : h a = some p)
    (hl : p.IS_LEAF = false) (hpn : p.n ≤ order) (harg : arg ≤ p.n)
    (hfound : p.ptr arg = some b) (hbefore : ∀ i, i < arg → p.ptr i ≠ some b)
    (hleft : 0 < arg → ∃ l ln, p.ptr (arg - 1) = some l ∧ h l = some ln ∧
      ¬ (order - 1) / 2 < ln.n)
    (hlt : arg < p.n) (hright : p.ptr (arg + 1) = some r) (hrn : h r = some rn)
    (hrich : (order - 1) / 2 < rn.n) :
    adjustNodeForDownOver order h b a = borrowRight order h b a arg r := by
  have hscan := scanPtr_spec hl (le_trans harg hpn) hfound hbefore (order + 2) 0
    (Nat.zero_le _) (by omega)
  have h1 : arg - 1 < order + 1 := by omega
  have h3 : arg + 1 < order + 1 := by omega
  by_cases hpos : 0 < arg
  · obtain ⟨l, ln, q1, q2, q3⟩ := hleft hpos
    simp [adjustNodeForDownOver, hb, ha, hn0, hscan, hpos, rdPtr, hl, h1, hlt, h3, q1, q2, q3,
      hright, hrn, hrich]
  · have h0 : arg = 0 := by omega
    subst h0
    simp [adjustNodeForDownOver, hb, ha, hn0, hscan, rdPtr, hl, hlt, h3, hright, hrn, hrich]

/-- `adjustNodeForDownOver` on a node without keys that has a left sibling, when no sibling
can lend a key: the node is merged into the left sibling. -/
theorem adjust_eq_mergeLeft (order arg : Nat) {h : Heap K V} {a b l : Nat}
    {nd p ln : Node K V} (hb : h b = some nd) (hn0 : nd.n = 0) (ha : h a = some p)
    (hl : p.IS_LEAF = false) (hpn : p.n ≤ order) (harg : arg ≤ p.n)
    (hfound : p.ptr arg = some b) (hbefore : ∀ i, i < arg → p.ptr i ≠ some b)
    (hpos : 0 < arg) (hleft : p.ptr (arg - 1) = some l) (hln : h l = some ln)
    (hpoor : ¬ (order - 1) / 2 < ln.n)
    (hright : arg < p.n → ∃ r rn, p.ptr (arg + 1) = some r ∧ h r = some rn ∧
      ¬ (order - 1) / 2 < rn.n) :
    adjustNodeForDownOver order h b a
      = (if ln.IS_LEAF then merge order h l b
          else mergeInternal order h l (p.keys (arg - 1)) b).bind
        (fun h1 => modifyM h1 a (fun x => x.remove order (p.keys (arg - 1)))) := by
  have hscan := scanPtr_spec hl (le_trans harg hpn) hfound hbefore (order + 2) 0
    (Nat.zero_le _) (by omega)
  have h1 : arg - 1 < order + 1 := by omega
  have h1' : arg - 1 < order := by omega
  by_cases h2 : arg < p.n
  · have h3 : arg + 1 < order + 1 := by omega
    obtain ⟨r, rn, q1, q2, q3⟩ := hright h2
    simp only [adjustNodeForDownOver, hb, ha, hn0, hscan, hpos, rdPtr, hl, h1, h2, h3, hleft,
      hln, hpoor, q1, q2, q3, ne_eq, not_true_eq_false, ↓reduceIte, Bool.false_eq_true,
      Option.map_some', decide_False, h1']
    cases (if ln.IS_LEAF = true then merge order h l b
      else mergeInternal order h l (p.keys (arg - 1)) b) <;> rfl
  · simp only [adjustNodeForDownOver, hb, ha, hn0, hscan, hpos, rdPtr, hl, h1, h2, hleft,
      hln, hpoor, ne_eq, not_true_eq_false, ↓reduceIte, Bool.false_eq_true,
      Option.map_some', decide_False, h1']
    cases (if ln.IS_LEAF = true then merge order h l b
      else mergeInternal order h l (p.keys (arg - 1)) b) <;> rfl

/-- `adjustNodeForDownOver` on a node without keys that is the first child, when the right
sibling cannot lend a key: the right sibling is merged into the node. -/
theorem adjust_eq_mergeRight (order : Nat) {h : Heap K V} {a b r : Nat}
    {nd p rn : Node K V} (ho : 0 < order) (hb : h b = some nd) (hn0 : nd.n = 0)
    (ha : h a = some p)
    (hl : p.IS_LEAF = false) (hfound : p.ptr 0 = some b)
    (hlt : 0 < p.n) (hright : p.ptr 1 = some r) (hrn : h r = some rn)
    (hpoor : ¬ (order - 1) / 2 < rn.n) :
    adjustNodeForDownOver order h b a
      = (if nd.IS_LEAF then merge order h b r
          else mergeInternal order h b (p.keys 0) r).bind
        (fun h1 => modifyM h1 a (fun x => x.remove order (p.keys 0))) := by
  have hscan := scanPtr_spec hl (Nat.zero_le order) hfound (fun i hi => by omega) (order + 2) 0
    (Nat.zero_le _) (by omega)
  have h3 : 1 < order + 1 := by omega
  simp only [adjustNodeForDownOver, hb, ha, hn0, hscan, rdPtr, hl, hlt, h3, hright, hrn,
    hpoor, ne_eq, not_true_eq_false, ↓reduceIte, Bool.false_eq_true, Option.map_some',
    decide_False, Nat.lt_irrefl, Nat.zero_add, ho]
  cases (if nd.IS_LEAF = true then merge order h b r
    else mergeInternal order h b (p.keys 0) r) <;> rfl

end AdjustEval

section BorrowCells

variable {K V : Type} [LinearOrder K]

theorem lowerAt_key {nd : Node K V} {j : Nat} (hs : nd.sortedKeys) (hj : j < nd.n) :
    nd.lowerAt (nd.keys j) j :=
  ⟨le_of_lt hj, fun x hx => hs x j hx hj, fun x hx hxn => by
    rcases Nat.eq_or_lt_of_le hx with rfl | h
    · exact le_rfl
    · exact le_of_lt (hs j x h hxn)⟩

/-- `Node::remove` on a leaf, called with the key in slot `j`: the entry in slot `j` is
removed. -/
theorem Node.remove_leaf_at {order : Nat} {nd : Node K V} {j : Nat}
    (hl : nd.IS_LEAF = true) (hn : nd.n ≤ order) (hs : nd.sortedKeys) (hj : j < nd.n) :
    ∃ nd1, nd.remove order (nd.keys j) = some nd1 ∧ nd1.IS_LEAF = true ∧
      nd1.ptr = nd.ptr ∧ nd1.n = nd.n - 1 ∧
      nd1.entries = nd.entries.take j ++ nd.entries.drop (j + 1) := by
  obtain ⟨nd1, arg, r1, r2, r3, r4, r5, r6⟩ :=
    Node.remove_leaf_spec order (nd.keys j) hl hn hs (by omega)
  have harg : arg = j := lowerAt_unique r2 (lowerAt_key hs hj)
  subst harg
  rw [if_pos hj] at r6
  exact ⟨nd1, r1, r3, r4, r5, r6⟩

/-- The leaf `Node::insert` on a leaf without keys. -/
theorem Node.insert_empty (order : Nat) {nd : Node K V} (key : K) (value : V)
    (hl : nd.IS_LEAF = true) (hn : nd.n = 0) (ho : 0 < order) :
    ∃ nd1, nd.insert order key value = some nd1 ∧ nd1.IS_LEAF = true ∧ nd1.ptr = nd.ptr ∧
      nd1.n = 1 ∧ nd1.entries = [(key, value)] := by
  obtain ⟨nd1, arg, i1, i2, i3, i4, i5, i6⟩ :=
    Node.insert_spec key value hl (by omega : nd.n < order)
      (by intro i j _ hj; omega)
  refine ⟨nd1, i1, i3, i4, by omega, ?_⟩
  rw [i6]
  simp [Node.entries, hn]

/-- The internal `Node::insert` on an internal node without keys. -/
theorem Node.insertInternal_empty (order : Nat) {nd : Node K V} (key : K) (r : Option Nat)
    (hl : nd.IS_LEAF = false) (hn : nd.n = 0) (ho : 0 < order) :
    ∃ nd1, nd.insertInternal order key r = some nd1 ∧ nd1.IS_LEAF = false ∧ nd1.n = 1 ∧
      nd1.keyList = [key] ∧ nd1.ptr 0 = nd.ptr 0 ∧ nd1.ptr 1 = r := by
  obtain ⟨nd1, arg, i1, i2, i3, i4, i5, i6⟩ :=
    Node.insertInternal_spec order key r hl (by omega : nd.n < order)
      (by intro i j _ hj; omega)
  have harg : arg = 0 := by have := i2.1; omega
  subst harg
  rw [hn] at i6
  simp only [Nat.zero_add, List.range_succ, List.range_zero, List.nil_append, List.map_cons,
    List.map_nil, List.take_succ_cons, List.take_zero, List.drop_succ_cons, List.drop_nil,
    List.cons_append, List.cons.injEq, and_true, List.singleton_append] at i6
  refine ⟨nd1, i1, i3, by omega, ?_, i6.1, i6.2⟩
  rw [i5]
  simp [Node.keyList, hn]

omit [LinearOrder K] in
theorem map_range_update {α : Type} (f : Nat → α) (n j : Nat) (v : α) :
    (List.range n).map (Function.update f j v) = ((List.range n).map f).set j v := by
  apply List.ext_getElem
  · simp
  · intro i h1 h2
    simp only [List.getElem_map, List.getElem_range, List.getElem_set, Function.update_apply]
    by_cases hi : i = j
    · subst hi
      simp
    · have hi' : ¬ j = i := fun e => hi e.symm
      simp [hi, hi']

omit [LinearOrder K] in
theorem set_at_split {α : Type} (pre post : List α) (s s1 : α) :
    (pre ++ s :: post).set pre.length s1 = pre ++ s1 :: post := by
  induction pre with
  | nil => rfl
  | cons x pre ih => simp [ih]

omit [LinearOrder K] in
theorem keyList_update {nd : Node K V} {kpre kpost : List K} {s : K} (s1 : K)
    (hk : nd.keyList = kpre ++ s :: kpost) :
    ({ nd with keys := Function.update nd.keys kpre.length s1 } : Node K V).keyList
      = kpre ++ s1 :: kpost := by
  have h := map_range_update nd.keys nd.n kpre.length s1
  simp only [Node.keyList] at hk ⊢
  rw [h, hk, set_at_split]

end BorrowCells

section BorrowSteps

variable {K V : Type} [LinearOrder K]

/-- The left-sibling borrow between leaves: the last entry of the left sibling moves to the
node, and its key becomes the separator. -/
theorem borrowLeft_leaf_cells (order arg : Nat) {h : Heap K V} {a b l : Nat}
    {nd ln p : Node K V} (ho : 0 < order) (hb : h b = some nd) (hbl : nd.IS_LEAF = true)
    (hbn : nd.n = 0) (hl : h l = some ln) (hll : ln.IS_LEAF = true) (hln1 : 0 < ln.n)
    (hln2 : ln.n ≤ order) (hls : ln.sortedKeys) (ha : h a = some p)
    (hab : a ≠ b) (hal : a ≠ l) (hbl' : b ≠ l) (harg1 : 0 < arg) (harg2 : arg - 1 < order) :
    ∃ h2 nd1 l1, borrowLeft order h b a arg l = some h2 ∧
      h2 b = some nd1 ∧ nd1.IS_LEAF = true ∧ nd1.ptr = nd.ptr ∧
      nd1.entries = [(ln.keys (ln.n - 1), ln.values (ln.n - 1))] ∧
      h2 l = some l1 ∧ l1.IS_LEAF = true ∧ l1.ptr = ln.ptr ∧
      l1.entries = ln.entries.take (ln.n - 1) ∧
      h2 a = some { p with keys := Function.update p.keys (arg - 1) (ln.keys (ln.n - 1)) } ∧
      ∀ x, x ≠ a → x ≠ b → x ≠ l → h2 x = h x := by
  obtain ⟨nd1, i1, i2, i3, i4, i5⟩ :=
    Node.insert_empty order (ln.keys (ln.n - 1)) (ln.values (ln.n - 1)) hbl hbn ho
  obtain ⟨l1, r1, r2, r3, r4, r5⟩ :=
    Node.remove_leaf_at (j := ln.n - 1) hll hln2 hls (by omega)
  have hlb : l ≠ b := fun e => hbl' e.symm
  have hla : l ≠ a := fun e => hal e.symm
  have h1 : ln.n - 1 < order := by omega
  have hres : borrowLeft order h b a arg l
      = some (Function.update (Function.update (Function.update h b (some nd1)) a
          (some { p with keys := Function.update p.keys (arg - 1) (ln.keys (ln.n - 1)) }))
          l (some l1)) := by
    simp only [borrowLeft, hb, hl, ha, hbl, ↓reduceIte, hln1, h1, hll, and_self, modifyM, i1,
      Function.update_noteq hlb, Function.update_noteq hla, Function.update_noteq hab, harg1,
      harg2, setKey, modify, r1, Function.update_same, and_true]
  refine ⟨_, nd1, l1, hres, ?_, i2, i3, i5, Function.update_same _ _ _, r2, r3, ?_, ?_, ?_⟩
  · rw [Function.update_noteq hbl'.symm.symm, Function.update_noteq hab.symm,
      Function.update_same]
  · rw [r5]
    have : ln.entries.drop (ln.n - 1 + 1) = [] := by
      apply List.drop_eq_nil_of_le
      rw [entries_length]
      omega
    rw [this, List.append_nil]
  · rw [Function.update_noteq hal, Function.update_same]
  · intro x hxa hxb hxl
    rw [Function.update_noteq hxl, Function.update_noteq hxa, Function.update_noteq hxb]

/-- The left-sibling borrow between internal nodes: the separator moves down into the node,
the last child of the left sibling becomes the first child of the node, and the last key of
the left sibling becomes the separator. -/
theorem borrowLeft_node_cells (order arg : Nat) {h : Heap K V} {a b l : Nat}
    {nd ln p : Node K V} (ho : 0 < order) (hb : h b = some nd) (hbl : nd.IS_LEAF = false)
    (hbn : nd.n = 0) (hl : h l = some ln) (hll : ln.IS_LEAF = false) (hln1 : 0 < ln.n)
    (hln2 : ln.n ≤ order) (hls : ln.sortedKeys) (ha : h a = some p)
    (hab : a ≠ b) (hal : a ≠ l) (hbl' : b ≠ l) (harg1 : 0 < arg) (harg2 : arg - 1 < order) :
    ∃ h2 nd1 l1, borrowLeft order h b a arg l = some h2 ∧
      h2 b = some nd1 ∧ nd1.IS_LEAF = false ∧ nd1.n = 1 ∧ nd1.keyList = [p.keys (arg - 1)] ∧
      nd1.ptr 0 = ln.ptr ln.n ∧ nd1.ptr 1 = nd.ptr 0 ∧
      h2 l = some l1 ∧ l1.IS_LEAF = false ∧ l1.n = ln.n - 1 ∧
      l1.keyList = ln.keyList.take (ln.n - 1) ∧
      (List.range ln.n).map l1.ptr = (List.range ln.n).map ln.ptr ∧
      h2 a = some { p with keys := Function.update p.keys (arg - 1) (ln.keys (ln.n - 1)) } ∧
      ∀ x, x ≠ a → x ≠ b → x ≠ l → h2 x = h x := by
  obtain ⟨nd1, i1, i2, i3, i4, i5, i6⟩ :=
    Node.insertInternal_empty order (p.keys (arg - 1)) (nd.ptr 0) hbl hbn ho
  obtain ⟨l1, r1, r2, r3, r4, r5, -⟩ :=
    Node.remove_internal_spec order ln (ln.n - 1) hll hln2 hls (by omega)
  have hlb : l ≠ b := fun e => hbl' e.symm
  have hla : l ≠ a := fun e => hal e.symm
  have h1 : ln.n - 1 < order := by omega
  have h2 : ln.n < order + 1 := by omega
  have hres : borrowLeft order h b a arg l
      = some (Function.update (Function.update (Function.update h b
          (some { nd1 with ptr := Function.update nd1.ptr 0 (ln.ptr ln.n) })) a
          (some { p with keys := Function.update p.keys (arg - 1) (ln.keys (ln.n - 1)) }))
          l (some l1)) := by
    simp only [borrowLeft, hb, hl, ha, hbl, Bool.false_eq_true, ↓reduceIte, hln1, h1, hll,
      and_self, modifyM, i1, Function.update_noteq hlb, Function.update_noteq hla,
      Function.update_noteq hab, harg1, harg2, setKey, modify, r1, Function.update_same,
      and_true, rdPtr, h2, setPtr, Function.update_idem]
  refine ⟨_, { nd1 with ptr := Function.update nd1.ptr 0 (ln.ptr ln.n) }, l1, hres, ?_, i2,
    i3, ?_, ?_, ?_, Function.update_same _ _ _, r2, r3, ?_, ?_, ?_, ?_⟩
  · rw [Function.update_noteq hbl', Function.update_noteq hab.symm, Function.update_same]
  · exact i4
  · show Function.update nd1.ptr 0 (ln.ptr ln.n) 0 = ln.ptr ln.n
    rw [Function.update_same]
  · show Function.update nd1.ptr 0 (ln.ptr ln.n) 1 = nd.ptr 0
    rw [Function.update_noteq (by decide : (1 : Nat) ≠ 0)]
    exact i6
  · rw [r4]
    have : ln.keyList.drop (ln.n - 1 + 1) = [] := by
      apply List.drop_eq_nil_of_le
      rw [keyList_length]
      omega
    rw [this, List.append_nil]
  · rw [r5]
    have e1 : ln.n - 1 + 1 = ln.n := by omega
    have e2 : ln.n - 1 + 2 = ln.n + 1 := by omega
    rw [e1, e2]
    have : ((List.range (ln.n + 1)).map ln.ptr).drop (ln.n + 1) = [] := by
      apply List.drop_eq_nil_of_le
      simp
    rw [this, List.append_nil]
    exact (map_range_take ln.ptr ln.ptr ln.n (ln.n + 1) (by omega) (fun _ _ => rfl)).symm
  · rw [Function.update_noteq hal, Function.update_same]
  · intro x hxa hxb hxl
    rw [Function.update_noteq hxl, Function.update_noteq hxa, Function.update_noteq hxb]

omit [LinearOrder K] in
theorem keys_zero_of_entries {nd : Node K V} {e : K × V} {es : List (K × V)}
    (h : nd.entries = e :: es) : nd.keys 0 = e.1 ∧ nd.values 0 = e.2 := by
  have hn : 0 < nd.n := by
    rw [← entries_length, h]
    simp
  have := congrArg (fun l => l[0]?) h
  simp only [Node.entries, List.getElem?_map, List.getElem?_range hn, Option.map_some',
    List.getElem?_cons_zero, Option.some.injEq] at this
  rw [← this]
  exact ⟨rfl, rfl⟩

/-- The right-sibling borrow between leaves: the first entry of the right sibling moves to the
node, and the new first key of the right sibling becomes the separator. -/
theorem borrowRight_leaf_cells (order arg : Nat) {h : Heap K V} {a b r : Nat}
    {nd rn p : Node K V} (ho : 0 < order) (hb : h b = some nd) (hbl : nd.IS_LEAF = true)
    (hbn : nd.n = 0) (hr : h r = some rn) (hrl : rn.IS_LEAF = true) (hrn1 : 0 < rn.n)
    (hrn2 : rn.n ≤ order) (hrs : rn.sortedKeys) (ha : h a = some p)
    (hab : a ≠ b) (har : a ≠ r) (hbr : b ≠ r) (harg : arg < order) :
    ∃ h2 nd1 r1, borrowRight order h b a arg r = some h2 ∧
      h2 b = some nd1 ∧ nd1.IS_LEAF = true ∧ nd1.ptr = nd.ptr ∧
      nd1.entries = [(rn.keys 0, rn.values 0)] ∧
      h2 r = some r1 ∧ r1.IS_LEAF = true ∧ r1.ptr = rn.ptr ∧
      r1.entries = rn.entries.drop 1 ∧
      h2 a = some { p with keys := Function.update p.keys arg (r1.keys 0) } ∧
      ∀ x, x ≠ a → x ≠ b → x ≠ r → h2 x = h x := by
  obtain ⟨nd1, i1, i2, i3, i4, i5⟩ :=
    Node.insert_empty order (rn.keys 0) (rn.values 0) hbl hbn ho
  obtain ⟨r1, q1, q2, q3, q4, q5⟩ :=
    Node.remove_leaf_at (j := 0) hrl hrn2 hrs hrn1
  have hrb : r ≠ b := fun e => hbr e.symm
  have hra : r ≠ a := fun e => har e.symm
  have hres : borrowRight order h b a arg r
      = some (Function.update (Function.update (Function.update h b (some nd1)) r (some r1)) a
          (some { p with keys := Function.update p.keys arg (r1.keys 0) })) := by
    simp only [borrowRight, hb, hr, ha, hbl, ↓reduceIte, hrl, and_self, modifyM, i1,
      Function.update_noteq hrb, Function.update_noteq hra, Function.update_noteq hab,
      Function.update_noteq har, harg, ho, setKey, modify, q1, Function.update_same,
      and_true]
  refine ⟨_, nd1, r1, hres, ?_, i2, i3, i5, ?_, q2, q3, ?_, Function.update_same _ _ _, ?_⟩
  · rw [Function.update_noteq hab.symm, Function.update_noteq hbr, Function.update_same]
  · rw [Function.update_noteq hra, Function.update_same]
  · rw [q5]
    simp
  · intro x hxa hxb hxr
    rw [Function.update_noteq hxa, Function.update_noteq hxr, Function.update_noteq hxb]

/-- The right-sibling borrow between internal nodes: the separator moves down into the node,
the first child of the right sibling becomes the last child of the node, and the first key of
the right sibling becomes the separator. -/
theorem borrowRight_node_cells (order arg : Nat) {h : Heap K V} {a b r : Nat}
    {nd rn p : Node K V} (ho : 0 < order) (hb : h b = some nd) (hbl : nd.IS_LEAF = false)
    (hbn : nd.n = 0) (hr : h r = some rn) (hrl : rn.IS_LEAF = false) (hrn1 : 0 < rn.n)
    (hrn2 : rn.n ≤ order) (hrs : rn.sortedKeys) (ha : h a = some p)
    (hab : a ≠ b) (har : a ≠ r) (hbr : b ≠ r) (harg : arg < order) :
    ∃ h2 nd1 r1, borrowRight order h b a arg r = some h2 ∧
      h2 b = some nd1 ∧ nd1.IS_LEAF = false ∧ nd1.n = 1 ∧ nd1.keyList = [p.keys arg] ∧
      nd1.ptr 0 = nd.ptr 0 ∧ nd1.ptr 1 = rn.ptr 0 ∧
      h2 r = some r1 ∧ r1.IS_LEAF = false ∧ r1.n = rn.n - 1 ∧
      r1.keyList = rn.keyList.drop 1 ∧
      (List.range rn.n).map r1.ptr = ((List.range (rn.n + 1)).map rn.ptr).drop 1 ∧
      h2 a = some { p with keys := Function.update p.keys arg (rn.keys 0) } ∧
      ∀ x, x ≠ a → x ≠ b → x ≠ r → h2 x = h x := by
  obtain ⟨nd1, i1, i2, i3, i4, i5, i6⟩ :=
    Node.insertInternal_empty order (p.keys arg) (rn.ptr 0) hbl hbn ho
  have hrs' : ({ rn with ptr := Function.update rn.ptr 0 (rn.ptr 1) } : Node K V).sortedKeys :=
    hrs
  obtain ⟨r1, q1, q2, q3, q4, -, q6⟩ :=
    Node.remove_internal_spec order { rn with ptr := Function.update rn.ptr 0 (rn.ptr 1) } 0
      hrl hrn2 hrs' hrn1
  have hrb : r ≠ b := fun e => hbr e.symm
  have hra : r ≠ a := fun e => har e.symm
  have hres : borrowRight order h b a arg r
      = some (Function.update (Function.update (Function.update (Function.update h b
          (some nd1)) r (some { rn with ptr := Function.update rn.ptr 0 (rn.ptr 1) })) a
          (some { p with keys := Function.update p.keys arg (rn.keys 0) })) r (some r1)) := by
    simp only [borrowRight, hb, hr, ha, hbl, Bool.false_eq_true, ↓reduceIte, and_self, modifyM,
      i1, Function.update_noteq hrb, Function.update_noteq hra, Function.update_noteq hab,
      Function.update_noteq har, harg, ho, setKey, modify, q1, Function.update_same,
      and_true, setPtr]
  refine ⟨_, nd1, r1, hres, ?_, i2, i3, i4, i5, i6, Function.update_same _ _ _, q2, q3, ?_,
    ?_, ?_, ?_⟩
  · rw [Function.update_noteq hbr, Function.update_noteq hab.symm,
      Function.update_noteq hbr, Function.update_same]
  · simpa [Node.keyList] using q4
  · have := map_range_drop r1.ptr rn.ptr 1 (rn.n + 1) (fun x hx => by
      rw [q6 x (by simpa using hx)]
      by_cases hx0 : x = 0
      · subst hx0
        simp
      · have h1 : ¬ x ≤ 0 := by omega
        have h2 : x + 1 ≠ 0 := by omega
        simp only [h1, ↓reduceIte, Function.update_noteq h2]
        congr 1
        omega)
    simpa using this
  · rw [Function.update_noteq hra.symm.symm.symm, Function.update_same]
  · intro x hxa hxb hxr
    rw [Function.update_noteq hxr, Function.update_noteq hxa, Function.update_noteq hxr,
      Function.update_noteq hxb]

end BorrowSteps

section MergeCells

variable {K V : Type}

/-- Unlinking the leaf `y` that follows `x` turns the chain through `l1 ++ x :: y :: l2` into
the chain through `l1 ++ x :: l2`. -/
theorem Chain_remove_after {h h1 : Heap K V} {l1 l2 : List Nat} {x y : Nat}
    (px ny : Option Nat)
    (hc : Chain h none (l1 ++ x :: y :: l2) none) (hnd : (l1 ++ x :: y :: l2).Nodup)
    (hy : links (h y) = some (true, some x, ny))
    (hx : links (h x) = some (true, px, some y))
    (hx1 : links (h1 x) = some (true, px, ny))
    (hc1 : ∀ c, ny = some c → ∀ pc nc, links (h c) = some (true, pc, nc) →
      links (h1 c) = some (true, some x, nc))
    (hfr : ∀ z, z ∈ l1 ∨ z ∈ l2 → ny ≠ some z → links (h1 z) = links (h z)) :
    Chain h1 none (l1 ++ x :: l2) none := by
  rw [Chain_append] at hc ⊢
  obtain ⟨c1, c2⟩ := hc
  rw [Chain_cons, Chain_cons] at c2
  obtain ⟨c2, c3, c4⟩ := c2
  have hp := List.nodup_append.1 hnd
  have hp2 := List.nodup_cons.1 hp.2.1
  have hp3 := List.nodup_cons.1 hp2.2
  have hpx : px = lastOr none l1 := by
    rw [hx] at c2
    simpa using (Prod.mk.inj (Prod.mk.inj (Option.some.inj c2)).2).1
  have hny : ny = firstOr l2 none := by
    rw [hy] at c3
    simpa using (Prod.mk.inj (Prod.mk.inj (Option.some.inj c3)).2).2
  refine ⟨?_, ?_⟩
  · have c1' : Chain h none l1 (firstOr (x :: l2) none) := c1
    apply Chain_frame l1 none _ c1'
    intro z hz
    apply hfr z (Or.inl hz)
    rw [hny]
    cases l2 with
    | nil => simp [firstOr]
    | cons w l2 =>
      simp only [firstOr, ne_eq, Option.some.injEq]
      rintro rfl
      exact hp.2.2 hz (List.mem_cons_of_mem _ (List.mem_cons_of_mem _ (List.mem_cons_self _ _)))
  · rw [Chain_cons]
    refine ⟨?_, ?_⟩
    · rw [hx1, hpx, hny]
    · cases l2 with
      | nil => exact (Chain_nil _ _).2 trivial
      | cons w l2 =>
        rw [Chain_cons] at c4 ⊢
        have hw : ny = some w := by rw [hny]; rfl
        refine ⟨hc1 w hw _ _ c4.1, ?_⟩
        apply Chain_frame l2 (some w) _ c4.2
        intro z hz
        have hzw : z ≠ w := by
          rintro rfl
          exact (List.nodup_cons.1 hp3.2).1 hz
        apply hfr z (Or.inr (List.mem_cons_of_mem _ hz))
        rw [hw]
        simpa using fun e => hzw e.symm

/-- The leaf `Node::merge` when the absorbed leaf holds at most one entry: the entries of `y`
are appended to `x`, `y` is unlinked from the chain and freed. -/
theorem merge_cells (order : Nat) {h : Heap K V} {x y : Nat} {xn yn : Node K V}
    (hx : h x = some xn) (hxl : xn.IS_LEAF = true) (hy : h y = some yn)
    (hyl : yn.IS_LEAF = true) (hyn : yn.n ≤ 1) (hxn : xn.n + yn.n ≤ order) (ho : 0 < order)
    (hxy : x ≠ y) (hnext : xn.ptr 1 = some y)
    (hc : ∀ c, yn.ptr 1 = some c → c ≠ x ∧ c ≠ y ∧ ∃ cn, h c = some cn) :
    ∃ h2 x1, merge order h x y = some h2 ∧ h2 x = some x1 ∧ x1.IS_LEAF = true ∧
      x1.entries = xn.entries ++ yn.entries ∧ x1.ptr = Function.update xn.ptr 1 (yn.ptr 1) ∧
      h2 y = none ∧
      (∀ c cn, yn.ptr 1 = some c → h c = some cn →
        h2 c = some { cn with ptr := Function.update cn.ptr 0 (some x) }) ∧
      ∀ z, z ≠ x → z ≠ y → yn.ptr 1 ≠ some z → h2 z = h z := by
  have hyx : y ≠ x := fun e => hxy e.symm
  -- the copying loop
  obtain ⟨x0, hloop, hx0l, hx0e, hx0p⟩ : ∃ x0 : Node K V,
      mergeLeafLoop order x y (order + 1) 0 h = some (Function.update h x (some x0)) ∧
      x0.IS_LEAF = true ∧ x0.entries = xn.entries ++ yn.entries ∧ x0.ptr = xn.ptr := by
    by_cases hn0 : yn.n = 0
    · refine ⟨xn, ?_, hxl, ?_, rfl⟩
      · have : Function.update h x (some xn) = h := by
          rw [← hx]
          exact Function.update_eq_self x h
        rw [this]
        simp [mergeLeafLoop, hx, hy, hn0]
      · simp [Node.entries, hn0]
    · have hn1 : yn.n = 1 := by omega
      have h1 : xn.n < order := by omega
      obtain ⟨f, hf⟩ : ∃ f, order + 1 = f + 2 := ⟨order - 1, by omega⟩
      refine ⟨{ xn with keys := Function.update xn.keys xn.n (yn.keys 0)
                        values := Function.update xn.values xn.n (yn.values 0)
                        n := xn.n + 1 }, ?_, hxl, ?_, rfl⟩
      · rw [hf]
        simp [mergeLeafLoop, hx, hy, hn1, h1, ho, hxl, hyl, Function.update_noteq hyx]
      · simp only [Node.entries, hn1, List.range_succ, List.map_append, List.map_cons,
          List.map_nil, List.range_zero, List.nil_append, Function.update_same]
        congr 1
        apply List.map_congr_left
        intro i hi
        have hi' : i ≠ xn.n := Nat.ne_of_lt (List.mem_range.1 hi)
        simp [Function.update_noteq hi']
  -- unlinking
  have hx0n : x0.ptr 1 = some y := by rw [hx0p]; exact hnext
  cases hyp : yn.ptr 1 with
  | none =>
    have hres : merge order h x y
        = some (Function.update (Function.update (Function.update h x (some x0)) x
            (some { x0 with ptr := Function.update x0.ptr 1 none })) y none) := by
      simp [merge, hx, hxl, hloop, removeNextNode, hx0l, hx0n, Function.update_noteq hyx,
        hy, hyp, setPtr, modify]
    refine ⟨_, { x0 with ptr := Function.update x0.ptr 1 none }, hres, ?_, hx0l, hx0e, ?_,
      Function.update_same _ _ _, ?_, ?_⟩
    · rw [Function.update_noteq hxy, Function.update_same]
    · simp [hx0p]
    · intro c cn hc1
      simp at hc1
    · intro z hzx hzy _
      rw [Function.update_noteq hzy, Function.update_noteq hzx, Function.update_noteq hzx]
  | some c =>
    obtain ⟨hcx, hcy, cn, hcn⟩ := hc c hyp
    have hres : merge order h x y
        = some (Function.update (Function.update (Function.update
            (Function.update h x (some x0)) c
            (some { cn with ptr := Function.update cn.ptr 0 (some x) })) x
            (some { x0 with ptr := Function.update x0.ptr 1 (some c) })) y none) := by
      simp [merge, hx, hxl, hloop, removeNextNode, hx0l, hx0n, Function.update_noteq hyx,
        hy, hyp, setPtr, modify, Function.update_noteq hcx, hcn,
        Function.update_noteq hcx.symm, Function.update_noteq hcy.symm]
    refine ⟨_, { x0 with ptr := Function.update x0.ptr 1 (some c) }, hres, ?_, hx0l, hx0e, ?_,
      Function.update_same _ _ _, ?_, ?_⟩
    · rw [Function.update_noteq hxy, Function.update_same]
    · simp [hx0p]
    · intro c1 cn1 hc1 hcn1
      have e : c1 = c := by simpa using hc1.symm
      subst e
      rw [hcn] at hcn1
      have e2 : cn1 = cn := (Option.some.inj hcn1).symm
      subst e2
      rw [Function.update_noteq hcy, Function.update_noteq hcx, Function.update_same]
    · intro z hzx hzy hzc
      have hzc' : z ≠ c := fun e => hzc (by rw [e])
      rw [Function.update_noteq hzy, Function.update_noteq hzx, Function.update_noteq hzc',
        Function.update_noteq hzx]

end MergeCells

section MergeInternalCells

variable {K V : Type}

/-- The internal `Node::merge` when the absorbed node holds at most one key: the separator,
the keys of `y` and the children of `y` are appended to `x`, and `y` is freed. -/
theorem mergeInternal_cells (order : Nat) {h : Heap K V} {x y : Nat} {xn yn : Node K V}
    (key : K) (hx : h x = some xn) (hxl : xn.IS_LEAF = false) (hy : h y = some yn)
    (hyl : yn.IS_LEAF = false) (hyn : yn.n ≤ 1) (hxn : xn.n + 1 + yn.n ≤ order)
    (hxy : x ≠ y) :
    ∃ h2 x1, mergeInternal order h x key y = some h2 ∧ h2 x = some x1 ∧
      x1.IS_LEAF = false ∧ x1.n = xn.n + 1 + yn.n ∧
      x1.keyList = xn.keyList ++ key :: yn.keyList ∧
      (List.range (x1.n + 1)).map x1.ptr
        = (List.range (xn.n + 1)).map xn.ptr ++ (List.range (yn.n + 1)).map yn.ptr ∧
      h2 y = none ∧ ∀ z, z ≠ x → z ≠ y → h2 z = h z := by
  have hyx : y ≠ x := fun e => hxy e.symm
  have h1 : xn.n < order := by omega
  obtain ⟨f, hf⟩ : ∃ f, order + 1 = f + 2 := ⟨order - 1, by omega⟩
  by_cases hn0 : yn.n = 0
  · have hres : mergeInternal order h x key y
        = some (Function.update (Function.update h x
            (some { xn with keys := Function.update xn.keys xn.n key
                            ptr := Function.update xn.ptr (xn.n + 1) (yn.ptr 0)
                            n := xn.n + 1 })) y none) := by
      rw [mergeInternal, hf]
      simp [hx, hy, hxl, h1, mergeInternalLoop, Function.update_noteq hyx, hn0]
    refine ⟨_,
      { xn with keys := Function.update xn.keys xn.n key
                ptr := Function.update xn.ptr (xn.n + 1) (yn.ptr 0)
                n := xn.n + 1 },
      hres, ?_, hxl, ?_, ?_, ?_, Function.update_same _ _ _, ?_⟩
    · rw [Function.update_noteq hxy, Function.update_same]
    · simp only [hn0, Nat.add_zero]
    · show (List.range (xn.n + 1)).map (Function.update xn.keys xn.n key)
        = (List.range xn.n).map xn.keys ++ key :: (List.range yn.n).map yn.keys
      rw [hn0, List.range_succ, List.map_append, List.map_cons, List.map_nil,
        Function.update_same, List.range_zero, List.map_nil]
      congr 1
      apply List.map_congr_left
      intro i hi
      have hi' : i ≠ xn.n := Nat.ne_of_lt (List.mem_range.1 hi)
      rw [Function.update_noteq hi']
    · show (List.range (xn.n + 1 + 1)).map (Function.update xn.ptr (xn.n + 1) (yn.ptr 0))
        = (List.range (xn.n + 1)).map xn.ptr ++ (List.range (yn.n + 1)).map yn.ptr
      rw [hn0, List.range_succ, List.map_append, List.map_cons, List.map_nil,
        Function.update_same]
      congr 1
      apply List.map_congr_left
      intro i hi
      have hi' : i ≠ xn.n + 1 := Nat.ne_of_lt (List.mem_range.1 hi)
      rw [Function.update_noteq hi']
    · intro z hzx hzy
      rw [Function.update_noteq hzy, Function.update_noteq hzx]
  · have hn1 : yn.n = 1 := by omega
    have h2 : xn.n + 1 < order := by omega
    have hres : mergeInternal order h x key y
        = some (Function.update (Function.update (Function.update h x
            (some { xn with keys := Function.update xn.keys xn.n key
                            ptr := Function.update xn.ptr (xn.n + 1) (yn.ptr 0)
                            n := xn.n + 1 })) x
            (some { xn with
                    keys := Function.update (Function.update xn.keys xn.n key) (xn.n + 1)
                              (yn.keys 0)
                    ptr := Function.update (Function.update xn.ptr (xn.n + 1) (yn.ptr 0))
                              (xn.n + 1 + 1) (yn.ptr 1)
                    n := xn.n + 1 + 1 })) y none) := by
      rw [mergeInternal, hf]
      have ho : 0 < order := by omega
      simp [hx, hy, hxl, h1, h2, mergeInternalLoop, Function.update_noteq hyx, hn1, hyl, ho]
    refine ⟨_,
      { xn with
        keys := Function.update (Function.update xn.keys xn.n key) (xn.n + 1) (yn.keys 0)
        ptr := Function.update (Function.update xn.ptr (xn.n + 1) (yn.ptr 0))
                  (xn.n + 1 + 1) (yn.ptr 1)
        n := xn.n + 1 + 1 },
      hres, ?_, hxl, ?_, ?_, ?_, Function.update_same _ _ _, ?_⟩
    · rw [Function.update_noteq hxy, Function.update_same]
    · simp only [hn1]
    · show (List.range (xn.n + 1 + 1)).map
          (Function.update (Function.update xn.keys xn.n key) (xn.n + 1) (yn.keys 0))
        = (List.range xn.n).map xn.keys ++ key :: (List.range yn.n).map yn.keys
      have e1 : xn.n ≠ xn.n + 1 := by omega
      rw [hn1, List.range_succ, List.map_append, List.map_cons, List.map_nil,
        Function.update_same, List.range_succ, List.map_append, List.map_cons, List.map_nil,
        Function.update_noteq e1, Function.update_same, List.range_succ, List.range_zero,
        List.nil_append, List.map_cons, List.map_nil, List.append_assoc,
        List.singleton_append]
      congr 1
      apply List.map_congr_left
      intro i hi
      have hi' : i ≠ xn.n := Nat.ne_of_lt (List.mem_range.1 hi)
      have hi2 : i ≠ xn.n + 1 := by have := List.mem_range.1 hi; omega
      rw [Function.update_noteq hi2, Function.update_noteq hi']
    · show (List.range (xn.n + 1 + 1 + 1)).map
          (Function.update (Function.update xn.ptr (xn.n + 1) (yn.ptr 0)) (xn.n + 1 + 1)
            (yn.ptr 1))
        = (List.range (xn.n + 1)).map xn.ptr ++ (List.range (yn.n + 1)).map yn.ptr
      have e1 : xn.n + 1 ≠ xn.n + 1 + 1 := by omega
      rw [hn1, List.range_succ, List.map_append, List.map_cons, List.map_nil,
        Function.update_same, List.range_succ (n := xn.n + 1), List.map_append, List.map_cons,
        List.map_nil, Function.update_noteq e1, Function.update_same]
      have e4 : (List.range (1 + 1)).map yn.ptr = [yn.ptr 0, yn.ptr 1] := rfl
      rw [e4, List.append_assoc, List.singleton_append]
      congr 1
      apply List.map_congr_left
      intro i hi
      have hi' : i ≠ xn.n + 1 := by have := List.mem_range.1 hi; omega
      have hi2 : i ≠ xn.n + 1 + 1 := by have := List.mem_range.1 hi; omega
      rw [Function.update_noteq hi2, Function.update_noteq hi']
    · intro z hzx hzy
      rw [Function.update_noteq hzy, Function.update_noteq hzx, Function.update_noteq hzx]

/-- The parent part of a merge: the separator in slot `j` and the child to its right leave
the parent. -/
theorem parent_remove_cells [LinearOrder K] (order : Nat) {h : Heap K V} {a : Nat}
    {p : Node K V} {kpre kpost : List K} {s : K} {ppre ppost : List (Option Nat)}
    {q1 q2 : Option Nat}
    (ha : h a = some p) (hl : p.IS_LEAF = false) (hn : p.n ≤ order)
    (hk : p.keyList = kpre ++ s :: kpost) (hs : (kpre ++ s :: kpost).Sorted (· < ·))
    (hp : (List.range (p.n + 1)).map p.ptr = ppre ++ q1 :: q2 :: ppost)
    (hlen : kpre.length = ppre.length) :
    ∃ p1, modifyM h a (fun x => x.remove order (p.keys kpre.length))
        = some (Function.update h a (some p1)) ∧
      p1.IS_LEAF = false ∧ p1.n = p.n - 1 ∧ p1.keyList = kpre ++ kpost ∧
      (List.range (p1.n + 1)).map p1.ptr = ppre ++ q1 :: ppost := by
  have hpn : p.n = kpre.length + (kpost.length + 1) := by
    rw [← keyList_length, hk]
    simp
  have hsk : p.sortedKeys := (sortedKeys_iff p).2 (hk ▸ hs)
  obtain ⟨p1, r1, r2, r3, r4, r5, -⟩ :=
    Node.remove_internal_spec order p kpre.length hl hn hsk (by omega)
  refine ⟨p1, by simp [modifyM, ha, r1], r2, r3, ?_, ?_⟩
  · rw [r4, hk]
    have e1 := (take_split kpre (s :: kpost)).1
    have e2 := (take_succ_split kpre kpost s).2
    rw [e1, e2]
  · have e : p1.n + 1 = p.n := by omega
    rw [e, r5, hp, hlen]
    have e1 := (take_succ_split ppre (q2 :: ppost) q1).1
    have e2 : (ppre ++ q1 :: q2 :: ppost).drop (ppre.length + 2) = ppost := by
      rw [List.drop_append_eq_append_drop]
      simp
    rw [e1, e2]
    simp

end MergeInternalCells

section StepHelpers

variable {K V : Type}

/-- Replacing a child by a representation of a tree at the same address. -/
theorem Rep_replace_child {h0 h1 : Heap K V} {a : Nat} {ks : List K}
    {pre post : List (BT K V)} {c c1 : BT K V}
    (hr0 : Rep h0 (.node a ks (pre ++ c :: post)))
    (hnd : (BT.node a ks (pre ++ c :: post)).addrs.Nodup)
    (haddr : c1.addr = c.addr) (hr1 : Rep h1 c1)
    (hf : ∀ x, x ∉ c.addrs → core (h1 x) = core (h0 x)) :
    Rep h1 (.node a ks (pre ++ c1 :: post)) := by
  obtain ⟨nd, ha, hl, hk, hp, -, hpre, hpost⟩ := Rep_node_parts hr0
  obtain ⟨n1, n2, n3, n4, n5, n6, n7, n8⟩ := nodup_node_parts hnd
  have hca : core (h1 a) = some nd := by
    rw [hf a n2, ha]
    simp [core, hl]
  refine Rep_node_build (core_eq_some_of_internal hca hl) hl hk ?_ ?_
  · simp only [List.length_append, List.length_cons, List.map_append, List.map_cons] at hp ⊢
    rw [haddr]
    exact hp
  · intro t ht
    rcases List.mem_append.1 ht with ht | ht
    · refine Rep_frame (hpre t ht) (fun x hx => ?_)
      have hxm : x ∈ BT.addrsL pre := mem_addrsL.2 ⟨t, ht, hx⟩
      exact hf x (fun hc => (n5 x hc).1 hxm)
    · rcases List.mem_cons.1 ht with rfl | ht
      · exact hr1
      · refine Rep_frame (hpost t ht) (fun x hx => ?_)
        have hxm : x ∈ BT.addrsL post := mem_addrsL.2 ⟨t, ht, hx⟩
        exact hf x (fun hc => (n5 x hc).2 hxm)

theorem ptr_pre {α : Type} {f : Nat → Option Nat} {g : α → Option Nat} {n : Nat}
    {pre rest : List α} (hp : (List.range n).map f = (pre ++ rest).map g) {i : Nat}
    (hi : i < pre.length) : ∃ t ∈ pre, f i = g t := by
  have hlen : n = (pre ++ rest).length := by
    have := congrArg List.length hp
    simpa using this
  have h1 := congrArg (fun l => l[i]?) hp
  simp only [List.getElem?_map] at h1
  rw [List.getElem?_range (by rw [hlen, List.length_append]; omega),
    List.getElem?_append_left hi, List.getElem?_eq_getElem hi] at h1
  exact ⟨pre[i], List.getElem_mem hi, by simpa using h1⟩

theorem ptr_not_before {f : Nat → Option Nat} {n b : Nat} {pre rest : List (BT K V)}
    (hp : (List.range n).map f = (pre ++ rest).map (fun t => some t.addr))
    (hb : b ∉ BT.addrsL pre) : ∀ i, i < pre.length → f i ≠ some b := by
  intro i hi
  obtain ⟨t, ht, hft⟩ := ptr_pre hp hi
  rw [hft]
  intro e
  have : t.addr = b := Option.some.inj e
  exact hb (mem_addrsL.2 ⟨t, ht, this ▸ addr_mem_addrs t⟩)

theorem entries_last {nd : Node K V} {el : List (K × V)} {e1 : K × V}
    (h : nd.entries = el ++ [e1]) :
    nd.n = el.length + 1 ∧ (nd.keys (nd.n - 1), nd.values (nd.n - 1)) = e1 ∧
      nd.entries.take (nd.n - 1) = el := by
  have hn : nd.n = el.length + 1 := by
    rw [← entries_length, h]
    simp
  refine ⟨hn, ?_, ?_⟩
  · have := congrArg (fun l => l[el.length]?) h
    simp only [Node.entries, List.getElem?_map, List.getElem?_range (by omega : el.length < nd.n),
      Option.map_some', List.getElem?_append_right (le_refl _), Nat.sub_self,
      List.getElem?_cons_zero, Option.some.injEq] at this
    rw [hn]
    simpa using this
  · rw [h, hn]
    simp

theorem keyList_last {nd : Node K V} {kl : List K} {k1 : K}
    (h : nd.keyList = kl ++ [k1]) :
    nd.n = kl.length + 1 ∧ nd.keys (nd.n - 1) = k1 ∧ nd.keyList.take (nd.n - 1) = kl := by
  have hn : nd.n = kl.length + 1 := by
    rw [← keyList_length, h]
    simp
  refine ⟨hn, ?_, ?_⟩
  · have := congrArg (fun l => l[kl.length]?) h
    simp only [Node.keyList, List.getElem?_map, List.getElem?_range (by omega : kl.length < nd.n),
      Option.map_some', List.getElem?_append_right (le_refl _), Nat.sub_self,
      List.getElem?_cons_zero, Option.some.injEq] at this
    rw [hn]
    simpa using this
  · rw [h, hn]
    simp

/-- The cells of a node and of two neighbouring children. -/
theorem Rep_pair_parts {h : Heap K V} {a : Nat} {ks : List K} {pre post : List (BT K V)}
    {X Y : BT K V} (hr : Rep h (.node a ks (pre ++ X :: Y :: post))) :
    ∃ p, h a = some p ∧ p.IS_LEAF = false ∧ p.keyList = ks ∧
      (List.range (pre ++ X :: Y :: post).length).map p.ptr
        = (pre ++ X :: Y :: post).map (fun t => some t.addr) ∧
      p.ptr pre.length = some X.addr ∧ p.ptr (pre.length + 1) = some Y.addr ∧
      Rep h X ∧ Rep h Y ∧ (∀ t ∈ pre, Rep h t) ∧ (∀ t ∈ post, Rep h t) := by
  cases hr with
  | @node a ks cs nd ha hl hk hp hc =>
    refine ⟨nd, ha, hl, hk, hp, ?_, ?_, hc X (by simp), hc Y (by simp),
      fun t ht => hc t (by simp [ht]), fun t ht => hc t (by simp [ht])⟩
    · exact ptr_at nd.ptr (fun t => some t.addr) pre (Y :: post) X hp
    · have hp' : (List.range ((pre ++ [X]) ++ Y :: post).length).map nd.ptr
          = ((pre ++ [X]) ++ Y :: post).map (fun t => some t.addr) := by
        simpa using hp
      have := ptr_at nd.ptr (fun t => some t.addr) (pre ++ [X]) post Y hp'
      simpa using this

/-- Distinctness of the addresses of a node and of two neighbouring children. -/
theorem nodup_pair_parts {a : Nat} {ks : List K} {pre post : List (BT K V)} {X Y : BT K V}
    (hn : (BT.node a ks (pre ++ X :: Y :: post)).addrs.Nodup) :
    a ∉ BT.addrsL pre ∧ a ∉ X.addrs ∧ a ∉ Y.addrs ∧ a ∉ BT.addrsL post ∧
      X.addrs.Nodup ∧ Y.addrs.Nodup ∧
      (∀ x ∈ X.addrs, x ∉ BT.addrsL pre ∧ x ∉ Y.addrs ∧ x ∉ BT.addrsL post) ∧
      (∀ x ∈ Y.addrs, x ∉ BT.addrsL pre ∧ x ∉ X.addrs ∧ x ∉ BT.addrsL post) ∧
      (BT.addrsL pre).Nodup ∧ (BT.addrsL post).Nodup ∧
      (∀ x ∈ BT.addrsL pre, x ∉ BT.addrsL post) := by
  obtain ⟨n1, n2, n3, n4, n5, n6, n7, n8⟩ := nodup_node_parts hn
  simp only [BT.addrsL, List.mem_append, not_or, List.nodup_append] at n3 n5 n7 n8
  refine ⟨n1, n2, n3.1, n3.2, n4, n7.1, fun x hx => ⟨(n5 x hx).1, (n5 x hx).2.1, (n5 x hx).2.2⟩,
    fun x hx => ⟨fun hp => (n8 x hp).1 hx, fun hX => (n5 x hX).2.1 hx,
      fun hp => n7.2.2 hx hp⟩, n6, n7.2.1, fun x hx => (n8 x hx).2⟩

/-- Building the representation of a node from its cell and its children, where the children
`pre` and `post` are taken over from another heap. -/
theorem Rep_rebuild {h1 h2 : Heap K V} {a : Nat} {ks2 : List K}
    {pre post mid2 : List (BT K V)} {p2 : Node K V}
    (hpre : ∀ t ∈ pre, Rep h1 t) (hpost : ∀ t ∈ post, Rep h1 t)
    (hfr : ∀ x, x ∈ BT.addrsL pre ∨ x ∈ BT.addrsL post → core (h2 x) = core (h1 x))
    (ha : h2 a = some p2) (hl : p2.IS_LEAF = false) (hk : p2.keyList = ks2)
    (hp : (List.range (pre ++ (mid2 ++ post)).length).map p2.ptr
      = (pre ++ (mid2 ++ post)).map (fun t => some t.addr))
    (hmid : ∀ t ∈ mid2, Rep h2 t) : Rep h2 (.node a ks2 (pre ++ (mid2 ++ post))) := by
  refine Rep.node ha hl hk hp ?_
  intro t ht
  rcases List.mem_append.1 ht with ht | ht
  · exact Rep_frame (hpre t ht) (fun x hx => hfr x (Or.inl (mem_addrsL.2 ⟨t, ht, hx⟩)))
  · rcases List.mem_append.1 ht with ht | ht
    · exact hmid t ht
    · exact Rep_frame (hpost t ht) (fun x hx => hfr x (Or.inr (mem_addrsL.2 ⟨t, ht, hx⟩)))

theorem keyList_at {nd : Node K V} {kpre kpost : List K} {s : K}
    (h : nd.keyList = kpre ++ s :: kpost) : nd.keys kpre.length = s := by
  have hn : kpre.length < nd.n := by
    rw [← keyList_length, h]
    simp
  have := congrArg (fun l => l[kpre.length]?) h
  simp only [Node.keyList, List.getElem?_map, List.getElem?_range hn, Option.map_some',
    List.getElem?_append_right (le_refl _), Nat.sub_self, List.getElem?_cons_zero,
    Option.some.injEq] at this
  exact this

theorem Rep_children_frame {h1 h2 : Heap K V} {cs : List (BT K V)}
    (hc : ∀ t ∈ cs, Rep h1 t) (hf : ∀ x ∈ BT.addrsL cs, h2 x = h1 x) :
    ∀ t ∈ cs, Rep h2 t := by
  intro t ht
  exact Rep_frame (hc t ht) (fun x hx => by rw [hf x (mem_addrsL.2 ⟨t, ht, hx⟩)])

theorem Rep_node_cell {h : Heap K V} {a : Nat} {ks : List K} {cs : List (BT K V)}
    (hr : Rep h (.node a ks cs)) :
    ∃ nd, h a = some nd ∧ nd.IS_LEAF = false ∧ nd.keyList = ks ∧
      (List.range cs.length).map nd.ptr = cs.map (fun t => some t.addr) ∧
      ∀ t ∈ cs, Rep h t := by
  cases hr with
  | @node a ks cs nd ha hl hk hp hc => exact ⟨nd, ha, hl, hk, hp, hc⟩

theorem Rep_leaf_cell {h : Heap K V} {a : Nat} {es : List (K × V)}
    (hr : Rep h (.leaf a es)) :
    ∃ nd, h a = some nd ∧ nd.IS_LEAF = true ∧ nd.entries = es := by
  cases hr with
  | @leaf a es nd ha hl he => exact ⟨nd, ha, hl, he⟩

end StepHelpers

section BorrowTree

variable {K V : Type} [LinearOrder K]

/-- `adjustNodeForDownOver` on an empty leaf whose left sibling holds more than one entry. -/
theorem step_borrowLeft_leaf {order : Nat} (hmid : (order - 1) / 2 = 1) {h1 : Heap K V}
    {a l b : Nat} {kpre kpost : List K} {s : K} {pre post : List (BT K V)}
    {el : List (K × V)} {e1 : K × V}
    (hr : Rep h1 (.node a (kpre ++ s :: kpost)
      (pre ++ .leaf l (el ++ [e1]) :: .leaf b [] :: post)))
    (hnd : (BT.node a (kpre ++ s :: kpost)
      (pre ++ .leaf l (el ++ [e1]) :: .leaf b [] :: post)).addrs.Nodup)
    (hlen : kpre.length = pre.length)
    (hcs : (pre ++ BT.leaf l (el ++ [e1]) :: BT.leaf b [] :: post).length
      = (kpre ++ s :: kpost).length + 1)
    (hcnt : (kpre ++ s :: kpost).length ≤ order - 1)
    (hel : 1 ≤ el.length) (hlcnt : (el ++ [e1]).length ≤ order - 1)
    (hls : ((el ++ [e1]).map Prod.fst).Sorted (· < ·)) :
    ∃ h2, adjustNodeForDownOver order h1 b a = some h2 ∧
      Rep h2 (.node a (kpre ++ e1.1 :: kpost) (pre ++ .leaf l el :: .leaf b [e1] :: post)) ∧
      (∀ x, x ≠ a → x ≠ b → x ≠ l → h2 x = h1 x) ∧
      links (h2 b) = links (h1 b) ∧ links (h2 l) = links (h1 l) := by
  obtain ⟨p, ha, hl, hk, hpp, hp1, hp2, hrL, hrC, hpre, hpost⟩ := Rep_pair_parts hr
  obtain ⟨n1, n2, n3, n4, n5, n6, n7, n8, n9, n10, n11⟩ := nodup_pair_parts hnd
  simp only [BT.addrs, List.mem_singleton] at n2 n3 n7 n8
  have hab : a ≠ b := n3
  have hal : a ≠ l := n2
  have hlb : l ≠ b := fun e => (n7 l rfl).2.1 e
  have hpn : p.n = (kpre ++ s :: kpost).length := by rw [← hk, keyList_length]
  cases hrL with
  | @leaf _ _ ln hln hll hle =>
  cases hrC with
  | @leaf _ _ nd hnb hnl hne =>
  have hn0 : nd.n = 0 := by rw [← entries_length, hne]; rfl
  obtain ⟨ln1, ln2, ln3⟩ := entries_last hle
  have hlsk : ln.sortedKeys := by
    rw [sortedKeys_iff, ← entries_map_fst, hle]
    exact hls
  have hbefore : ∀ i, i < pre.length + 1 → p.ptr i ≠ some b := by
    intro i hi
    rcases Nat.lt_succ_iff_lt_or_eq.1 hi with h | h
    · exact ptr_not_before hpp (n8 b rfl).1 i h
    · rw [h, hp1]
      simpa [BT.addr] using hlb
  have hadj := adjust_eq_borrowLeft order (pre.length + 1) hnb hn0 ha hl
    (by omega) (by
      simp only [List.length_append, List.length_cons] at hcs hpn
      omega) hp2 hbefore (by omega) (by simpa using hp1) hln (by omega)
  obtain ⟨h2, nd1, l1, q1, q2, q3, q4, q5, q6, q7, q8, q9, q10, q11⟩ :=
    borrowLeft_leaf_cells order (pre.length + 1) (by omega) hnb hnl
      hn0 hln hll (by omega) (by simp only [List.length_append, List.length_singleton] at hlcnt; omega) hlsk ha hab hal hlb.symm (by omega)
      (by simp only [List.length_append, List.length_cons] at hcnt; omega)
  have hk1 : ln.keys (ln.n - 1) = e1.1 := congrArg Prod.fst ln2
  rw [ln2] at q5
  rw [ln3] at q9
  rw [hk1] at q10
  refine ⟨h2, hadj.trans q1, ?_, q11, ?_, ?_⟩
  · have hk2 := keyList_update e1.1 hk
    rw [hlen] at hk2
    have e0 : pre.length + 1 - 1 = pre.length := by omega
    rw [e0] at q10
    have hrb := @Rep_rebuild K V h1 h2 a (kpre ++ e1.1 :: kpost) pre post
      [.leaf l el, .leaf b [e1]] _ hpre hpost
      (fun x hx => by
        have hxa : x ≠ a := by rintro rfl; rcases hx with hx | hx; exact n1 hx; exact n4 hx
        have hxb : x ≠ b := by
          rintro rfl; rcases hx with hx | hx; exact (n8 x rfl).1 hx; exact (n8 x rfl).2.2 hx
        have hxl : x ≠ l := by
          rintro rfl; rcases hx with hx | hx; exact (n7 x rfl).1 hx; exact (n7 x rfl).2.2 hx
        rw [q11 x hxa hxb hxl])
      q10 hl hk2
      (by simpa using hpp)
      (by
        intro t ht
        simp only [List.mem_cons, List.mem_singleton, List.not_mem_nil, or_false] at ht
        rcases ht with rfl | rfl
        · exact Rep.leaf q6 q7 q9
        · exact Rep.leaf q2 q3 q5)
    simpa using hrb
  · rw [q2, hnb]
    simp [links, q3, hnl, q4]
  · rw [q6, hln]
    simp [links, q7, hll, q8]

/-- `adjustNodeForDownOver` on an internal node without keys whose left sibling holds more
than one key. -/
theorem step_borrowLeft_node {order : Nat} (hmid : (order - 1) / 2 = 1) {h1 : Heap K V}
    {a l b : Nat} {kpre kpost : List K} {s : K} {pre post : List (BT K V)}
    {kl : List K} {k1 : K} {cl : List (BT K V)} {y x : BT K V}
    (hr : Rep h1 (.node a (kpre ++ s :: kpost)
      (pre ++ .node l (kl ++ [k1]) (cl ++ [y]) :: .node b [] [x] :: post)))
    (hnd : (BT.node a (kpre ++ s :: kpost)
      (pre ++ .node l (kl ++ [k1]) (cl ++ [y]) :: .node b [] [x] :: post)).addrs.Nodup)
    (hlen : kpre.length = pre.length)
    (hcnt : (kpre ++ s :: kpost).length ≤ order - 1)
    (hkl : 1 ≤ kl.length) (hlcnt : (kl ++ [k1]).length ≤ order - 1)
    (hls : (kl ++ [k1]).Sorted (· < ·))
    (hlcs : (cl ++ [y]).length = (kl ++ [k1]).length + 1) :
    ∃ h2, adjustNodeForDownOver order h1 b a = some h2 ∧
      Rep h2 (.node a (kpre ++ k1 :: kpost)
        (pre ++ .node l kl cl :: .node b [s] [y, x] :: post)) ∧
      (∀ z, z ≠ a → z ≠ b → z ≠ l → h2 z = h1 z) := by
  obtain ⟨p, ha, hl, hk, hpp, hp1, hp2, hrL, hrC, hpre, hpost⟩ := Rep_pair_parts hr
  obtain ⟨n1, n2, n3, n4, n5, n6, n7, n8, n9, n10, n11⟩ := nodup_pair_parts hnd
  have hlL : l ∈ (BT.node l (kl ++ [k1]) (cl ++ [y])).addrs := by simp [BT.addrs]
  have hbC : b ∈ (BT.node b [] [x]).addrs := by simp [BT.addrs]
  have hab : a ≠ b := fun e => n3 (e ▸ hbC)
  have hal : a ≠ l := fun e => n2 (e ▸ hlL)
  have hlb : l ≠ b := fun e => (n7 l hlL).2.1 (e ▸ hbC)
  have hpn : p.n = (kpre ++ s :: kpost).length := by rw [← hk, keyList_length]
  obtain ⟨ln, hln, hll, hlk, hlp, hlc⟩ := Rep_node_cell hrL
  obtain ⟨nd, hnb, hnl, hnk, hnp, hnc⟩ := Rep_node_cell hrC
  have hn0 : nd.n = 0 := by rw [← keyList_length, hnk]; rfl
  obtain ⟨ln1, ln2, ln3⟩ := keyList_last hlk
  have hlsk : ln.sortedKeys := by
    rw [sortedKeys_iff, hlk]
    exact hls
  have hbefore : ∀ i, i < pre.length + 1 → p.ptr i ≠ some b := by
    intro i hi
    rcases Nat.lt_succ_iff_lt_or_eq.1 hi with h | h
    · exact ptr_not_before hpp (n8 b hbC).1 i h
    · rw [h, hp1]
      simpa [BT.addr] using hlb
  simp only [List.length_append, List.length_cons, List.length_singleton,
    List.length_nil] at hpn hcnt hlcnt hlcs
  have hadj := adjust_eq_borrowLeft order (pre.length + 1) hnb hn0 ha hl
    (by omega) (by omega) hp2 hbefore (by omega) (by simpa using hp1) hln (by omega)
  obtain ⟨h2, nd1, l1, q1, q2, q3, q4, q5, q6, q7, q8, q9, q10, q11, q12, q13, q14⟩ :=
    borrowLeft_node_cells order (pre.length + 1) (by omega) hnb hnl hn0 hln hll (by omega)
      (by omega) hlsk ha hab hal hlb.symm (by omega) (by omega)
  have e0 : pre.length + 1 - 1 = pre.length := by omega
  rw [e0] at q5 q13
  rw [ln2] at q13
  rw [ln3] at q11
  have hps : p.keys pre.length = s := by rw [← hlen]; exact keyList_at hk
  rw [hps] at q5
  have hy : ln.ptr ln.n = some y.addr := by
    have := ptr_at ln.ptr (fun t => some t.addr) cl [] y hlp
    have e : cl.length = ln.n := by omega
    rw [e] at this
    exact this
  have hx : nd.ptr 0 = some x.addr := by
    have := hnp
    simp only [List.length_singleton, List.range_succ, List.range_zero, List.nil_append,
      List.map_cons, List.map_nil, List.cons.injEq, and_true] at this
    exact this
  -- frames for the subtrees below the two children
  have hnL : (BT.node l (kl ++ [k1]) (cl ++ [y])).addrs.Nodup := n5
  simp only [BT.addrs, List.nodup_cons, addrsL_append, BT.addrsL, List.append_nil,
    List.mem_append, not_or] at hnL
  have hnC : (BT.node b [] [x]).addrs.Nodup := n6
  simp only [BT.addrs, List.nodup_cons, BT.addrsL, List.append_nil] at hnC
  have fL : ∀ z, z ∈ BT.addrsL (cl ++ [y]) → h2 z = h1 z := by
    intro z hz
    have hzL : z ∈ (BT.node l (kl ++ [k1]) (cl ++ [y])).addrs := by
      simp only [BT.addrs, List.mem_cons]
      exact Or.inr hz
    have hzl : z ≠ l := by
      rintro rfl
      simp only [addrsL_append, BT.addrsL, List.append_nil, List.mem_append] at hz
      rcases hz with hz | hz
      · exact hnL.1.1 hz
      · exact hnL.1.2 hz
    exact q14 z (fun e => n2 (e ▸ hzL)) (fun e => (n7 z hzL).2.1 (e ▸ hbC)) hzl
  have fC : ∀ z, z ∈ x.addrs → h2 z = h1 z := by
    intro z hz
    have hzC : z ∈ (BT.node b [] [x]).addrs := by
      simp only [BT.addrs, BT.addrsL, List.append_nil, List.mem_cons]
      exact Or.inr hz
    exact q14 z (fun e => n3 (e ▸ hzC)) (fun e => hnC.1 (e ▸ hz))
      (fun e => (n8 z hzC).2.1 (e ▸ hlL))
  have hcl : ∀ t ∈ cl, Rep h2 t :=
    Rep_children_frame (fun t ht => hlc t (by simp [ht]))
      (fun z hz => fL z (by simp [addrsL_append, hz]))
  have hyr : Rep h2 y :=
    Rep_frame (hlc y (by simp)) (fun z hz => by
      rw [fL z (by simp [addrsL_append, BT.addrsL, hz])])
  have hxr : Rep h2 x := Rep_frame (hnc x (by simp)) (fun z hz => by rw [fC z hz])
  refine ⟨h2, hadj.trans q1, ?_, q14⟩
  have hk2 := keyList_update k1 hk
  rw [hlen] at hk2
  have hrb := @Rep_rebuild K V h1 h2 a (kpre ++ k1 :: kpost) pre post
    [.node l kl cl, .node b [s] [y, x]] _ hpre hpost
    (fun z hz => by
      have hza : z ≠ a := by rintro rfl; rcases hz with hz | hz; exact n1 hz; exact n4 hz
      have hzb : z ≠ b := by
        rintro rfl; rcases hz with hz | hz
        · exact (n8 z hbC).1 hz
        · exact (n8 z hbC).2.2 hz
      have hzl : z ≠ l := by
        rintro rfl; rcases hz with hz | hz
        · exact (n7 z hlL).1 hz
        · exact (n7 z hlL).2.2 hz
      rw [q14 z hza hzb hzl])
    q13 hl hk2
    (by simpa using hpp)
    (by
      intro t ht
      simp only [List.mem_cons, List.mem_singleton, List.not_mem_nil, or_false] at ht
      rcases ht with rfl | rfl
      · refine Rep.node q8 q9 q11 ?_ hcl
        have e : cl.length ≤ ln.n := by omega
        have h3 := map_range_take l1.ptr l1.ptr cl.length ln.n e (fun _ _ => rfl)
        rw [h3, q12, ← map_range_take ln.ptr ln.ptr cl.length ln.n e (fun _ _ => rfl)]
        have h4 := map_range_take ln.ptr ln.ptr cl.length (cl ++ [y]).length (by simp)
          (fun _ _ => rfl)
        rw [h4, hlp]
        simp
      · refine Rep.node q2 q3 q5 ?_ ?_
        · simp [List.range_succ, q6, q7, hy, hx]
        · intro t ht
          simp only [List.mem_cons, List.mem_singleton, List.not_mem_nil, or_false] at ht
          rcases ht with rfl | rfl
          · exact hyr
          · exact hxr)
  simpa using hrb

omit [LinearOrder K] in
/-- The left sibling of the child at position `pre.length`, when it holds at most one key. -/
theorem left_poor {order : Nat} (hmid : (order - 1) / 2 = 1) {h1 : Heap K V} {p : Node K V}
    {n : Nat} {pre rest : List (BT K V)}
    (hpp : (List.range n).map p.ptr = (pre ++ rest).map (fun t => some t.addr))
    (hpre : ∀ t ∈ pre, Rep h1 t)
    (hpoor : ∀ pre1 L, pre = pre1 ++ [L] → L.count ≤ 1) :
    0 < pre.length → ∃ l ln, p.ptr (pre.length - 1) = some l ∧ h1 l = some ln ∧
      ¬ (order - 1) / 2 < ln.n := by
  intro hpos
  rcases List.eq_nil_or_concat pre with h | ⟨pre1, L, h⟩
  · rw [h] at hpos
    simp at hpos
  · rw [List.concat_eq_append] at h
    subst h
    have hn : n = (pre1 ++ L :: rest).length := by
      have := congrArg List.length hpp
      simpa using this
    have hpp' : (List.range (pre1 ++ L :: rest).length).map p.ptr
        = (pre1 ++ L :: rest).map (fun t => some t.addr) := by
      rw [← hn]
      simpa using hpp
    have h1' := ptr_at p.ptr (fun t => some t.addr) pre1 rest L hpp'
    obtain ⟨ln, hln, hcnt⟩ := Rep_cell (hpre L (by simp))
    refine ⟨L.addr, ln, ?_, hln, ?_⟩
    · simpa using h1'
    · have := hpoor pre1 L rfl
      omega

/-- `adjustNodeForDownOver` on an empty leaf whose left sibling cannot lend an entry and whose
right sibling holds more than one entry. -/
theorem step_borrowRight_leaf {order : Nat} (hmid : (order - 1) / 2 = 1) {h1 : Heap K V}
    {a r b : Nat} {kpre kpost : List K} {s : K} {pre post : List (BT K V)}
    {e1 e2 : K × V} {er : List (K × V)}
    (hr : Rep h1 (.node a (kpre ++ s :: kpost)
      (pre ++ .leaf b [] :: .leaf r (e1 :: e2 :: er) :: post)))
    (hnd : (BT.node a (kpre ++ s :: kpost)
      (pre ++ .leaf b [] :: .leaf r (e1 :: e2 :: er) :: post)).addrs.Nodup)
    (hlen : kpre.length = pre.length)
    (hcnt : (kpre ++ s :: kpost).length ≤ order - 1)
    (hrcnt : (e1 :: e2 :: er).length ≤ order - 1)
    (hrs : ((e1 :: e2 :: er).map Prod.fst).Sorted (· < ·))
    (hpoor : ∀ pre1 L, pre = pre1 ++ [L] → L.count ≤ 1) :
    ∃ h2, adjustNodeForDownOver order h1 b a = some h2 ∧
      Rep h2 (.node a (kpre ++ e2.1 :: kpost)
        (pre ++ .leaf b [e1] :: .leaf r (e2 :: er) :: post)) ∧
      (∀ x, x ≠ a → x ≠ b → x ≠ r → h2 x = h1 x) ∧
      links (h2 b) = links (h1 b) ∧ links (h2 r) = links (h1 r) := by
  obtain ⟨p, ha, hl, hk, hpp, hp1, hp2, hrC, hrR, hpre, hpost⟩ := Rep_pair_parts hr
  obtain ⟨n1, n2, n3, n4, n5, n6, n7, n8, n9, n10, n11⟩ := nodup_pair_parts hnd
  simp only [BT.addrs, List.mem_singleton] at n2 n3 n7 n8
  have hab : a ≠ b := n2
  have har : a ≠ r := n3
  have hbr : b ≠ r := fun e => (n7 b rfl).2.1 e
  have hpn : p.n = (kpre ++ s :: kpost).length := by rw [← hk, keyList_length]
  obtain ⟨rn, hrn, hrl, hre⟩ := Rep_leaf_cell hrR
  obtain ⟨nd, hnb, hnl, hne⟩ := Rep_leaf_cell hrC
  have hn0 : nd.n = 0 := by rw [← entries_length, hne]; rfl
  have hrnn : rn.n = er.length + 2 := by rw [← entries_length, hre]; rfl
  obtain ⟨rk0, rv0⟩ := keys_zero_of_entries hre
  have hrsk : rn.sortedKeys := by
    rw [sortedKeys_iff, ← entries_map_fst, hre]
    exact hrs
  simp only [List.length_append, List.length_cons] at hpn hcnt hrcnt
  have hadj := adjust_eq_borrowRight order pre.length hnb hn0 ha hl
    (by omega) (by omega) hp1 (ptr_not_before hpp (n7 b rfl).1)
    (left_poor hmid hpp hpre hpoor) (by omega) hp2 hrn (by omega)
  obtain ⟨h2, nd1, r1, q1, q2, q3, q4, q5, q6, q7, q8, q9, q10, q11⟩ :=
    borrowRight_leaf_cells order pre.length (by omega) hnb hnl hn0 hrn hrl (by omega)
      (by omega) hrsk ha hab har hbr (by omega)
  rw [rk0, rv0] at q5
  rw [hre] at q9
  simp only [List.drop_succ_cons, List.drop_zero] at q9
  rw [(keys_zero_of_entries q9).1] at q10
  refine ⟨h2, hadj.trans q1, ?_, q11, ?_, ?_⟩
  · have hk2 := keyList_update e2.1 hk
    rw [hlen] at hk2
    have hrb := @Rep_rebuild K V h1 h2 a (kpre ++ e2.1 :: kpost) pre post
      [.leaf b [e1], .leaf r (e2 :: er)] _ hpre hpost
      (fun x hx => by
        have hxa : x ≠ a := by rintro rfl; rcases hx with hx | hx; exact n1 hx; exact n4 hx
        have hxb : x ≠ b := by
          rintro rfl; rcases hx with hx | hx; exact (n7 x rfl).1 hx; exact (n7 x rfl).2.2 hx
        have hxr : x ≠ r := by
          rintro rfl; rcases hx with hx | hx; exact (n8 x rfl).1 hx; exact (n8 x rfl).2.2 hx
        rw [q11 x hxa hxb hxr])
      q10 hl hk2
      (by simpa using hpp)
      (by
        intro t ht
        simp only [List.mem_cons, List.mem_singleton, List.not_mem_nil, or_false] at ht
        rcases ht with rfl | rfl
        · exact Rep.leaf q2 q3 q5
        · exact Rep.leaf q6 q7 q9)
    simpa using hrb
  · rw [q2, hnb]
    simp [links, q3, hnl, q4]
  · rw [q6, hrn]
    simp [links, q7, hrl, q8]

/-- `adjustNodeForDownOver` on an internal node without keys whose left sibling cannot lend a
key and whose right sibling holds more than one key. -/
theorem step_borrowRight_node {order : Nat} (hmid : (order - 1) / 2 = 1) {h1 : Heap K V}
    {a r b : Nat} {kpre kpost : List K} {s : K} {pre post : List (BT K V)}
    {k1 k2 : K} {kr : List K} {y x : BT K V} {cr : List (BT K V)}
    (hr : Rep h1 (.node a (kpre ++ s :: kpost)
      (pre ++ .node b [] [x] :: .node r (k1 :: k2 :: kr) (y :: cr) :: post)))
    (hnd : (BT.node a (kpre ++ s :: kpost)
      (pre ++ .node b [] [x] :: .node r (k1 :: k2 :: kr) (y :: cr) :: post)).addrs.Nodup)
    (hlen : kpre.length = pre.length)
    (hcnt : (kpre ++ s :: kpost).length ≤ order - 1)
    (hrcnt : (k1 :: k2 :: kr).length ≤ order - 1)
    (hrs : (k1 :: k2 :: kr).Sorted (· < ·))
    (hrcs : (y :: cr).length = (k1 :: k2 :: kr).length + 1)
    (hpoor : ∀ pre1 L, pre = pre1 ++ [L] → L.count ≤ 1) :
    ∃ h2, adjustNodeForDownOver order h1 b a = some h2 ∧
      Rep h2 (.node a (kpre ++ k1 :: kpost)
        (pre ++ .node b [s] [x, y] :: .node r (k2 :: kr) cr :: post)) ∧
      (∀ z, z ≠ a → z ≠ b → z ≠ r → h2 z = h1 z) := by
  obtain ⟨p, ha, hl, hk, hpp, hp1, hp2, hrC, hrR, hpre, hpost⟩ := Rep_pair_parts hr
  obtain ⟨n1, n2, n3, n4, n5, n6, n7, n8, n9, n10, n11⟩ := nodup_pair_parts hnd
  have hrR' : r ∈ (BT.node r (k1 :: k2 :: kr) (y :: cr)).addrs := by simp [BT.addrs]
  have hbC : b ∈ (BT.node b [] [x]).addrs := by simp [BT.addrs]
  have hab : a ≠ b := fun e => n2 (e ▸ hbC)
  have har : a ≠ r := fun e => n3 (e ▸ hrR')
  have hbr : b ≠ r := fun e => (n7 b hbC).2.1 (e ▸ hrR')
  have hpn : p.n = (kpre ++ s :: kpost).length := by rw [← hk, keyList_length]
  obtain ⟨rn, hrn, hrl, hrk, hrp, hrc⟩ := Rep_node_cell hrR
  obtain ⟨nd, hnb, hnl, hnk, hnp, hnc⟩ := Rep_node_cell hrC
  have hn0 : nd.n = 0 := by rw [← keyList_length, hnk]; rfl
  have hrnn : rn.n = kr.length + 2 := by rw [← keyList_length, hrk]; rfl
  have hrk0 : rn.keys 0 = k1 := by
    have := @keyList_at K V rn [] (k2 :: kr) k1 (by simpa using hrk)
    simpa using this
  have hrsk : rn.sortedKeys := by
    rw [sortedKeys_iff, hrk]
    exact hrs
  simp only [List.length_append, List.length_cons] at hpn hcnt hrcnt hrcs
  have hadj := adjust_eq_borrowRight order pre.length hnb hn0 ha hl
    (by omega) (by omega) hp1 (ptr_not_before hpp (n7 b hbC).1)
    (left_poor hmid hpp hpre hpoor) (by omega) hp2 hrn (by omega)
  obtain ⟨h2, nd1, r1, q1, q2, q3, q4, q5, q6, q7, q8, q9, q10, q11, q12, q13, q14⟩ :=
    borrowRight_node_cells order pre.length (by omega) hnb hnl hn0 hrn hrl (by omega)
      (by omega) hrsk ha hab har hbr (by omega)
  have hps : p.keys pre.length = s := by rw [← hlen]; exact keyList_at hk
  rw [hps] at q5
  rw [hrk0] at q13
  rw [hrk] at q11
  simp only [List.drop_succ_cons, List.drop_zero] at q11
  have hy : rn.ptr 0 = some y.addr := by
    have := ptr_at rn.ptr (fun t => some t.addr) [] cr y (by simpa using hrp)
    simpa using this
  have hx : nd.ptr 0 = some x.addr := by
    have := hnp
    simp only [List.length_singleton, List.range_succ, List.range_zero, List.nil_append,
      List.map_cons, List.map_nil, List.cons.injEq, and_true] at this
    exact this
  have hnR : (BT.node r (k1 :: k2 :: kr) (y :: cr)).addrs.Nodup := n6
  simp only [BT.addrs, List.nodup_cons, BT.addrsL, List.mem_append, not_or] at hnR
  have hnC : (BT.node b [] [x]).addrs.Nodup := n5
  simp only [BT.addrs, List.nodup_cons, BT.addrsL, List.append_nil] at hnC
  have fR : ∀ z, z ∈ BT.addrsL (y :: cr) → h2 z = h1 z := by
    intro z hz
    have hzR : z ∈ (BT.node r (k1 :: k2 :: kr) (y :: cr)).addrs := by
      simp only [BT.addrs, List.mem_cons]
      exact Or.inr hz
    have hzr : z ≠ r := by
      rintro rfl
      simp only [BT.addrsL, List.mem_append] at hz
      rcases hz with hz | hz
      · exact hnR.1.1 hz
      · exact hnR.1.2 hz
    exact q14 z (fun e => n3 (e ▸ hzR)) (fun e => (n8 z hzR).2.1 (e ▸ hbC)) hzr
  have fC : ∀ z, z ∈ x.addrs → h2 z = h1 z := by
    intro z hz
    have hzC : z ∈ (BT.node b [] [x]).addrs := by
      simp only [BT.addrs, BT.addrsL, List.append_nil, List.mem_cons]
      exact Or.inr hz
    exact q14 z (fun e => n2 (e ▸ hzC)) (fun e => hnC.1 (e ▸ hz))
      (fun e => (n7 z hzC).2.1 (e ▸ hrR'))
  have hcr : ∀ t ∈ cr, Rep h2 t :=
    Rep_children_frame (fun t ht => hrc t (by simp [ht]))
      (fun z hz => fR z (by simp [BT.addrsL, hz]))
  have hyr : Rep h2 y :=
    Rep_frame (hrc y (by simp)) (fun z hz => by rw [fR z (by simp [BT.addrsL, hz])])
  have hxr : Rep h2 x := Rep_frame (hnc x (by simp)) (fun z hz => by rw [fC z hz])
  refine ⟨h2, hadj.trans q1, ?_, q14⟩
  have hk2 := keyList_update k1 hk
  rw [hlen] at hk2
  have hrb := @Rep_rebuild K V h1 h2 a (kpre ++ k1 :: kpost) pre post
    [.node b [s] [x, y], .node r (k2 :: kr) cr] _ hpre hpost
    (fun z hz => by
      have hza : z ≠ a := by rintro rfl; rcases hz with hz | hz; exact n1 hz; exact n4 hz
      have hzb : z ≠ b := by
        rintro rfl; rcases hz with hz | hz
        · exact (n7 z hbC).1 hz
        · exact (n7 z hbC).2.2 hz
      have hzr : z ≠ r := by
        rintro rfl; rcases hz with hz | hz
        · exact (n8 z hrR').1 hz
        · exact (n8 z hrR').2.2 hz
      rw [q14 z hza hzb hzr])
    q13 hl hk2
    (by simpa using hpp)
    (by
      intro t ht
      simp only [List.mem_cons, List.mem_singleton, List.not_mem_nil, or_false] at ht
      rcases ht with rfl | rfl
      · refine Rep.node q2 q3 q5 ?_ ?_
        · simp [List.range_succ, q6, q7, hy, hx]
        · intro t ht
          simp only [List.mem_cons, List.mem_singleton, List.not_mem_nil, or_false] at ht
          rcases ht with rfl | rfl
          · exact hxr
          · exact hyr
      · refine Rep.node q8 q9 q11 ?_ hcr
        have e : cr.length = rn.n := by omega
        rw [e, q12]
        have e2 : rn.n + 1 = (y :: cr).length := by simp; omega
        rw [e2, hrp]
        simp)
  simpa using hrb

end BorrowTree

section MergeTree

variable {K V : Type} [LinearOrder K]

omit [LinearOrder K] in
/-- The right sibling of the child in front of `post`, when it holds at most one key. -/
theorem right_poor {order : Nat} (hmid : (order - 1) / 2 = 1) {h1 : Heap K V} {p : Node K V}
    {front post : List (BT K V)}
    (hpp : (List.range (front ++ post).length).map p.ptr
      = (front ++ post).map (fun t => some t.addr))
    (hpost : ∀ t ∈ post, Rep h1 t)
    (hpoor : ∀ R post1, post = R :: post1 → R.count ≤ 1) :
    post ≠ [] → ∃ r rn, p.ptr front.length = some r ∧ h1 r = some rn ∧
      ¬ (order - 1) / 2 < rn.n := by
  intro hne
  cases post with
  | nil => exact absurd rfl hne
  | cons R post1 =>
    have h1' := ptr_at p.ptr (fun t => some t.addr) front post1 R hpp
    obtain ⟨rn, hrn, hcnt⟩ := Rep_cell (hpost R (by simp))
    refine ⟨R.addr, rn, h1', hrn, ?_⟩
    have := hpoor R post1 rfl
    omega

omit [LinearOrder K] in
/-- The leaf that follows in the chain, if any, is a cell of the heap and a member of the
rest of the chain. -/
theorem chain_next_cell {h : Heap K V} {prev : Option Nat} {L2 : List Nat} {c : Nat}
    (hc : Chain h prev L2 none) (hf : firstOr L2 none = some c) :
    c ∈ L2 ∧ ∃ cn, h c = some cn ∧ cn.IS_LEAF = true := by
  cases L2 with
  | nil => simp [firstOr] at hf
  | cons w L2 =>
    simp only [firstOr, Option.some.injEq] at hf
    subst hf
    rw [Chain_cons] at hc
    obtain ⟨cn, h1, h2, -, -⟩ := links_leaf_of_some hc.1
    exact ⟨List.mem_cons_self _ _, cn, h1, h2⟩

omit [LinearOrder K] in
/-- Frame of the leaf merge at the level of `core`: only the two merged leaves change. -/
theorem merge_core_frame {h1 h2 : Heap K V} {x y : Nat} {yn : Node K V}
    (hc : ∀ c, yn.ptr 1 = some c → ∃ cn, h1 c = some cn ∧ cn.IS_LEAF = true)
    (hupd : ∀ c cn, yn.ptr 1 = some c → h1 c = some cn →
      h2 c = some { cn with ptr := Function.update cn.ptr 0 (some x) })
    (hfr : ∀ z, z ≠ x → z ≠ y → yn.ptr 1 ≠ some z → h2 z = h1 z) :
    ∀ z, z ≠ x → z ≠ y → core (h2 z) = core (h1 z) := by
  intro z hzx hzy
  by_cases hz : yn.ptr 1 = some z
  · obtain ⟨cn, hcn, hcl⟩ := hc z hz
    rw [hupd z cn hz hcn, hcn]
    exact core_setPtr_leaf hcl 0 (some x)
  · rw [hfr z hzx hzy hz]

/-- `adjustNodeForDownOver` on an empty leaf with a left sibling, when no sibling can lend an
entry: the leaf is unlinked and freed, and its separator leaves the parent. -/
theorem step_mergeLeft_leaf {order : Nat} (hmid : (order - 1) / 2 = 1) {h1 : Heap K V}
    {a l b : Nat} {kpre kpost : List K} {s : K} {pre post : List (BT K V)}
    {el : List (K × V)} {L1 L2 : List Nat}
    (hr : Rep h1 (.node a (kpre ++ s :: kpost) (pre ++ .leaf l el :: .leaf b [] :: post)))
    (hnd : (BT.node a (kpre ++ s :: kpost)
      (pre ++ .leaf l el :: .leaf b [] :: post)).addrs.Nodup)
    (hlen : kpre.length = pre.length)
    (hcs : (pre ++ BT.leaf l el :: BT.leaf b [] :: post).length
      = (kpre ++ s :: kpost).length + 1)
    (hcnt : (kpre ++ s :: kpost).length ≤ order - 1)
    (hsorted : (kpre ++ s :: kpost).Sorted (· < ·))
    (hel : el.length ≤ 1)
    (hpoor : ∀ R post1, post = R :: post1 → R.count ≤ 1)
    (hch : Chain h1 none (L1 ++ l :: b :: L2) none) (hchnd : (L1 ++ l :: b :: L2).Nodup)
    (hL : ∀ x, x ∈ L1 ∨ x ∈ L2 → x ≠ a) :
    ∃ h3, adjustNodeForDownOver order h1 b a = some h3 ∧
      Rep h3 (.node a (kpre ++ kpost) (pre ++ .leaf l el :: post)) ∧
      (∀ x, x ≠ a → x ≠ b → x ≠ l → core (h3 x) = core (h1 x)) ∧
      Chain h3 none (L1 ++ l :: L2) none := by
  obtain ⟨p, ha, hl, hk, hpp, hp1, hp2, hrL, hrC, hpre, hpost⟩ := Rep_pair_parts hr
  obtain ⟨n1, n2, n3, n4, n5, n6, n7, n8, n9, n10, n11⟩ := nodup_pair_parts hnd
  simp only [BT.addrs, List.mem_singleton] at n2 n3 n7 n8
  have hab : a ≠ b := n3
  have hal : a ≠ l := n2
  have hlb : l ≠ b := fun e => (n7 l rfl).2.1 e
  have hpn : p.n = (kpre ++ s :: kpost).length := by rw [← hk, keyList_length]
  obtain ⟨ln, hln, hll, hle⟩ := Rep_leaf_cell hrL
  obtain ⟨nd, hnb, hnl, hne⟩ := Rep_leaf_cell hrC
  have hn0 : nd.n = 0 := by rw [← entries_length, hne]; rfl
  have hlnn : ln.n = el.length := by rw [← entries_length, hle]
  -- the chain around `l` and `b`
  have hch' := hch
  rw [Chain_append, Chain_cons, Chain_cons] at hch'
  obtain ⟨-, c2, c3, c4⟩ := hch'
  obtain ⟨ln', e1, -, e3, e4⟩ := links_leaf_of_some c2
  have : ln' = ln := by rw [hln] at e1; exact (Option.some.inj e1).symm
  subst this
  obtain ⟨nd', f1, -, f3, f4⟩ := links_leaf_of_some c3
  have : nd' = nd := by rw [hnb] at f1; exact (Option.some.inj f1).symm
  subst this
  have hp' := List.nodup_append.1 hchnd
  have hp2' := List.nodup_cons.1 hp'.2.1
  have hp3' := List.nodup_cons.1 hp2'.2
  have hcell : ∀ c, nd'.ptr 1 = some c → c ≠ l ∧ c ≠ b ∧ ∃ cn, h1 c = some cn := by
    intro c hc
    rw [f4] at hc
    obtain ⟨m1, cn, m2, -⟩ := chain_next_cell c4 hc
    exact ⟨fun e => hp2'.1 (List.mem_cons_of_mem _ (e ▸ m1)), fun e => hp3'.1 (e ▸ m1),
      cn, m2⟩
  have hcellL : ∀ c, nd'.ptr 1 = some c → ∃ cn, h1 c = some cn ∧ cn.IS_LEAF = true := by
    intro c hc
    rw [f4] at hc
    exact (chain_next_cell c4 hc).2
  have hcmem : ∀ c, nd'.ptr 1 = some c → c ∈ L2 := by
    intro c hc
    rw [f4] at hc
    exact (chain_next_cell c4 hc).1
  simp only [List.length_append, List.length_cons] at hcs hpn hcnt
  have hbefore : ∀ i, i < pre.length + 1 → p.ptr i ≠ some b := by
    intro i hi
    rcases Nat.lt_succ_iff_lt_or_eq.1 hi with h | h
    · exact ptr_not_before hpp (n8 b rfl).1 i h
    · rw [h, hp1]
      simpa [BT.addr] using hlb
  have hpp2 : (List.range ((pre ++ [BT.leaf l el, BT.leaf b []]) ++ post).length).map p.ptr
      = ((pre ++ [BT.leaf l el, BT.leaf b []]) ++ post).map (fun t => some t.addr) := by
    simpa using hpp
  have hadj := adjust_eq_mergeLeft order (pre.length + 1) hnb hn0 ha hl
    (by omega) (by omega) hp2 hbefore (by omega) (by simpa using hp1) hln (by omega)
    (fun hlt => by
      have hne : post ≠ [] := by
        rintro rfl
        simp at hcs
        omega
      obtain ⟨r, rn, g1, g2, g3⟩ := right_poor hmid hpp2 hpost hpoor hne
      exact ⟨r, rn, by simpa using g1, g2, g3⟩)
  obtain ⟨h2, x1, m1, m2, m3, m4, m5, m6, m7, m8⟩ :=
    merge_cells order hln hll hnb hnl (by omega) (by omega) (by omega) hlb e4 hcell
  have hcore := merge_core_frame hcellL m7 m8
  have ha2 : h2 a = some p := by
    rw [m8 a hal hab (fun e => hL a (Or.inr (hcmem a e)) rfl)]
    exact ha
  have e0 : pre.length + 1 - 1 = kpre.length := by omega
  have hpq : (List.range (p.n + 1)).map p.ptr
      = pre.map (fun t => some t.addr) ++ some l :: some b :: post.map (fun t => some t.addr) := by
    have e : p.n + 1 = (pre ++ BT.leaf l el :: BT.leaf b [] :: post).length := by
      simp only [List.length_append, List.length_cons]
      omega
    rw [e, hpp]
    simp [BT.addr]
  obtain ⟨p1, r1, r2, r3, r4, r5⟩ := parent_remove_cells order
    ha2 hl (by omega) hk hsorted hpq (by simpa using hlen)
  have hres : adjustNodeForDownOver order h1 b a = some (Function.update h2 a (some p1)) := by
    rw [hadj, e0]
    simp only [hll, ↓reduceIte, m1, Option.some_bind, r1]
  refine ⟨_, hres, ?_, ?_, ?_⟩
  · have hrb := @Rep_rebuild K V h1 (Function.update h2 a (some p1)) a (kpre ++ kpost) pre post
      [.leaf l el] p1 hpre hpost
      (fun x hx => by
        have hxa : x ≠ a := by rintro rfl; rcases hx with hx | hx; exact n1 hx; exact n4 hx
        have hxb : x ≠ b := by
          rintro rfl; rcases hx with hx | hx; exact (n8 x rfl).1 hx; exact (n8 x rfl).2.2 hx
        have hxl : x ≠ l := by
          rintro rfl; rcases hx with hx | hx; exact (n7 x rfl).1 hx; exact (n7 x rfl).2.2 hx
        rw [Function.update_noteq hxa]
        exact hcore x hxl hxb)
      (Function.update_same _ _ _) r2 r4
      (by
        have e : (pre ++ ([BT.leaf l el] ++ post)).length = p1.n + 1 := by
          simp
          omega
        rw [e, r5]
        simp [BT.addr])
      (by
        intro t ht
        simp only [List.mem_singleton] at ht
        subst ht
        refine Rep.leaf (?_ : _ = some x1) m3 ?_
        · rw [Function.update_noteq hal.symm]
          exact m2
        · rw [m4, hle, hne, List.append_nil])
    simpa using hrb
  · intro x hxa hxb hxl
    rw [Function.update_noteq hxa]
    exact hcore x hxl hxb
  · refine Chain_remove_after (lastOr none L1) (firstOr L2 none) hch hchnd c3 c2 ?_ ?_ ?_
    · rw [Function.update_noteq hal.symm, m2]
      simp only [links, Option.map_some', m3, m5, Function.update_same, Option.some.injEq,
        Prod.mk.injEq, true_and]
      refine ⟨?_, f4⟩
      rw [Function.update_noteq (by decide : (0 : Nat) ≠ 1)]
      exact e3
    · intro c hc pc nc hlk
      have hc' : nd'.ptr 1 = some c := by rw [f4]; exact hc
      obtain ⟨cn, hcn, hcl⟩ := hcellL c hc'
      have hca : c ≠ a := hL c (Or.inr (hcmem c hc'))
      rw [Function.update_noteq hca, m7 c cn hc' hcn]
      rw [hcn] at hlk
      simp only [links, Option.map_some', Option.some.injEq, Prod.mk.injEq] at hlk ⊢
      refine ⟨hlk.1, Function.update_same _ _ _, ?_⟩
      rw [Function.update_noteq (by decide : (1 : Nat) ≠ 0)]
      exact hlk.2.2
    · intro z hz hzn
      have hza : z ≠ a := hL z hz
      have hzl : z ≠ l := by
        rintro rfl
        rcases hz with hz | hz
        · exact hp'.2.2 hz (List.mem_cons_self _ _)
        · exact hp2'.1 (List.mem_cons_of_mem _ hz)
      have hzb : z ≠ b := by
        rintro rfl
        rcases hz with hz | hz
        · exact hp'.2.2 hz (List.mem_cons_of_mem _ (List.mem_cons_self _ _))
        · exact hp3'.1 hz
      rw [Function.update_noteq hza, m8 z hzl hzb (by rw [f4]; exact hzn)]

/-- `adjustNodeForDownOver` on an empty first leaf whose right sibling cannot lend an entry:
the right sibling is merged into the leaf, unlinked and freed. -/
theorem step_mergeRight_leaf {order : Nat} (hmid : (order - 1) / 2 = 1) {h1 : Heap K V}
    {a b r : Nat} {kpost : List K} {s : K} {post : List (BT K V)}
    {er : List (K × V)} {L1 L2 : List Nat}
    (hr : Rep h1 (.node a (s :: kpost) (.leaf b [] :: .leaf r er :: post)))
    (hnd : (BT.node a (s :: kpost) (.leaf b [] :: .leaf r er :: post)).addrs.Nodup)
    (hcs : (BT.leaf b [] :: BT.leaf r er :: post).length = (s :: kpost).length + 1)
    (hcnt : (s :: kpost).length ≤ order - 1)
    (hsorted : (s :: kpost).Sorted (· < ·))
    (her : er.length ≤ 1)
    (hch : Chain h1 none (L1 ++ b :: r :: L2) none) (hchnd : (L1 ++ b :: r :: L2).Nodup)
    (hL : ∀ x, x ∈ L1 ∨ x ∈ L2 → x ≠ a) :
    ∃ h3, adjustNodeForDownOver order h1 b a = some h3 ∧
      Rep h3 (.node a kpost (.leaf b er :: post)) ∧
      (∀ x, x ≠ a → x ≠ b → x ≠ r → core (h3 x) = core (h1 x)) ∧
      Chain h3 none (L1 ++ b :: L2) none := by
  obtain ⟨p, ha, hl, hk, hpp, hp1, hp2, hrC, hrR, hpre, hpost⟩ :=
    @Rep_pair_parts K V h1 a (s :: kpost) [] post (.leaf b []) (.leaf r er) hr
  obtain ⟨n1, n2, n3, n4, n5, n6, n7, n8, n9, n10, n11⟩ :=
    @nodup_pair_parts K V a (s :: kpost) [] post (.leaf b []) (.leaf r er) hnd
  simp only [BT.addrs, List.mem_singleton] at n2 n3 n7 n8
  have hab : a ≠ b := n2
  have har : a ≠ r := n3
  have hbr : b ≠ r := fun e => (n7 b rfl).2.1 e
  have hpn : p.n = (s :: kpost).length := by rw [← hk, keyList_length]
  obtain ⟨nd, hnb, hnl, hne⟩ := Rep_leaf_cell hrC
  obtain ⟨rn, hrn, hrl, hre⟩ := Rep_leaf_cell hrR
  have hn0 : nd.n = 0 := by rw [← entries_length, hne]; rfl
  have hrnn : rn.n = er.length := by rw [← entries_length, hre]
  have hch' := hch
  rw [Chain_append, Chain_cons, Chain_cons] at hch'
  obtain ⟨-, c2, c3, c4⟩ := hch'
  obtain ⟨nd', e1, -, e3, e4⟩ := links_leaf_of_some c2
  have : nd' = nd := by rw [hnb] at e1; exact (Option.some.inj e1).symm
  subst this
  obtain ⟨rn', f1, -, f3, f4⟩ := links_leaf_of_some c3
  have : rn' = rn := by rw [hrn] at f1; exact (Option.some.inj f1).symm
  subst this
  have hp' := List.nodup_append.1 hchnd
  have hp2' := List.nodup_cons.1 hp'.2.1
  have hp3' := List.nodup_cons.1 hp2'.2
  have hcell : ∀ c, rn'.ptr 1 = some c → c ≠ b ∧ c ≠ r ∧ ∃ cn, h1 c = some cn := by
    intro c hc
    rw [f4] at hc
    obtain ⟨m1, cn, m2, -⟩ := chain_next_cell c4 hc
    exact ⟨fun e => hp2'.1 (List.mem_cons_of_mem _ (e ▸ m1)), fun e => hp3'.1 (e ▸ m1),
      cn, m2⟩
  have hcellL : ∀ c, rn'.ptr 1 = some c → ∃ cn, h1 c = some cn ∧ cn.IS_LEAF = true := by
    intro c hc
    rw [f4] at hc
    exact (chain_next_cell c4 hc).2
  have hcmem : ∀ c, rn'.ptr 1 = some c → c ∈ L2 := by
    intro c hc
    rw [f4] at hc
    exact (chain_next_cell c4 hc).1
  simp only [List.length_cons] at hcs hpn hcnt
  have ho : 3 ≤ order := by omega
  have hadj := adjust_eq_mergeRight order (by omega) hnb hn0 ha hl
    (by simpa [BT.addr] using hp1) (by omega) (by simpa [BT.addr] using hp2) hrn (by omega)
  obtain ⟨h2, x1, m1, m2, m3, m4, m5, m6, m7, m8⟩ :=
    merge_cells order hnb hnl hrn hrl (by omega) (by omega) (by omega) hbr e4 hcell
  have hcore := merge_core_frame hcellL m7 m8
  have ha2 : h2 a = some p := by
    rw [m8 a hab har (fun e => hL a (Or.inr (hcmem a e)) rfl)]
    exact ha
  have hpq : (List.range (p.n + 1)).map p.ptr
      = [] ++ some b :: some r :: post.map (fun t => some t.addr) := by
    have e : p.n + 1 = ([] ++ BT.leaf b [] :: BT.leaf r er :: post).length := by
      simp only [List.length_append, List.length_cons, List.length_nil]
      omega
    rw [e, hpp]
    simp [BT.addr]
  obtain ⟨p1, r1, r2, r3, r4, r5⟩ := @parent_remove_cells K V _ order h2 a p [] kpost s []
    (post.map (fun t => some t.addr)) (some b) (some r)
    ha2 hl (by omega) hk hsorted hpq rfl
  have hres : adjustNodeForDownOver order h1 b a = some (Function.update h2 a (some p1)) := by
    rw [hadj]
    simp only [hnl, ↓reduceIte, m1, Option.some_bind]
    exact r1
  refine ⟨_, hres, ?_, ?_, ?_⟩
  · have hrb := @Rep_rebuild K V h1 (Function.update h2 a (some p1)) a kpost [] post
      [.leaf b er] p1 hpre hpost
      (fun x hx => by
        have hxa : x ≠ a := by rintro rfl; rcases hx with hx | hx; exact n1 hx; exact n4 hx
        have hxb : x ≠ b := by
          rintro rfl; rcases hx with hx | hx; exact (n7 x rfl).1 hx; exact (n7 x rfl).2.2 hx
        have hxr : x ≠ r := by
          rintro rfl; rcases hx with hx | hx; exact (n8 x rfl).1 hx; exact (n8 x rfl).2.2 hx
        rw [Function.update_noteq hxa]
        exact hcore x hxb hxr)
      (Function.update_same _ _ _) r2 r4
      (by
        have e : ([] ++ ([BT.leaf b er] ++ post)).length = p1.n + 1 := by
          simp
          omega
        rw [e, r5]
        simp [BT.addr])
      (by
        intro t ht
        simp only [List.mem_singleton] at ht
        subst ht
        refine Rep.leaf (?_ : _ = some x1) m3 ?_
        · rw [Function.update_noteq hab.symm]
          exact m2
        · rw [m4, hre, hne, List.nil_append])
    simpa using hrb
  · intro x hxa hxb hxr
    rw [Function.update_noteq hxa]
    exact hcore x hxb hxr
  · refine Chain_remove_after (lastOr none L1) (firstOr L2 none) hch hchnd c3 c2 ?_ ?_ ?_
    · rw [Function.update_noteq hab.symm, m2]
      simp only [links, Option.map_some', m3, m5, Function.update_same, Option.some.injEq,
        Prod.mk.injEq, true_and]
      refine ⟨?_, f4⟩
      rw [Function.update_noteq (by decide : (0 : Nat) ≠ 1)]
      exact e3
    · intro c hc pc nc hlk
      have hc' : rn'.ptr 1 = some c := by rw [f4]; exact hc
      obtain ⟨cn, hcn, hcl⟩ := hcellL c hc'
      have hca : c ≠ a := hL c (Or.inr (hcmem c hc'))
      rw [Function.update_noteq hca, m7 c cn hc' hcn]
      rw [hcn] at hlk
      simp only [links, Option.map_some', Option.some.injEq, Prod.mk.injEq] at hlk ⊢
      refine ⟨hlk.1, Function.update_same _ _ _, ?_⟩
      rw [Function.update_noteq (by decide : (1 : Nat) ≠ 0)]
      exact hlk.2.2
    · intro z hz hzn
      have hza : z ≠ a := hL z hz
      have hzb : z ≠ b := by
        rintro rfl
        rcases hz with hz | hz
        · exact hp'.2.2 hz (List.mem_cons_self _ _)
        · exact hp2'.1 (List.mem_cons_of_mem _ hz)
      have hzr : z ≠ r := by
        rintro rfl
        rcases hz with hz | hz
        · exact hp'.2.2 hz (List.mem_cons_of_mem _ (List.mem_cons_self _ _))
        · exact hp3'.1 hz
      rw [Function.update_noteq hza, m8 z hzb hzr (by rw [f4]; exact hzn)]

/-- `adjustNodeForDownOver` on an empty internal node with a left sibling, when no sibling
can lend a key: the node's only child moves below the left sibling together with the
separator, and the node is freed. -/
theorem step_mergeLeft_node {order : Nat} (hmid : (order - 1) / 2 = 1) {h1 : Heap K V}
    {a l b : Nat} {kpre kpost : List K} {s : K} {pre post : List (BT K V)}
    {kl : List K} {cl : List (BT K V)} {x : BT K V}
    (hr : Rep h1 (.node a (kpre ++ s :: kpost)
      (pre ++ .node l kl cl :: .node b [] [x] :: post)))
    (hnd : (BT.node a (kpre ++ s :: kpost)
      (pre ++ .node l kl cl :: .node b [] [x] :: post)).addrs.Nodup)
    (hlen : kpre.length = pre.length)
    (hcs : (pre ++ BT.node l kl cl :: BT.node b [] [x] :: post).length
      = (kpre ++ s :: kpost).length + 1)
    (hcnt : (kpre ++ s :: kpost).length ≤ order - 1)
    (hsorted : (kpre ++ s :: kpost).Sorted (· < ·))
    (hkl : kl.length ≤ 1) (hlcs : cl.length = kl.length + 1)
    (hpoor : ∀ R post1, post = R :: post1 → R.count ≤ 1) :
    ∃ h3, adjustNodeForDownOver order h1 b a = some h3 ∧
      Rep h3 (.node a (kpre ++ kpost) (pre ++ .node l (kl ++ [s]) (cl ++ [x]) :: post)) ∧
      (∀ z, z ≠ a → z ≠ b → z ≠ l → h3 z = h1 z) := by
  obtain ⟨p, ha, hl, hk, hpp, hp1, hp2, hrL, hrC, hpre, hpost⟩ := Rep_pair_parts hr
  obtain ⟨n1, n2, n3, n4, n5, n6, n7, n8, n9, n10, n11⟩ := nodup_pair_parts hnd
  have hlL : l ∈ (BT.node l kl cl).addrs := by simp [BT.addrs]
  have hbC : b ∈ (BT.node b [] [x]).addrs := by simp [BT.addrs]
  have hab : a ≠ b := fun e => n3 (e ▸ hbC)
  have hal : a ≠ l := fun e => n2 (e ▸ hlL)
  have hlb : l ≠ b := fun e => (n7 l hlL).2.1 (e ▸ hbC)
  have hpn : p.n = (kpre ++ s :: kpost).length := by rw [← hk, keyList_length]
  obtain ⟨ln, hln, hll, hlk, hlp, hlc⟩ := Rep_node_cell hrL
  obtain ⟨nd, hnb, hnl, hnk, hnp, hnc⟩ := Rep_node_cell hrC
  have hn0 : nd.n = 0 := by rw [← keyList_length, hnk]; rfl
  have hlnn : ln.n = kl.length := by rw [← hlk, keyList_length]
  have hbefore : ∀ i, i < pre.length + 1 → p.ptr i ≠ some b := by
    intro i hi
    rcases Nat.lt_succ_iff_lt_or_eq.1 hi with h | h
    · exact ptr_not_before hpp (n8 b hbC).1 i h
    · rw [h, hp1]
      simpa [BT.addr] using hlb
  simp only [List.length_append, List.length_cons] at hcs hpn hcnt
  have hpp2 : (List.range ((pre ++ [BT.node l kl cl, BT.node b [] [x]]) ++ post).length).map
      p.ptr = ((pre ++ [BT.node l kl cl, BT.node b [] [x]]) ++ post).map
        (fun t => some t.addr) := by
    simpa using hpp
  have hadj := adjust_eq_mergeLeft order (pre.length + 1) hnb hn0 ha hl
    (by omega) (by omega) hp2 hbefore (by omega) (by simpa using hp1) hln (by omega)
    (fun hlt => by
      have hne : post ≠ [] := by
        rintro rfl
        simp at hcs
        omega
      obtain ⟨r, rn, g1, g2, g3⟩ := right_poor hmid hpp2 hpost hpoor hne
      exact ⟨r, rn, by simpa using g1, g2, g3⟩)
  have e0 : pre.length + 1 - 1 = kpre.length := by omega
  have hps : p.keys kpre.length = s := keyList_at hk
  rw [e0, hps] at hadj
  obtain ⟨h2, x1, m1, m2, m3, m4, m5, m6, m7, m8⟩ :=
    mergeInternal_cells order s hln hll hnb hnl (by omega) (by omega) hlb
  have ha2 : h2 a = some p := by
    rw [m8 a hal hab]
    exact ha
  have hpq : (List.range (p.n + 1)).map p.ptr
      = pre.map (fun t => some t.addr) ++ some l :: some b :: post.map (fun t => some t.addr) := by
    have e : p.n + 1 = (pre ++ BT.node l kl cl :: BT.node b [] [x] :: post).length := by
      simp only [List.length_append, List.length_cons]
      omega
    rw [e, hpp]
    simp [BT.addr]
  obtain ⟨p1, r1, r2, r3, r4, r5⟩ := parent_remove_cells order
    ha2 hl (by omega) hk hsorted hpq (by simpa using hlen)
  rw [hps] at r1
  have hres : adjustNodeForDownOver order h1 b a = some (Function.update h2 a (some p1)) := by
    rw [hadj]
    simp only [hll, Bool.false_eq_true, ↓reduceIte, m1, Option.some_bind, r1]
  have hfr : ∀ z, z ≠ a → z ≠ b → z ≠ l → Function.update h2 a (some p1) z = h1 z := by
    intro z hza hzb hzl
    rw [Function.update_noteq hza, m8 z hzl hzb]
  have hnL : (BT.node l kl cl).addrs.Nodup := n5
  simp only [BT.addrs, List.nodup_cons] at hnL
  have hnC : (BT.node b [] [x]).addrs.Nodup := n6
  simp only [BT.addrs, List.nodup_cons, BT.addrsL, List.append_nil] at hnC
  have fL : ∀ z, z ∈ BT.addrsL cl → Function.update h2 a (some p1) z = h1 z := by
    intro z hz
    have hzL : z ∈ (BT.node l kl cl).addrs := by
      simp only [BT.addrs, List.mem_cons]
      exact Or.inr hz
    exact hfr z (fun e => n2 (e ▸ hzL)) (fun e => (n7 z hzL).2.1 (e ▸ hbC))
      (fun e => hnL.1 (e ▸ hz))
  have fC : ∀ z, z ∈ x.addrs → Function.update h2 a (some p1) z = h1 z := by
    intro z hz
    have hzC : z ∈ (BT.node b [] [x]).addrs := by
      simp only [BT.addrs, BT.addrsL, List.append_nil, List.mem_cons]
      exact Or.inr hz
    exact hfr z (fun e => n3 (e ▸ hzC)) (fun e => hnC.1 (e ▸ hz))
      (fun e => (n8 z hzC).2.1 (e ▸ hlL))
  have hcl : ∀ t ∈ cl, Rep (Function.update h2 a (some p1)) t :=
    Rep_children_frame hlc fL
  have hxr : Rep (Function.update h2 a (some p1)) x :=
    Rep_frame (hnc x (by simp)) (fun z hz => by rw [fC z hz])
  have hx : nd.ptr 0 = some x.addr := by
    have := hnp
    simp only [List.length_singleton, List.range_succ, List.range_zero, List.nil_append,
      List.map_cons, List.map_nil, List.cons.injEq, and_true] at this
    exact this
  refine ⟨_, hres, ?_, hfr⟩
  have hrb := @Rep_rebuild K V h1 (Function.update h2 a (some p1)) a (kpre ++ kpost) pre post
    [.node l (kl ++ [s]) (cl ++ [x])] p1 hpre hpost
    (fun z hz => by
      have hza : z ≠ a := by rintro rfl; rcases hz with hz | hz; exact n1 hz; exact n4 hz
      have hzb : z ≠ b := by
        rintro rfl; rcases hz with hz | hz
        · exact (n8 z hbC).1 hz
        · exact (n8 z hbC).2.2 hz
      have hzl : z ≠ l := by
        rintro rfl; rcases hz with hz | hz
        · exact (n7 z hlL).1 hz
        · exact (n7 z hlL).2.2 hz
      rw [hfr z hza hzb hzl])
    (Function.update_same _ _ _) r2 r4
    (by
      have e : (pre ++ ([BT.node l (kl ++ [s]) (cl ++ [x])] ++ post)).length = p1.n + 1 := by
        simp
        omega
      rw [e, r5]
      simp [BT.addr])
    (by
      intro t ht
      simp only [List.mem_singleton] at ht
      subst ht
      refine Rep.node (?_ : _ = some x1) m3 ?_ ?_ ?_
      · rw [Function.update_noteq hal.symm]
        exact m2
      · rw [m5, hlk, hnk]
      · have e : (cl ++ [x]).length = x1.n + 1 := by
          simp
          omega
        rw [e, m6]
        have e1 : ln.n + 1 = cl.length := by omega
        rw [e1, hlp, hn0]
        simp [hx, List.range_succ]
      · intro t ht
        rcases List.mem_append.1 ht with ht | ht
        · exact hcl t ht
        · simp only [List.mem_singleton] at ht
          subst ht
          exact hxr)
  simpa using hrb

/-- `adjustNodeForDownOver` on an empty first internal node whose right sibling cannot lend
a key: the right sibling is merged into the node together with the separator. -/
theorem step_mergeRight_node {order : Nat} (hmid : (order - 1) / 2 = 1) {h1 : Heap K V}
    {a b r : Nat} {kpost : List K} {s : K} {post : List (BT K V)}
    {kr : List K} {cr : List (BT K V)} {x : BT K V}
    (hr : Rep h1 (.node a (s :: kpost) (.node b [] [x] :: .node r kr cr :: post)))
    (hnd : (BT.node a (s :: kpost) (.node b [] [x] :: .node r kr cr :: post)).addrs.Nodup)
    (hcs : (BT.node b [] [x] :: BT.node r kr cr :: post).length = (s :: kpost).length + 1)
    (hcnt : (s :: kpost).length ≤ order - 1)
    (hsorted : (s :: kpost).Sorted (· < ·))
    (hkr : kr.length ≤ 1) (hrcs : cr.length = kr.length + 1) :
    ∃ h3, adjustNodeForDownOver order h1 b a = some h3 ∧
      Rep h3 (.node a kpost (.node b (s :: kr) (x :: cr) :: post)) ∧
      (∀ z, z ≠ a → z ≠ b → z ≠ r → h3 z = h1 z) := by
  obtain ⟨p, ha, hl, hk, hpp, hp1, hp2, hrC, hrR, hpre, hpost⟩ :=
    @Rep_pair_parts K V h1 a (s :: kpost) [] post (.node b [] [x]) (.node r kr cr) hr
  obtain ⟨n1, n2, n3, n4, n5, n6, n7, n8, n9, n10, n11⟩ :=
    @nodup_pair_parts K V a (s :: kpost) [] post (.node b [] [x]) (.node r kr cr) hnd
  have hbC : b ∈ (BT.node b [] [x]).addrs := by simp [BT.addrs]
  have hrR' : r ∈ (BT.node r kr cr).addrs := by simp [BT.addrs]
  have hab : a ≠ b := fun e => n2 (e ▸ hbC)
  have har : a ≠ r := fun e => n3 (e ▸ hrR')
  have hbr : b ≠ r := fun e => (n7 b hbC).2.1 (e ▸ hrR')
  have hpn : p.n = (s :: kpost).length := by rw [← hk, keyList_length]
  obtain ⟨nd, hnb, hnl, hnk, hnp, hnc⟩ := Rep_node_cell hrC
  obtain ⟨rn, hrn, hrl, hrk, hrp, hrc⟩ := Rep_node_cell hrR
  have hn0 : nd.n = 0 := by rw [← keyList_length, hnk]; rfl
  have hrnn : rn.n = kr.length := by rw [← hrk, keyList_length]
  simp only [List.length_cons] at hcs hpn hcnt
  have ho : 3 ≤ order := by omega
  have hadj := adjust_eq_mergeRight order (by omega) hnb hn0 ha hl
    (by simpa [BT.addr] using hp1) (by omega) (by simpa [BT.addr] using hp2) hrn (by omega)
  have hps : p.keys 0 = s := @keyList_at K V p [] kpost s hk
  rw [hps] at hadj
  obtain ⟨h2, x1, m1, m2, m3, m4, m5, m6, m7, m8⟩ :=
    mergeInternal_cells order s hnb hnl hrn hrl (by omega) (by omega) hbr
  have ha2 : h2 a = some p := by
    rw [m8 a hab har]
    exact ha
  have hpq : (List.range (p.n + 1)).map p.ptr
      = [] ++ some b :: some r :: post.map (fun t => some t.addr) := by
    have e : p.n + 1 = ([] ++ BT.node b [] [x] :: BT.node r kr cr :: post).length := by
      simp only [List.length_append, List.length_cons, List.length_nil]
      omega
    rw [e, hpp]
    simp [BT.addr]
  obtain ⟨p1, r1, r2, r3, r4, r5⟩ := @parent_remove_cells K V _ order h2 a p [] kpost s []
    (post.map (fun t => some t.addr)) (some b) (some r)
    ha2 hl (by omega) hk hsorted hpq rfl
  have r1' : modifyM h2 a (fun x => x.remove order s)
      = some (Function.update h2 a (some p1)) := by
    rw [← hps]
    exact r1
  have hres : adjustNodeForDownOver order h1 b a = some (Function.update h2 a (some p1)) := by
    rw [hadj]
    simp only [hnl, Bool.false_eq_true, ↓reduceIte, m1, Option.some_bind, r1']
  have hfr : ∀ z, z ≠ a → z ≠ b → z ≠ r → Function.update h2 a (some p1) z = h1 z := by
    intro z hza hzb hzr
    rw [Function.update_noteq hza, m8 z hzb hzr]
  have hnR : (BT.node r kr cr).addrs.Nodup := n6
  simp only [BT.addrs, List.nodup_cons] at hnR
  have hnC : (BT.node b [] [x]).addrs.Nodup := n5
  simp only [BT.addrs, List.nodup_cons, BT.addrsL, List.append_nil] at hnC
  have fR : ∀ z, z ∈ BT.addrsL cr → Function.update h2 a (some p1) z = h1 z := by
    intro z hz
    have hzR : z ∈ (BT.node r kr cr).addrs := by
      simp only [BT.addrs, List.mem_cons]
      exact Or.inr hz
    exact hfr z (fun e => n3 (e ▸ hzR)) (fun e => (n8 z hzR).2.1 (e ▸ hbC))
      (fun e => hnR.1 (e ▸ hz))
  have fC : ∀ z, z ∈ x.addrs → Function.update h2 a (some p1) z = h1 z := by
    intro z hz
    have hzC : z ∈ (BT.node b [] [x]).addrs := by
      simp only [BT.addrs, BT.addrsL, List.append_nil, List.mem_cons]
      exact Or.inr hz
    exact hfr z (fun e => n2 (e ▸ hzC)) (fun e => hnC.1 (e ▸ hz))
      (fun e => (n7 z hzC).2.1 (e ▸ hrR'))
  have hcr : ∀ t ∈ cr, Rep (Function.update h2 a (some p1)) t :=
    Rep_children_frame hrc fR
  have hxr : Rep (Function.update h2 a (some p1)) x :=
    Rep_frame (hnc x (by simp)) (fun z hz => by rw [fC z hz])
  have hx : nd.ptr 0 = some x.addr := by
    have := hnp
    simp only [List.length_singleton, List.range_succ, List.range_zero, List.nil_append,
      List.map_cons, List.map_nil, List.cons.injEq, and_true] at this
    exact this
  refine ⟨_, hres, ?_, hfr⟩
  have hrb := @Rep_rebuild K V h1 (Function.update h2 a (some p1)) a kpost [] post
    [.node b (s :: kr) (x :: cr)] p1 hpre hpost
    (fun z hz => by
      have hza : z ≠ a := by rintro rfl; rcases hz with hz | hz; exact n1 hz; exact n4 hz
      have hzb : z ≠ b := by
        rintro rfl; rcases hz with hz | hz
        · exact (n7 z hbC).1 hz
        · exact (n7 z hbC).2.2 hz
      have hzr : z ≠ r := by
        rintro rfl; rcases hz with hz | hz
        · exact (n8 z hrR').1 hz
        · exact (n8 z hrR').2.2 hz
      rw [hfr z hza hzb hzr])
    (Function.update_same _ _ _) r2 r4
    (by
      have e : ([] ++ ([BT.node b (s :: kr) (x :: cr)] ++ post)).length = p1.n + 1 := by
        simp
        omega
      rw [e, r5]
      simp [BT.addr])
    (by
      intro t ht
      simp only [List.mem_singleton] at ht
      subst ht
      refine Rep.node (?_ : _ = some x1) m3 ?_ ?_ ?_
      · rw [Function.update_noteq hab.symm]
        exact m2
      · rw [m5, hrk, hnk]
        rfl
      · have e : (x :: cr).length = x1.n + 1 := by
          simp
          omega
        rw [e, m6]
        have e1 : rn.n + 1 = cr.length := by omega
        rw [e1, hrp, hn0]
        simp [hx, List.range_succ]
      · intro t ht
        rcases List.mem_cons.1 ht with ht | ht
        · subst ht
          exact hxr
        · exact hcr t ht)
  simpa using hrb

end MergeTree

section DownCases

variable {K V : Type} [LinearOrder K]

omit [LinearOrder K] in
theorem Chain_mem_leaf {h : Heap K V} :
    ∀ (l : List Nat) (prev next : Option Nat), Chain h prev l next →
      ∀ x ∈ l, ∃ nd, h x = some nd ∧ nd.IS_LEAF = true
  | [], _, _, _, x, hx => by simp at hx
  | a :: l, prev, next, hc, x, hx => by
    rw [Chain_cons] at hc
    rcases List.mem_cons.1 hx with rfl | hx
    · obtain ⟨nd, h1, h2, -, -⟩ := links_leaf_of_some hc.1
      exact ⟨nd, h1, h2⟩
    · exact Chain_mem_leaf l (some a) next hc.2 x hx

omit [LinearOrder K] in
/-- A chain is kept by a change of the heap that keeps the links of the leaf cells. -/
theorem Chain_frame_leaf {h1 h2 : Heap K V} {l : List Nat} {prev next : Option Nat}
    (hc : Chain h1 prev l next)
    (hf : ∀ x nd, h1 x = some nd → nd.IS_LEAF = true → links (h2 x) = links (h1 x)) :
    Chain h2 prev l next := by
  refine Chain_frame l prev next hc (fun x hx => ?_)
  obtain ⟨nd, h1', h2'⟩ := Chain_mem_leaf l prev next hc x hx
  exact hf x nd h1' h2'

omit [LinearOrder K] in
theorem not_mem_addrs_pair {a : Nat} {ks : List K} {pre post : List (BT K V)} {X Y : BT K V}
    {x : Nat} (h : x ∉ (BT.node a ks (pre ++ X :: Y :: post)).addrs) :
    x ≠ a ∧ x ≠ X.addr ∧ x ≠ Y.addr := by
  simp only [BT.addrs, addrsL_append, BT.addrsL, List.mem_cons, List.mem_append, not_or] at h
  exact ⟨h.1, fun e => h.2.2.1 (e ▸ addr_mem_addrs X), fun e => h.2.2.2.1 (e ▸ addr_mem_addrs Y)⟩

omit [LinearOrder K] in
theorem internal_ne_leaf {h : Heap K V} {a x : Nat} {p nd : Node K V} (ha : h a = some p)
    (hl : p.IS_LEAF = false) (hx : h x = some nd) (hxl : nd.IS_LEAF = true) : x ≠ a := by
  rintro rfl
  rw [ha] at hx
  cases hx
  rw [hl] at hxl
  cases hxl

theorem case_borrowLeft_leaf {order : Nat} (hmid : (order - 1) / 2 = 1) {e : K × V}
    {h1 : Heap K V} {c : BT K V}
    {a l b : Nat} {kpre kpost : List K} {s : K} {pre post : List (BT K V)}
    {el : List (K × V)} {e1 : K × V} (Lpre Lpost : List Nat)
    (hD : Del e c (.leaf b []))
    (hr : Rep h1 (.node a (kpre ++ s :: kpost)
      (pre ++ .leaf l (el ++ [e1]) :: .leaf b [] :: post)))
    (hnd : (BT.node a (kpre ++ s :: kpost)
      (pre ++ .leaf l (el ++ [e1]) :: .leaf b [] :: post)).addrs.Nodup)
    (hlen : kpre.length = pre.length)
    (hcs : (pre ++ BT.leaf l (el ++ [e1]) :: BT.leaf b [] :: post).length
      = (kpre ++ s :: kpost).length + 1)
    (hcnt : (kpre ++ s :: kpost).length ≤ order - 1)
    (hel : 1 ≤ el.length) (hlcnt : (el ++ [e1]).length ≤ order - 1)
    (hls : ((el ++ [e1]).map Prod.fst).Sorted (· < ·))
    (hch : Chain h1 none (Lpre ++ ((BT.node a (kpre ++ s :: kpost)
      (pre ++ .leaf l (el ++ [e1]) :: .leaf b [] :: post)).leaves ++ Lpost)) none) :
    DownStep order e h1 b a
      (.node a (kpre ++ s :: kpost) (pre ++ .leaf l (el ++ [e1]) :: c :: post))
      (.node a (kpre ++ s :: kpost) (pre ++ .leaf l (el ++ [e1]) :: .leaf b [] :: post))
      Lpre Lpost := by
  obtain ⟨h2, q1, q2, q3, q4, q5⟩ :=
    step_borrowLeft_leaf hmid hr hnd hlen hcs hcnt hel hlcnt hls
  obtain ⟨p, ha, hl, -⟩ := Rep_node_cell hr
  refine ⟨_, h2, Del.borrowLeftLeaf a kpre kpost s pre post c l b el e1 hlen hD hel, q1, q2,
    ?_, ?_, rfl⟩
  · intro x hx
    have := not_mem_addrs_pair hx
    rw [q3 x this.1 this.2.2 this.2.1]
  · rw [leaves_node_two, leaves_leaf, leaves_leaf] at hch ⊢
    refine Chain_frame_leaf hch (fun x nd hx hxl => ?_)
    by_cases hxb : x = b
    · subst hxb; exact q4
    by_cases hxl' : x = l
    · subst hxl'; exact q5
    rw [q3 x (internal_ne_leaf ha hl hx hxl) hxb hxl']

theorem case_borrowRight_leaf {order : Nat} (hmid : (order - 1) / 2 = 1) {e : K × V}
    {h1 : Heap K V} {c : BT K V}
    {a r b : Nat} {kpre kpost : List K} {s : K} {pre post : List (BT K V)}
    {e1 e2 : K × V} {er : List (K × V)} (Lpre Lpost : List Nat)
    (hD : Del e c (.leaf b []))
    (hr : Rep h1 (.node a (kpre ++ s :: kpost)
      (pre ++ .leaf b [] :: .leaf r (e1 :: e2 :: er) :: post)))
    (hnd : (BT.node a (kpre ++ s :: kpost)
      (pre ++ .leaf b [] :: .leaf r (e1 :: e2 :: er) :: post)).addrs.Nodup)
    (hlen : kpre.length = pre.length)
    (hcnt : (kpre ++ s :: kpost).length ≤ order - 1)
    (hrcnt : (e1 :: e2 :: er).length ≤ order - 1)
    (hrs : ((e1 :: e2 :: er).map Prod.fst).Sorted (· < ·))
    (hpoor : ∀ pre1 L, pre = pre1 ++ [L] → L.count ≤ 1)
    (hch : Chain h1 none (Lpre ++ ((BT.node a (kpre ++ s :: kpost)
      (pre ++ .leaf b [] :: .leaf r (e1 :: e2 :: er) :: post)).leaves ++ Lpost)) none) :
    DownStep order e h1 b a
      (.node a (kpre ++ s :: kpost) (pre ++ c :: .leaf r (e1 :: e2 :: er) :: post))
      (.node a (kpre ++ s :: kpost) (pre ++ .leaf b [] :: .leaf r (e1 :: e2 :: er) :: post))
      Lpre Lpost := by
  obtain ⟨h2, q1, q2, q3, q4, q5⟩ :=
    step_borrowRight_leaf hmid hr hnd hlen hcnt hrcnt hrs hpoor
  obtain ⟨p, ha, hl, -⟩ := Rep_node_cell hr
  refine ⟨_, h2, Del.borrowRightLeaf a kpre kpost s pre post c r b e1 e2 er hlen hD, q1, q2,
    ?_, ?_, rfl⟩
  · intro x hx
    have := not_mem_addrs_pair hx
    rw [q3 x this.1 this.2.1 this.2.2]
  · rw [leaves_node_two, leaves_leaf, leaves_leaf] at hch ⊢
    refine Chain_frame_leaf hch (fun x nd hx hxl => ?_)
    by_cases hxb : x = b
    · subst hxb; exact q4
    by_cases hxr : x = r
    · subst hxr; exact q5
    rw [q3 x (internal_ne_leaf ha hl hx hxl) hxb hxr]

theorem case_mergeLeft_leaf {order : Nat} (hmid : (order - 1) / 2 = 1) {e : K × V}
    {h1 : Heap K V} {c : BT K V}
    {a l b : Nat} {kpre kpost : List K} {s : K} {pre post : List (BT K V)}
    {el : List (K × V)} (Lpre Lpost : List Nat)
    (hD : Del e c (.leaf b []))
    (hr : Rep h1 (.node a (kpre ++ s :: kpost) (pre ++ .leaf l el :: .leaf b [] :: post)))
    (hnd : (BT.node a (kpre ++ s :: kpost)
      (pre ++ .leaf l el :: .leaf b [] :: post)).addrs.Nodup)
    (hlen : kpre.length = pre.length)
    (hcs : (pre ++ BT.leaf l el :: BT.leaf b [] :: post).length
      = (kpre ++ s :: kpost).length + 1)
    (hcnt : (kpre ++ s :: kpost).length ≤ order - 1)
    (hsorted : (kpre ++ s :: kpost).Sorted (· < ·))
    (hel : el.length ≤ 1)
    (hpoor : ∀ R post1, post = R :: post1 → R.count ≤ 1)
    (hch : Chain h1 none (Lpre ++ ((BT.node a (kpre ++ s :: kpost)
      (pre ++ .leaf l el :: .leaf b [] :: post)).leaves ++ Lpost)) none)
    (hchnd : (Lpre ++ ((BT.node a (kpre ++ s :: kpost)
      (pre ++ .leaf l el :: .leaf b [] :: post)).leaves ++ Lpost)).Nodup) :
    DownStep order e h1 b a
      (.node a (kpre ++ s :: kpost) (pre ++ .leaf l el :: c :: post))
      (.node a (kpre ++ s :: kpost) (pre ++ .leaf l el :: .leaf b [] :: post))
      Lpre Lpost := by
  obtain ⟨p, ha, hl, -⟩ := Rep_node_cell hr
  rw [leaves_node_two, leaves_leaf, leaves_leaf] at hch hchnd
  have e1 : Lpre ++ ((BT.leafListL pre).map Prod.fst ++ ([l] ++ ([b]
        ++ (BT.leafListL post).map Prod.fst)) ++ Lpost)
      = (Lpre ++ (BT.leafListL pre).map Prod.fst) ++ l :: b
        :: ((BT.leafListL post).map Prod.fst ++ Lpost) := by
    simp only [List.append_assoc, List.singleton_append, List.cons_append, List.nil_append]
  rw [e1] at hch hchnd
  obtain ⟨h3, q1, q2, q3, q4⟩ :=
    step_mergeLeft_leaf hmid hr hnd hlen hcs hcnt hsorted hel hpoor hch hchnd
      (fun x hx => by
        have hm : x ∈ (Lpre ++ (BT.leafListL pre).map Prod.fst) ++ l :: b
            :: ((BT.leafListL post).map Prod.fst ++ Lpost) := by
          rcases hx with hx | hx
          · exact List.mem_append_left _ hx
          · exact List.mem_append_right _
              (List.mem_cons_of_mem _ (List.mem_cons_of_mem _ hx))
        obtain ⟨nd, g1, g2⟩ := Chain_mem_leaf _ _ _ hch x hm
        exact internal_ne_leaf ha hl g1 g2)
  refine ⟨_, h3, Del.mergeLeftLeaf a kpre kpost s pre post c l b el hlen hD, q1, q2,
    ?_, ?_, rfl⟩
  · intro x hx
    have := not_mem_addrs_pair hx
    exact q3 x this.1 this.2.2 this.2.1
  · rw [leaves_node_split, leaves_leaf]
    simpa only [List.append_assoc, List.singleton_append, List.cons_append] using q4

theorem case_mergeRight_leaf {order : Nat} (hmid : (order - 1) / 2 = 1) {e : K × V}
    {h1 : Heap K V} {c : BT K V}
    {a b r : Nat} {kpost : List K} {s : K} {post : List (BT K V)}
    {er : List (K × V)} (Lpre Lpost : List Nat)
    (hD : Del e c (.leaf b []))
    (hr : Rep h1 (.node a (s :: kpost) (.leaf b [] :: .leaf r er :: post)))
    (hnd : (BT.node a (s :: kpost) (.leaf b [] :: .leaf r er :: post)).addrs.Nodup)
    (hcs : (BT.leaf b [] :: BT.leaf r er :: post).length = (s :: kpost).length + 1)
    (hcnt : (s :: kpost).length ≤ order - 1)
    (hsorted : (s :: kpost).Sorted (· < ·))
    (her : er.length ≤ 1)
    (hch : Chain h1 none (Lpre ++ ((BT.node a (s :: kpost)
      (.leaf b [] :: .leaf r er :: post)).leaves ++ Lpost)) none)
    (hchnd : (Lpre ++ ((BT.node a (s :: kpost)
      (.leaf b [] :: .leaf r er :: post)).leaves ++ Lpost)).Nodup) :
    DownStep order e h1 b a
      (.node a (s :: kpost) (c :: .leaf r er :: post))
      (.node a (s :: kpost) (.leaf b [] :: .leaf r er :: post))
      Lpre Lpost := by
  obtain ⟨p, ha, hl, -⟩ := Rep_node_cell hr
  have e0 := leaves_node_two a (s :: kpost) [] post (BT.leaf b []) (BT.leaf r er)
  rw [List.nil_append] at e0
  rw [e0, leaves_leaf, leaves_leaf] at hch hchnd
  have e1 : Lpre ++ ((BT.leafListL ([] : List (BT K V))).map Prod.fst ++ ([b] ++ ([r]
        ++ (BT.leafListL post).map Prod.fst)) ++ Lpost)
      = Lpre ++ b :: r :: ((BT.leafListL post).map Prod.fst ++ Lpost) := by
    simp [BT.leafListL]
  rw [e1] at hch hchnd
  obtain ⟨h3, q1, q2, q3, q4⟩ :=
    step_mergeRight_leaf hmid hr hnd hcs hcnt hsorted her hch hchnd
      (fun x hx => by
        have hm : x ∈ Lpre ++ b :: r :: ((BT.leafListL post).map Prod.fst ++ Lpost) := by
          rcases hx with hx | hx
          · exact List.mem_append_left _ hx
          · exact List.mem_append_right _
              (List.mem_cons_of_mem _ (List.mem_cons_of_mem _ hx))
        obtain ⟨nd, g1, g2⟩ := Chain_mem_leaf _ _ _ hch x hm
        exact internal_ne_leaf ha hl g1 g2)
  refine ⟨_, h3, Del.mergeRightLeaf a [] kpost s [] post c r b er rfl hD, q1, q2,
    ?_, ?_, rfl⟩
  · intro x hx
    have := @not_mem_addrs_pair K V a (s :: kpost) [] post _ _ x hx
    exact q3 x this.1 this.2.1 this.2.2
  · have e2 := leaves_node_split a kpost [] post (BT.leaf b er)
    show Chain h3 none (Lpre ++ ((BT.node a kpost ([] ++ BT.leaf b er :: post)).leaves
      ++ Lpost)) none
    rw [e2, leaves_leaf]
    simpa [BT.leafListL] using q4

omit [LinearOrder K] in
/-- A change of the heap that leaves all cells but three internal ones as they are keeps the
leaf chain. -/
theorem Chain_frame_internal {h1 h2 : Heap K V} {l : List Nat} {prev next : Option Nat}
    {a b c : Nat} {pa pb pc : Node K V}
    (hc : Chain h1 prev l next)
    (ha : h1 a = some pa) (hal : pa.IS_LEAF = false)
    (hb : h1 b = some pb) (hbl : pb.IS_LEAF = false)
    (hcc : h1 c = some pc) (hcl : pc.IS_LEAF = false)
    (hf : ∀ z, z ≠ a → z ≠ b → z ≠ c → h2 z = h1 z) :
    Chain h2 prev l next := by
  refine Chain_frame_leaf hc (fun x nd hx hxl => ?_)
  rw [hf x (internal_ne_leaf ha hal hx hxl) (internal_ne_leaf hb hbl hx hxl)
    (internal_ne_leaf hcc hcl hx hxl)]

theorem case_borrowLeft_node {order : Nat} (hmid : (order - 1) / 2 = 1) {e : K × V}
    {h1 : Heap K V} {c : BT K V}
    {a l b : Nat} {kpre kpost : List K} {s : K} {pre post : List (BT K V)}
    {kl : List K} {k1 : K} {cl : List (BT K V)} {y x : BT K V} (Lpre Lpost : List Nat)
    (hD : Del e c (.node b [] [x]))
    (hr : Rep h1 (.node a (kpre ++ s :: kpost)
      (pre ++ .node l (kl ++ [k1]) (cl ++ [y]) :: .node b [] [x] :: post)))
    (hnd : (BT.node a (kpre ++ s :: kpost)
      (pre ++ .node l (kl ++ [k1]) (cl ++ [y]) :: .node b [] [x] :: post)).addrs.Nodup)
    (hlen : kpre.length = pre.length)
    (hcnt : (kpre ++ s :: kpost).length ≤ order - 1)
    (hkl : 1 ≤ kl.length) (hlcnt : (kl ++ [k1]).length ≤ order - 1)
    (hls : (kl ++ [k1]).Sorted (· < ·))
    (hlcs : (cl ++ [y]).length = (kl ++ [k1]).length + 1)
    (hch : Chain h1 none (Lpre ++ ((BT.node a (kpre ++ s :: kpost)
      (pre ++ .node l (kl ++ [k1]) (cl ++ [y]) :: .node b [] [x] :: post)).leaves
        ++ Lpost)) none) :
    DownStep order e h1 b a
      (.node a (kpre ++ s :: kpost) (pre ++ .node l (kl ++ [k1]) (cl ++ [y]) :: c :: post))
      (.node a (kpre ++ s :: kpost)
        (pre ++ .node l (kl ++ [k1]) (cl ++ [y]) :: .node b [] [x] :: post))
      Lpre Lpost := by
  obtain ⟨h2, q1, q2, q3⟩ :=
    step_borrowLeft_node hmid hr hnd hlen hcnt hkl hlcnt hls hlcs
  obtain ⟨p, ha, hl, -, -, -, -, hrL, hrC, -, -⟩ := Rep_pair_parts hr
  obtain ⟨ln, hln, hll, -⟩ := Rep_node_cell hrL
  obtain ⟨nd, hnb, hnl, -⟩ := Rep_node_cell hrC
  refine ⟨_, h2, Del.borrowLeftNode a kpre kpost s pre post c l b kl k1 cl y x hlen hD hkl,
    q1, q2, ?_, ?_, rfl⟩
  · intro x hx
    have := not_mem_addrs_pair hx
    rw [q3 x this.1 this.2.2 this.2.1]
  · have e1 : (BT.node a (kpre ++ k1 :: kpost)
          (pre ++ .node l kl cl :: .node b [s] [y, x] :: post)).leaves
        = (BT.node a (kpre ++ s :: kpost)
          (pre ++ .node l (kl ++ [k1]) (cl ++ [y]) :: .node b [] [x] :: post)).leaves := by
      simp [leaves_node]
    rw [e1]
    exact Chain_frame_internal hch ha hl hnb hnl hln hll q3

theorem case_borrowRight_node {order : Nat} (hmid : (order - 1) / 2 = 1) {e : K × V}
    {h1 : Heap K V} {c : BT K V}
    {a r b : Nat} {kpre kpost : List K} {s : K} {pre post : List (BT K V)}
    {k1 k2 : K} {kr : List K} {y x : BT K V} {cr : List (BT K V)} (Lpre Lpost : List Nat)
    (hD : Del e c (.node b [] [x]))
    (hr : Rep h1 (.node a (kpre ++ s :: kpost)
      (pre ++ .node b [] [x] :: .node r (k1 :: k2 :: kr) (y :: cr) :: post)))
    (hnd : (BT.node a (kpre ++ s :: kpost)
      (pre ++ .node b [] [x] :: .node r (k1 :: k2 :: kr) (y :: cr) :: post)).addrs.Nodup)
    (hlen : kpre.length = pre.length)
    (hcnt : (kpre ++ s :: kpost).length ≤ order - 1)
    (hrcnt : (k1 :: k2 :: kr).length ≤ order - 1)
    (hrs : (k1 :: k2 :: kr).Sorted (· < ·))
    (hrcs : (y :: cr).length = (k1 :: k2 :: kr).length + 1)
    (hpoor : ∀ pre1 L, pre = pre1 ++ [L] → L.count ≤ 1)
    (hch : Chain h1 none (Lpre ++ ((BT.node a (kpre ++ s :: kpost)
      (pre ++ .node b [] [x] :: .node r (k1 :: k2 :: kr) (y :: cr) :: post)).leaves
        ++ Lpost)) none) :
    DownStep order e h1 b a
      (.node a (kpre ++ s :: kpost) (pre ++ c :: .node r (k1 :: k2 :: kr) (y :: cr) :: post))
      (.node a (kpre ++ s :: kpost)
        (pre ++ .node b [] [x] :: .node r (k1 :: k2 :: kr) (y :: cr) :: post))
      Lpre Lpost := by
  obtain ⟨h2, q1, q2, q3⟩ :=
    step_borrowRight_node hmid hr hnd hlen hcnt hrcnt hrs hrcs hpoor
  obtain ⟨p, ha, hl, -, -, -, -, hrC, hrR, -, -⟩ := Rep_pair_parts hr
  obtain ⟨nd, hnb, hnl, -⟩ := Rep_node_cell hrC
  obtain ⟨rn, hrn, hrl, -⟩ := Rep_node_cell hrR
  refine ⟨_, h2, Del.borrowRightNode a kpre kpost s pre post c r b k1 k2 kr y x cr hlen hD,
    q1, q2, ?_, ?_, rfl⟩
  · intro x hx
    have := not_mem_addrs_pair hx
    rw [q3 x this.1 this.2.1 this.2.2]
  · have e1 : (BT.node a (kpre ++ k1 :: kpost)
          (pre ++ .node b [s] [x, y] :: .node r (k2 :: kr) cr :: post)).leaves
        = (BT.node a (kpre ++ s :: kpost)
          (pre ++ .node b [] [x] :: .node r (k1 :: k2 :: kr) (y :: cr) :: post)).leaves := by
      simp [leaves_node]
    rw [e1]
    exact Chain_frame_internal hch ha hl hnb hnl hrn hrl q3

theorem case_mergeLeft_node {order : Nat} (hmid : (order - 1) / 2 = 1) {e : K × V}
    {h1 : Heap K V} {c : BT K V}
    {a l b : Nat} {kpre kpost : List K} {s : K} {pre post : List (BT K V)}
    {kl : List K} {cl : List (BT K V)} {x : BT K V} (Lpre Lpost : List Nat)
    (hD : Del e c (.node b [] [x]))
    (hr : Rep h1 (.node a (kpre ++ s :: kpost)
      (pre ++ .node l kl cl :: .node b [] [x] :: post)))
    (hnd : (BT.node a (kpre ++ s :: kpost)
      (pre ++ .node l kl cl :: .node b [] [x] :: post)).addrs.Nodup)
    (hlen : kpre.length = pre.length)
    (hcs : (pre ++ BT.node l kl cl :: BT.node b [] [x] :: post).length
      = (kpre ++ s :: kpost).length + 1)
    (hcnt : (kpre ++ s :: kpost).length ≤ order - 1)
    (hsorted : (kpre ++ s :: kpost).Sorted (· < ·))
    (hkl : kl.length ≤ 1) (hlcs : cl.length = kl.length + 1)
    (hpoor : ∀ R post1, post = R :: post1 → R.count ≤ 1)
    (hch : Chain h1 none (Lpre ++ ((BT.node a (kpre ++ s :: kpost)
      (pre ++ .node l kl cl :: .node b [] [x] :: post)).leaves ++ Lpost)) none) :
    DownStep order e h1 b a
      (.node a (kpre ++ s :: kpost) (pre ++ .node l kl cl :: c :: post))
      (.node a (kpre ++ s :: kpost) (pre ++ .node l kl cl :: .node b [] [x] :: post))
      Lpre Lpost := by
  obtain ⟨h2, q1, q2, q3⟩ :=
    step_mergeLeft_node hmid hr hnd hlen hcs hcnt hsorted hkl hlcs hpoor
  obtain ⟨p, ha, hl, -, -, -, -, hrL, hrC, -, -⟩ := Rep_pair_parts hr
  obtain ⟨ln, hln, hll, -⟩ := Rep_node_cell hrL
  obtain ⟨nd, hnb, hnl, -⟩ := Rep_node_cell hrC
  refine ⟨_, h2, Del.mergeLeftNode a kpre kpost s pre post c l b kl cl x hlen hD hkl,
    q1, q2, ?_, ?_, rfl⟩
  · intro x hx
    have := not_mem_addrs_pair hx
    rw [q3 x this.1 this.2.2 this.2.1]
  · have e1 : (BT.node a (kpre ++ kpost)
          (pre ++ .node l (kl ++ [s]) (cl ++ [x]) :: post)).leaves
        = (BT.node a (kpre ++ s :: kpost)
          (pre ++ .node l kl cl :: .node b [] [x] :: post)).leaves := by
      simp [leaves_node]
    rw [e1]
    exact Chain_frame_internal hch ha hl hnb hnl hln hll q3

theorem case_mergeRight_node {order : Nat} (hmid : (order - 1) / 2 = 1) {e : K × V}
    {h1 : Heap K V} {c : BT K V}
    {a b r : Nat} {kpost : List K} {s : K} {post : List (BT K V)}
    {kr : List K} {cr : List (BT K V)} {x : BT K V} (Lpre Lpost : List Nat)
    (hD : Del e c (.node b [] [x]))
    (hr : Rep h1 (.node a (s :: kpost) (.node b [] [x] :: .node r kr cr :: post)))
    (hnd : (BT.node a (s :: kpost) (.node b [] [x] :: .node r kr cr :: post)).addrs.Nodup)
    (hcs : (BT.node b [] [x] :: BT.node r kr cr :: post).length = (s :: kpost).length + 1)
    (hcnt : (s :: kpost).length ≤ order - 1)
    (hsorted : (s :: kpost).Sorted (· < ·))
    (hkr : kr.length ≤ 1) (hrcs : cr.length = kr.length + 1)
    (hch : Chain h1 none (Lpre ++ ((BT.node a (s :: kpost)
      (.node b [] [x] :: .node r kr cr :: post)).leaves ++ Lpost)) none) :
    DownStep order e h1 b a
      (.node a (s :: kpost) (c :: .node r kr cr :: post))
      (.node a (s :: kpost) (.node b [] [x] :: .node r kr cr :: post))
      Lpre Lpost := by
  obtain ⟨h2, q1, q2, q3⟩ :=
    step_mergeRight_node hmid hr hnd hcs hcnt hsorted hkr hrcs
  obtain ⟨p, ha, hl, -, -, -, -, hrC, hrR, -, -⟩ :=
    @Rep_pair_parts K V h1 a (s :: kpost) [] post (.node b [] [x]) (.node r kr cr) hr
  obtain ⟨nd, hnb, hnl, -⟩ := Rep_node_cell hrC
  obtain ⟨rn, hrn, hrl, -⟩ := Rep_node_cell hrR
  refine ⟨_, h2, Del.mergeRightNode a [] kpost s [] post c r b kr cr x rfl hD hkr,
    q1, q2, ?_, ?_, rfl⟩
  · intro x hx
    have := @not_mem_addrs_pair K V a (s :: kpost) [] post _ _ x hx
    rw [q3 x this.1 this.2.1 this.2.2]
  · have e1 : (BT.node a ([] ++ kpost)
          ([] ++ .node b (s :: kr) (x :: cr) :: post)).leaves
        = (BT.node a (s :: kpost) (.node b [] [x] :: .node r kr cr :: post)).leaves := by
      simp [leaves_node]
    rw [e1]
    exact Chain_frame_internal hch ha hl hnb hnl hrn hrl q3

end DownCases

section DownDispatch

variable {K V : Type} [LinearOrder K]

omit [LinearOrder K] in
theorem two_le_length {α : Type} (l : List α) (h : 2 ≤ l.length) :
    ∃ x y r, l = x :: y :: r := by
  cases l with
  | nil => simp at h
  | cons x l =>
    cases l with
    | nil => simp at h
    | cons y r => exact ⟨x, y, r, rfl⟩

omit [LinearOrder K] in
theorem two_le_length_concat {α : Type} (l : List α) (h : 2 ≤ l.length) :
    ∃ r x, l = r ++ [x] ∧ 1 ≤ r.length := by
  rcases List.eq_nil_or_concat l with rfl | ⟨r, x, rfl⟩
  · simp at h
  · rw [List.concat_eq_append] at h ⊢
    refine ⟨r, x, rfl, ?_⟩
    simp at h
    omega

/-- An empty leaf that has a left sibling: the four ways `adjustNodeForDownOver` goes on. -/
theorem down_leaf_left {order : Nat} (hmid : (order - 1) / 2 = 1) {e : K × V}
    {h1 : Heap K V} {c L : BT K V} {a b : Nat} {kpre kpost : List K} {s : K}
    {pre post : List (BT K V)} {cmin cmax : Nat} {lo : WithBot K} {hi : WithTop K}
    (Lpre Lpost : List Nat)
    (hg : Good order 1 cmin cmax lo hi (.node a (kpre ++ s :: kpost) (pre ++ L :: c :: post)))
    (hlen : kpre.length = pre.length) (hcmax : cmax ≤ order - 1)
    (hD : Del e c (.leaf b []))
    (hr : Rep h1 (.node a (kpre ++ s :: kpost) (pre ++ L :: .leaf b [] :: post)))
    (hnd : (BT.node a (kpre ++ s :: kpost) (pre ++ L :: .leaf b [] :: post)).addrs.Nodup)
    (hch : Chain h1 none (Lpre ++ ((BT.node a (kpre ++ s :: kpost)
      (pre ++ L :: .leaf b [] :: post)).leaves ++ Lpost)) none)
    (hchnd : (Lpre ++ ((BT.node a (kpre ++ s :: kpost)
      (pre ++ L :: .leaf b [] :: post)).leaves ++ Lpost)).Nodup) :
    DownStep order e h1 b a (.node a (kpre ++ s :: kpost) (pre ++ L :: c :: post))
      (.node a (kpre ++ s :: kpost) (pre ++ L :: .leaf b [] :: post)) Lpre Lpost := by
  obtain ⟨gL, -, -, -, -, -⟩ := Good_pair hlen hg
  have hg' := hg
  simp only [Good] at hg'
  obtain ⟨g1, g2, g3, g4, g5⟩ := hg'
  have hcs := Kids_length _ _ _ _ g5
  have hcnt : (kpre ++ s :: kpost).length ≤ order - 1 := le_trans g2 hcmax
  cases L with
  | node l kl cl => simp [Good] at gL
  | leaf l els =>
    simp only [Good] at gL
    obtain ⟨l1, l2, l3, -⟩ := gL
    have hcsT : (pre ++ BT.leaf l els :: BT.leaf b [] :: post).length
        = (kpre ++ s :: kpost).length + 1 := by
      simpa using hcs
    by_cases hrich : 2 ≤ els.length
    · obtain ⟨el, e1, rfl, hel⟩ := two_le_length_concat els hrich
      exact case_borrowLeft_leaf hmid Lpre Lpost hD hr hnd hlen hcsT hcnt hel l2 l3 hch
    · have hmerge : ∀ (_ : ∀ R post1, post = R :: post1 → R.count ≤ 1),
          DownStep order e h1 b a
            (.node a (kpre ++ s :: kpost) (pre ++ .leaf l els :: c :: post))
            (.node a (kpre ++ s :: kpost) (pre ++ .leaf l els :: .leaf b [] :: post))
            Lpre Lpost := fun hpoor =>
        case_mergeLeft_leaf hmid Lpre Lpost hD hr hnd hlen hcsT hcnt g3 (by omega) hpoor
          hch hchnd
      cases post with
      | nil => exact hmerge (fun R post1 h => by simp at h)
      | cons R post1 =>
        cases kpost with
        | nil =>
          simp only [List.length_append, List.length_cons, List.length_nil] at hcs
          omega
        | cons s2 kpost1 =>
          have hg2 : Good order 1 cmin cmax lo hi (.node a ((kpre ++ [s]) ++ s2 :: kpost1)
              ((pre ++ [BT.leaf l els]) ++ c :: R :: post1)) := by
            simpa only [List.append_assoc, List.singleton_append] using hg
          obtain ⟨-, gR, -, -, -, -⟩ := Good_pair (by simp [hlen]) hg2
          cases R with
          | node r kr cr => simp [Good] at gR
          | leaf r er =>
            simp only [Good] at gR
            obtain ⟨r1, r2, r3, -⟩ := gR
            by_cases hr2 : 2 ≤ er.length
            · obtain ⟨e1, e2, er1, rfl⟩ := two_le_length er hr2
              have hr' : Rep h1 (.node a ((kpre ++ [s]) ++ s2 :: kpost1)
                  ((pre ++ [BT.leaf l els]) ++ .leaf b [] :: .leaf r (e1 :: e2 :: er1)
                    :: post1)) := by
                simpa only [List.append_assoc, List.singleton_append] using hr
              have hnd' : (BT.node a ((kpre ++ [s]) ++ s2 :: kpost1)
                  ((pre ++ [BT.leaf l els]) ++ .leaf b [] :: .leaf r (e1 :: e2 :: er1)
                    :: post1)).addrs.Nodup := by
                simpa only [List.append_assoc, List.singleton_append] using hnd
              have hch' : Chain h1 none (Lpre ++ ((BT.node a ((kpre ++ [s]) ++ s2 :: kpost1)
                  ((pre ++ [BT.leaf l els]) ++ .leaf b [] :: .leaf r (e1 :: e2 :: er1)
                    :: post1)).leaves ++ Lpost)) none := by
                simpa only [List.append_assoc, List.singleton_append] using hch
              have := case_borrowRight_leaf hmid Lpre Lpost hD hr' hnd' (by simp [hlen])
                (by simpa using hcnt) r2 r3
                (fun pre1 L1 h => by
                  obtain ⟨-, h2⟩ := List.append_inj' h rfl
                  cases h2
                  simp only [BT.count]
                  omega) hch'
              simpa only [List.append_assoc, List.singleton_append] using this
            · exact hmerge (fun R post2 h => by
                cases h
                simp only [BT.count]
                omega)

/-- An empty first leaf: it borrows from its right sibling or is merged with it. -/
theorem down_leaf_noleft {order : Nat} (hmid : (order - 1) / 2 = 1) {e : K × V}
    {h1 : Heap K V} {c : BT K V} {a b : Nat} {kpost : List K}
    {post : List (BT K V)} {cmin cmax : Nat} {lo : WithBot K} {hi : WithTop K}
    (Lpre Lpost : List Nat)
    (hg : Good order 1 cmin cmax lo hi (.node a kpost (c :: post)))
    (hcmin : 1 ≤ cmin) (hcmax : cmax ≤ order - 1)
    (hD : Del e c (.leaf b []))
    (hr : Rep h1 (.node a kpost (.leaf b [] :: post)))
    (hnd : (BT.node a kpost (.leaf b [] :: post)).addrs.Nodup)
    (hch : Chain h1 none (Lpre ++ ((BT.node a kpost (.leaf b [] :: post)).leaves
      ++ Lpost)) none)
    (hchnd : (Lpre ++ ((BT.node a kpost (.leaf b [] :: post)).leaves ++ Lpost)).Nodup) :
    DownStep order e h1 b a (.node a kpost (c :: post))
      (.node a kpost (.leaf b [] :: post)) Lpre Lpost := by
  have hg' := hg
  simp only [Good] at hg'
  obtain ⟨g1, g2, g3, g4, g5⟩ := hg'
  have hcs := Kids_length _ _ _ _ g5
  have hcnt : kpost.length ≤ order - 1 := le_trans g2 hcmax
  cases kpost with
  | nil =>
    simp only [List.length_nil] at g1
    omega
  | cons s kpost1 =>
    cases post with
    | nil => simp at hcs
    | cons R post1 =>
      obtain ⟨-, gR, -, -, -, -⟩ :=
        @Good_pair K V _ order 0 cmin cmax lo hi a [] kpost1 s [] post1 c R rfl hg
      cases R with
      | node r kr cr => simp [Good] at gR
      | leaf r er =>
        simp only [Good] at gR
        obtain ⟨r1, r2, r3, -⟩ := gR
        by_cases hr2 : 2 ≤ er.length
        · obtain ⟨e1, e2, er1, rfl⟩ := two_le_length er hr2
          have hr' : Rep h1 (.node a ([] ++ s :: kpost1)
              ([] ++ .leaf b [] :: .leaf r (e1 :: e2 :: er1) :: post1)) := hr
          have := case_borrowRight_leaf hmid Lpre Lpost hD hr' hnd rfl hcnt r2 r3
            (fun pre1 L1 h => by simp at h) hch
          exact this
        · exact case_mergeRight_leaf hmid Lpre Lpost hD hr hnd (by simpa using hcs) hcnt g3
            (by omega) hch hchnd

/-- An empty internal node that has a left sibling: the four ways `adjustNodeForDownOver`
goes on. -/
theorem down_node_left {order : Nat} (hmid : (order - 1) / 2 = 1) {e : K × V}
    {h1 : Heap K V} {c L x : BT K V} {a b d : Nat} {kpre kpost : List K} {s : K}
    {pre post : List (BT K V)} {cmin cmax : Nat} {lo : WithBot K} {hi : WithTop K}
    (Lpre Lpost : List Nat)
    (hg : Good order (d + 2) cmin cmax lo hi
      (.node a (kpre ++ s :: kpost) (pre ++ L :: c :: post)))
    (hlen : kpre.length = pre.length) (hcmax : cmax ≤ order - 1)
    (hD : Del e c (.node b [] [x]))
    (hr : Rep h1 (.node a (kpre ++ s :: kpost) (pre ++ L :: .node b [] [x] :: post)))
    (hnd : (BT.node a (kpre ++ s :: kpost) (pre ++ L :: .node b [] [x] :: post)).addrs.Nodup)
    (hch : Chain h1 none (Lpre ++ ((BT.node a (kpre ++ s :: kpost)
      (pre ++ L :: .node b [] [x] :: post)).leaves ++ Lpost)) none) :
    DownStep order e h1 b a (.node a (kpre ++ s :: kpost) (pre ++ L :: c :: post))
      (.node a (kpre ++ s :: kpost) (pre ++ L :: .node b [] [x] :: post)) Lpre Lpost := by
  obtain ⟨gL, -, -, -, -, -⟩ := Good_pair hlen hg
  have hg' := hg
  simp only [Good] at hg'
  obtain ⟨g1, g2, g3, g4, g5⟩ := hg'
  have hcs := Kids_length _ _ _ _ g5
  have hcnt : (kpre ++ s :: kpost).length ≤ order - 1 := le_trans g2 hcmax
  cases L with
  | leaf l els => simp [Good] at gL
  | node l kl cl =>
    simp only [Good] at gL
    obtain ⟨l1, l2, l3, -, l5⟩ := gL
    have hlcs := Kids_length _ _ _ _ l5
    have hcsT : (pre ++ BT.node l kl cl :: BT.node b [] [x] :: post).length
        = (kpre ++ s :: kpost).length + 1 := by
      simpa using hcs
    by_cases hrich : 2 ≤ kl.length
    · obtain ⟨kl1, k1, rfl, hkl⟩ := two_le_length_concat kl hrich
      have hcl : cl ≠ [] := by
        rintro rfl
        simp at hlcs
      obtain ⟨cl1, y, rfl⟩ : ∃ cl1 y, cl = cl1 ++ [y] := by
        rcases List.eq_nil_or_concat cl with h | ⟨cl1, y, h⟩
        · exact absurd h hcl
        · exact ⟨cl1, y, by rw [h, List.concat_eq_append]⟩
      exact case_borrowLeft_node hmid Lpre Lpost hD hr hnd hlen hcnt hkl l2 l3 hlcs hch
    · have hmerge : ∀ (_ : ∀ R post1, post = R :: post1 → R.count ≤ 1),
          DownStep order e h1 b a
            (.node a (kpre ++ s :: kpost) (pre ++ .node l kl cl :: c :: post))
            (.node a (kpre ++ s :: kpost) (pre ++ .node l kl cl :: .node b [] [x] :: post))
            Lpre Lpost := fun hpoor =>
        case_mergeLeft_node hmid Lpre Lpost hD hr hnd hlen hcsT hcnt g3 (by omega) hlcs
          hpoor hch
      cases post with
      | nil => exact hmerge (fun R post1 h => by simp at h)
      | cons R post1 =>
        cases kpost with
        | nil =>
          simp only [List.length_append, List.length_cons, List.length_nil] at hcs
          omega
        | cons s2 kpost1 =>
          have hg2 : Good order (d + 2) cmin cmax lo hi
              (.node a ((kpre ++ [s]) ++ s2 :: kpost1)
                ((pre ++ [BT.node l kl cl]) ++ c :: R :: post1)) := by
            simpa only [List.append_assoc, List.singleton_append] using hg
          obtain ⟨-, gR, -, -, -, -⟩ := Good_pair (by simp [hlen]) hg2
          cases R with
          | leaf r er => simp [Good] at gR
          | node r kr cr =>
            simp only [Good] at gR
            obtain ⟨r1, r2, r3, -, r5⟩ := gR
            have hrcs := Kids_length _ _ _ _ r5
            by_cases hr2 : 2 ≤ kr.length
            · obtain ⟨k1, k2, kr1, rfl⟩ := two_le_length kr hr2
              obtain ⟨y, cr1, rfl⟩ : ∃ y cr1, cr = y :: cr1 := by
                cases cr with
                | nil => simp at hrcs
                | cons y cr1 => exact ⟨y, cr1, rfl⟩
              have hr' : Rep h1 (.node a ((kpre ++ [s]) ++ s2 :: kpost1)
                  ((pre ++ [BT.node l kl cl]) ++ .node b [] [x]
                    :: .node r (k1 :: k2 :: kr1) (y :: cr1) :: post1)) := by
                simpa only [List.append_assoc, List.singleton_append] using hr
              have hnd' : (BT.node a ((kpre ++ [s]) ++ s2 :: kpost1)
                  ((pre ++ [BT.node l kl cl]) ++ .node b [] [x]
                    :: .node r (k1 :: k2 :: kr1) (y :: cr1) :: post1)).addrs.Nodup := by
                simpa only [List.append_assoc, List.singleton_append] using hnd
              have hch' : Chain h1 none (Lpre ++ ((BT.node a ((kpre ++ [s]) ++ s2 :: kpost1)
                  ((pre ++ [BT.node l kl cl]) ++ .node b [] [x]
                    :: .node r (k1 :: k2 :: kr1) (y :: cr1) :: post1)).leaves
                      ++ Lpost)) none := by
                simpa only [List.append_assoc, List.singleton_append] using hch
              have := case_borrowRight_node hmid Lpre Lpost hD hr' hnd' (by simp [hlen])
                (by simpa using hcnt) r2 r3 hrcs
                (fun pre1 L1 h => by
                  obtain ⟨-, h2⟩ := List.append_inj' h rfl
                  cases h2
                  simp only [BT.count]
                  omega) hch'
              simpa only [List.append_assoc, List.singleton_append] using this
            · exact hmerge (fun R post2 h => by
                cases h
                simp only [BT.count]
                omega)

/-- An empty first internal node: it borrows from its right sibling or is merged with it. -/
theorem down_node_noleft {order : Nat} (hmid : (order - 1) / 2 = 1) {e : K × V}
    {h1 : Heap K V} {c x : BT K V} {a b d : Nat} {kpost : List K}
    {post : List (BT K V)} {cmin cmax : Nat} {lo : WithBot K} {hi : WithTop K}
    (Lpre Lpost : List Nat)
    (hg : Good order (d + 2) cmin cmax lo hi (.node a kpost (c :: post)))
    (hcmin : 1 ≤ cmin) (hcmax : cmax ≤ order - 1)
    (hD : Del e c (.node b [] [x]))
    (hr : Rep h1 (.node a kpost (.node b [] [x] :: post)))
    (hnd : (BT.node a kpost (.node b [] [x] :: post)).addrs.Nodup)
    (hch : Chain h1 none (Lpre ++ ((BT.node a kpost (.node b [] [x] :: post)).leaves
      ++ Lpost)) none) :
    DownStep order e h1 b a (.node a kpost (c :: post))
      (.node a kpost (.node b [] [x] :: post)) Lpre Lpost := by
  have hg' := hg
  simp only [Good] at hg'
  obtain ⟨g1, g2, g3, g4, g5⟩ := hg'
  have hcs := Kids_length _ _ _ _ g5
  have hcnt : kpost.length ≤ order - 1 := le_trans g2 hcmax
  cases kpost with
  | nil =>
    simp only [List.length_nil] at g1
    omega
  | cons s kpost1 =>
    cases post with
    | nil => simp at hcs
    | cons R post1 =>
      obtain ⟨-, gR, -, -, -, -⟩ :=
        @Good_pair K V _ order (d + 1) cmin cmax lo hi a [] kpost1 s [] post1 c R rfl hg
      cases R with
      | leaf r er => simp [Good] at gR
      | node r kr cr =>
        simp only [Good] at gR
        obtain ⟨r1, r2, r3, -, r5⟩ := gR
        have hrcs := Kids_length _ _ _ _ r5
        by_cases hr2 : 2 ≤ kr.length
        · obtain ⟨k1, k2, kr1, rfl⟩ := two_le_length kr hr2
          obtain ⟨y, cr1, rfl⟩ : ∃ y cr1, cr = y :: cr1 := by
            cases cr with
            | nil => simp at hrcs
            | cons y cr1 => exact ⟨y, cr1, rfl⟩
          have hr' : Rep h1 (.node a ([] ++ s :: kpost1)
              ([] ++ .node b [] [x] :: .node r (k1 :: k2 :: kr1) (y :: cr1) :: post1)) := hr
          have := case_borrowRight_node hmid Lpre Lpost hD hr' hnd rfl hcnt r2 r3 hrcs
            (fun pre1 L1 h => by simp at h) hch
          exact this
        · exact case_mergeRight_node hmid Lpre Lpost hD hr hnd (by simpa using hcs) hcnt g3
            (by omega) hrcs hch

end DownDispatch

section DownInduction

variable {K V : Type} [LinearOrder K]

theorem downLoop_cons_ok {order : Nat} {h : Heap K V} {node parent : Nat} {stk : List Nat}
    {nd : Node K V} (hn : h node = some nd) (hc : (order - 1) / 2 ≤ nd.n) :
    downLoop order (parent :: stk) node h = some (h, node, false) := by
  have : ¬ nd.n < (order - 1) / 2 := by omega
  simp [downLoop, hn, Node.isDownOver, this]

theorem downLoop_cons_under {order : Nat} {h h2 : Heap K V} {node parent : Nat}
    {stk : List Nat} {nd : Node K V} (hn : h node = some nd) (hc : nd.n < (order - 1) / 2)
    (hadj : adjustNodeForDownOver order h node parent = some h2) :
    downLoop order (parent :: stk) node h = downLoop order stk parent h2 := by
  simp [downLoop, hn, Node.isDownOver, hc, hadj]

omit [LinearOrder K] in
theorem nodup_replace_child {a : Nat} {ks : List K} {pre post : List (BT K V)} {c c1 : BT K V}
    (hn : (BT.node a ks (pre ++ c :: post)).addrs.Nodup) (hn1 : c1.addrs.Nodup)
    (hsub : ∀ x ∈ c1.addrs, x ∈ c.addrs) :
    (BT.node a ks (pre ++ c1 :: post)).addrs.Nodup := by
  obtain ⟨n1, n2, n3, n4, n5, n6, n7, n8⟩ := nodup_node_parts hn
  rw [addrs_node_split, List.nodup_cons, List.nodup_append, List.nodup_append]
  refine ⟨?_, n6, ⟨hn1, n7, ?_⟩, ?_⟩
  · simp only [List.mem_append, not_or]
    exact ⟨n1, fun h => n2 (hsub a h), n3⟩
  · intro x hx hp
    exact (n5 x (hsub x hx)).2 hp
  · intro x hx hp
    rcases List.mem_append.1 hp with hp | hp
    · exact (n5 x (hsub x hp)).1 hx
    · exact n8 x hx hp

omit [LinearOrder K] in
theorem mem_addrs_replace_child {a : Nat} {ks : List K} {pre post : List (BT K V)}
    {c c1 : BT K V} (hsub : ∀ x ∈ c1.addrs, x ∈ c.addrs) :
    ∀ x ∈ (BT.node a ks (pre ++ c1 :: post)).addrs,
      x ∈ (BT.node a ks (pre ++ c :: post)).addrs := by
  intro x hx
  rw [mem_addrs_node] at hx ⊢
  rcases hx with h | h | h | h
  · exact Or.inl h
  · exact Or.inr (Or.inl h)
  · exact Or.inr (Or.inr (Or.inl (hsub x h)))
  · exact Or.inr (Or.inr (Or.inr h))

/-- The loop of `maintainAfterRemove` on the part of the path inside a subtree: it performs
the borrows and merges described by `Del`, keeps the heap a representation of the result,
and either leaves through `return` or arrives at the top node of the subtree. -/
theorem downLoop_spec {order : Nat} (hmid : (order - 1) / 2 = 1) (key : K) (e : K × V)
    {lf : Nat} {ndl ndl1 : Node K V} {h0 : Heap K V} {es1 es2 : List (K × V)}
    (hlf : h0 lf = some ndl) (hsplit : ndl.entries = es1 ++ e :: es2)
    (hl1 : ndl1.IS_LEAF = true) (hp1 : ndl1.ptr = ndl.ptr)
    (he1 : ndl1.entries = es1 ++ es2) :
    ∀ {bt : BT K V} {s : List Nat}, Path key bt s lf →
    ∀ {d cmin cmax : Nat} {lo : WithBot K} {hi : WithTop K} (Lpre Lpost : List Nat),
      Good order d cmin cmax lo hi bt → 1 ≤ cmin → cmax ≤ order - 1 → Rep h0 bt →
      bt.addrs.Nodup →
      Chain h0 none (Lpre ++ (bt.leaves ++ Lpost)) none →
      (Lpre ++ (bt.leaves ++ Lpost)).Nodup →
      ∃ bt1 h1, Del e bt bt1 ∧ Rep h1 bt1 ∧
        (∀ x, x ∉ bt.addrs → core (h1 x) = core (h0 x)) ∧
        Chain h1 none (Lpre ++ (bt1.leaves ++ Lpost)) none ∧
        ∀ stk,
          downLoop order (s ++ stk) lf (Function.update h0 lf (some ndl1))
              = downLoop order stk bt.addr h1 ∨
            (1 ≤ bt1.count ∧ ∃ x,
              downLoop order (s ++ stk) lf (Function.update h0 lf (some ndl1))
                = some (h1, x, false)) := by
  intro bt s hpath
  induction hpath with
  | leaf a es =>
    intro d cmin cmax lo hi Lpre Lpost hg hcmin hcmax hr hnd hch hchnd
    cases hr with
    | @leaf _ _ nd ha hl he =>
      have hnd' : nd = ndl := by rw [hlf] at ha; exact (Option.some.inj ha).symm
      subst hnd'
      rw [hsplit] at he
      subst he
      refine ⟨.leaf a (es1 ++ es2), Function.update h0 a (some ndl1), Del.leaf a es1 es2,
        Rep.leaf (Function.update_same _ _ _) hl1 he1, ?_, ?_, fun stk => Or.inl rfl⟩
      · intro x hx
        simp only [BT.addrs, List.mem_singleton] at hx
        rw [Function.update_noteq hx]
      · rw [leaves_leaf] at hch ⊢
        refine Chain_frame _ none none hch (fun x _ => ?_)
        by_cases hxa : x = a
        · subst hxa
          simp [links, ha, hl, hl1, hp1]
        · rw [Function.update_noteq hxa]
  | node a kpre kpost pre post c s lf hlen hk1 hk2 hp ih =>
    intro d cmin cmax lo hi Lpre Lpost hg hcmin hcmax hr hnd hch hchnd
    cases d with
    | zero => simp [Good] at hg
    | succ d =>
      have hg' := hg
      simp only [Good] at hg'
      obtain ⟨g1, g2, g3, g4, g5⟩ := hg'
      obtain ⟨f1, -, -⟩ := Kids_focus hlen g5
      obtain ⟨nd, ha, hl, hk, hpp, hrc, hpre, hpost⟩ := Rep_node_parts hr
      obtain ⟨n1, n2, n3, n4, n5, n6, n7, n8⟩ := nodup_node_parts hnd
      have hleq : Lpre ++ ((BT.node a (kpre ++ kpost) (pre ++ c :: post)).leaves ++ Lpost)
          = (Lpre ++ (BT.leafListL pre).map Prod.fst) ++ (c.leaves
              ++ ((BT.leafListL post).map Prod.fst ++ Lpost)) := by
        rw [leaves_node_split]
        simp only [List.append_assoc]
      have hch0 := hch
      have hchnd0 := hchnd
      rw [hleq] at hch0 hchnd0
      obtain ⟨c1, h1, hD, hr1, hf1, hch1, hloop⟩ :=
        ih hlf _ _ f1 (by omega) le_rfl hrc n4 hch0 hchnd0
      have haddr := Del_addr hD
      have hg1 := Del_good hmid hD f1
      obtain ⟨cn, hcn, hcnn⟩ := Rep_cell hr1
      rw [haddr] at hcn
      have hsub := Del_mem_addrs hD
      have hrT : Rep h1 (.node a (kpre ++ kpost) (pre ++ c1 :: post)) :=
        Rep_replace_child hr hnd haddr hr1 hf1
      have hndT : (BT.node a (kpre ++ kpost) (pre ++ c1 :: post)).addrs.Nodup :=
        nodup_replace_child hnd (Del_nodup hD n4) hsub
      have hsubT := @mem_addrs_replace_child K V a (kpre ++ kpost) pre post c c1 hsub
      have hchT : Chain h1 none (Lpre ++ ((BT.node a (kpre ++ kpost)
          (pre ++ c1 :: post)).leaves ++ Lpost)) none := by
        rw [leaves_node_split]
        simpa only [List.append_assoc] using hch1
      have hcnot : ∀ x, x ∉ (BT.node a (kpre ++ kpost) (pre ++ c :: post)).addrs →
          x ∉ c.addrs := by
        intro x hx hxc
        exact hx (mem_addrs_node.2 (Or.inr (Or.inr (Or.inl hxc))))
      by_cases hcount : 1 ≤ c1.count
      · -- the child still holds a key
        refine ⟨_, h1, Del.keep a kpre kpost pre post c c1 hlen hD hcount, hrT,
          fun x hx => hf1 x (hcnot x hx), hchT, fun stk => Or.inr ⟨?_, ?_⟩⟩
        · simp only [BT.count]
          omega
        · rcases hloop (a :: stk) with hl1 | ⟨-, x, hl1⟩
          · rw [List.append_assoc, List.singleton_append, hl1]
            exact ⟨c.addr, downLoop_cons_ok hcn (by omega)⟩
          · exact ⟨x, by rw [List.append_assoc, List.singleton_append]; exact hl1⟩
      · -- the child is empty
        have hstep : DownStep order e h1 c.addr a (.node a (kpre ++ kpost) (pre ++ c :: post))
            (.node a (kpre ++ kpost) (pre ++ c1 :: post)) Lpre Lpost := by
          cases c1 with
          | leaf b esb =>
            have hes : esb = [] := List.length_eq_zero.1 (by
              simp only [BT.count] at hcount
              omega)
            subst hes
            have hd := Good_leaf_depth hg1
            subst hd
            have hb : b = c.addr := haddr
            rw [← hb]
            have hlv : (BT.node a (kpre ++ kpost) (pre ++ BT.leaf b [] :: post)).leaves
                = (BT.node a (kpre ++ kpost) (pre ++ c :: post)).leaves := by
              rw [leaves_node_split, leaves_node_split, Good_zero_leaves f1, leaves_leaf, hb]
            have hchndT : (Lpre ++ ((BT.node a (kpre ++ kpost)
                (pre ++ BT.leaf b [] :: post)).leaves ++ Lpost)).Nodup := by
              rw [hlv]
              exact hchnd
            rcases List.eq_nil_or_concat pre with hpe | ⟨pre1, L, hpe⟩
            · subst hpe
              have hk0 : kpre = [] := List.length_eq_zero.1 (by simpa using hlen)
              subst hk0
              exact down_leaf_noleft hmid Lpre Lpost hg hcmin hcmax hD hrT hndT hchT hchndT
            · rw [List.concat_eq_append] at hpe
              subst hpe
              rcases List.eq_nil_or_concat kpre with hke | ⟨kpre1, s0, hke⟩
              · subst hke
                simp at hlen
              · rw [List.concat_eq_append] at hke
                subst hke
                have hlen' : kpre1.length = pre1.length := by simpa using hlen
                simp only [List.append_assoc, List.singleton_append] at hg hrT hndT hchT
                simp only [List.append_assoc, List.singleton_append] at hchndT ⊢
                exact down_leaf_left hmid Lpre Lpost hg hlen' hcmax hD hrT hndT hchT hchndT
          | node b ksb csb =>
            have hks : ksb = [] := List.length_eq_zero.1 (by
              simp only [BT.count] at hcount
              omega)
            subst hks
            obtain ⟨d1, hd⟩ := Good_node_depth hg1
            subst hd
            obtain ⟨x, hx⟩ : ∃ x, csb = [x] := by
              have hgk := hg1
              simp only [Good] at hgk
              have := Kids_length _ _ _ _ hgk.2.2.2.2
              cases csb with
              | nil => simp at this
              | cons x r =>
                cases r with
                | nil => exact ⟨x, rfl⟩
                | cons y r => simp at this
            subst hx
            have hb : b = c.addr := haddr
            rw [← hb]
            rcases List.eq_nil_or_concat pre with hpe | ⟨pre1, L, hpe⟩
            · subst hpe
              have hk0 : kpre = [] := List.length_eq_zero.1 (by simpa using hlen)
              subst hk0
              exact down_node_noleft hmid Lpre Lpost hg hcmin hcmax hD hrT hndT hchT
            · rw [List.concat_eq_append] at hpe
              subst hpe
              rcases List.eq_nil_or_concat kpre with hke | ⟨kpre1, s0, hke⟩
              · subst hke
                simp at hlen
              · rw [List.concat_eq_append] at hke
                subst hke
                have hlen' : kpre1.length = pre1.length := by simpa using hlen
                simp only [List.append_assoc, List.singleton_append] at hg hrT hndT hchT ⊢
                exact down_node_left hmid Lpre Lpost hg hlen' hcmax hD hrT hndT hchT
        obtain ⟨T2, h2, hD2, hadj, hr2, hf2, hch2, haddr2⟩ := hstep
        refine ⟨T2, h2, hD2, hr2, ?_, hch2, fun stk => Or.inl ?_⟩
        · intro x hx
          rw [hf2 x (fun hm => hx (hsubT x hm)), hf1 x (hcnot x hx)]
        · rcases hloop (a :: stk) with hl1 | ⟨hl1, -⟩
          · rw [List.append_assoc, List.singleton_append, hl1]
            exact downLoop_cons_under hcn (by omega) hadj
          · exact absurd hl1 hcount

end DownInduction

section RemovePath

variable {K V : Type} [LinearOrder K]

omit [LinearOrder K] in
/-- The first leaf of the tree stays the first leaf. -/
theorem Del_leaves_head {e : K × V} {bt bt1 : BT K V} (h : Del e bt bt1) :
    bt1.leaves.head? = bt.leaves.head? := by
  induction h with
  | leaf a es1 es2 => rfl
  | keep a kpre kpost pre post c c1 _ _ _ ih =>
    rw [leaves_node_split, leaves_node_split]
    exact head_append_congr ih
  | borrowLeftLeaf a kpre kpost s pre post c l b el e1 _ _ _ ih =>
    rw [leaves_node_two, leaves_node_two, leaves_leaf, leaves_leaf, leaves_leaf,
      ← List.append_assoc [l], ← List.append_assoc [l]]
    exact head_append_congr (by simp)
  | borrowLeftNode a kpre kpost s pre post c l b kl k1 cl y x _ _ _ ih =>
    have e1 : (BT.node a (kpre ++ k1 :: kpost)
        (pre ++ .node l kl cl :: .node b [s] [y, x] :: post)).leaves
        = ((BT.leafListL pre).map Prod.fst ++ (BT.leafListL (cl ++ [y])).map Prod.fst)
          ++ ((BT.node b [] [x]).leaves ++ (BT.leafListL post).map Prod.fst) := by
      simp [leaves_node, leafListL_eq_flatten]
    have e2 : (BT.node a (kpre ++ s :: kpost)
        (pre ++ .node l (kl ++ [k1]) (cl ++ [y]) :: c :: post)).leaves
        = ((BT.leafListL pre).map Prod.fst ++ (BT.leafListL (cl ++ [y])).map Prod.fst)
          ++ (c.leaves ++ (BT.leafListL post).map Prod.fst) := by
      simp [leaves_node, leafListL_eq_flatten]
    rw [e1, e2]
    exact head_append_congr ih
  | borrowRightLeaf a kpre kpost s pre post c r b e1 e2 er _ _ ih =>
    rw [leaves_node_two, leaves_node_two, leaves_leaf, leaves_leaf]
    exact head_append_congr ih
  | borrowRightNode a kpre kpost s pre post c r b k1 k2 kr y x cr _ _ ih =>
    have e1 : (BT.node a (kpre ++ k1 :: kpost)
        (pre ++ .node b [s] [x, y] :: .node r (k2 :: kr) cr :: post)).leaves
        = (BT.leafListL pre).map Prod.fst ++ ((BT.node b [] [x]).leaves
          ++ ((BT.leafListL (y :: cr)).map Prod.fst ++ (BT.leafListL post).map Prod.fst)) := by
      simp [leaves_node, leafListL_eq_flatten]
    have e2 : (BT.node a (kpre ++ s :: kpost)
        (pre ++ c :: .node r (k1 :: k2 :: kr) (y :: cr) :: post)).leaves
        = (BT.leafListL pre).map Prod.fst ++ (c.leaves
          ++ ((BT.leafListL (y :: cr)).map Prod.fst ++ (BT.leafListL post).map Prod.fst)) := by
      simp [leaves_node, leafListL_eq_flatten]
    rw [e1, e2]
    exact head_append_congr ih
  | mergeLeftLeaf a kpre kpost s pre post c l b el _ _ ih =>
    rw [leaves_node_two, leaves_node_split, leaves_leaf, ← List.append_assoc [l]]
    exact head_append_congr (by simp)
  | mergeLeftNode a kpre kpost s pre post c l b kl cl x _ _ _ ih =>
    have e1 : (BT.node a (kpre ++ kpost)
        (pre ++ .node l (kl ++ [s]) (cl ++ [x]) :: post)).leaves
        = ((BT.leafListL pre).map Prod.fst ++ (BT.leafListL cl).map Prod.fst)
          ++ ((BT.node b [] [x]).leaves ++ (BT.leafListL post).map Prod.fst) := by
      simp [leaves_node, leafListL_eq_flatten]
    have e2 : (BT.node a (kpre ++ s :: kpost)
        (pre ++ .node l kl cl :: c :: post)).leaves
        = ((BT.leafListL pre).map Prod.fst ++ (BT.leafListL cl).map Prod.fst)
          ++ (c.leaves ++ (BT.leafListL post).map Prod.fst) := by
      simp [leaves_node, leafListL_eq_flatten]
    rw [e1, e2]
    exact head_append_congr ih
  | mergeRightLeaf a kpre kpost s pre post c r b er _ _ ih =>
    rw [leaves_node_two, leaves_node_split, leaves_leaf, leaves_leaf]
    have ih' : [b].head? = c.leaves.head? := ih
    cases hc : c.leaves with
    | nil => rw [hc] at ih'; simp at ih'
    | cons w rest =>
      rw [hc] at ih'
      simp only [List.head?_cons, Option.some.injEq] at ih'
      subst ih'
      cases (BT.leafListL pre).map Prod.fst <;> rfl
  | mergeRightNode a kpre kpost s pre post c r b kr cr x _ _ _ ih =>
    have e1 : (BT.node a (kpre ++ kpost)
        (pre ++ .node b (s :: kr) (x :: cr) :: post)).leaves
        = (BT.leafListL pre).map Prod.fst ++ ((BT.node b [] [x]).leaves
          ++ ((BT.leafListL cr).map Prod.fst ++ (BT.leafListL post).map Prod.fst)) := by
      simp [leaves_node, leafListL_eq_flatten]
    have e2 : (BT.node a (kpre ++ s :: kpost)
        (pre ++ c :: .node r kr cr :: post)).leaves
        = (BT.leafListL pre).map Prod.fst ++ (c.leaves
          ++ ((BT.leafListL cr).map Prod.fst ++ (BT.leafListL post).map Prod.fst)) := by
      simp [leaves_node, leafListL_eq_flatten]
    rw [e1, e2]
    exact head_append_congr ih

/-- A key of a node lies below the child that the search for it descends into. -/
theorem Kids_key_focus (a : Nat) (key : K) (kpost : List K) (post : List (BT K V))
    (c : BT K V) (hi : WithTop K) :
    ∀ (kpre : List K) (pre : List (BT K V)) (lo : WithBot K), kpre.length = pre.length →
      Kids (fun (lo : WithBot K) (hi : WithTop K) (c : BT K V) => c.keys.Sorted (· < ·) ∧
        ∀ k ∈ c.keys, lo ≤ (k : WithBot K) ∧ (k : WithTop K) < hi) lo hi (kpre ++ kpost)
          (pre ++ c :: post) →
      (kpre ++ kpost).Sorted (· < ·) →
      (∀ k ∈ kpre ++ kpost, lo < (k : WithBot K) ∧ (k : WithTop K) < hi) →
      (∀ x ∈ kpre, x ≤ key) → (∀ x ∈ kpost, key < x) →
      key ∈ (BT.node a (kpre ++ kpost) (pre ++ c :: post)).keys → key ∈ c.keys
  | [], [], lo, _, hk, hs, hb, _, h2, hm => by
    simp only [List.nil_append] at hk hs hb hm
    cases post with
    | nil =>
      rw [keys_node_cons a a kpost kpost, keys_node_nil, List.append_nil] at hm
      exact hm
    | cons R post1 =>
      cases kpost with
      | nil => simp [Kids] at hk
      | cons k0 kpost1 =>
        simp only [Kids] at hk
        rw [keys_node_cons a a (k0 :: kpost1) kpost1] at hm
        rcases List.mem_append.1 hm with hm | hm
        · exact hm
        · exfalso
          obtain ⟨-, r2⟩ := Kids_keys_sorted a kpost1 (R :: post1) (k0 : WithBot K) hi hk.2
            hs.of_cons (fun x hx => ⟨WithBot.coe_lt_coe.2 (List.rel_of_sorted_cons hs x hx),
              (hb x (List.mem_cons_of_mem _ hx)).2⟩)
          have h3 := WithBot.coe_le_coe.1 (r2 key hm).1
          exact absurd (h2 k0 (List.mem_cons_self _ _)) (not_lt.2 h3)
  | [], _ :: _, _, h, _, _, _, _, _, _ => by simp at h
  | _ :: _, [], _, h, _, _, _, _, _, _ => by simp at h
  | k :: kpre, p :: pre, lo, h, hk, hs, hb, h1, h2, hm => by
    simp only [List.cons_append, Kids] at hk hs hb hm
    rw [keys_node_cons a a (k :: (kpre ++ kpost)) (kpre ++ kpost)] at hm
    rcases List.mem_append.1 hm with hm | hm
    · exfalso
      have h3 := WithTop.coe_lt_coe.1 (hk.1.2 key hm).2
      exact absurd (h1 k (List.mem_cons_self _ _)) (not_le.2 h3)
    · exact Kids_key_focus a key kpost post c hi kpre pre (k : WithBot K)
        (by simpa using h) hk.2 hs.of_cons
        (fun x hx => ⟨WithBot.coe_lt_coe.2 (List.rel_of_sorted_cons hs x hx),
          (hb x (List.mem_cons_of_mem _ hx)).2⟩)
        (fun x hx => h1 x (List.mem_cons_of_mem _ hx)) h2 hm

/-- The leaf at the end of the search path of `key` holds at least one entry, and it holds
`key` if the tree does. -/
theorem Path_leaf_key {order : Nat} (hmid : (order - 1) / 2 = 1) {key : K} {h : Heap K V}
    {bt : BT K V} {s : List Nat} {lf : Nat} (hp : Path key bt s lf) :
    ∀ {d cmin cmax : Nat} {lo : WithBot K} {hi : WithTop K},
      Good order d cmin cmax lo hi bt → 1 ≤ cmin → Rep h bt →
      ∃ ndl, h lf = some ndl ∧ 1 ≤ ndl.n ∧ (key ∈ bt.keys → key ∈ ndl.keyList) := by
  induction hp with
  | leaf a es =>
    intro d cmin cmax lo hi hg hc hr
    cases d with
    | succ d => simp [Good] at hg
    | zero =>
      simp only [Good] at hg
      cases hr with
      | @leaf _ _ nd ha hl he =>
        refine ⟨nd, ha, ?_, ?_⟩
        · rw [← entries_length, he]
          omega
        · intro hm
          rw [keys_leaf, ← he, entries_map_fst] at hm
          exact hm
  | node a kpre kpost pre post c s lf hlen hk1 hk2 _ ih =>
    intro d cmin cmax lo hi hg hc hr
    cases d with
    | zero => simp [Good] at hg
    | succ d =>
      simp only [Good] at hg
      obtain ⟨g1, g2, g3, g4, g5⟩ := hg
      obtain ⟨f1, -, -⟩ := Kids_focus hlen g5
      obtain ⟨nd, ha, hl, hk, hpp, hrc, hpre, hpost⟩ := Rep_node_parts hr
      obtain ⟨ndl, q1, q2, q3⟩ := ih f1 (by omega) hrc
      refine ⟨ndl, q1, q2, fun hm => q3 ?_⟩
      exact Kids_key_focus a key kpost post c hi kpre pre lo hlen
        (Kids_mono (fun lo hi c hc => Good_keys_sorted hc) _ _ lo hi g5) g3 g4 hk1 hk2 hm

end RemovePath

section RemoveTop

variable {K V : Type} [LinearOrder K]

theorem maintainRemove_return {order : Nat} {t : Tree K V} {top x : Nat} {rest : List Nat}
    {h : Heap K V} (hd : downLoop order rest top t.heap = some (h, x, false)) :
    maintainAfterRemove order t (top :: rest) = some { t with heap := h } := by
  simp only [maintainAfterRemove, hd]

theorem maintainRemove_root_ok {order : Nat} {t : Tree K V} {top node ra : Nat}
    {rest : List Nat} {h : Heap K V} {rn : Node K V}
    (hd : downLoop order rest top t.heap = some (h, node, true))
    (hroot : t.root = some ra) (hra : h ra = some rn) (hn : rn.n ≠ 0) :
    maintainAfterRemove order t (top :: rest) = some { t with heap := h } := by
  simp only [maintainAfterRemove, hd, hroot, hra, ne_eq, hn, not_false_eq_true, ↓reduceIte]

theorem maintainRemove_root_leaf {order : Nat} {t : Tree K V} {top ra : Nat}
    {rest : List Nat} {h : Heap K V} {rn : Node K V}
    (hd : downLoop order rest top t.heap = some (h, ra, true))
    (hroot : t.root = some ra) (hra : h ra = some rn) (hn : rn.n = 0)
    (hl : rn.IS_LEAF = true) :
    maintainAfterRemove order t (top :: rest)
      = some { t with heap := Function.update h ra none, root := none, head := none } := by
  simp only [maintainAfterRemove, hd, hroot, hra, ne_eq, hn, not_true_eq_false, ↓reduceIte, hl]

theorem maintainRemove_root_node {order : Nat} {t : Tree K V} {top ra : Nat}
    {rest : List Nat} {h : Heap K V} {rn : Node K V}
    (hd : downLoop order rest top t.heap = some (h, ra, true))
    (hroot : t.root = some ra) (hra : h ra = some rn) (hn : rn.n = 0)
    (hl : rn.IS_LEAF = false) :
    maintainAfterRemove order t (top :: rest)
      = some { t with heap := Function.update h ra none, root := rn.ptr 0 } := by
  simp only [maintainAfterRemove, hd, hroot, hra, ne_eq, hn, not_true_eq_false, ↓reduceIte, hl,
    Bool.false_eq_true]

omit [LinearOrder K] in
theorem leafEntries_empty {t : Tree K V} (hh : t.head = none) : leafEntries t = some [] := by
  simp [leafEntries, hh, leafLoop_none]

omit [LinearOrder K] in
theorem leafKeys_empty {t : Tree K V} (hh : t.head = none) : leafKeys t = some [] := by
  simp [leafKeys, leafTraversal, hh, leafLoop_none]

omit [LinearOrder K] in
theorem entries_split_at (l : List (K × V)) (j : Nat) (hj : j < l.length) :
    l = l.take j ++ l.get ⟨j, hj⟩ :: l.drop (j + 1) := by
  have h1 := (List.take_append_drop j l).symm
  have h2 : l.drop j = l.get ⟨j, hj⟩ :: l.drop (j + 1) := by
    simp
  rw [h2] at h1
  exact h1

/-- The body of `remove` on a state satisfying the invariant, in a tree whose nodes hold at
least one key: it runs to its end and the invariant holds afterwards; if the key is in the
leaf scan, it returns 0, `size` goes down by one as a 32-bit `int`, and the entry of the key
leaves the leaf scan while all other entries stay in place. -/
theorem remove_spec {order : Nat} (hmid : (order - 1) / 2 = 1) (t : Tree K V) (key : K)
    (hinv : Inv order t) :
    ∃ t1 r, removeBody order t key = some (t1, r) ∧ Inv order t1 ∧
      ∀ ks, leafKeys t = some ks → key ∈ ks →
        r = 0 ∧ t1.size = wrapInt (t.size - 1) ∧
        ∃ l1 v l2, leafEntries t = some (l1 ++ (key, v) :: l2) ∧
          leafEntries t1 = some (l1 ++ l2) := by
  rcases hinv with ⟨hroot, hhead⟩ | ⟨bt, d, hroot, hr, hg, hnd, hlt, hch, hhead⟩
  · refine ⟨t, 1, by simp only [removeBody, hroot], Or.inl ⟨hroot, hhead⟩, ?_⟩
    intro ks hks hm
    rw [leafKeys_empty hhead] at hks
    cases hks
    simp at hm
  · have ho : 3 ≤ order := by omega
    have hdl : d < t.next + 1 := by
      have h1 := Good_depth_lt hg
      have h2 := nodup_length_le hnd hlt
      omega
    obtain ⟨s, lf, hpath, hfind⟩ := findLoop_spec key hg (by omega) hr
    have hfind' := hfind (t.next + 1) [] hdl
    rw [List.append_nil] at hfind'
    obtain ⟨ndl, c1, c2, c3, c4, c5⟩ := Path_leaf_cell hpath hg le_rfl hr
    obtain ⟨ndl', q1, q2, q3⟩ := Path_leaf_key hmid hpath hg le_rfl hr
    have : ndl' = ndl := by rw [c1] at q1; exact (Option.some.inj q1).symm
    subst this
    have hn : ndl'.n < order := by omega
    obtain ⟨b, arg, k1, k2, k3, k4, k5⟩ := Node.hasKey_spec key hn c3
    obtain ⟨hle1, hle2⟩ := leafEntries_of_rep hr hnd hlt hch hhead
    have hstart : removeBody order t key
        = match b with
          | false => some (t, 1)
          | true =>
            match ndl'.remove order key with
            | none => none
            | some nd1 =>
              match maintainAfterRemove order
                  { t with heap := Function.update t.heap lf (some nd1) } (lf :: s) with
              | none => none
              | some t1 => some ({ t1 with size := wrapInt (t1.size - 1) }, 0) := by
      simp only [removeBody, hroot, findNodeByKey, hfind', c1, k1]
      cases b <;> rfl
    rw [hstart]
    cases b with
    | false =>
      refine ⟨t, 1, rfl, Or.inr ⟨bt, d, hroot, hr, hg, hnd, hlt, hch, hhead⟩, ?_⟩
      intro ks hks hm
      rw [hle2] at hks
      cases hks
      have := (k5 (q3 hm)).1
      cases this
    | true =>
      obtain ⟨nd1, arg1, r1, r2, r3, r4, r5, r6⟩ :=
        Node.remove_leaf_spec order key c2 (le_of_lt hn) c3 (by omega)
      have harg : arg1 = arg := lowerAt_unique r2 k3
      subst harg
      have hj : (if arg1 < ndl'.n then arg1 else ndl'.n - 1) < ndl'.entries.length := by
        rw [entries_length]
        split <;> omega
      generalize hjv : (if arg1 < ndl'.n then arg1 else ndl'.n - 1) = j at r6 hj
      have hsplit := entries_split_at ndl'.entries j hj
      generalize hev : ndl'.entries.get ⟨j, hj⟩ = e at hsplit
      have hekey : key ∈ bt.keys → e.1 = key := by
        intro hm
        have h2 := (k5 (q3 hm)).2
        rw [if_pos h2] at hjv
        subst hjv
        rw [← hev]
        simp only [Node.entries, List.get_eq_getElem, List.getElem_map, List.getElem_range]
        exact k4.1 rfl
      obtain ⟨bt1, h1, hD, hr1, hf1, hch1, hloop⟩ :=
        downLoop_spec hmid key e c1 hsplit r3 r4 r6 hpath [] [] hg le_rfl le_rfl hr hnd
          (by simpa using hch) (by simpa using leaves_nodup hnd)
      simp only [List.nil_append, List.append_nil] at hch1
      have hloop' := hloop []
      rw [List.append_nil] at hloop'
      have haddr := Del_addr hD
      have hg1 := Del_good hmid hD hg
      have hnd1 := Del_nodup hD hnd
      have hlt1 : ∀ a ∈ bt1.addrs, a < t.next := fun a ha => hlt a (Del_mem_addrs hD a ha)
      have hhead1 : t.head = bt1.leaves.head? := by rw [Del_leaves_head hD]; exact hhead
      obtain ⟨l1, l2, hen, hen1⟩ := Del_entries hD
      obtain ⟨rn, hrn, hrnn⟩ := Rep_cell hr1
      rw [haddr] at hrn
      simp only [r1]
      -- the outcome when the root keeps a key
      have good : 1 ≤ bt1.count →
          maintainAfterRemove order { t with heap := Function.update t.heap lf (some nd1) }
            (lf :: s) = some { t with heap := h1 } →
          ∃ t1 r, (match maintainAfterRemove order
                { t with heap := Function.update t.heap lf (some nd1) } (lf :: s) with
              | none => none
              | some t1 => some ({ t1 with size := wrapInt (t1.size - 1) }, 0)) = some (t1, r) ∧
            Inv order t1 ∧
            ∀ ks, leafKeys t = some ks → key ∈ ks →
              r = 0 ∧ t1.size = wrapInt (t.size - 1) ∧
              ∃ l1 v l2, leafEntries t = some (l1 ++ (key, v) :: l2) ∧
                leafEntries t1 = some (l1 ++ l2) := by
        intro hcnt hm
        rw [hm]
        have hgood : Good order d 1 (order - 1) ⊥ ⊤ bt1 :=
          Good_recount hg1 hcnt (Good_count hg1).2
        refine ⟨_, 0, rfl, Or.inr ⟨bt1, d, by rw [haddr]; exact hroot, hr1, hgood, hnd1, hlt1,
          hch1, hhead1⟩, ?_⟩
        intro ks hks hmem
        rw [hle2] at hks
        cases hks
        refine ⟨rfl, rfl, l1, e.2, l2, ?_, ?_⟩
        · rw [hle1, hen, ← hekey hmem]
        · have := (leafEntries_of_rep (t := { t with heap := h1, size := wrapInt (t.size - 1) }) hr1
            hnd1 hlt1 hch1 hhead1).1
          rw [this, hen1]
      rcases hloop' with hl1 | ⟨hcnt, x, hl1⟩
      · have hl2 : downLoop order s lf (Function.update t.heap lf (some nd1))
            = some (h1, bt.addr, true) := by
          rw [hl1]
          rfl
        by_cases hz : rn.n = 0
        · -- the root is left without a key
          have hc0 : bt1.count = 0 := by rw [← hrnn]; exact hz
          cases bt1 with
          | leaf a es =>
            have hes : es = [] := List.length_eq_zero.1 hc0
            subst hes
            have ha : a = bt.addr := haddr
            subst ha
            have hrl : rn.IS_LEAF = true := by
              obtain ⟨nd2, m1, m2, -⟩ := Rep_leaf_cell hr1
              rw [hrn] at m1
              cases m1
              exact m2
            have hm := @maintainRemove_root_leaf K V _ order
              { t with heap := Function.update t.heap lf (some nd1) } lf bt.addr s h1 rn
              hl2 hroot hrn hz hrl
            rw [hm]
            refine ⟨_, 0, rfl, Or.inl ⟨rfl, rfl⟩, ?_⟩
            intro ks hks hmem
            rw [hle2] at hks
            cases hks
            refine ⟨rfl, rfl, l1, e.2, l2, ?_, ?_⟩
            · rw [hle1, hen, ← hekey hmem]
            · rw [leafEntries_empty rfl, ← hen1, entries_leaf]
          | node a ks cs =>
            have hks : ks = [] := List.length_eq_zero.1 hc0
            subst hks
            obtain ⟨x, hx⟩ : ∃ x, cs = [x] := by
              obtain ⟨d1, hd1⟩ := Good_node_depth hg1
              subst hd1
              have hgk := hg1
              simp only [Good] at hgk
              have := Kids_length _ _ _ _ hgk.2.2.2.2
              cases cs with
              | nil => simp at this
              | cons x r =>
                cases r with
                | nil => exact ⟨x, rfl⟩
                | cons y r => simp at this
            subst hx
            have ha : a = bt.addr := haddr
            subst ha
            obtain ⟨d1, hd1, hgx⟩ := Good_empty_node hg1
            rw [hmid] at hgx
            obtain ⟨nd2, m1, m2', -, m4, m5⟩ := Rep_node_cell hr1
            have hrn2 : nd2 = rn := by rw [hrn] at m1; exact (Option.some.inj m1).symm
            have m2 : rn.IS_LEAF = false := hrn2 ▸ m2'
            have hp0 : rn.ptr 0 = some x.addr := by
              rw [← hrn2]
              simpa [List.range_succ] using m4
            have hm := @maintainRemove_root_node K V _ order
              { t with heap := Function.update t.heap lf (some nd1) } lf bt.addr s h1 rn
              hl2 hroot hrn hz m2
            rw [hm, hp0]
            have hndx := hnd1
            simp only [BT.addrs, BT.addrsL, List.append_nil, List.nodup_cons] at hndx
            have hrx : Rep (Function.update h1 bt.addr none) x :=
              Rep_frame (m5 x (by simp)) (fun z hz => by
                have : z ≠ bt.addr := fun e => hndx.1 (e ▸ hz)
                rw [Function.update_noteq this])
            have hlv : (BT.node bt.addr [] [x]).leaves = x.leaves := by
              simp [leaves_node]
            rw [hlv] at hch1 hhead1
            have hchx : Chain (Function.update h1 bt.addr none) none x.leaves none := by
              refine Chain_frame_leaf hch1 (fun z nd hz hzl => ?_)
              have : z ≠ bt.addr := internal_ne_leaf hrn m2 hz hzl
              rw [Function.update_noteq this]
            have hltx : ∀ z ∈ x.addrs, z < t.next := fun z hz =>
              hlt1 z (by simp [BT.addrs, BT.addrsL, hz])
            refine ⟨_, 0, rfl, Or.inr ⟨x, d1, rfl, hrx, hgx, hndx.2, hltx, hchx, hhead1⟩, ?_⟩
            intro ks hks hmem
            rw [hle2] at hks
            cases hks
            refine ⟨rfl, rfl, l1, e.2, l2, ?_, ?_⟩
            · rw [hle1, hen, ← hekey hmem]
            · have := (leafEntries_of_rep
                (t := { t with heap := Function.update h1 bt.addr none, root := some x.addr,
                               size := wrapInt (t.size - 1) }) hrx hndx.2 hltx hchx hhead1).1
              rw [this, ← hen1, entries_node]
              simp
        · exact good (by omega) (maintainRemove_root_ok hl2 hroot hrn hz)
      · exact good hcnt (maintainRemove_return hl1)

end RemoveTop

section RemoveClaim

variable {K V : Type} [LinearOrder K]

/-- A `remove` call that returns has run the body of `remove` to that result. -/
theorem remove_eq_some {order : Nat} {t t1 : Tree K V} {key : K} {r : Nat}
    (h : remove order t key = some (t1, r)) : removeBody order t key = some (t1, r) := by
  unfold remove at h
  cases hb : removeBody order t key with
  | none => simp [hb] at h
  | some q =>
    obtain ⟨t2, r2⟩ := q
    simp only [hb] at h
    cases hl : lockedLeaf order t key with
    | none =>
      simp only [hl] at h
      exact h
    | some node =>
      simp only [hl] at h
      cases hh : t2.heap node with
      | none => simp [hh] at h
      | some nd =>
        simp only [hh] at h
        exact h

/-- A `remove` call returns what its body computes when the leaf it has locked is still
allocated at the return; it is undefined when that leaf has been freed. -/
theorem remove_of_body {order : Nat} {t t1 : Tree K V} {key : K} {r : Nat}
    (h : removeBody order t key = some (t1, r)) :
    (remove order t key = some (t1, r) ∧
        ∀ a, lockedLeaf order t key = some a → (t1.heap a).isSome = true) ∨
      (remove order t key = none ∧
        ∃ a, lockedLeaf order t key = some a ∧ t1.heap a = none) := by
  unfold remove
  simp only [h]
  cases hl : lockedLeaf order t key with
  | none => exact Or.inl ⟨rfl, fun a ha => by cases ha⟩
  | some node =>
    cases hh : t1.heap node with
    | none => exact Or.inr ⟨by simp only [hh], node, rfl, hh⟩
    | some nd =>
      refine Or.inl ⟨by simp only [hh], fun a ha => ?_⟩
      cases ha
      rw [hh]
      rfl

/-- One call of the interface that returns keeps the invariant, in a tree whose nodes hold at
least one key. -/
theorem step_inv {order : Nat} (hmid : (order - 1) / 2 = 1) (fr : Fresh K V) (t t1 : Tree K V)
    (op : Op K V) (r : Nat) (hinv : Inv order t) (hstep : step order fr t op = some (t1, r)) :
    Inv order t1 := by
  cases op with
  | ins key value =>
    obtain ⟨t2, r2, h1, h2⟩ := insert_inv (by omega) fr t key value hinv
    simp only [step] at hstep
    rw [h1] at hstep
    simp only [Option.some.injEq, Prod.mk.injEq] at hstep
    rw [← hstep.1]
    exact h2
  | rem key =>
    obtain ⟨t2, r2, h1, h2, -⟩ := remove_spec hmid t key hinv
    simp only [step] at hstep
    have h3 := remove_eq_some hstep
    rw [h1] at h3
    simp only [Option.some.injEq, Prod.mk.injEq] at h3
    rw [← h3.1]
    exact h2

/-- A sequence of calls keeps the invariant. -/
theorem run_inv {order : Nat} (hmid : (order - 1) / 2 = 1) (fr : Fresh K V) :
    ∀ (ops : List (Op K V)) (t t1 : Tree K V) (rs : List Nat), Inv order t →
      run order fr ops t = some (t1, rs) → Inv order t1
  | [], t, t1, rs, h, hrun => by
    simp only [run, Option.some.injEq, Prod.mk.injEq] at hrun
    rw [← hrun.1]
    exact h
  | op :: ops, t, t1, rs, h, hrun => by
    cases h1 : step order fr t op with
    | none => simp [run, h1] at hrun
    | some q =>
      obtain ⟨t2, r⟩ := q
      have h2 := step_inv hmid fr t t2 op r h h1
      simp only [run, h1] at hrun
      cases h3 : run order fr ops t2 with
      | none => simp [h3] at hrun
      | some p =>
        obtain ⟨t3, rs3⟩ := p
        simp only [h3, Option.some.injEq, Prod.mk.injEq] at hrun
        rw [← hrun.1]
        exact run_inv hmid fr ops t2 t3 rs3 h2 h3

omit [LinearOrder K] in
/-- The keys of the leaf scan are the first components of its entries. -/
theorem leafKeys_eq_map (t : Tree K V) :
    leafKeys t = (leafEntries t).map (List.map Prod.fst) := by
  simp only [leafKeys, leafTraversal, leafEntries, Option.map_map]
  congr 1
  funext l
  simp only [Function.comp, List.map_flatten, List.map_map]
  congr 1
  apply List.map_congr_left
  intro nd _
  exact (entries_map_fst nd).symm

end RemoveClaim

section RemovePresent

variable {K V : Type} [LinearOrder K]

/-- The body of `remove` on a key of the leaf scan, in an order-3 tree reached from the empty
tree: it runs to its end with 0, `size` is decremented as a 32-bit `int`, and the leaf scan
loses the entry of the key and nothing else.  The call itself returns this result when the leaf
it has locked is still allocated, and is undefined when that leaf has been freed. -/
theorem removeBody_present_key (fr : Fresh K V)
    (ops : List (Op K V)) (t : Tree K V) (rs : List Nat) (k : K) (ks : List K)
    (hrun : run 3 fr ops empty = some (t, rs)) (hks : leafKeys t = some ks) (hk : k ∈ ks) :
    ∃ t1 l1 v l2, removeBody 3 t k = some (t1, 0) ∧ t1.size = wrapInt (t.size - 1) ∧
      leafEntries t = some (l1 ++ (k, v) :: l2) ∧ leafEntries t1 = some (l1 ++ l2) ∧
      leafKeys t1 = some ((l1 ++ l2).map Prod.fst) ∧ k ∉ (l1 ++ l2).map Prod.fst ∧
      ((remove 3 t k = some (t1, 0) ∧
          ∀ a, lockedLeaf 3 t k = some a → (t1.heap a).isSome = true) ∨
        (remove 3 t k = none ∧ ∃ a, lockedLeaf 3 t k = some a ∧ t1.heap a = none)) := by
  have hinv : Inv 3 t := run_inv rfl fr ops empty t rs (Inv_empty 3) hrun
  obtain ⟨t1, r, h1, -, h3⟩ := remove_spec rfl t k hinv
  obtain ⟨hr0, hsz, l1, v, l2, he, he1⟩ := h3 ks hks hk
  subst hr0
  obtain ⟨ks', hks', hsorted⟩ := leafKeys_sorted_of_inv hinv
  rw [leafKeys_eq_map, he] at hks'
  simp only [Option.map_some', Option.some.injEq] at hks'
  subst hks'
  refine ⟨t1, l1, v, l2, h1, hsz, he, he1, by rw [leafKeys_eq_map, he1]; rfl, ?_,
    remove_of_body h1⟩
  have hnd := hsorted.nodup
  simp only [List.map_append, List.map_cons] at hnd ⊢
  have h4 := List.nodup_middle.1 hnd
  exact (List.nodup_cons.1 h4).1

end RemovePresent

section Claims

/-- C5: `remove` of a key of the leaf scan is undefined when the leaf that holds the key is
freed during the call, because the lock taken on that leaf is released at the return.  In an
order-3 tree of `int` keys on zero-filled memory: after `insert(1, 1)` the leaf scan is
`(1, 1)` and `size` is 0; the body of `remove(1)` returns 0 with an empty leaf scan and `size`
-1, but the locked root leaf, at address 0, is no longer allocated, so the call is undefined.
After `insert` of 1, 2, 3 and `remove(3)` the leaf scan is 1, 2 and `size` is 1; the body of
`remove(2)` returns 0 and leaves the scan `(1, 1)` and `size` 0, but the locked leaf, at
address 2, has been merged into its left sibling and freed, so the call is undefined.  The
calls of `func_test` (`insert` of 10, 20, 5, 15, 25, 18, 30, then `remove` of 5, 5, 18, 100)
all return, the removals with 0, 1, 0, 1, and leave the leaf scan 10, 15, 20, 25, 30. -/
theorem remove_present_key_frees_locked_leaf :
    observe 3 zeroFresh [.ins 1 1] = some ([0], [((1 : Int), (1 : Nat))], 0) ∧
    (run 3 zeroFresh [.ins (1 : Int) (1 : Nat)] empty).bind (fun s =>
      (removeBody 3 s.1 1).bind (fun q => (leafEntries q.1).map (fun es =>
        (q.2, es, q.1.size,
          (lockedLeaf 3 s.1 1).map (fun a => (a, (q.1.heap a).isSome))))))
      = some (0, [], -1, some (0, false)) ∧
    observe 3 zeroFresh [.ins (1 : Int) (1 : Nat), .rem 1] = none ∧
    observe 3 zeroFresh [.ins 1 1, .ins 2 2, .ins 3 3, .rem 3]
      = some ([0, 0, 0, 0], [((1 : Int), (1 : Nat)), (2, 2)], 1) ∧
    (run 3 zeroFresh [.ins (1 : Int) (1 : Nat), .ins 2 2, .ins 3 3, .rem 3] empty).bind (fun s =>
      (removeBody 3 s.1 2).bind (fun q => (leafEntries q.1).map (fun es =>
        (q.2, es, q.1.size,
          (lockedLeaf 3 s.1 2).map (fun a => (a, (q.1.heap a).isSome))))))
      = some (0, [(1, 1)], 0, some (2, false)) ∧
    observe 3 zeroFresh [.ins (1 : Int) (1 : Nat), .ins 2 2, .ins 3 3, .rem 3, .rem 2]
      = none ∧
    observe 3 zeroFresh (funcTestOps ++ [.rem 5, .rem 18, .rem 100])
      = some ([0, 0, 0, 0, 0, 0, 0, 0, 1, 0, 1],
              [(10, 10), (15, 15), (20, 20), (25, 25), (30, 30)], 4) := by
  refine ⟨?_, ?_, ?_, ?_, ?_, ?_, ?_⟩ <;> rfl

end Claims

section SearchClaims

/-- C19: for every node whose keys `keys[0..n)` are strictly increasing, with `n ≤ order`, and
every key `k`, `Node::search(k)` returns (the binary search loop ends) the smallest index `i`
in `[0, n)` with `keys[i] ≥ k`, or `n` if there is none: every slot before `i` holds a key
below `k`, and every slot from `i` on holds a key that is at least `k`. -/
theorem search_returns_first_not_below {K V : Type} [LinearOrder K] (order : Nat)
    (nd : Node K V) (k : K) (hn : nd.n ≤ order) (hs : nd.sortedKeys) :
    ∃ i, nd.search order k = some i ∧ i ≤ nd.n ∧ (∀ x, x < i → nd.keys x < k) ∧
      (i < nd.n → k ≤ nd.keys i) ∧ (∀ x, i ≤ x → x < nd.n → k ≤ nd.keys x) ∧
      (i = nd.n → ∀ x, x < nd.n → nd.keys x < k) := by
  obtain ⟨i, h1, h2, h3, h4⟩ := search_spec order k hn hs
  exact ⟨i, h1, h2, h3, fun hi => h4 i le_rfl hi, h4, fun hi x hx => h3 x (hi ▸ hx)⟩

theorem search_returns_first_not_below_witness :
    searchDemoNode.n ≤ 4 ∧ searchDemoNode.sortedKeys ∧
      ∃ i, searchDemoNode.search 4 15 = some i ∧ i ≤ searchDemoNode.n ∧
        (∀ x, x < i → searchDemoNode.keys x < 15) ∧
        (i < searchDemoNode.n → 15 ≤ searchDemoNode.keys i) ∧
        (∀ x, i ≤ x → x < searchDemoNode.n → 15 ≤ searchDemoNode.keys x) ∧
        (i = searchDemoNode.n → ∀ x, x < searchDemoNode.n → searchDemoNode.keys x < 15) :=
  have hs : searchDemoNode.sortedKeys := fun i j hij _ => by
    show 10 * (i : Int) < 10 * (j : Int)
    omega
  ⟨by decide, hs, search_returns_first_not_below 4 searchDemoNode 15 (by decide) hs⟩

/-- C20 fails on the code: a sorted leaf of an order-3 tree with the single key `-5`, whose
unused slot `keys[1]` holds `0`.  `Node::hasKey(0)` computes `search(0) = n = 1` and compares
`keys[1]` with the key, so it returns true although `0` is none of the current keys. -/
theorem hasKey_true_on_unused_slot :
    staleSlotNode.n < 3 ∧ staleSlotNode.sortedKeys ∧ staleSlotNode.keyList = [-5] ∧
      staleSlotNode.search 3 0 = some 1 ∧ staleSlotNode.hasKey 3 0 = some true ∧
      (0 : Int) ∉ staleSlotNode.keyList := by
  refine ⟨by decide, ?_, by decide, by decide, by decide, by decide⟩
  intro i j hij hj
  have : j < 1 := hj
  omega

end SearchClaims

section FindPath

variable {K V : Type} [LinearOrder K]

/-- The leaf at the end of the search path of `key` holds `key` if the tree does. -/
theorem Path_leaf_has_key {order : Nat} {key : K} {h : Heap K V}
    {bt : BT K V} {s : List Nat} {lf : Nat} (hp : Path key bt s lf) :
    ∀ {d cmin cmax : Nat} {lo : WithBot K} {hi : WithTop K},
      Good order d cmin cmax lo hi bt → Rep h bt →
      ∃ ndl, h lf = some ndl ∧ ndl.IS_LEAF = true ∧ (key ∈ bt.keys → key ∈ ndl.keyList) := by
  induction hp with
  | leaf a es =>
    intro d cmin cmax lo hi hg hr
    cases hr with
    | @leaf _ _ nd ha hl he =>
      refine ⟨nd, ha, hl, ?_⟩
      intro hm
      rw [keys_leaf, ← he, entries_map_fst] at hm
      exact hm
  | node a kpre kpost pre post c s lf hlen hk1 hk2 _ ih =>
    intro d cmin cmax lo hi hg hr
    cases d with
    | zero => simp [Good] at hg
    | succ d =>
      simp only [Good] at hg
      obtain ⟨g1, g2, g3, g4, g5⟩ := hg
      obtain ⟨f1, -, -⟩ := Kids_focus hlen g5
      obtain ⟨nd, ha, hl, hk, hpp, hrc, hpre, hpost⟩ := Rep_node_parts hr
      obtain ⟨ndl, q1, q2, q3⟩ := ih f1 hrc
      refine ⟨ndl, q1, q2, fun hm => q3 ?_⟩
      exact Kids_key_focus a key kpost post c hi kpre pre lo hlen
        (Kids_mono (fun lo hi c hc => Good_keys_sorted hc) _ _ lo hi g5) g3 g4 hk1 hk2 hm

/-- The stack of `findNodeByKey`, read from its bottom, is a routed path from the top node of
the subtree to the leaf. -/
theorem Path_routed {order : Nat} {key : K} {h : Heap K V}
    {bt : BT K V} {s : List Nat} {lf : Nat} (hp : Path key bt s lf) :
    ∀ {d cmin cmax : Nat} {lo : WithBot K} {hi : WithTop K},
      Good order d cmin cmax lo hi bt → Rep h bt →
      ∃ rest, (lf :: s).reverse = bt.addr :: rest ∧ Routed h key (bt.addr :: rest) := by
  induction hp with
  | leaf a es =>
    intro d cmin cmax lo hi hg hr
    obtain ⟨nd, ha, hl, -⟩ := Rep_leaf_cell hr
    exact ⟨[], rfl, nd, ha, hl⟩
  | node a kpre kpost pre post c s lf hlen hk1 hk2 _ ih =>
    intro d cmin cmax lo hi hg hr
    cases d with
    | zero => simp [Good] at hg
    | succ d =>
      simp only [Good] at hg
      obtain ⟨g1, g2, g3, g4, g5⟩ := hg
      obtain ⟨f1, -, -⟩ := Kids_focus hlen g5
      obtain ⟨nd, ha, hl, hk, hpp, hrc, hpre, hpost⟩ := Rep_node_parts hr
      obtain ⟨rest, q1, q2⟩ := ih f1 hrc
      have hptr : nd.ptr pre.length = some c.addr :=
        ptr_at nd.ptr (fun (t : BT K V) => some t.addr) pre post c (by simpa using hpp)
      have hn : nd.n = kpre.length + kpost.length := by
        rw [← keyList_length, hk, List.length_append]
      have htake : nd.keyList.take kpre.length = kpre := by
        rw [hk, List.take_left']
        rfl
      have hdrop : nd.keyList.drop kpre.length = kpost := by
        rw [hk, List.drop_left']
        rfl
      have hlow : ∀ i, i < kpre.length → nd.keys i ≤ key := by
        intro i hi
        apply hk1
        rw [← htake, mem_take_keyList (by omega)]
        exact ⟨i, hi, rfl⟩
      have hhigh : ∀ i, kpre.length ≤ i → i < nd.n → key < nd.keys i := by
        intro i hi hin
        apply hk2
        rw [← hdrop, mem_drop_keyList]
        exact ⟨i, hi, hin, rfl⟩
      have hsk : nd.sortedKeys := (sortedKeys_iff nd).2 (hk ▸ g3)
      refine ⟨c.addr :: rest, ?_, ⟨nd, kpre.length, ha, hl, by omega, by rw [hlen]; exact hptr,
        hlow, hhigh, ?_⟩, q2⟩
      · rw [← List.cons_append, List.reverse_append, q1]
        rfl
      · intro i hi he
        have h1 : i < kpre.length := by
          by_contra hc
          have := hhigh i (by omega) hi
          rw [he] at this
          exact lt_irrefl _ this
        by_contra hne
        have h2 : i + 1 < kpre.length := by omega
        have h3 := hlow (i + 1) h2
        have h4 := hsk i (i + 1) (by omega) (by omega)
        rw [he] at h4
        exact absurd h3 (not_le.2 h4)

end FindPath

section FindClaim

/-- C18: for every non-empty tree satisfying the invariant of the data model and every key
`k`, `findNodeByKey(k)` returns a path whose first node is the root, whose last node is a
leaf, and in which each node is the child `ptr[j]` of the node before it, `j` being the
number of that node's keys that are at most `k` (a key equal to a separator goes to the
child on the separator's right); if `k` is in the leaf scan, it is a key of the leaf at the
end of the path. -/
theorem findNodeByKey_routes_to_leaf {K V : Type} [LinearOrder K] (order : Nat)
    (t : Tree K V) (k : K) (hinv : Inv order t) (hroot : t.root ≠ none) :
    ∃ lf stk nd, findNodeByKey order t k = some (lf :: stk) ∧
      (lf :: stk).reverse.head? = t.root ∧ Routed t.heap k (lf :: stk).reverse ∧
      (lf :: stk).reverse.getLast? = some lf ∧
      t.heap lf = some nd ∧ nd.IS_LEAF = true ∧
      ∀ ks, leafKeys t = some ks → k ∈ ks → k ∈ nd.keyList := by
  rcases hinv with ⟨h0, -⟩ | ⟨bt, d, hr0, hr, hg, hnd, hlt, hch, hhead⟩
  · exact absurd h0 hroot
  · have hdl : d < t.next + 1 := by
      have h1 := Good_depth_lt hg
      have h2 := nodup_length_le hnd hlt
      omega
    obtain ⟨s, lf, hpath, hfind⟩ := findLoop_spec k hg (by omega) hr
    have hfind' := hfind (t.next + 1) [] hdl
    rw [List.append_nil] at hfind'
    obtain ⟨nd, c1, c2, c3⟩ := Path_leaf_has_key hpath hg hr
    obtain ⟨rest, q1, q2⟩ := Path_routed hpath hg hr
    refine ⟨lf, s, nd, by simp only [findNodeByKey, hr0, hfind'], ?_, ?_, ?_, c1, c2, ?_⟩
    · rw [q1, hr0]
      rfl
    · rw [q1]
      exact q2
    · simp
    · intro ks hks hm
      rw [(leafEntries_of_rep hr hnd hlt hch hhead).2] at hks
      cases hks
      exact c3 hm

theorem findNodeByKey_routes_to_leaf_witness :
    Inv 3 funcTestTree ∧ funcTestTree.root ≠ none ∧
      ∃ lf stk nd, findNodeByKey 3 funcTestTree 18 = some (lf :: stk) ∧
        (lf :: stk).reverse.head? = funcTestTree.root ∧
        Routed funcTestTree.heap 18 (lf :: stk).reverse ∧
        (lf :: stk).reverse.getLast? = some lf ∧
        funcTestTree.heap lf = some nd ∧ nd.IS_LEAF = true ∧
        ∀ ks, leafKeys funcTestTree = some ks → (18 : Int) ∈ ks → (18 : Int) ∈ nd.keyList :=
  have hinv : Inv 3 funcTestTree :=
    run_inv rfl zeroFresh funcTestOps empty funcTestTree [0, 0, 0, 0, 0, 0, 0, 0]
      (Inv_empty 3) rfl
  have hroot : funcTestTree.root ≠ none := by decide
  ⟨hinv, hroot, findNodeByKey_routes_to_leaf 3 funcTestTree 18 hinv hroot⟩

end FindClaim

section LeavesNonempty

variable {K V : Type} [LinearOrder K]

end LeavesNonempty

section InsertDepth

variable {K V : Type} [LinearOrder K]

/-- `insert` on a non-empty tree of depth `d`: the result is a tree of the data model of
depth `d` under the same root, or of depth `d + 1` under a root allocated by the call. -/
theorem insert_inv_depth {order : Nat} (ho : 3 ≤ order) (fr : Fresh K V) (t : Tree K V)
    (key : K) (value : V) {bt : BT K V} {d : Nat}
    (hroot : t.root = some bt.addr) (hr : Rep t.heap bt)
    (hg : Good order d 1 (order - 1) ⊥ ⊤ bt) (hnd : bt.addrs.Nodup)
    (hlt : ∀ a ∈ bt.addrs, a < t.next) (hch : Chain t.heap none bt.leaves none) :
    ∃ t1 r bt1 d1, insert order fr t key value = some (t1, r) ∧ t1.root = some bt1.addr ∧
      Rep t1.heap bt1 ∧ Good order d1 1 (order - 1) ⊥ ⊤ bt1 ∧
      ((d1 = d ∧ t1.root = t.root) ∨
        (d1 = d + 1 ∧ ∃ nx, t.next ≤ nx ∧ t1.root = some nx)) := by
  have hord : order - 1 + 1 = order := by omega
  have hdl : d < t.next + 1 := by
    have h1 := Good_depth_lt hg
    have h2 := nodup_length_le hnd hlt
    omega
  obtain ⟨s, lf, hpath, hfind⟩ := findLoop_spec key hg (by omega) hr
  have hfind' := hfind (t.next + 1) [] hdl
  rw [List.append_nil] at hfind'
  obtain ⟨ndl, c1, c2, c3, c4, c5⟩ := Path_leaf_cell hpath hg le_rfl hr
  have hn : ndl.n < order := by omega
  obtain ⟨b, arg, k1, k2, k3, k4, k5⟩ := Node.hasKey_spec key hn c3
  have hstart : insert order fr t key value
      = match b with
        | true =>
          match ndl.update order key value with
          | none => none
          | some nd1 => some ({ t with heap := Function.update t.heap lf (some nd1) }, 1)
        | false =>
          match ndl.insert order key value with
          | none => none
          | some nd1 =>
            match maintainAfterInsert order fr
                { t with heap := Function.update t.heap lf (some nd1) } (lf :: s) with
            | none => none
            | some t1 => some ({ t1 with size := wrapInt (t1.size + 1) }, 0) := by
    simp only [insert, hroot, findNodeByKey, hfind', c1, k1]
    cases b <;> rfl
  rw [hstart]
  cases b with
  | true =>
    obtain ⟨nd1, u1, u2, u3, u4, u5, u6⟩ :=
      Node.update_spec key value c2 k2 (by have := k3.1; omega) (k4.1 rfl)
    have hkl : nd1.keyList = ndl.keyList := by simp [Node.keyList, u4, u5]
    obtain ⟨bt1, r1, r2, r3, r4, r5, r6, r7⟩ := Path_leaf_update u2 hpath hr hnd hlt
      (fun x hx => by
        rw [c1] at hx
        rw [← Option.some.inj hx]
        exact hkl)
    simp only [u1]
    refine ⟨_, 1, bt1, d, rfl, ?_, r1, r6 _ _ _ _ _ _ hg, Or.inl ⟨rfl, rfl⟩⟩
    simp only [r2]; exact hroot
  | false =>
    have habs : key ∉ ndl.keyList := fun hm => by simpa using (k5 hm).1
    obtain ⟨ndl1, arg1, i1, i2, i3, i4, i5, i6⟩ := Node.insert_spec key value c2 hn c3
    have hlnd := leaves_nodup hnd
    obtain ⟨bt1, nx1, h1, hI, hr1, hf1, hch1, hloop⟩ :=
      upLoop_spec ho fr key value c1 habs i1 hpath [] [] hg
        (by omega) bot_le (WithTop.coe_lt_top _) hr hnd hlt (by simpa using hch)
        (by simpa using hlnd) (by simp)
    simp only [List.nil_append, List.append_nil] at hch1
    have haddr := Ins_addr hI
    have hnx := Ins_next hI
    have hg1 := Ins_good ho hI hg (by omega) bot_le (WithTop.coe_lt_top _)
    have hnd1 := Ins_nodup hI hnd hlt
    have hlt1 : ∀ a ∈ bt1.addrs, a < nx1 := by
      intro a ha
      rcases (Ins_mem_addrs hI a).1 ha with h | h
      · exact lt_of_lt_of_le (hlt a h) hnx
      · exact h.2
    obtain ⟨cn, hcn, hcnn⟩ := Rep_cell hr1
    have hcase : bt1.count < order →
        ∃ t1 r bt2 d1,
          some (({ t with heap := h1, next := nx1, size := wrapInt (t.size + 1) } : Tree K V), 0)
            = some (t1, r) ∧ t1.root = some bt2.addr ∧
          Rep t1.heap bt2 ∧ Good order d1 1 (order - 1) ⊥ ⊤ bt2 ∧
          ((d1 = d ∧ t1.root = t.root) ∨
            (d1 = d + 1 ∧ ∃ nx, t.next ≤ nx ∧ t1.root = some nx)) := by
      intro hc
      refine ⟨_, 0, bt1, d, rfl, ?_, hr1,
        Good_recount hg1 (Good_count hg1).1 (Nat.le_sub_one_of_lt hc),
        Or.inl ⟨rfl, rfl⟩⟩
      simp only [haddr]; exact hroot
    have hl := hloop []
    rw [List.append_nil] at hl
    simp only [i1]
    rcases hl with hl | ⟨hc, hl⟩
    · simp only [upLoop] at hl
      by_cases hover : order ≤ bt1.count
      · have hcnt : bt1.count = order := by
          have := (Good_count hg1).2
          omega
        have hg1' : Good order d 1 order ⊥ ⊤ bt1 := by
          rw [hord] at hg1
          exact hg1
        obtain ⟨h2, bt2, s1, s2, s3, s4, s5, s6, s7, s8, s9, s10⟩ :=
          root_split ho fr hr1 hg1' hcnt hnd1 hlt1 hch1
        rw [haddr] at s1 hcn
        rw [maintain_root_over fr (t := { t with heap := Function.update t.heap lf (some ndl1) })
          hl hcn (by omega) s1]
        refine ⟨_, 0, bt2, d + 1, rfl, ?_, s3, s4, Or.inr ⟨rfl, nx1, hnx, rfl⟩⟩
        simp only [s2]
      · rw [haddr] at hcn
        rw [maintain_root_ok fr (t := { t with heap := Function.update t.heap lf (some ndl1) })
          hl hcn (by omega)]
        exact hcase (by omega)
    · rw [maintain_return fr (t := { t with heap := Function.update t.heap lf (some ndl1) })
        hl]
      exact hcase hc

end InsertDepth

section InsertClaim

/-- C11: for every order of at least 3, `insert` on a state satisfying the invariant of the
data model (non-root nodes hold between `(order-1)/2` and `order-1` keys, keys strictly
increasing in every node, all leaves at the same depth, separators partition the keys of the
children) returns in a state satisfying it again; a non-empty tree of depth `d` becomes a
tree of depth `d` under the same root, or a tree of depth `d + 1` under a root that the
call has allocated (the split of the root). -/
theorem insert_preserves_structure {K V : Type} [LinearOrder K] (order : Nat)
    (ho : 3 ≤ order) (fr : Fresh K V) (t : Tree K V) (key : K) (value : V)
    (hinv : Inv order t) :
    ∃ t1 r, insert order fr t key value = some (t1, r) ∧ Inv order t1 ∧
      ∀ (bt : BT K V) (d : Nat), t.root = some bt.addr → Rep t.heap bt →
        Good order d 1 (order - 1) ⊥ ⊤ bt → bt.addrs.Nodup → (∀ a ∈ bt.addrs, a < t.next) →
        Chain t.heap none bt.leaves none →
        ∃ bt1 d1, t1.root = some bt1.addr ∧ Rep t1.heap bt1 ∧
          Good order d1 1 (order - 1) ⊥ ⊤ bt1 ∧
          ((d1 = d ∧ t1.root = t.root) ∨
            (d1 = d + 1 ∧ ∃ nx, t.next ≤ nx ∧ t1.root = some nx)) := by
  obtain ⟨t1, r, h1, h2⟩ := insert_inv ho fr t key value hinv
  refine ⟨t1, r, h1, h2, ?_⟩
  intro bt d hroot hr hg hnd hlt hch
  obtain ⟨t2, r2, bt1, d1, q1, q2, q3, q4, q5⟩ :=
    insert_inv_depth ho fr t key value hroot hr hg hnd hlt hch
  rw [h1] at q1
  simp only [Option.some.injEq, Prod.mk.injEq] at q1
  obtain ⟨e1, -⟩ := q1
  subst e1
  exact ⟨bt1, d1, q2, q3, q4, q5⟩

theorem insert_preserves_structure_witness :
    (3 : Nat) ≤ 3 ∧ Inv 3 funcTestTree ∧
      ∃ t1 r, insert 3 zeroFresh funcTestTree 40 40 = some (t1, r) ∧ Inv 3 t1 ∧
        ∀ (bt : BT Int Nat) (d : Nat), funcTestTree.root = some bt.addr →
          Rep funcTestTree.heap bt →
          Good 3 d 1 (3 - 1) ⊥ ⊤ bt → bt.addrs.Nodup →
          (∀ a ∈ bt.addrs, a < funcTestTree.next) →
          Chain funcTestTree.heap none bt.leaves none →
          ∃ bt1 d1, t1.root = some bt1.addr ∧ Rep t1.heap bt1 ∧
            Good 3 d1 1 (3 - 1) ⊥ ⊤ bt1 ∧
            ((d1 = d ∧ t1.root = funcTestTree.root) ∨
              (d1 = d + 1 ∧ ∃ nx, funcTestTree.next ≤ nx ∧ t1.root = some nx)) :=
  have hinv : Inv 3 funcTestTree :=
    run_inv rfl zeroFresh funcTestOps empty funcTestTree [0, 0, 0, 0, 0, 0, 0, 0]
      (Inv_empty 3) rfl
  ⟨le_refl 3, hinv, insert_preserves_structure 3 (le_refl 3) zeroFresh funcTestTree 40 40 hinv⟩

end InsertClaim

section RemoveRoot

variable {K V : Type} [LinearOrder K]

/-- The body of `remove` on a state satisfying the invariant, in a tree whose nodes hold at
least one key: it runs to its end; it leaves the state as it is and returns 1, or it returns 0
and treats the root as `RootOutcome` says. -/
theorem remove_cases {order : Nat} (hmid : (order - 1) / 2 = 1) (t : Tree K V) (key : K)
    (hinv : Inv order t) :
    ∃ t1 r, removeBody order t key = some (t1, r) ∧
      ((t1 = t ∧ r = 1) ∨ (r = 0 ∧ RootOutcome order t t1)) := by
  rcases hinv with ⟨hroot, hhead⟩ | ⟨bt, d, hroot, hr, hg, hnd, hlt, hch, hhead⟩
  · exact ⟨t, 1, by simp only [removeBody, hroot], Or.inl ⟨rfl, rfl⟩⟩
  · have ho : 3 ≤ order := by omega
    have hdl : d < t.next + 1 := by
      have h1 := Good_depth_lt hg
      have h2 := nodup_length_le hnd hlt
      omega
    obtain ⟨s, lf, hpath, hfind⟩ := findLoop_spec key hg (by omega) hr
    have hfind' := hfind (t.next + 1) [] hdl
    rw [List.append_nil] at hfind'
    obtain ⟨ndl, c1, c2, c3, c4, c5⟩ := Path_leaf_cell hpath hg le_rfl hr
    obtain ⟨ndl', q1, q2, q3⟩ := Path_leaf_key hmid hpath hg le_rfl hr
    have : ndl' = ndl := by rw [c1] at q1; exact (Option.some.inj q1).symm
    subst this
    have hn : ndl'.n < order := by omega
    obtain ⟨b, arg, k1, k2, k3, k4, k5⟩ := Node.hasKey_spec key hn c3
    have hstart : removeBody order t key
        = match b with
          | false => some (t, 1)
          | true =>
            match ndl'.remove order key with
            | none => none
            | some nd1 =>
              match maintainAfterRemove order
                  { t with heap := Function.update t.heap lf (some nd1) } (lf :: s) with
              | none => none
              | some t1 => some ({ t1 with size := wrapInt (t1.size - 1) }, 0) := by
      simp only [removeBody, hroot, findNodeByKey, hfind', c1, k1]
      cases b <;> rfl
    rw [hstart]
    cases b with
    | false => exact ⟨t, 1, rfl, Or.inl ⟨rfl, rfl⟩⟩
    | true =>
      obtain ⟨nd1, arg1, r1, r2, r3, r4, r5, r6⟩ :=
        Node.remove_leaf_spec order key c2 (le_of_lt hn) c3 (by omega)
      have hj : (if arg1 < ndl'.n then arg1 else ndl'.n - 1) < ndl'.entries.length := by
        rw [entries_length]
        split <;> omega
      generalize (if arg1 < ndl'.n then arg1 else ndl'.n - 1) = j at r6 hj
      have hsplit := entries_split_at ndl'.entries j hj
      generalize ndl'.entries.get ⟨j, hj⟩ = e at hsplit
      obtain ⟨bt1, h1, hD, hr1, hf1, hch1, hloop⟩ :=
        downLoop_spec hmid key e c1 hsplit r3 r4 r6 hpath [] [] hg le_rfl le_rfl hr hnd
          (by simpa using hch) (by simpa using leaves_nodup hnd)
      have hloop' := hloop []
      rw [List.append_nil] at hloop'
      have haddr := Del_addr hD
      have hg1 := Del_good hmid hD hg
      have hnd1 := Del_nodup hD hnd
      obtain ⟨rn, hrn, hrnn⟩ := Rep_cell hr1
      rw [haddr] at hrn
      simp only [r1]
      have good : 1 ≤ bt1.count →
          maintainAfterRemove order { t with heap := Function.update t.heap lf (some nd1) }
            (lf :: s) = some { t with heap := h1 } →
          ∃ t1 r, (match maintainAfterRemove order
                { t with heap := Function.update t.heap lf (some nd1) } (lf :: s) with
              | none => none
              | some t1 => some ({ t1 with size := wrapInt (t1.size - 1) }, 0)) = some (t1, r) ∧
            ((t1 = t ∧ r = 1) ∨ (r = 0 ∧ RootOutcome order t t1)) := by
        intro hcnt hm
        rw [hm]
        have hgood : Good order d 1 (order - 1) ⊥ ⊤ bt1 :=
          Good_recount hg1 hcnt (Good_count hg1).2
        exact ⟨_, 0, rfl, Or.inr ⟨rfl, bt, d, e, bt1, h1, hroot, hr, hg, hD, hr1,
          Or.inl ⟨hcnt, rfl, rfl, rfl, hgood⟩⟩⟩
      rcases hloop' with hl1 | ⟨hcnt, x, hl1⟩
      · have hl2 : downLoop order s lf (Function.update t.heap lf (some nd1))
            = some (h1, bt.addr, true) := by
          rw [hl1]
          rfl
        by_cases hz : rn.n = 0
        · have hc0 : bt1.count = 0 := by rw [← hrnn]; exact hz
          cases bt1 with
          | leaf a es =>
            have hes : es = [] := List.length_eq_zero.1 hc0
            subst hes
            have ha : a = bt.addr := haddr
            subst ha
            have hrl : rn.IS_LEAF = true := by
              obtain ⟨nd2, m1, m2, -⟩ := Rep_leaf_cell hr1
              rw [hrn] at m1
              cases m1
              exact m2
            have hm := @maintainRemove_root_leaf K V _ order
              { t with heap := Function.update t.heap lf (some nd1) } lf bt.addr s h1 rn
              hl2 hroot hrn hz hrl
            rw [hm]
            exact ⟨_, 0, rfl, Or.inr ⟨rfl, bt, d, e, _, h1, hroot, hr, hg, hD, hr1,
              Or.inr (Or.inl ⟨bt.addr, rfl, Good_leaf_depth hg1, rfl, rfl⟩)⟩⟩
          | node a ks cs =>
            have hks : ks = [] := List.length_eq_zero.1 hc0
            subst hks
            obtain ⟨x, hx⟩ : ∃ x, cs = [x] := by
              obtain ⟨d1, hd1⟩ := Good_node_depth hg1
              subst hd1
              have hgk := hg1
              simp only [Good] at hgk
              have := Kids_length _ _ _ _ hgk.2.2.2.2
              cases cs with
              | nil => simp at this
              | cons x r =>
                cases r with
                | nil => exact ⟨x, rfl⟩
                | cons y r => simp at this
            subst hx
            have ha : a = bt.addr := haddr
            subst ha
            obtain ⟨d1, hd1, hgx⟩ := Good_empty_node hg1
            rw [hmid] at hgx
            obtain ⟨nd2, m1, m2', -, m4, m5⟩ := Rep_node_cell hr1
            have hrn2 : nd2 = rn := by rw [hrn] at m1; exact (Option.some.inj m1).symm
            have m2 : rn.IS_LEAF = false := hrn2 ▸ m2'
            have hp0 : rn.ptr 0 = some x.addr := by
              rw [← hrn2]
              simpa [List.range_succ] using m4
            have hm := @maintainRemove_root_node K V _ order
              { t with heap := Function.update t.heap lf (some nd1) } lf bt.addr s h1 rn
              hl2 hroot hrn hz m2
            rw [hm, hp0]
            have hndx := hnd1
            simp only [BT.addrs, BT.addrsL, List.append_nil, List.nodup_cons] at hndx
            have hrx : Rep (Function.update h1 bt.addr none) x :=
              Rep_frame (m5 x (by simp)) (fun z hz => by
                have : z ≠ bt.addr := fun e => hndx.1 (e ▸ hz)
                rw [Function.update_noteq this])
            exact ⟨_, 0, rfl, Or.inr ⟨rfl, bt, d, e, _, h1, hroot, hr, hg, hD, hr1,
              Or.inr (Or.inr ⟨bt.addr, x, d1, rfl, hd1, rfl, rfl, rfl, hrx, hgx⟩)⟩⟩
        · exact good (by omega) (maintainRemove_root_ok hl2 hroot hrn hz)
      · exact good hcnt (maintainRemove_return hl1)

end RemoveRoot

section RemoveRootClaim

/-- C13: the case "the root is a leaf and loses its last key" frees the root leaf while the
call still holds the lock on it.  In an order-3 tree of `int` keys on zero-filled memory,
after `insert(1, 1)` the root and `head` are the leaf at address 0; the body of `remove(1)`
returns 0 and leaves `root` and `head` absent, as the claim says, but the locked leaf at
address 0 is no longer allocated, so the `remove` call is undefined.  The case "the root is an
internal node left with zero keys" after `insert` of 1, 2, 3 and `remove(3)`: the root is the
internal node at address 1 over the leaves at 0 and 2; the body of `remove(2)` returns 0, makes
the leaf at address 0 the root (with one key) and leaves `head` there, but the locked leaf at
address 2 has been merged into its left sibling and freed, so the call is undefined. -/
theorem remove_last_key_frees_locked_root :
    (run 3 zeroFresh [.ins (1 : Int) (1 : Nat)] empty).map (fun s =>
        (s.1.root, s.1.head, keysAt s.1.heap 0, lockedLeaf 3 s.1 1))
      = some (some 0, some 0, some [1], some 0) ∧
    (run 3 zeroFresh [.ins (1 : Int) (1 : Nat)] empty).bind (fun s =>
        (removeBody 3 s.1 1).map (fun q =>
          (q.2, q.1.root, q.1.head, (q.1.heap 0).isSome)))
      = some (0, none, none, false) ∧
    (run 3 zeroFresh [.ins (1 : Int) (1 : Nat)] empty).bind (fun s => remove 3 s.1 1) = none ∧
    (run 3 zeroFresh [.ins (1 : Int) (1 : Nat), .ins 2 2, .ins 3 3, .rem 3] empty).map (fun s =>
        (s.1.root, s.1.head, keysAt s.1.heap 1, childrenAt s.1.heap 1, lockedLeaf 3 s.1 2))
      = some (some 1, some 0, some [2], some [some 0, some 2], some 2) ∧
    (run 3 zeroFresh [.ins (1 : Int) (1 : Nat), .ins 2 2, .ins 3 3, .rem 3] empty).bind (fun s =>
        (removeBody 3 s.1 2).map (fun q =>
          (q.2, q.1.root, q.1.head, keysAt q.1.heap 0, (q.1.heap 1).isSome,
            (q.1.heap 2).isSome)))
      = some (0, some 0, some 0, some [1], false, false) ∧
    (run 3 zeroFresh [.ins (1 : Int) (1 : Nat), .ins 2 2, .ins 3 3, .rem 3] empty).bind
        (fun s => remove 3 s.1 2) = none := by
  refine ⟨?_, ?_, ?_, ?_, ?_, ?_⟩ <;> rfl

end RemoveRootClaim

section IndexSlip

/-- The order-5 tree after seven inserts satisfies the invariant. -/
theorem order5Tree_inv : Inv 5 order5Tree := by
  obtain ⟨t, rs, h1, h2⟩ := run_inserts_inv (by decide : 3 ≤ 5) zeroFresh
    [((1 : Int), 1), (2, 2), (3, 3), (4, 4), (5, 5), (6, 6), (7, 7)] empty (Inv_empty 5)
  have h3 : run 5 zeroFresh order5Ops empty = some (order5Tree, [0, 0, 0, 0, 0, 0, 0]) := rfl
  have h4 : run 5 zeroFresh order5Ops empty = some (t, rs) := h1
  rw [h3] at h4
  simp only [Option.some.injEq, Prod.mk.injEq] at h4
  rw [h4.1]
  exact h2

/-- The order-5 tree after ten inserts satisfies the invariant. -/
theorem borrowDemoTree_inv : Inv 5 borrowDemoTree := by
  obtain ⟨t, rs, h1, h2⟩ := run_inserts_inv (by decide : 3 ≤ 5) zeroFresh
    [((1 : Int), 1), (2, 2), (3, 3), (4, 4), (5, 5), (6, 6), (7, 7), (8, 8), (9, 9), (0, 0)]
    empty (Inv_empty 5)
  have h3 : run 5 zeroFresh borrowDemoOps empty
      = some (borrowDemoTree, [0, 0, 0, 0, 0, 0, 0, 0, 0, 0]) := rfl
  have h4 : run 5 zeroFresh borrowDemoOps empty = some (t, rs) := h1
  rw [h3] at h4
  simp only [Option.some.injEq, Prod.mk.injEq] at h4
  rw [h4.1]
  exact h2

/-- C14 fails on the code.  The order-5 tree after `insert 1..7` satisfies the invariant; its
root (address 1) has the keys `3 5` and the children 0, 2, 3, and the leaf 2, child number 1,
holds `3 4`.  When `remove(4)` has taken 4 out of leaf 2, the leaf underflows with the single
key 3, and `adjustNodeForDownOver` computes `parent->search(3) = 0` for it: slot 0 of the
root points to leaf 0, not to leaf 2, and "the right sibling" `ptr[0 + 1]` is leaf 2 itself.
The call `remove(4)` leaves defined behaviour. -/
theorem childIndex_misses_position :
    run 5 zeroFresh order5Ops empty = some (order5Tree, [0, 0, 0, 0, 0, 0, 0]) ∧
      Inv 5 order5Tree ∧
      findNodeByKey 5 order5Tree 4 = some [2, 1] ∧
      keysAt order5Tree.heap 1 = some [3, 5] ∧
      childrenAt order5Tree.heap 1 = some [some 0, some 2, some 3] ∧
      (afterLeafRemove 5 order5Tree 2 4).bind (fun h => keysAt h 2) = some [3] ∧
      (afterLeafRemove 5 order5Tree 2 4).bind (fun h => childIndex 5 h 2 1) = some 0 ∧
      remove 5 order5Tree 4 = none :=
  ⟨rfl, order5Tree_inv, rfl, rfl, rfl, rfl, rfl, rfl⟩

/-- C17 fails on the code.  The order-5 tree after `insert 1..9, insert 0` satisfies the
invariant; its root (address 1) has the keys `3 5 7` and the leaves 0, 2, 3, 4 as children,
holding `0 1 2`, `3 4`, `5 6`, `7 8 9`.  When `remove(6)` has taken 6 out of leaf 3,
`adjustNodeForDownOver` computes the index 1 for it instead of 2 and borrows from `ptr[0]`,
which is not its left neighbour: key 2 moves from leaf 0 into leaf 3 and becomes separator 0,
the left neighbour `3 4` and the separator 5 between it and leaf 3 stay, and the leaf scan
after the call is out of order. -/
theorem leaf_borrow_from_distant_leaf :
    run 5 zeroFresh borrowDemoOps empty
        = some (borrowDemoTree, [0, 0, 0, 0, 0, 0, 0, 0, 0, 0]) ∧
      Inv 5 borrowDemoTree ∧
      findNodeByKey 5 borrowDemoTree 6 = some [3, 1] ∧
      (keysAt borrowDemoTree.heap 1, childrenAt borrowDemoTree.heap 1,
          keysAt borrowDemoTree.heap 0, keysAt borrowDemoTree.heap 2,
          keysAt borrowDemoTree.heap 3)
        = (some [3, 5, 7], some [some 0, some 2, some 3, some 4],
            some [0, 1, 2], some [3, 4], some [5, 6]) ∧
      (afterLeafRemove 5 borrowDemoTree 3 6).bind (fun h => childIndex 5 h 3 1) = some 1 ∧
      (afterLeafRemove 5 borrowDemoTree 3 6).bind (fun h =>
          (adjustNodeForDownOver 5 h 3 1).map (fun h2 =>
            (keysAt h2 1, childrenAt h2 1, keysAt h2 0, keysAt h2 2, keysAt h2 3)))
        = some (some [2, 5, 7], some [some 0, some 2, some 3, some 4],
            some [0, 1], some [3, 4], some [2, 5]) ∧
      (remove 5 borrowDemoTree 6).bind (fun p => leafKeys p.1)
        = some [0, 1, 3, 4, 2, 5, 7, 8, 9] :=
  ⟨rfl, borrowDemoTree_inv, rfl, rfl, rfl, rfl, rfl⟩

end IndexSlip

section MergeChoice

/-- C15 as stated fails on the code.  In the order-3 tree after `insert 1..4, remove 4` the
root (address 1) has the keys `2 3` and the leaves 0, 2, 3 as children, each holding one
key, the minimum count.  When `remove(2)` has emptied leaf 2, which has a left and a right
sibling, `adjustNodeForDownOver` merges it into its left sibling: leaf 2 is freed and the
root keeps the children 0 and 3; the node does not absorb its right sibling, leaf 3. -/
theorem merge_takes_left_sibling :
    run 3 zeroFresh mergeDemoOps empty = some (mergeDemoTree, [0, 0, 0, 0, 0]) ∧
      findNodeByKey 3 mergeDemoTree 2 = some [2, 1] ∧
      (keysAt mergeDemoTree.heap 1, childrenAt mergeDemoTree.heap 1,
          keysAt mergeDemoTree.heap 0, keysAt mergeDemoTree.heap 2,
          keysAt mergeDemoTree.heap 3)
        = (some [2, 3], some [some 0, some 2, some 3], some [1], some [2], some [3]) ∧
      (afterLeafRemove 3 mergeDemoTree 2 2).bind (fun h =>
          (adjustNodeForDownOver 3 h 2 1).map (fun h2 =>
            (keysAt h2 1, childrenAt h2 1, keysAt h2 0, keysAt h2 2, keysAt h2 3)))
        = some (some [3], some [some 0, some 3], some [1], none, some [3]) :=
  ⟨rfl, rfl, rfl, rfl⟩

/-- C15, amended: when no sibling of the underflowing node at the index that
`adjustNodeForDownOver` computes holds more than the minimum count `(order-1)/2`, the node is
merged into its left sibling whenever it has one, also when it has a right sibling (the left
sibling absorbs the node, and the separator `keys[arg-1]` leaves the parent); the node absorbs
its right sibling, the separator `keys[arg]` leaving the parent, only when it has no left
sibling. -/
theorem merge_prefers_left_sibling {K V : Type} [LinearOrder K] (order : Nat) (h : Heap K V)
    (node parent arg : Nat) (nd p : Node K V)
    (hn : h node = some nd) (hp : h parent = some p) (hpl : p.IS_LEAF = false)
    (hpn : p.n ≤ order) (harg : arg ≤ p.n)
    (hidx : childIndex order h node parent = some arg)
    (hleft : ∀ l, 0 < arg → p.ptr (arg - 1) = some l →
      ∃ ln, h l = some ln ∧ ln.n ≤ (order - 1) / 2)
    (hright : ∀ r, arg < p.n → p.ptr (arg + 1) = some r →
      ∃ rn, h r = some rn ∧ rn.n ≤ (order - 1) / 2) :
    (∀ l ln, 0 < arg → p.ptr (arg - 1) = some l → h l = some ln →
      adjustNodeForDownOver order h node parent
        = (if ln.IS_LEAF then merge order h l node
            else mergeInternal order h l (p.keys (arg - 1)) node).bind
          (fun h1 => modifyM h1 parent (fun x => x.remove order (p.keys (arg - 1))))) ∧
    (∀ r, arg = 0 ∨ p.ptr (arg - 1) = none → arg < p.n → p.ptr (arg + 1) = some r →
      adjustNodeForDownOver order h node parent
        = (if nd.IS_LEAF then merge order h node r
            else mergeInternal order h node (p.keys arg) r).bind
          (fun h1 => modifyM h1 parent (fun x => x.remove order (p.keys arg)))) := by
  simp only [childIndex, hn, hp] at hidx
  constructor
  · intro l ln hpos hl hln
    obtain ⟨ln', e1, hlpoor⟩ := hleft l hpos hl
    rw [hln] at e1
    cases e1
    have hlp : ¬ (order - 1) / 2 < ln.n := by omega
    have h1 : arg - 1 < order + 1 := by omega
    have h1' : arg - 1 < order := by omega
    simp only [adjustNodeForDownOver, hn, hp]
    rw [hidx]
    by_cases hlt : arg < p.n
    · have h3 : arg + 1 < order + 1 := by omega
      cases hr : p.ptr (arg + 1) with
      | none =>
        simp only [hpos, hlt, rdPtr, hpl, h1, h1', h3, hl, hln, hlp, hr, ↓reduceIte,
          Bool.false_eq_true, Option.map_some', decide_False]
        cases (if ln.IS_LEAF = true then merge order h l node
          else mergeInternal order h l (p.keys (arg - 1)) node) <;> rfl
      | some r =>
        obtain ⟨rn, hrn, hrpoor⟩ := hright r hlt hr
        have hrp : ¬ (order - 1) / 2 < rn.n := by omega
        simp only [hpos, hlt, rdPtr, hpl, h1, h1', h3, hl, hln, hlp, hr, hrn, hrp, ↓reduceIte,
          Bool.false_eq_true, Option.map_some', decide_False]
        cases (if ln.IS_LEAF = true then merge order h l node
          else mergeInternal order h l (p.keys (arg - 1)) node) <;> rfl
    · simp only [hpos, hlt, rdPtr, hpl, h1, h1', hl, hln, hlp, ↓reduceIte,
        Bool.false_eq_true, Option.map_some', decide_False]
      cases (if ln.IS_LEAF = true then merge order h l node
        else mergeInternal order h l (p.keys (arg - 1)) node) <;> rfl
  · intro r hnl hlt hr
    obtain ⟨rn, hrn, hrpoor⟩ := hright r hlt hr
    have hrp : ¬ (order - 1) / 2 < rn.n := by omega
    have h3 : arg + 1 < order + 1 := by omega
    have h4 : arg < order := by omega
    simp only [adjustNodeForDownOver, hn, hp]
    rw [hidx]
    by_cases hpos : 0 < arg
    · have hl : p.ptr (arg - 1) = none := by
        rcases hnl with h0 | h0
        · omega
        · exact h0
      have h1 : arg - 1 < order + 1 := by omega
      simp only [hpos, hlt, rdPtr, hpl, h1, h3, h4, hl, hr, hrn, hrp, ↓reduceIte,
        Bool.false_eq_true, Option.map_some', decide_False]
      cases (if nd.IS_LEAF = true then merge order h node r
        else mergeInternal order h node (p.keys arg) r) <;> rfl
    · simp only [hpos, hlt, rdPtr, hpl, h3, h4, hr, hrn, hrp, ↓reduceIte,
        Bool.false_eq_true, Option.map_some', decide_False]
      cases (if nd.IS_LEAF = true then merge order h node r
        else mergeInternal order h node (p.keys arg) r) <;> rfl

theorem merge_prefers_left_sibling_witness :
    ∃ nd p, mergeDemoHeap 2 = some nd ∧ mergeDemoHeap 1 = some p ∧ p.IS_LEAF = false ∧
      p.n ≤ 3 ∧ 1 ≤ p.n ∧ childIndex 3 mergeDemoHeap 2 1 = some 1 ∧
      (∀ l ln, 0 < 1 → p.ptr (1 - 1) = some l → mergeDemoHeap l = some ln →
        adjustNodeForDownOver 3 mergeDemoHeap 2 1
          = (if ln.IS_LEAF then merge 3 mergeDemoHeap l 2
              else mergeInternal 3 mergeDemoHeap l (p.keys (1 - 1)) 2).bind
            (fun h1 => modifyM h1 1 (fun x => x.remove 3 (p.keys (1 - 1))))) ∧
      (∀ r, 1 = 0 ∨ p.ptr (1 - 1) = none → 1 < p.n → p.ptr (1 + 1) = some r →
        adjustNodeForDownOver 3 mergeDemoHeap 2 1
          = (if nd.IS_LEAF then merge 3 mergeDemoHeap 2 r
              else mergeInternal 3 mergeDemoHeap 2 (p.keys 1) r).bind
            (fun h1 => modifyM h1 1 (fun x => x.remove 3 (p.keys 1)))) := by
  have e2 : (mergeDemoHeap 2).isSome = true := rfl
  have e1 : (mergeDemoHeap 1).map (fun p => (p.IS_LEAF, p.n, p.ptr 0, p.ptr 2))
      = some (false, 2, some 0, some 3) := rfl
  have e0 : (mergeDemoHeap 0).map (fun x => x.n) = some 1 := rfl
  have e3 : (mergeDemoHeap 3).map (fun x => x.n) = some 1 := rfl
  obtain ⟨nd, hn⟩ := Option.isSome_iff_exists.1 e2
  cases hp : mergeDemoHeap 1 with
  | none => rw [hp] at e1; cases e1
  | some p =>
    rw [hp] at e1
    simp only [Option.map_some', Option.some.injEq, Prod.mk.injEq] at e1
    obtain ⟨p1, p2, p3, p4⟩ := e1
    refine ⟨nd, p, hn, rfl, p1, by omega, by omega, rfl, ?_⟩
    refine merge_prefers_left_sibling 3 mergeDemoHeap 2 1 1 nd p hn hp p1 (by omega) (by omega)
      rfl ?_ ?_
    · intro l _ hl
      rw [p3] at hl
      cases hl
      cases h0 : mergeDemoHeap 0 with
      | none => rw [h0] at e0; cases e0
      | some ln =>
        rw [h0] at e0
        simp only [Option.map_some', Option.some.injEq] at e0
        exact ⟨ln, rfl, by omega⟩
    · intro r _ hr
      rw [p4] at hr
      cases hr
      cases h3 : mergeDemoHeap 3 with
      | none => rw [h3] at e3; cases e3
      | some rn =>
        rw [h3] at e3
        simp only [Option.map_some', Option.some.injEq] at e3
        exact ⟨rn, rfl, by omega⟩

end MergeChoice

section Separators

variable {K V : Type} [LinearOrder K]

/-- Children whose keys lie within their bounds are separated by the keys between them. -/
theorem Kids_sepLists :
    ∀ (ks : List K) (cs : List (BT K V)) (lo : WithBot K) (hi : WithTop K),
      Kids (fun (lo : WithBot K) (hi : WithTop K) (c : BT K V) =>
        ∀ k ∈ c.keys, lo ≤ (k : WithBot K) ∧ (k : WithTop K) < hi) lo hi ks cs →
      SepLists SepBounds ks cs
  | [], [], _, _, h => by simp [Kids] at h
  | [], [_], _, _, _ => by simp [SepLists]
  | [], _ :: _ :: _, _, _, h => by simp [Kids] at h
  | _ :: _, [], _, _, h => by simp [Kids] at h
  | k :: ks, [c], _, _, h => by
    simp only [Kids] at h
    exact absurd h.2 not_false
  | k :: ks, c :: r :: cs, lo, hi, h => by
    simp only [Kids] at h
    obtain ⟨h1, h2⟩ := h
    obtain ⟨h3, -, -⟩ := Kids_head h2
    refine ⟨⟨fun x hx => WithTop.coe_lt_coe.1 (h1 x hx).2,
      fun x hx => WithBot.coe_le_coe.1 (h3 x hx).1⟩, ?_⟩
    exact Kids_sepLists ks (r :: cs) _ hi h2

/-- In a tree of the data model every separator is above the keys of the subtree on its left
and a lower bound of the keys of the subtree on its right. -/
theorem Good_sepAll {order : Nat} :
    ∀ {d : Nat} {bt : BT K V} {cmin cmax : Nat} {lo : WithBot K} {hi : WithTop K},
      Good order d cmin cmax lo hi bt → SepAll SepBounds bt := by
  intro d
  induction d with
  | zero =>
    intro bt cmin cmax lo hi hg
    cases bt with
    | node a ks cs => simp [Good] at hg
    | leaf a es => exact SepAll.leaf a es
  | succ d ih =>
    intro bt cmin cmax lo hi hg
    cases bt with
    | leaf a es => simp [Good] at hg
    | node a ks cs =>
      simp only [Good] at hg
      obtain ⟨-, -, -, -, g5⟩ := hg
      refine SepAll.node a ks cs ?_ ?_
      · exact Kids_sepLists ks cs lo hi
          (Kids_mono (fun lo hi c hc => (Good_keys_sorted hc).2) _ _ lo hi g5)
      · intro c hc
        obtain ⟨lo1, hi1, hgc⟩ := Kids_forall ks cs lo hi g5 c hc
        exact ih hgc

end Separators

section SeparatorClaim

/-- C16 as stated fails on the code.  After `insert 1, 2, 3` and `remove 2` on an order-3 tree
the heap holds the root `2` over the leaves `1` and `3`: the separator 2 is not a key of the
subtree on its right, whose minimum is 3. -/
theorem separator_not_minimum_after_remove :
    run 3 zeroFresh sepDemoOps empty = some (sepDemoTree, [0, 0, 0, 0]) ∧
      sepDemoTree.root = some sepDemoBT.addr ∧ Rep sepDemoTree.heap sepDemoBT ∧
      ¬ SepAll SepIsMin sepDemoBT := by
  refine ⟨rfl, rfl, ?_, ?_⟩
  · have e1 : (sepDemoTree.heap 1).map (fun nd => (nd.IS_LEAF, nd.keyList,
        (List.range 2).map nd.ptr)) = some (false, [2], [some 0, some 2]) := rfl
    have e0 : (sepDemoTree.heap 0).map (fun nd => (nd.IS_LEAF, nd.entries))
        = some (true, [(1, 1)]) := rfl
    have e2 : (sepDemoTree.heap 2).map (fun nd => (nd.IS_LEAF, nd.entries))
        = some (true, [(3, 3)]) := rfl
    cases h1 : sepDemoTree.heap 1 with
    | none => rw [h1] at e1; cases e1
    | some nd1 =>
      cases h0 : sepDemoTree.heap 0 with
      | none => rw [h0] at e0; cases e0
      | some nd0 =>
        cases h2 : sepDemoTree.heap 2 with
        | none => rw [h2] at e2; cases e2
        | some nd2 =>
          rw [h1] at e1
          rw [h0] at e0
          rw [h2] at e2
          simp only [Option.map_some', Option.some.injEq, Prod.mk.injEq] at e0 e1 e2
          refine Rep.node h1 e1.1 e1.2.1 e1.2.2 ?_
          intro c hc
          simp only [List.mem_cons, List.mem_singleton, List.not_mem_nil, or_false] at hc
          rcases hc with rfl | rfl
          · exact Rep.leaf h0 e0.1 e0.2
          · exact Rep.leaf h2 e2.1 e2.2
  · intro h
    cases h with
    | node _ _ _ hs _ =>
      simp only [SepLists, SepIsMin, keys_leaf] at hs
      have := hs.1.1
      simp at this

end SeparatorClaim

section SearchTotal

variable {K V : Type} [LinearOrder K]

/-- The result of the loop of `Node::search` lies between its bounds. -/
theorem searchLoop_range (keys : Nat → K) (key : K) :
    ∀ (fuel i j r : Nat), 1 ≤ i → i ≤ j + 1 → searchLoop keys key fuel i j = some r →
      i ≤ r ∧ r ≤ j + 1 := by
  intro fuel
  induction fuel with
  | zero => intro i j r _ _ h; simp [searchLoop] at h
  | succ fuel ih =>
    intro i j r hi hij h
    unfold searchLoop at h
    by_cases hle : i ≤ j
    · rw [if_pos hle] at h
      simp only at h
      by_cases heq : keys (i + (j - i) / 2) = key
      · rw [if_pos heq] at h
        cases h
        omega
      · rw [if_neg heq] at h
        by_cases hlt : keys (i + (j - i) / 2) < key
        · rw [if_pos hlt] at h
          have := ih _ _ _ (by omega) (by omega) h
          omega
        · rw [if_neg hlt] at h
          have := ih _ _ _ hi (by omega) h
          omega
    · rw [if_neg hle] at h
      cases h
      omega

/-- The slot returned by `Node::search` is at most `n`, and `n` is at most `order`. -/
theorem search_le {order : Nat} {nd : Node K V} {key : K} {arg : Nat}
    (h : nd.search order key = some arg) : arg ≤ nd.n ∧ nd.n ≤ order := by
  unfold Node.search at h
  by_cases h1 : order < nd.n
  · rw [if_pos h1] at h; cases h
  · rw [if_neg h1] at h
    refine ⟨?_, by omega⟩
    by_cases h0 : nd.n = 0
    · rw [if_pos h0] at h; cases h; omega
    · rw [if_neg h0] at h
      by_cases hk0 : ¬ nd.keys 0 < key
      · rw [if_pos hk0] at h; cases h; omega
      · rw [if_neg hk0] at h
        by_cases hkn : nd.keys (nd.n - 1) < key
        · rw [if_pos hkn] at h; cases h; omega
        · rw [if_neg hkn] at h
          have := searchLoop_range nd.keys key _ _ _ _ le_rfl (by omega) h
          omega

/-- The loop of `Node::search` ends when the fuel exceeds the width of the range. -/
theorem searchLoop_total (keys : Nat → K) (key : K) :
    ∀ (fuel i j : Nat), 1 ≤ i → j + 1 - i < fuel →
      ∃ r, searchLoop keys key fuel i j = some r := by
  intro fuel
  induction fuel with
  | zero => intro i j _ h; omega
  | succ fuel ih =>
    intro i j hi hf
    unfold searchLoop
    by_cases hle : i ≤ j
    · rw [if_pos hle]
      simp only
      by_cases heq : keys (i + (j - i) / 2) = key
      · rw [if_pos heq]
        exact ⟨_, rfl⟩
      · rw [if_neg heq]
        by_cases hlt : keys (i + (j - i) / 2) < key
        · rw [if_pos hlt]
          exact ih _ _ (by omega) (by omega)
        · rw [if_neg hlt]
          exact ih _ _ hi (by omega)
    · rw [if_neg hle]
      exact ⟨_, rfl⟩

/-- `Node::search` returns a slot in `[0, n]` on every node with at most `order` keys,
whatever the order of its keys. -/
theorem search_total (order : Nat) (nd : Node K V) (key : K) (hn : nd.n ≤ order) :
    ∃ arg, nd.search order key = some arg ∧ arg ≤ nd.n := by
  have hex : ∃ arg, nd.search order key = some arg := by
    unfold Node.search
    rw [if_neg (by omega)]
    by_cases h0 : nd.n = 0
    · rw [if_pos h0]; exact ⟨_, rfl⟩
    · rw [if_neg h0]
      by_cases hk0 : ¬ nd.keys 0 < key
      · rw [if_pos hk0]; exact ⟨_, rfl⟩
      · rw [if_neg hk0]
        by_cases hkn : nd.keys (nd.n - 1) < key
        · rw [if_pos hkn]; exact ⟨_, rfl⟩
        · rw [if_neg hkn]
          exact searchLoop_total nd.keys key _ _ _ le_rfl (by omega)
  obtain ⟨arg, h⟩ := hex
  exact ⟨arg, h, (search_le h).1⟩

/-- The leaf `Node::insert` is defined on every leaf with room. -/
theorem insert_leaf_defined {order : Nat} {nd : Node K V} (key : K) (value : V)
    (hl : nd.IS_LEAF = true) (hn : nd.n < order) :
    ∃ nd1, nd.insert order key value = some nd1 ∧ nd1.IS_LEAF = true ∧ nd1.ptr = nd.ptr ∧
      nd1.n = nd.n + 1 := by
  obtain ⟨arg, hs, -⟩ := search_total order nd key (le_of_lt hn)
  obtain ⟨s1, s2, s3, -, -⟩ := shiftLeaf_spec arg (nd.n - arg) nd
  have hins : nd.insert order key value = some
      { shiftLeaf arg (nd.n - arg) nd with
        keys := Function.update (shiftLeaf arg (nd.n - arg) nd).keys arg key
        values := Function.update (shiftLeaf arg (nd.n - arg) nd).values arg value
        n := (shiftLeaf arg (nd.n - arg) nd).n + 1 } := by
    simp only [Node.insert, hl, hs, hn, ↓reduceIte]
  refine ⟨_, hins, ?_, ?_, ?_⟩
  · simpa using s2.trans hl
  · simpa using s3
  · simp [s1]

/-- The internal `Node::insert` is defined on every internal node with room. -/
theorem insertInternal_defined {order : Nat} {nd : Node K V} (key : K) (r : Option Nat)
    (hl : nd.IS_LEAF = false) (hn : nd.n < order) :
    ∃ nd1, nd.insertInternal order key r = some nd1 ∧ nd1.IS_LEAF = false ∧
      nd1.n = nd.n + 1 := by
  obtain ⟨arg, hs, -⟩ := search_total order nd key (le_of_lt hn)
  obtain ⟨s1, s2, -, -, -⟩ := shiftInternal_spec arg (nd.n - arg) nd
  have hins : nd.insertInternal order key r = some
      { shiftInternal arg (nd.n - arg) nd with
        keys := Function.update (shiftInternal arg (nd.n - arg) nd).keys arg key
        ptr := Function.update (shiftInternal arg (nd.n - arg) nd).ptr (arg + 1) r
        n := (shiftInternal arg (nd.n - arg) nd).n + 1 } := by
    simp only [Node.insertInternal, hl, hs, hn, ↓reduceIte, Bool.false_eq_true]
  refine ⟨_, hins, ?_, ?_⟩
  · simpa using s2.trans hl
  · simp [s1]

/-- The internal `Node::insert` on a node with room, whatever the order of its keys: key and
right child are placed at the slot returned by `search`. -/
theorem insertInternal_at (order : Nat) {nd : Node K V} (key : K) (r : Option Nat)
    (hl : nd.IS_LEAF = false) (hn : nd.n < order) :
    ∃ nd1 arg, nd.insertInternal order key r = some nd1 ∧ nd.search order key = some arg ∧
      arg ≤ nd.n ∧ nd1.IS_LEAF = false ∧ nd1.n = nd.n + 1 ∧
      nd1.keyList = nd.keyList.take arg ++ key :: nd.keyList.drop arg ∧
      (List.range (nd.n + 2)).map nd1.ptr
        = ((List.range (nd.n + 1)).map nd.ptr).take (arg + 1) ++
            r :: ((List.range (nd.n + 1)).map nd.ptr).drop (arg + 1) := by
  obtain ⟨arg, hsearch, ha⟩ := search_total order nd key (le_of_lt hn)
  obtain ⟨s1, s2, s3, s4, s5⟩ := shiftInternal_spec arg (nd.n - arg) nd
  have hins : nd.insertInternal order key r = some
      { shiftInternal arg (nd.n - arg) nd with
        keys := Function.update (shiftInternal arg (nd.n - arg) nd).keys arg key
        ptr := Function.update (shiftInternal arg (nd.n - arg) nd).ptr (arg + 1) r
        n := (shiftInternal arg (nd.n - arg) nd).n + 1 } := by
    simp only [Node.insertInternal, hl, hsearch, hn, ↓reduceIte, Bool.false_eq_true]
  refine ⟨_, arg, hins, hsearch, ha, ?_, ?_, ?_, ?_⟩
  · simpa using s2.trans hl
  · simp [s1]
  · simp only [Node.keyList, s1]
    apply map_range_insert _ _ nd.n arg _ ha
    · intro x hx
      have : ¬ (arg < x ∧ x ≤ arg + (nd.n - arg)) := by omega
      simp [Function.update_apply, s4 x, this, Nat.ne_of_lt hx]
    · simp
    · intro x hx hxn
      have : arg < x ∧ x ≤ arg + (nd.n - arg) := by omega
      simp [Function.update_apply, s4 x, this, Nat.ne_of_gt hx]
  · apply map_range_insert _ _ (nd.n + 1) (arg + 1) _ (by omega)
    · intro x hx
      have h1 : ¬ (arg + 1 < x ∧ x ≤ arg + (nd.n - arg) + 1) := by omega
      simp [Function.update_apply, s5 x, h1, Nat.ne_of_lt hx]
    · simp
    · intro x hx hxn
      have h1 : arg + 1 < x ∧ x ≤ arg + (nd.n - arg) + 1 := by omega
      simp [Function.update_apply, s5 x, h1, Nat.ne_of_gt hx]

end SearchTotal

section SplitClaims

variable {K V : Type} [LinearOrder K]

/-- C21: `adjustNodeForUpOver` on a leaf `b` that holds `order` entries, below a parent `a`
with room: the leaf keeps the entries `[0, order/2)`, the new leaf at `nx` holds the entries
`[order/2, order)` in the same order, so the two halves together are the old entries; the
key that enters the parent, with the new leaf as its right child, is the first key of the
new leaf; and the new leaf is linked in right after the old one: `b.next = nx`,
`nx.prev = b`, `nx.next` is the old `b.next`, whose `prev` becomes `nx`. -/
theorem leaf_split_halves_and_links {order : Nat} (fr : Fresh K V) {h : Heap K V}
    (nx a b : Nat) {cn p : Node K V} (ho : 1 ≤ order)
    (hb : h b = some cn) (hbl : cn.IS_LEAF = true) (hbn : cn.n = order)
    (ha : h a = some p) (hl : p.IS_LEAF = false) (hn : p.n < order)
    (hab : a ≠ b) (han : a ≠ nx) (hbx : b ≠ nx)
    (hnext : ∀ c, cn.ptr 1 = some c → c ≠ b ∧ c ≠ nx ∧ c ≠ a ∧ ∃ ndc, h c = some ndc) :
    ∃ h2 la lb p1, adjustNodeForUpOver order fr h nx b a = some h2 ∧
      h2 b = some la ∧ h2 nx = some lb ∧ h2 a = some p1 ∧
      la.IS_LEAF = true ∧ lb.IS_LEAF = true ∧
      la.n = order / 2 ∧ lb.n = order - order / 2 ∧
      la.entries = cn.entries.take (order / 2) ∧
      lb.entries = cn.entries.drop (order / 2) ∧
      la.entries ++ lb.entries = cn.entries ∧
      p.insertInternal order (lb.keys 0) (some nx) = some p1 ∧
      (∃ arg, p.search order (lb.keys 0) = some arg ∧ p1.n = p.n + 1 ∧
        p1.keyList = p.keyList.take arg ++ lb.keys 0 :: p.keyList.drop arg ∧
        (List.range (p1.n + 1)).map p1.ptr
          = ((List.range (p.n + 1)).map p.ptr).take (arg + 1) ++
              some nx :: ((List.range (p.n + 1)).map p.ptr).drop (arg + 1)) ∧
      la.ptr 1 = some nx ∧ la.ptr 0 = cn.ptr 0 ∧ lb.ptr 0 = some b ∧ lb.ptr 1 = cn.ptr 1 ∧
      ∀ c, cn.ptr 1 = some c →
        ∃ nc0 nc, h c = some nc0 ∧ h2 c = some nc ∧ nc.ptr 0 = some nx ∧ nc.ptr 1 = nc0.ptr 1 := by
  have hmid : order / 2 < order := Nat.div_lt_self (by omega) (by decide)
  obtain ⟨hs1, e1, e2, ⟨nb, f1, f2, f3, f4, f5, f6⟩, e4, e5⟩ :=
    split_leaf_cells fr hb hbl (le_of_eq hbn) hbx
      (fun c hc => ⟨(hnext c hc).1, (hnext c hc).2.1, (hnext c hc).2.2.2⟩)
  have hpa : hs1 a = some p := by
    rw [e5 a hab han (fun e => (hnext a e).2.2.1 rfl)]
    exact ha
  have hk0 : nb.keys 0 = cn.keys (order / 2) := by
    have := (f4 0 (by omega)).1
    simpa using this
  obtain ⟨p1, arg, q1, q2, -, q3, q4, q5, q6⟩ :=
    insertInternal_at order (cn.keys (order / 2)) (some nx) hl hn
  have hla : ({ cn with n := order / 2, ptr := Function.update cn.ptr 1 (some nx) } :
      Node K V).entries = cn.entries.take (order / 2) := by
    simp only [Node.entries, hbn]
    exact map_range_take _ _ _ _ (le_of_lt hmid) (fun _ _ => rfl)
  have hlb : nb.entries = cn.entries.drop (order / 2) := by
    simp only [Node.entries, hbn, f3]
    apply map_range_drop
    intro i hi
    rw [(f4 i (by omega)).1, (f4 i (by omega)).2]
  have hptr : (List.range (p1.n + 1)).map p1.ptr
      = ((List.range (p.n + 1)).map p.ptr).take (arg + 1) ++
          some nx :: ((List.range (p.n + 1)).map p.ptr).drop (arg + 1) := by
    rw [q4]
    exact q6
  refine ⟨Function.update hs1 a (some p1),
    { cn with n := order / 2, ptr := Function.update cn.ptr 1 (some nx) }, nb, p1, ?_, ?_, ?_,
    Function.update_same _ _ _,
    hbl, f2, rfl, by rw [f3, hbn], hla, hlb, ?_, by rw [hk0]; exact q1,
    ⟨arg, by rw [hk0]; exact q2, q4, by rw [hk0]; exact q5, hptr⟩, ?_, ?_, f5, f6, ?_⟩
  · simp only [adjustNodeForUpOver, hb, hmid, ↓reduceIte, e1, hpa, q1]
  · rw [Function.update_noteq (fun e => hab e.symm), e2]
  · rw [Function.update_noteq (fun e => han e.symm), f1]
  · rw [hla, hlb, List.take_append_drop]
  · simp
  · simp
  · intro c hc
    obtain ⟨-, -, hca, ndc, hh⟩ := hnext c hc
    refine ⟨ndc, { ndc with ptr := Function.update ndc.ptr 0 (some nx) }, hh, ?_, ?_, ?_⟩
    · rw [Function.update_noteq hca]
      exact e4 c ndc hc hh
    · simp
    · simp

theorem leaf_split_halves_and_links_witness :
    ∃ h2 la lb p1, adjustNodeForUpOver 3 zeroFresh splitDemoHeap 3 0 2 = some h2 ∧
      h2 0 = some la ∧ h2 3 = some lb ∧ h2 2 = some p1 ∧
      la.IS_LEAF = true ∧ lb.IS_LEAF = true ∧
      la.n = 3 / 2 ∧ lb.n = 3 - 3 / 2 ∧
      la.entries = splitDemoLeaf.entries.take (3 / 2) ∧
      lb.entries = splitDemoLeaf.entries.drop (3 / 2) ∧
      la.entries ++ lb.entries = splitDemoLeaf.entries ∧
      splitDemoParent.insertInternal 3 (lb.keys 0) (some 3) = some p1 ∧
      (∃ arg, splitDemoParent.search 3 (lb.keys 0) = some arg ∧
        p1.n = splitDemoParent.n + 1 ∧
        p1.keyList = splitDemoParent.keyList.take arg ++ lb.keys 0 ::
          splitDemoParent.keyList.drop arg ∧
        (List.range (p1.n + 1)).map p1.ptr
          = ((List.range (splitDemoParent.n + 1)).map splitDemoParent.ptr).take (arg + 1) ++
              some 3 :: ((List.range (splitDemoParent.n + 1)).map splitDemoParent.ptr).drop
                (arg + 1)) ∧
      la.ptr 1 = some 3 ∧ la.ptr 0 = splitDemoLeaf.ptr 0 ∧ lb.ptr 0 = some 0 ∧
      lb.ptr 1 = splitDemoLeaf.ptr 1 ∧
      ∀ c, splitDemoLeaf.ptr 1 = some c →
        ∃ nc0 nc, splitDemoHeap c = some nc0 ∧ h2 c = some nc ∧ nc.ptr 0 = some 3 ∧
          nc.ptr 1 = nc0.ptr 1 := by
  refine leaf_split_halves_and_links zeroFresh 3 2 0 (by decide) rfl rfl rfl rfl rfl
    (by decide) (by decide) (by decide) (by decide) ?_
  · intro c hc
    have hc1 : c = 1 := by
      have : some 1 = some c := hc
      exact (Option.some.inj this).symm
    subst hc1
    exact ⟨by decide, by decide, by decide, splitDemoNext, rfl⟩

end SplitClaims

section LevelOrder

variable {K V : Type}

/-- C24: `levelOrderTraversal` on a tree without a root takes the lock `node->mtx` of the
queued null pointer before the test `if (!node)`: the call leaves defined behaviour instead of
returning with nothing printed, already in the first round of the inner loop. -/
theorem levelOrderTraversal_empty_locks_null (order : Nat) :
    levelLayer order (empty : Tree K V).heap [(empty : Tree K V).root] = none ∧
      levelOrderTraversal order (empty : Tree K V) = none :=
  ⟨rfl, rfl⟩

end LevelOrder

section InternalSplitClaim

variable {K V : Type} [LinearOrder K]

omit [LinearOrder K] in
theorem take_cons_drop {α : Type} (l : List α) (m : Nat) (x : α) (hm : m < l.length)
    (hx : l[m] = x) : l.take m ++ x :: l.drop (m + 1) = l := by
  rw [← hx, ← List.drop_eq_getElem_cons hm, List.take_append_drop]

/-- C22: `adjustNodeForUpOver` on an internal node `b` that holds `order` keys and
`order + 1` children, below a parent `a` with room: the node keeps the keys `[0, order/2)`
and the children `[0, order/2]`, the new node at `nx` holds the keys and the children after
index `order/2` in the same order, and key `order/2` is the key that enters the parent with
the new node as its right child; the keys of the left node, the promoted key and the keys of
the right node together are the old keys, the children of the two nodes together are the old
children, and the promoted key is among the keys of neither node when the old keys are
distinct. -/
theorem internal_split_halves_and_promotion {order : Nat} (fr : Fresh K V) {h : Heap K V}
    (nx a b : Nat) {cn p : Node K V} (ho : 2 ≤ order)
    (hb : h b = some cn) (hbl : cn.IS_LEAF = false) (hbn : cn.n = order)
    (ha : h a = some p) (hl : p.IS_LEAF = false) (hn : p.n < order)
    (hab : a ≠ b) (han : a ≠ nx) (hbx : b ≠ nx) :
    ∃ h2 la lb p1, adjustNodeForUpOver order fr h nx b a = some h2 ∧
      h2 b = some la ∧ h2 nx = some lb ∧ h2 a = some p1 ∧
      la.IS_LEAF = false ∧ lb.IS_LEAF = false ∧
      la.n = order / 2 ∧ lb.n = order - (order / 2 + 1) ∧
      la.keyList = cn.keyList.take (order / 2) ∧
      (List.range (la.n + 1)).map la.ptr
        = ((List.range (cn.n + 1)).map cn.ptr).take (order / 2 + 1) ∧
      lb.keyList = cn.keyList.drop (order / 2 + 1) ∧
      (List.range (lb.n + 1)).map lb.ptr
        = ((List.range (cn.n + 1)).map cn.ptr).drop (order / 2 + 1) ∧
      la.keyList ++ cn.keys (order / 2) :: lb.keyList = cn.keyList ∧
      (List.range (la.n + 1)).map la.ptr ++ (List.range (lb.n + 1)).map lb.ptr
        = (List.range (cn.n + 1)).map cn.ptr ∧
      (cn.keyList.Nodup →
        cn.keys (order / 2) ∉ la.keyList ∧ cn.keys (order / 2) ∉ lb.keyList) ∧
      p.insertInternal order (cn.keys (order / 2)) (some nx) = some p1 ∧
      ∃ arg, p.search order (cn.keys (order / 2)) = some arg ∧ p1.n = p.n + 1 ∧
        p1.keyList = p.keyList.take arg ++ cn.keys (order / 2) :: p.keyList.drop arg ∧
        (List.range (p1.n + 1)).map p1.ptr
          = ((List.range (p.n + 1)).map p.ptr).take (arg + 1) ++
              some nx :: ((List.range (p.n + 1)).map p.ptr).drop (arg + 1) := by
  have hmid : order / 2 < order := Nat.div_lt_self (by omega) (by decide)
  obtain ⟨hs1, e1, ⟨na, g1, g2, g3, g4, g5⟩, ⟨nb, f1, f2, f3, f4, f5⟩, e5⟩ :=
    split_internal_cells fr hb hbl (le_of_eq hbn) ho hbx
  have hpa : hs1 a = some p := by
    rw [e5 a hab han]
    exact ha
  obtain ⟨p1, arg, q1, q2, -, q3, q4, q5, q6⟩ :=
    insertInternal_at order (cn.keys (order / 2)) (some nx) hl hn
  have hptr : (List.range (p1.n + 1)).map p1.ptr
      = ((List.range (p.n + 1)).map p.ptr).take (arg + 1) ++
          some nx :: ((List.range (p.n + 1)).map p.ptr).drop (arg + 1) := by
    rw [q4]
    exact q6
  have k1 : na.keyList = cn.keyList.take (order / 2) := by
    simp only [Node.keyList, g3, g4, hbn]
    exact map_range_take _ _ _ _ (le_of_lt hmid) (fun _ _ => rfl)
  have k2 : (List.range (na.n + 1)).map na.ptr
      = ((List.range (cn.n + 1)).map cn.ptr).take (order / 2 + 1) := by
    rw [g3, hbn]
    exact map_range_take _ _ _ _ (by omega) (fun x hx => g5 x (by omega))
  have k3 : nb.keyList = cn.keyList.drop (order / 2 + 1) := by
    simp only [Node.keyList, f3, hbn]
    apply map_range_drop
    intro x hx
    exact f4 x (by rw [hbn]; exact hx)
  have k4 : (List.range (nb.n + 1)).map nb.ptr
      = ((List.range (cn.n + 1)).map cn.ptr).drop (order / 2 + 1) := by
    have e : nb.n + 1 = cn.n + 1 - (order / 2 + 1) := by rw [f3, hbn]; omega
    rw [e]
    apply map_range_drop
    intro x hx
    exact f5 x (by omega)
  have k5 : na.keyList ++ cn.keys (order / 2) :: nb.keyList = cn.keyList := by
    rw [k1, k3]
    apply take_cons_drop
    · simp [Node.keyList]
    · simp [Node.keyList, hbn, hmid]
  refine ⟨Function.update hs1 a (some p1), na, nb, p1, ?_, ?_, ?_, Function.update_same _ _ _,
    g2, f2, g3, by rw [f3, hbn], k1, k2, k3, k4, k5, ?_, ?_, q1, arg, q2, q4, q5, hptr⟩
  · simp only [adjustNodeForUpOver, hb, hmid, ↓reduceIte, e1, hpa, q1]
  · rw [Function.update_noteq (fun e => hab e.symm), g1]
  · rw [Function.update_noteq (fun e => han e.symm), f1]
  · rw [k2, k4, List.take_append_drop]
  · intro hnd
    rw [← k5, List.nodup_middle, List.nodup_cons, List.mem_append, not_or] at hnd
    exact hnd.1

theorem internal_split_halves_and_promotion_witness :
    ∃ h2 la lb p1, adjustNodeForUpOver 3 zeroFresh splitDemoInnerHeap 3 0 2 = some h2 ∧
      h2 0 = some la ∧ h2 3 = some lb ∧ h2 2 = some p1 ∧
      la.IS_LEAF = false ∧ lb.IS_LEAF = false ∧
      la.n = 3 / 2 ∧ lb.n = 3 - (3 / 2 + 1) ∧
      la.keyList = splitDemoInner.keyList.take (3 / 2) ∧
      (List.range (la.n + 1)).map la.ptr
        = ((List.range (splitDemoInner.n + 1)).map splitDemoInner.ptr).take (3 / 2 + 1) ∧
      lb.keyList = splitDemoInner.keyList.drop (3 / 2 + 1) ∧
      (List.range (lb.n + 1)).map lb.ptr
        = ((List.range (splitDemoInner.n + 1)).map splitDemoInner.ptr).drop (3 / 2 + 1) ∧
      la.keyList ++ splitDemoInner.keys (3 / 2) :: lb.keyList = splitDemoInner.keyList ∧
      (List.range (la.n + 1)).map la.ptr ++ (List.range (lb.n + 1)).map lb.ptr
        = (List.range (splitDemoInner.n + 1)).map splitDemoInner.ptr ∧
      (splitDemoInner.keyList.Nodup →
        splitDemoInner.keys (3 / 2) ∉ la.keyList ∧ splitDemoInner.keys (3 / 2) ∉ lb.keyList) ∧
      splitDemoTop.insertInternal 3 (splitDemoInner.keys (3 / 2)) (some 3) = some p1 ∧
      ∃ arg, splitDemoTop.search 3 (splitDemoInner.keys (3 / 2)) = some arg ∧
        p1.n = splitDemoTop.n + 1 ∧
        p1.keyList = splitDemoTop.keyList.take arg ++ splitDemoInner.keys (3 / 2) ::
          splitDemoTop.keyList.drop arg ∧
        (List.range (p1.n + 1)).map p1.ptr
          = ((List.range (splitDemoTop.n + 1)).map splitDemoTop.ptr).take (arg + 1) ++
              some 3 :: ((List.range (splitDemoTop.n + 1)).map splitDemoTop.ptr).drop
                (arg + 1) :=
  internal_split_halves_and_promotion zeroFresh 3 2 0 (by decide) rfl rfl rfl rfl rfl
    (by decide) (by decide) (by decide) (by decide)

end InternalSplitClaim

section Structures

variable {K V : Type}

theorem pt_mem_addrsL {cs : List PT} {x : Nat} :
    x ∈ PT.addrsL cs ↔ ∃ c ∈ cs, x ∈ c.addrs := by
  induction cs with
  | nil => simp [PT.addrsL]
  | cons c cs ih => simp [PT.addrsL, ih]

theorem pt_mem_leavesL {cs : List PT} {x : Nat} :
    x ∈ PT.leavesL cs ↔ ∃ c ∈ cs, x ∈ c.leaves := by
  induction cs with
  | nil => simp [PT.leavesL]
  | cons c cs ih => simp [PT.leavesL, ih]

mutual
/-- The leaves of a structure are among its nodes, in the same order. -/
theorem pt_leaves_sublist : ∀ t : PT, t.leaves.Sublist t.addrs
  | .null => by simp [PT.leaves, PT.addrs]
  | .leaf a => by simp [PT.leaves, PT.addrs]
  | .node a cs => by
    simp only [PT.leaves, PT.addrs]
    exact (pt_leavesL_sublist cs).trans (List.sublist_cons_self _ _)
/-- The leaves of a list of structures are among their nodes, in the same order. -/
theorem pt_leavesL_sublist : ∀ cs : List PT, (PT.leavesL cs).Sublist (PT.addrsL cs)
  | [] => by simp [PT.leavesL, PT.addrsL]
  | c :: cs => by
    simp only [PT.leavesL, PT.addrsL]
    exact List.Sublist.append (pt_leaves_sublist c) (pt_leavesL_sublist cs)
end

/-- Frame rule for `RepP`: a structure stays when its own cells stay. -/
theorem RepP_frame {h h1 : Heap K V} {pt : PT} (hr : RepP h pt)
    (hf : ∀ a ∈ pt.addrs, h1 a = h a) : RepP h1 pt := by
  induction hr with
  | null => exact RepP.null
  | @leaf a nd ha hl =>
    exact RepP.leaf (by rw [hf a (by simp [PT.addrs])]; exact ha) hl
  | @node a cs nd ha hl hp hc ih =>
    refine RepP.node (by rw [hf a (by simp [PT.addrs])]; exact ha) hl hp ?_
    intro c hcm
    apply ih c hcm
    intro x hx
    apply hf
    simp only [PT.addrs, List.mem_cons]
    exact Or.inr (pt_mem_addrsL.2 ⟨c, hcm, hx⟩)

/-- A structure stays when only the links of leaves change. -/
theorem RepP_core {h h1 : Heap K V} {pt : PT} (hr : RepP h pt)
    (hf : ∀ a, core (h1 a) = core (h a)) : RepP h1 pt := by
  induction hr with
  | null => exact RepP.null
  | @leaf a nd ha hl =>
    obtain ⟨nd1, h1a, hl1, -⟩ := core_eq_leaf (hf a) ha hl
    exact RepP.leaf h1a hl1
  | @node a cs nd ha hl hp hc ih =>
    have hcore : core (h1 a) = some nd := by
      rw [hf a, ha]
      simp [core, hl]
    exact RepP.node (core_eq_some_of_internal hcore hl) hl hp ih

/-- The leaves of a structure in the heap are cells with the leaf flag. -/
theorem RepP_leaves_cells {h : Heap K V} {pt : PT} (hr : RepP h pt) :
    ∀ a ∈ pt.leaves, ∃ nd, h a = some nd ∧ nd.IS_LEAF = true := by
  induction hr with
  | null => intro a ha; simp [PT.leaves] at ha
  | @leaf a nd ha hl =>
    intro x hx
    simp only [PT.leaves, List.mem_singleton] at hx
    subst hx
    exact ⟨nd, ha, hl⟩
  | @node a cs nd ha hl hp hc ih =>
    intro x hx
    simp only [PT.leaves] at hx
    obtain ⟨c, hcm, hxc⟩ := pt_mem_leavesL.1 hx
    exact ih c hcm x hxc

/-- The children loop of `deserialize_node`, when it returns: the children are built one
after the other at new addresses and entered into `ptr[i], ptr[i + 1], ...` of the node. -/
theorem deserializeKids_built
    (rd : Heap K V → Nat → List Nat → Option (Option Nat × Heap K V × Nat × List Nat))
    (a : Nat)
    (hrd : ∀ h nx bs p h1 nx1 bs1, rd h nx bs = some (p, h1, nx1, bs1) → Built h nx p h1 nx1) :
    ∀ (c i : Nat) (h : Heap K V) (nx : Nat) (bs : List Nat) (h1 : Heap K V) (nx1 : Nat)
      (bs1 : List Nat) (nd : Node K V), a < nx → h a = some nd →
      deserializeKids rd a c i h nx bs = some (h1, nx1, bs1) →
      ∃ (cs : List PT) (nd1 : Node K V), h1 a = some nd1 ∧ nd1.n = nd.n ∧
        nd1.IS_LEAF = nd.IS_LEAF ∧ (∀ x, x < i → nd1.ptr x = nd.ptr x) ∧
        (List.range c).map (fun j => nd1.ptr (i + j)) = cs.map PT.ptr ∧ nx ≤ nx1 ∧
        (∀ pt ∈ cs, RepP h1 pt) ∧ (∀ x ∈ PT.addrsL cs, nx ≤ x ∧ x < nx1) ∧
        (PT.addrsL cs).Nodup ∧ ∀ x, x ≠ a → x < nx ∨ nx1 ≤ x → h1 x = h x := by
  intro c
  induction c with
  | zero =>
    intro i h nx bs h1 nx1 bs1 nd han ha hd
    simp only [deserializeKids, Option.some.injEq, Prod.mk.injEq] at hd
    obtain ⟨rfl, rfl, rfl⟩ := hd
    exact ⟨[], nd, ha, rfl, rfl, fun _ _ => rfl, rfl, le_rfl, by simp, by simp [PT.addrsL],
      by simp [PT.addrsL], fun _ _ _ => rfl⟩
  | succ c ih =>
    intro i h nx bs h1 nx1 bs1 nd han ha hd
    simp only [deserializeKids] at hd
    cases hr : rd h nx bs with
    | none => rw [hr] at hd; cases hd
    | some res =>
      obtain ⟨p, h', nx', bs'⟩ := res
      rw [hr] at hd
      simp only at hd
      obtain ⟨pt, hp, hrep, hle, hin, hnd, hfr⟩ := hrd h nx bs p h' nx' bs' hr
      have ha' : h' a = some nd := by rw [hfr a (Or.inl han)]; exact ha
      rw [setPtr_eq i p ha'] at hd
      simp only at hd
      obtain ⟨cs, nd1, e1, e2, e3, e4, e5, e6, e7, e8, e9, e10⟩ :=
        ih (i + 1) _ nx' bs' h1 nx1 bs1 { nd with ptr := Function.update nd.ptr i p }
          (by omega) (Function.update_same _ _ _) hd
      refine ⟨pt :: cs, nd1, e1, e2, e3, ?_, ?_, by omega, ?_, ?_, ?_, ?_⟩
      · intro x hx
        rw [e4 x (by omega)]
        exact Function.update_noteq (by omega) _ _
      · rw [List.range_succ_eq_map, List.map_cons, List.map_map, List.map_cons]
        congr 1
        · rw [Nat.add_zero, e4 i (by omega), hp]
          exact Function.update_same _ _ _
        · rw [← e5]
          apply List.map_congr_left
          intro j _
          simp only [Function.comp_apply]
          congr 1
          omega
      · intro q hq
        rcases List.mem_cons.1 hq with rfl | hq
        · apply RepP_frame hrep
          intro x hx
          have hb := hin x hx
          rw [e10 x (by omega) (Or.inl hb.2), Function.update_noteq (by omega)]
        · exact e7 q hq
      · intro x hx
        simp only [PT.addrsL, List.mem_append] at hx
        rcases hx with hx | hx
        · have := hin x hx; omega
        · have := e8 x hx; omega
      · simp only [PT.addrsL]
        refine List.nodup_append.2 ⟨hnd, e9, ?_⟩
        intro x hx1 hx2
        have := hin x hx1
        have := e8 x hx2
        omega
      · intro x hxa hx
        rw [e10 x hxa (by omega), Function.update_noteq hxa, hfr x (by omega)]

end Structures

section Built

variable {K V : Type}

/-- Every returning call of `deserialize_node` builds a structure at new addresses. -/
theorem deserializeNode_built (order : Nat) (fr : Fresh K V) (ck : Codec K) (cv : Codec V) :
    ∀ (fuel : Nat) (h : Heap K V) (nx : Nat) (bs : List Nat) (p : Option Nat) (h1 : Heap K V)
      (nx1 : Nat) (bs1 : List Nat),
      deserializeNode order fr ck cv fuel h nx bs = some (p, h1, nx1, bs1) →
      Built h nx p h1 nx1 := by
  intro fuel
  induction fuel with
  | zero =>
    intro h nx bs p h1 nx1 bs1 hd
    simp [deserializeNode] at hd
  | succ fuel ih =>
    intro h nx bs p h1 nx1 bs1 hd
    cases bs with
    | nil => simp [deserializeNode] at hd
    | cons isNull bs0 =>
      simp only [deserializeNode] at hd
      by_cases hnull : isNull ≠ 0
      · rw [if_pos hnull] at hd
        simp only [Option.some.injEq, Prod.mk.injEq] at hd
        obtain ⟨rfl, rfl, rfl, -⟩ := hd
        exact ⟨.null, rfl, RepP.null, le_rfl, by simp [PT.addrs], by simp [PT.addrs],
          fun _ _ => rfl⟩
      · rw [if_neg hnull] at hd
        split at hd
        · rename_i n0 n1 n2 n3 isLeaf bs2
          split at hd
          · cases hd
          · split at hd
            · cases hd
            · rename_i keys bs3 hk
              by_cases hleaf : isLeaf ≠ 0
              · rw [if_pos hleaf] at hd
                split at hd
                · cases hd
                · rename_i values bs4 hv
                  simp only [Option.some.injEq, Prod.mk.injEq] at hd
                  obtain ⟨rfl, rfl, rfl, -⟩ := hd
                  refine ⟨.leaf nx, rfl, RepP.leaf (Function.update_same _ _ _) ?_, by omega,
                    ?_, by simp [PT.addrs], ?_⟩
                  · simp [newNode, hleaf]
                  · intro a ha
                    simp only [PT.addrs, List.mem_singleton] at ha
                    omega
                  · intro x hx
                    exact Function.update_noteq (by omega) _ _
              · rw [if_neg hleaf] at hd
                split at hd
                · cases hd
                · rename_i hq nxq bsq hkids
                  simp only [Option.some.injEq, Prod.mk.injEq] at hd
                  obtain ⟨rfl, rfl, rfl, -⟩ := hd
                  obtain ⟨cs, nd1, e1, e2, e3, -, e5, e6, e7, e8, e9, e10⟩ :=
                    deserializeKids_built (deserializeNode order fr ck cv fuel) nx ih _ 0 _ _ _
                      _ _ _ _ (Nat.lt_succ_self nx) (Function.update_same _ _ _) hkids
                  refine ⟨.node nx cs, rfl, RepP.node e1 ?_ ?_ e7, by omega, ?_, ?_, ?_⟩
                  · rw [e3]
                    simp [newNode, hleaf]
                  · rw [e2, ← e5]
                    simp
                  · intro a ha
                    simp only [PT.addrs, List.mem_cons] at ha
                    rcases ha with rfl | ha
                    · omega
                    · have := e8 a ha; omega
                  · simp only [PT.addrs, List.nodup_cons]
                    refine ⟨?_, e9⟩
                    intro hm
                    have := e8 nx hm
                    omega
                  · intro x hx
                    rw [e10 x (by omega) (by omega), Function.update_noteq (by omega)]
        · cases hd

/-- The children loop of `collect_leaves`, when it returns. -/
theorem collectKids_leaves (col : Option Nat → Option (List Nat)) (nd : Node K V) :
    ∀ (c i : Nat) (cs : List PT) (l : List Nat),
      (List.range c).map (fun j => nd.ptr (i + j)) = cs.map PT.ptr →
      (∀ pt ∈ cs, ∀ l1, col pt.ptr = some l1 → l1 = pt.leaves) →
      collectKids col nd c i = some l → l = PT.leavesL cs := by
  intro c
  induction c with
  | zero =>
    intro i cs l hp _ hc
    simp only [List.range_zero, List.map_nil] at hp
    have hcs : cs = [] := by
      cases cs with
      | nil => rfl
      | cons x xs => simp at hp
    subst hcs
    simp only [collectKids, Option.some.injEq] at hc
    rw [← hc]
    rfl
  | succ c ih =>
    intro i cs l hp hcol hc
    rw [List.range_succ_eq_map, List.map_cons, List.map_map] at hp
    cases cs with
    | nil => simp at hp
    | cons q cs =>
      simp only [List.map_cons, List.cons.injEq, Nat.add_zero] at hp
      simp only [collectKids] at hc
      cases h1 : col (nd.ptr i) with
      | none => rw [h1] at hc; cases hc
      | some l1 =>
        rw [h1] at hc
        simp only at hc
        cases h2 : collectKids col nd c (i + 1) with
        | none => rw [h2] at hc; cases hc
        | some rest =>
          rw [h2] at hc
          simp only [Option.some.injEq] at hc
          have e1 : l1 = q.leaves := hcol q (List.mem_cons_self _ _) l1 (by rw [← hp.1]; exact h1)
          have e2 : rest = PT.leavesL cs := by
            apply ih (i + 1) cs rest _ (fun pt hpt => hcol pt (List.mem_cons_of_mem _ hpt)) h2
            rw [← hp.2]
            apply List.map_congr_left
            intro j _
            simp only [Function.comp_apply]
            congr 1
            omega
          rw [← hc, e1, e2]
          rfl

/-- The closure `collect_leaves`, when it returns, has collected the leaves of the structure
from left to right. -/
theorem collectLeaves_leaves {order : Nat} {h : Heap K V} :
    ∀ (fuel : Nat) (pt : PT) (l : List Nat), RepP h pt →
      collectLeaves order h fuel pt.ptr = some l → l = pt.leaves := by
  intro fuel
  induction fuel with
  | zero =>
    intro pt l _ hc
    simp [collectLeaves] at hc
  | succ fuel ih =>
    intro pt l hr hc
    cases hr with
    | null =>
      simp only [PT.ptr, collectLeaves, Option.some.injEq] at hc
      rw [← hc]
      rfl
    | @leaf a nd ha hl =>
      simp only [PT.ptr, collectLeaves, ha, hl, ↓reduceIte, Option.some.injEq] at hc
      rw [← hc]
      rfl
    | @node a cs nd ha hl hp hk =>
      simp only [PT.ptr, collectLeaves, ha, hl, Bool.false_eq_true, ↓reduceIte] at hc
      split at hc
      · cases hc
      · simp only [PT.leaves]
        apply collectKids_leaves (collectLeaves order h fuel) nd (nd.n + 1) 0 cs l _
          (fun pt hpt l1 hl1 => ih pt l1 (hk pt hpt) hl1) hc
        simpa using hp

end Built

section Links

variable {K V : Type}

theorem lastOr_concat (l : List Nat) (a : Nat) :
    ∀ prev : Option Nat, lastOr prev (l ++ [a]) = some a := by
  induction l with
  | nil => intro prev; rfl
  | cons b l ih => intro prev; exact ih (some b)

theorem lastOr_none (l : List Nat) : lastOr none l = l.getLast? := by
  induction l using List.reverseRecOn with
  | nil => rfl
  | append_singleton l a _ => rw [lastOr_concat, List.getLast?_append]; rfl

/-- Walking along `ptr[1]` from the first leaf of a chain that ends with a null link meets
the leaves of the chain in order. -/
theorem followLinks_next {h : Heap K V} :
    ∀ (l : List Nat) (prev : Option Nat), Chain h prev l none →
      followLinks h 1 (l.length + 1) (firstOr l none) = some l
  | [], _, _ => rfl
  | a :: l, prev, hc => by
    obtain ⟨nd, ha, -, -, hn⟩ := links_leaf_of_some hc.1
    have ih := followLinks_next l (some a) hc.2
    show followLinks h 1 (l.length + 1 + 1) (some a) = some (a :: l)
    simp only [followLinks, ha, hn, ih]

/-- Walking along `ptr[0]` from the last leaf of a chain that starts with a null link meets
the leaves of the chain in reverse order. -/
theorem followLinks_prev {h : Heap K V} (l : List Nat) :
    ∀ next : Option Nat, Chain h none l next →
      followLinks h 0 (l.length + 1) (lastOr none l) = some l.reverse := by
  induction l using List.reverseRecOn with
  | nil => intro _ _; rfl
  | append_singleton l a ih =>
    intro next hc
    rw [Chain_append] at hc
    obtain ⟨nd, ha, -, hp, -⟩ := links_leaf_of_some hc.2.1
    have e := ih _ hc.1
    rw [lastOr_concat]
    simp only [List.length_append, List.length_singleton, followLinks, ha, hp, e,
      List.reverse_append, List.reverse_cons, List.reverse_nil, List.nil_append,
      List.singleton_append]

/-- C23: when `deserialize` returns a tree with a root, the heap of the tree holds a pointer
structure below the root such that `head` is its leftmost leaf (null if it has no leaf), the
leaves form a doubly linked list in left-to-right depth-first order whose first `prev` and
last `next` are null, walking along `next` from `head` meets all the leaves in that order,
and walking along `prev` from the last leaf meets them in the reverse order. -/
theorem deserialize_links_leaves (order : Nat) (fr : Fresh K V) (ck : Codec K) (cv : Codec V)
    (bs : List Nat) (t : Tree K V) (r : Nat)
    (hd : deserialize order fr ck cv bs = some (some t)) (hr : t.root = some r) :
    ∃ pt : PT, pt.ptr = some r ∧ RepP t.heap pt ∧ pt.leaves.Nodup ∧
      t.head = pt.leaves.head? ∧ Chain t.heap none pt.leaves none ∧
      followLinks t.heap 1 (pt.leaves.length + 1) t.head = some pt.leaves ∧
      followLinks t.heap 0 (pt.leaves.length + 1) pt.leaves.getLast? = some pt.leaves.reverse := by
  unfold deserialize at hd
  split at hd
  · rename_i o0 o1 o2 o3 bs1
    split at hd
    · cases hd
    · split at hd
      · rename_i s0 s1 s2 s3 bs2
        split at hd
        · cases hd
        · rename_i root h nx rest hnode
          obtain ⟨pt, hp, hrep, -, -, hnd, -⟩ :=
            deserializeNode_built order fr ck cv _ _ _ _ _ _ _ _ hnode
          split at hd
          · simp only [Option.some.injEq] at hd
            rw [← hd] at hr
            cases hr
          · rename_i r0
            split at hd
            · cases hd
            · rename_i leaves hcol
              split at hd
              · cases hd
              · rename_i h1 hlink
                simp only [Option.some.injEq] at hd
                subst hd
                simp only [Option.some.injEq] at hr
                subst hr
                have hl : leaves = pt.leaves :=
                  collectLeaves_leaves _ pt leaves hrep (by rw [hp]; exact hcol)
                subst hl
                have hnl : pt.leaves.Nodup := (pt_leaves_sublist pt).nodup hnd
                obtain ⟨h2, e1, e2, e3, -⟩ :=
                  linkLeaves_spec pt.leaves none h hnl (RepP_leaves_cells hrep)
                rw [hlink] at e1
                cases e1
                refine ⟨pt, hp, RepP_core hrep e3, hnl, rfl, e2, ?_, ?_⟩
                · have := followLinks_next pt.leaves none e2
                  rwa [firstOr_none] at this
                · have := followLinks_prev pt.leaves none e2
                  rwa [lastOr_none] at this
      · cases hd
  · split at hd <;> cases hd

theorem deserialize_links_leaves_witness :
    deserialize 3 octetFresh octetCodec octetCodec linkDemoStream = some (some linkDemoTree) ∧
      linkDemoTree.root = some 0 ∧
      ∃ pt : PT, pt.ptr = some 0 ∧ RepP linkDemoTree.heap pt ∧ pt.leaves.Nodup ∧
        linkDemoTree.head = pt.leaves.head? ∧ Chain linkDemoTree.heap none pt.leaves none ∧
        followLinks linkDemoTree.heap 1 (pt.leaves.length + 1) linkDemoTree.head
          = some pt.leaves ∧
        followLinks linkDemoTree.heap 0 (pt.leaves.length + 1) pt.leaves.getLast?
          = some pt.leaves.reverse :=
  ⟨rfl, rfl,
    deserialize_links_leaves 3 octetFresh octetCodec octetCodec linkDemoStream linkDemoTree 0
      rfl rfl⟩

end Links

section AccessLemmas

variable {K V : Type} [LinearOrder K]

theorem ok_key (order i : Nat) : (Acc.key i).ok order = true ↔ i < order := by
  simp [Acc.ok]

theorem ok_val (order i : Nat) : (Acc.val i).ok order = true ↔ i < order := by
  simp [Acc.ok]

theorem ok_child (order i : Nat) : (Acc.child i).ok order = true ↔ i < order + 1 := by
  simp [Acc.ok]

theorem ok_link (order i : Nat) : (Acc.link i).ok order = true ↔ i < 2 := by
  simp [Acc.ok]

theorem ok_count (order n : Nat) : (Acc.count n).ok order = true ↔ n ≤ order := by
  simp [Acc.ok]

theorem forall_mem_nil_ok (order : Nat) : ∀ a ∈ ([] : List Acc), a.ok order = true := by
  intro a ha
  cases ha

theorem searchLoopAcc_ok (order : Nat) (keys : Nat → K) (key : K) :
    ∀ (fuel i j : Nat), j < order → ∀ a ∈ searchLoopAcc keys key fuel i j, a.ok order = true := by
  intro fuel
  induction fuel with
  | zero => intro i j _; exact forall_mem_nil_ok order
  | succ fuel ih =>
    intro i j hj
    unfold searchLoopAcc
    by_cases hle : i ≤ j
    · rw [if_pos hle]
      simp only
      have hm : i + (j - i) / 2 < order := by omega
      by_cases heq : keys (i + (j - i) / 2) = key
      · rw [if_pos heq]
        simp only [List.forall_mem_cons, ok_key]
        exact ⟨hm, forall_mem_nil_ok order⟩
      · rw [if_neg heq]
        by_cases hlt : keys (i + (j - i) / 2) < key
        · rw [if_pos hlt]
          simp only [List.forall_mem_cons, ok_key]
          exact ⟨hm, hm, ih _ _ hj⟩
        · rw [if_neg hlt]
          simp only [List.forall_mem_cons, ok_key]
          exact ⟨hm, hm, ih _ _ (by omega)⟩
    · rw [if_neg hle]
      exact forall_mem_nil_ok order

/-- `Node::search` on a node with at most `order` keys reads inside `keys`. -/
theorem searchAcc_ok {order : Nat} (nd : Node K V) (key : K) (hn : nd.n ≤ order) :
    ∀ a ∈ nd.searchAcc key, a.ok order = true := by
  unfold Node.searchAcc
  by_cases h0 : nd.n = 0
  · rw [if_pos h0]; exact forall_mem_nil_ok order
  · rw [if_neg h0]
    by_cases hk0 : ¬ nd.keys 0 < key
    · rw [if_pos hk0]
      simp only [List.forall_mem_cons, ok_key]
      exact ⟨by omega, forall_mem_nil_ok order⟩
    · rw [if_neg hk0]
      by_cases hkn : nd.keys (nd.n - 1) < key
      · rw [if_pos hkn]
        simp only [List.forall_mem_cons, ok_key]
        exact ⟨by omega, by omega, forall_mem_nil_ok order⟩
      · rw [if_neg hkn]
        simp only [List.forall_mem_cons, ok_key]
        exact ⟨by omega, by omega, searchLoopAcc_ok order nd.keys key _ _ _ (by omega)⟩

theorem hasKeyAcc_ok {order : Nat} {nd : Node K V} {key : K} {b : Bool}
    (h : nd.hasKey order key = some b) : ∀ a ∈ nd.hasKeyAcc order key, a.ok order = true := by
  unfold Node.hasKey at h
  unfold Node.hasKeyAcc
  cases hs : nd.search order key with
  | none => rw [hs] at h; cases h
  | some arg =>
    rw [hs] at h
    simp only at h
    by_cases ha : arg < order
    · simp only [List.forall_mem_append, List.forall_mem_cons, ok_key]
      exact ⟨searchAcc_ok nd key (search_le hs).2, ha, forall_mem_nil_ok order⟩
    · rw [if_neg ha] at h; cases h

theorem updateAcc_ok {order : Nat} {nd nd1 : Node K V} {key : K} {value : V}
    (h : nd.update order key value = some nd1) :
    ∀ a ∈ nd.updateAcc order key, a.ok order = true := by
  unfold Node.update at h
  unfold Node.updateAcc
  by_cases hl : nd.IS_LEAF = true
  · rw [if_pos hl] at h
    cases hs : nd.search order key with
    | none => rw [hs] at h; cases h
    | some arg =>
      rw [hs] at h
      simp only at h
      by_cases ha : arg < order
      · simp only [List.forall_mem_append, List.forall_mem_cons, ok_val]
        exact ⟨searchAcc_ok nd key (search_le hs).2, ha, forall_mem_nil_ok order⟩
      · rw [if_neg ha] at h; cases h
  · rw [if_neg hl] at h; cases h

theorem shiftLeafAcc_ok (order arg : Nat) :
    ∀ c, arg + c < order → ∀ a ∈ shiftLeafAcc arg c, a.ok order = true := by
  intro c
  induction c with
  | zero => intro _; exact forall_mem_nil_ok order
  | succ c ih =>
    intro hc
    unfold shiftLeafAcc
    simp only [List.forall_mem_cons, ok_key, ok_val]
    exact ⟨by omega, by omega, by omega, by omega, ih (by omega)⟩

theorem shiftInternalAcc_ok (order arg : Nat) :
    ∀ c, arg + c < order → ∀ a ∈ shiftInternalAcc arg c, a.ok order = true := by
  intro c
  induction c with
  | zero => intro _; exact forall_mem_nil_ok order
  | succ c ih =>
    intro hc
    unfold shiftInternalAcc
    simp only [List.forall_mem_cons, ok_key, ok_child]
    exact ⟨by omega, by omega, by omega, by omega, ih (by omega)⟩

/-- The leaf `Node::insert`, when it is defined, stays inside the arrays. -/
theorem insertAcc_node_ok {order : Nat} {nd nd1 : Node K V} {key : K} {value : V}
    (h : nd.insert order key value = some nd1) :
    ∀ a ∈ nd.insertAcc order key, a.ok order = true := by
  unfold Node.insert at h
  unfold Node.insertAcc
  by_cases hl : nd.IS_LEAF = true
  · rw [if_pos hl] at h
    cases hs : nd.search order key with
    | none => rw [hs] at h; cases h
    | some arg =>
      rw [hs] at h
      simp only at h
      have hle := search_le hs
      by_cases hn : nd.n < order
      · simp only [List.forall_mem_append, List.forall_mem_cons, ok_key, ok_val, ok_count]
        exact ⟨searchAcc_ok nd key hle.2, shiftLeafAcc_ok order arg _ (by omega), by omega,
          by omega, by omega, forall_mem_nil_ok order⟩
      · rw [if_neg hn] at h; cases h
  · rw [if_neg hl] at h; cases h

/-- The internal `Node::insert`, when it is defined, stays inside the arrays. -/
theorem insertInternalAcc_ok {order : Nat} {nd nd1 : Node K V} {key : K} {r : Option Nat}
    (h : nd.insertInternal order key r = some nd1) :
    ∀ a ∈ nd.insertInternalAcc order key, a.ok order = true := by
  unfold Node.insertInternal at h
  unfold Node.insertInternalAcc
  by_cases hl : nd.IS_LEAF = true
  · rw [if_pos hl] at h; cases h
  · rw [if_neg hl] at h
    cases hs : nd.search order key with
    | none => rw [hs] at h; cases h
    | some arg =>
      rw [hs] at h
      simp only at h
      have hle := search_le hs
      by_cases hn : nd.n < order
      · simp only [List.forall_mem_append, List.forall_mem_cons, ok_key, ok_child, ok_count]
        exact ⟨searchAcc_ok nd key hle.2, shiftInternalAcc_ok order arg _ (by omega), by omega,
          by omega, by omega, forall_mem_nil_ok order⟩
      · rw [if_neg hn] at h; cases h

theorem splitLeafAcc_ok (order : Nat) :
    ∀ c i j, i + c ≤ order → j + c ≤ order → ∀ a ∈ splitLeafAcc c i j, a.ok order = true := by
  intro c
  induction c with
  | zero => intro i j _ _; exact forall_mem_nil_ok order
  | succ c ih =>
    intro i j hi hj
    unfold splitLeafAcc
    simp only [List.forall_mem_cons, ok_key, ok_val, ok_count]
    exact ⟨by omega, by omega, by omega, by omega, by omega, ih _ _ (by omega) (by omega)⟩

theorem splitInternalAcc_ok (order : Nat) :
    ∀ c i j, i + c ≤ order → j + c ≤ order →
      ∀ a ∈ splitInternalAcc c i j, a.ok order = true := by
  intro c
  induction c with
  | zero => intro i j _ _; exact forall_mem_nil_ok order
  | succ c ih =>
    intro i j hi hj
    unfold splitInternalAcc
    simp only [List.forall_mem_cons, ok_key, ok_child, ok_count]
    exact ⟨by omega, by omega, by omega, by omega, by omega, by omega,
      ih _ _ (by omega) (by omega)⟩

omit [LinearOrder K] in
theorem newNodeAcc_ok (order : Nat) (isLeaf : Bool) :
    ∀ a ∈ newNodeAcc order isLeaf, a.ok order = true := by
  unfold newNodeAcc
  cases isLeaf with
  | true => simp [ok_link]
  | false =>
    intro a ha
    simp only [Bool.false_eq_true, ↓reduceIte, List.mem_map, List.mem_range] at ha
    obtain ⟨i, hi, rfl⟩ := ha
    exact (ok_child order i).2 hi

omit [LinearOrder K] in
theorem insertNextNodeAcc_ok (order : Nat) (this : Node K V) :
    ∀ a ∈ insertNextNodeAcc this, a.ok order = true := by
  unfold insertNextNodeAcc
  by_cases hp : this.ptr 1 = none
  · rw [if_pos hp]
    simp [ok_link]
  · rw [if_neg hp]
    simp [ok_link]

end AccessLemmas

section PathAccesses

variable {K V : Type} [LinearOrder K]

omit [LinearOrder K] in
/-- `Node::split`, when it is defined, stays inside the arrays of both nodes. -/
theorem splitAcc_ok {order : Nat} {fr : Fresh K V} {h h1 : Heap K V} {nx a : Nat}
    {this : Node K V} (ha : h a = some this) (hs : split order fr h nx a = some h1) :
    ∀ x ∈ splitAcc order this, x.ok order = true := by
  unfold split at hs
  rw [ha] at hs
  simp only at hs
  by_cases hn : order < this.n
  · rw [if_pos hn] at hs; cases hs
  · rw [if_neg hn] at hs
    unfold splitAcc
    simp only
    rw [List.forall_mem_append]
    refine ⟨newNodeAcc_ok order _, ?_⟩
    by_cases hl : this.IS_LEAF = true
    · rw [if_pos hl]
      simp only [List.forall_mem_append, List.forall_mem_cons, ok_count]
      exact ⟨⟨splitLeafAcc_ok order _ _ _ (by omega) (by omega), insertNextNodeAcc_ok order this⟩,
        by omega, forall_mem_nil_ok order⟩
    · rw [if_neg hl] at hs
      rw [if_neg hl]
      by_cases hm : order < order / 2 + 1
      · rw [if_pos hm] at hs; cases hs
      · simp only [List.forall_mem_append, List.forall_mem_cons, ok_count, ok_child]
        exact ⟨by omega, by omega, by omega,
          splitInternalAcc_ok order _ _ _ (by omega) (by omega), by omega,
          forall_mem_nil_ok order⟩

/-- `adjustNodeForUpOver`, when it is defined, stays inside the arrays. -/
theorem adjustNodeForUpOverAcc_ok {order : Nat} {fr : Fresh K V} {h h2 : Heap K V}
    {nx node parent : Nat} (hs : adjustNodeForUpOver order fr h nx node parent = some h2) :
    ∀ x ∈ adjustNodeForUpOverAcc order fr h nx node parent, x.ok order = true := by
  unfold adjustNodeForUpOver at hs
  unfold adjustNodeForUpOverAcc
  cases hn : h node with
  | none => rw [hn] at hs; cases hs
  | some nd =>
    rw [hn] at hs
    simp only at hs ⊢
    by_cases hm : order / 2 < order
    · rw [if_pos hm] at hs
      cases hsp : split order fr h nx node with
      | none => rw [hsp] at hs; cases hs
      | some h1 =>
        rw [hsp] at hs
        simp only at hs ⊢
        cases hp : h1 parent with
        | none => rw [hp] at hs; cases hs
        | some p =>
          rw [hp] at hs
          simp only at hs ⊢
          cases hi : p.insertInternal order (nd.keys (order / 2)) (some nx) with
          | none => rw [hi] at hs; cases hs
          | some p1 =>
            simp only [List.forall_mem_append, List.forall_mem_cons, ok_key]
            exact ⟨hm, splitAcc_ok hn hsp, insertInternalAcc_ok hi⟩
    · rw [if_neg hm] at hs; cases hs

/-- The loop of `maintainAfterInsert`, when it is defined, stays inside the arrays. -/
theorem upLoopAcc_ok {order : Nat} {fr : Fresh K V} :
    ∀ (stk : List Nat) (node : Nat) (h : Heap K V) (nx : Nat)
      (res : Heap K V × Nat × Option Nat), upLoop order fr stk node h nx = some res →
      ∀ x ∈ upLoopAcc order fr stk node h nx, x.ok order = true
  | [], _, _, _, _, _ => forall_mem_nil_ok order
  | parent :: stk, node, h, nx, res, hs => by
    unfold upLoop at hs
    unfold upLoopAcc
    cases hn : h node with
    | none => rw [hn] at hs; cases hs
    | some nd =>
      rw [hn] at hs
      simp only at hs ⊢
      by_cases hu : nd.isUpOver order = true
      · rw [if_pos hu] at hs
        rw [if_pos hu]
        cases ha : adjustNodeForUpOver order fr h nx node parent with
        | none => rw [ha] at hs; cases hs
        | some h1 =>
          rw [ha] at hs
          simp only at hs ⊢
          simp only [List.forall_mem_append]
          exact ⟨adjustNodeForUpOverAcc_ok ha, upLoopAcc_ok stk parent h1 (nx + 1) res hs⟩
      · rw [if_neg hu]
        exact forall_mem_nil_ok order

/-- `maintainAfterInsert`, when it is defined, stays inside the arrays. -/
theorem maintainAfterInsertAcc_ok {order : Nat} {fr : Fresh K V} {t t1 : Tree K V}
    {stk : List Nat} (hs : maintainAfterInsert order fr t stk = some t1) :
    ∀ x ∈ maintainAfterInsertAcc order fr t stk, x.ok order = true := by
  unfold maintainAfterInsert at hs
  unfold maintainAfterInsertAcc
  cases stk with
  | nil => exact forall_mem_nil_ok order
  | cons top rest =>
    simp only at hs ⊢
    cases hu : upLoop order fr rest top t.heap t.next with
    | none => rw [hu] at hs; cases hs
    | some res =>
      obtain ⟨h, nx, onode⟩ := res
      have hup := upLoopAcc_ok rest top t.heap t.next _ hu
      rw [hu] at hs
      simp only [List.forall_mem_append]
      refine ⟨hup, ?_⟩
      cases onode with
      | none => exact forall_mem_nil_ok order
      | some node =>
        simp only at hs ⊢
        cases hn : h node with
        | none => rw [hn] at hs; cases hs
        | some nd =>
          rw [hn] at hs
          simp only at hs ⊢
          by_cases hov : nd.isUpOver order = true
          · rw [if_pos hov] at hs
            rw [if_pos hov]
            split at hs
            · cases hs
            · rename_i h2 hadj
              simp only [List.forall_mem_append, List.forall_mem_cons, ok_child]
              exact ⟨newNodeAcc_ok order false, by omega, adjustNodeForUpOverAcc_ok hadj⟩
          · rw [if_neg hov]
            exact forall_mem_nil_ok order

/-- The descent of `findNodeByKey`, when it is defined, stays inside the arrays. -/
theorem findLoopAcc_ok {order : Nat} {h : Heap K V} {key : K} :
    ∀ (fuel a : Nat) (stk res : List Nat), findLoop order h key fuel a stk = some res →
      ∀ x ∈ findLoopAcc order h key fuel a, x.ok order = true := by
  intro fuel
  induction fuel with
  | zero => intro a stk res _; exact forall_mem_nil_ok order
  | succ fuel ih =>
    intro a stk res hs
    unfold findLoop at hs
    unfold findLoopAcc
    cases hn : h a with
    | none => rw [hn] at hs; cases hs
    | some nd =>
      rw [hn] at hs
      simp only at hs ⊢
      by_cases hl : nd.IS_LEAF = true
      · rw [if_pos hl]
        exact forall_mem_nil_ok order
      · rw [if_neg hl] at hs
        rw [if_neg hl]
        cases hsr : nd.search order key with
        | none => rw [hsr] at hs; cases hs
        | some arg =>
          rw [hsr] at hs
          simp only at hs ⊢
          have hle := search_le hsr
          by_cases hg : (if arg < nd.n ∧ nd.keys arg = key then arg + 1 else arg) < order + 1
          · rw [if_pos hg] at hs
            simp only [List.forall_mem_append, List.forall_mem_cons, ok_child]
            refine ⟨searchAcc_ok nd key hle.2, ?_, hg, ?_⟩
            · by_cases han : arg < nd.n
              · rw [if_pos han]
                simp only [List.forall_mem_cons, ok_key]
                exact ⟨by omega, forall_mem_nil_ok order⟩
              · rw [if_neg han]
                exact forall_mem_nil_ok order
            · cases hp : nd.ptr (if arg < nd.n ∧ nd.keys arg = key then arg + 1 else arg) with
              | none => exact forall_mem_nil_ok order
              | some c =>
                rw [hp] at hs
                exact ih c _ res hs
          · rw [if_neg hg] at hs; cases hs

/-- `BPlusTree::insert`, when it is defined, stays inside the arrays of every node it
touches. -/
theorem insertAcc_ok {order : Nat} {fr : Fresh K V} {t t1 : Tree K V} {key : K} {value : V}
    {r : Nat} (hs : insert order fr t key value = some (t1, r)) :
    ∀ x ∈ insertAcc order fr t key value, x.ok order = true := by
  unfold insert at hs
  unfold insertAcc
  cases hr : t.root with
  | none =>
    rw [hr] at hs
    simp only at hs ⊢
    cases hi : (newNode fr t.next true).insert order key value with
    | none => rw [hi] at hs; cases hs
    | some nd =>
      rw [List.forall_mem_append]
      exact ⟨newNodeAcc_ok order true, insertAcc_node_ok hi⟩
  | some a =>
    rw [hr] at hs
    simp only at hs ⊢
    cases hf : findNodeByKey order t key with
    | none => rw [hf] at hs; cases hs
    | some stk =>
      rw [hf] at hs
      have hfind : ∀ x ∈ findLoopAcc order t.heap key (t.next + 1) a, x.ok order = true := by
        unfold findNodeByKey at hf
        rw [hr] at hf
        exact findLoopAcc_ok _ _ _ _ hf
      cases stk with
      | nil => cases hs
      | cons node rest =>
        simp only at hs ⊢
        cases hn : t.heap node with
        | none => rw [hn] at hs; cases hs
        | some nd =>
          rw [hn] at hs
          simp only at hs ⊢
          cases hk : nd.hasKey order key with
          | none => rw [hk] at hs; cases hs
          | some b =>
            rw [hk] at hs
            simp only [List.forall_mem_append]
            refine ⟨hfind, hasKeyAcc_ok hk, ?_⟩
            cases b with
            | true =>
              simp only at hs ⊢
              cases hu : nd.update order key value with
              | none => rw [hu] at hs; cases hs
              | some nd1 => exact updateAcc_ok hu
            | false =>
              simp only at hs ⊢
              cases hi : nd.insert order key value with
              | none => rw [hi] at hs; cases hs
              | some nd1 =>
                rw [hi] at hs
                simp only at hs ⊢
                simp only [List.forall_mem_append]
                refine ⟨insertAcc_node_ok hi, ?_⟩
                split at hs
                · cases hs
                · rename_i t2 hm
                  exact maintainAfterInsertAcc_ok hm

end PathAccesses

section LevelOrderTotal

variable {K V : Type}

/-- One round of the inner loop of `levelOrderTraversal` over a layer of leaves: nothing is
queued. -/
theorem levelLayer_leaves {order : Nat} {h : Heap K V} :
    ∀ ts : List (BT K V), (∀ t ∈ ts, Wf order 0 t ∧ Rep h t) →
      ∃ out, levelLayer order h (ts.map (fun t => some t.addr)) = some (out, [])
  | [], _ => ⟨[], rfl⟩
  | t :: ts, hts => by
    obtain ⟨out, ho⟩ := levelLayer_leaves ts (fun x hx => hts x (List.mem_cons_of_mem _ hx))
    obtain ⟨hw, hr⟩ := hts t (List.mem_cons_self _ _)
    cases hr with
    | @node a ks cs nd ha hl hk hp hc => simp [Wf] at hw
    | @leaf a es nd ha hl he =>
      simp only [Wf] at hw
      have hn : ¬ order < nd.n := by
        have := entries_length nd
        rw [he] at this
        omega
      refine ⟨nd.keyList :: out, ?_⟩
      show levelLayer order h (some a :: ts.map (fun t => some t.addr)) = _
      simp only [levelLayer, ha, hn, ↓reduceIte, ho, hl, List.nil_append]

/-- One round of the inner loop of `levelOrderTraversal` over a layer of internal nodes: the
queue receives their children, none of which is null. -/
theorem levelLayer_nodes {order : Nat} {h : Heap K V} (d : Nat) :
    ∀ ts : List (BT K V), (∀ t ∈ ts, Wf order (d + 1) t ∧ Rep h t) →
      ∃ out ts1, levelLayer order h (ts.map (fun t => some t.addr))
          = some (out, ts1.map (fun t => some t.addr)) ∧
        (∀ t ∈ ts1, Wf order d t ∧ Rep h t) ∧ (ts ≠ [] → ts1 ≠ [])
  | [], _ => ⟨[], [], rfl, by simp, by simp⟩
  | t :: ts, hts => by
    obtain ⟨out, ts1, ho, h1, -⟩ :=
      levelLayer_nodes d ts (fun x hx => hts x (List.mem_cons_of_mem _ hx))
    obtain ⟨hw, hr⟩ := hts t (List.mem_cons_self _ _)
    cases hr with
    | @leaf a es nd ha hl he => simp [Wf] at hw
    | @node a ks cs nd ha hl hk hp hc =>
      simp only [Wf] at hw
      obtain ⟨w1, w2, w3⟩ := hw
      have hkl : nd.n = ks.length := by rw [← hk, keyList_length]
      have hn : ¬ order < nd.n := by omega
      have hq : (List.range (nd.n + 1)).map nd.ptr = cs.map (fun t => some t.addr) := by
        rw [hkl, ← w2]
        exact hp
      refine ⟨nd.keyList :: out, cs ++ ts1, ?_, ?_, ?_⟩
      · show levelLayer order h (some a :: ts.map (fun t => some t.addr)) = _
        simp only [levelLayer, ha, hn, ↓reduceIte, ho, hl, Bool.false_eq_true, hq,
          List.map_append]
      · intro x hx
        rcases List.mem_append.1 hx with hx | hx
        · exact ⟨w3 x hx, hc x hx⟩
        · exact h1 x hx
      · intro _ hnil
        have hlen := congrArg List.length hnil
        simp only [List.length_append, List.length_nil] at hlen
        omega

/-- The outer loop of `levelOrderTraversal` on a non-empty layer of subtrees of depth `d`
runs to its end. -/
theorem levelLoop_total {order : Nat} {h : Heap K V} :
    ∀ (d fuel : Nat) (ts : List (BT K V)), ts ≠ [] → (∀ t ∈ ts, Wf order d t ∧ Rep h t) →
      d + 2 ≤ fuel → ∃ outs, levelLoop order h fuel (ts.map (fun t => some t.addr)) = some outs
    := by
  intro d
  induction d with
  | zero =>
    intro fuel ts hne hts hf
    obtain ⟨f, rfl⟩ : ∃ f, fuel = f + 2 := ⟨fuel - 2, by omega⟩
    obtain ⟨out, ho⟩ := levelLayer_leaves ts hts
    cases ts with
    | nil => exact absurd rfl hne
    | cons t ts =>
      refine ⟨[out], ?_⟩
      simp only [List.map_cons] at ho ⊢
      simp only [levelLoop, ho]
  | succ d ih =>
    intro fuel ts hne hts hf
    obtain ⟨f, rfl⟩ : ∃ f, fuel = f + 1 := ⟨fuel - 1, by omega⟩
    obtain ⟨out, ts1, ho, h1, h2⟩ := levelLayer_nodes d ts hts
    obtain ⟨outs, hl⟩ := ih f ts1 (h2 hne) h1 (by omega)
    cases ts with
    | nil => exact absurd rfl hne
    | cons t ts =>
      refine ⟨out :: outs, ?_⟩
      simp only [List.map_cons] at ho ⊢
      simp only [levelLoop, ho, hl]

/-- On a tree with a root that is in the state the operations keep, `levelOrderTraversal`
runs to its end: every pointer it takes from the queue is a node. -/
theorem levelOrderTraversal_total [LinearOrder K] {order : Nat} (t : Tree K V)
    (hinv : Inv order t) (hroot : t.root ≠ none) :
    ∃ outs, levelOrderTraversal order t = some outs := by
  rcases hinv with ⟨hr, -⟩ | ⟨bt, d, hr, hrep, hg, hnd, hlt, -, -⟩
  · exact absurd hr hroot
  · have hdl : d + 2 ≤ t.next + 2 := by
      have h1 := Good_depth_lt hg
      have h2 := nodup_length_le hnd hlt
      omega
    have hw : Wf order d bt := Good_wf d bt _ _ _ _ hg (by omega)
    obtain ⟨outs, ho⟩ := levelLoop_total d (t.next + 2) [bt] (by simp)
      (fun x hx => by
        simp only [List.mem_singleton] at hx
        subst hx
        exact ⟨hw, hrep⟩) hdl
    refine ⟨outs, ?_⟩
    simp only [List.map_cons, List.map_nil] at ho
    simp only [levelOrderTraversal, hr, ho]

end LevelOrderTotal

section RoomyBasics

variable {K V : Type}

theorem roomyL_iff {order : Nat} {cs : List (BT K V)} :
    BT.roomyL order cs ↔ ∀ c ∈ cs, c.roomy order := by
  induction cs with
  | nil => simp [BT.roomyL]
  | cons c cs ih => simp [BT.roomyL, ih]

/-- A tree satisfying the data model with at most `order - 1` keys at the top is roomy. -/
theorem Good_roomy [LinearOrder K] {order : Nat} (ho : 1 ≤ order) :
    ∀ (d : Nat) (bt : BT K V) (cmin cmax : Nat) (lo : WithBot K) (hi : WithTop K),
      Good order d cmin cmax lo hi bt → cmax < order → bt.roomy order := by
  intro d
  induction d with
  | zero =>
    intro bt cmin cmax lo hi hg hc
    cases bt with
    | leaf a es =>
      simp only [Good] at hg
      simp only [BT.roomy]
      omega
    | node a ks cs => simp [Good] at hg
  | succ d ih =>
    intro bt cmin cmax lo hi hg hc
    cases bt with
    | leaf a es => simp [Good] at hg
    | node a ks cs =>
      simp only [Good] at hg
      simp only [BT.roomy]
      refine ⟨by omega, Kids_length _ _ _ _ hg.2.2.2.2, roomyL_iff.2 ?_⟩
      intro c hcm
      obtain ⟨lo1, hi1, hP⟩ := Kids_forall ks cs lo hi hg.2.2.2.2 c hcm
      exact ih c _ _ lo1 hi1 hP (by omega)

/-- The state the operations keep is a state in which every node has room. -/
theorem Inv_roomy [LinearOrder K] {order : Nat} (ho : 1 ≤ order) {t : Tree K V}
    (hinv : Inv order t) : Roomy order t := by
  rcases hinv with ⟨hr, -⟩ | ⟨bt, d, hr, hrep, hg, hnd, hlt, hch, -⟩
  · exact Or.inl hr
  · exact Or.inr ⟨bt, hr, hrep, Good_roomy ho d bt _ _ _ _ hg (by omega), hnd, hlt, hch⟩

end RoomyBasics

section RoomyPath

variable {K V : Type} [LinearOrder K]

/-- `findNodeByKey` on a roomy tree, whatever the order of its keys: the descent ends in a
leaf with room, and the stack holds that leaf above internal nodes with room, all of them
distinct nodes of the tree. -/
theorem findLoop_roomy {order : Nat} {h : Heap K V} (key : K) :
    ∀ (fuel : Nat) (bt : BT K V) (stk0 : List Nat), Rep h bt → bt.roomy order →
      bt.addrs.Nodup → bt.addrs.length ≤ fuel →
      ∃ lf rest, findLoop order h key fuel bt.addr (bt.addr :: stk0) = some (lf :: (rest ++ stk0)) ∧
        lf ∈ bt.leaves ∧ (lf :: rest).Nodup ∧ (∀ x ∈ lf :: rest, x ∈ bt.addrs) ∧
        (∃ nd, h lf = some nd ∧ nd.IS_LEAF = true ∧ nd.n < order) ∧
        ∀ s ∈ rest, ∃ p, h s = some p ∧ p.IS_LEAF = false ∧ p.n < order := by
  intro fuel
  induction fuel with
  | zero =>
    intro bt stk0 _ _ _ hf
    have := List.length_pos_of_mem (addr_mem_addrs bt)
    omega
  | succ fuel ih =>
    intro bt stk0 hr hroom hnd hf
    cases hr with
    | @leaf a es nd ha hl he =>
      simp only [BT.roomy] at hroom
      have hn : nd.n = es.length := by rw [← he, entries_length]
      refine ⟨a, [], ?_, by simp [BT.leaves, BT.leafList], by simp, ?_, ⟨nd, ha, hl, by omega⟩,
        by simp⟩
      · show findLoop order h key (fuel + 1) a (a :: stk0) = _
        simp only [findLoop, ha, hl, ↓reduceIte, List.nil_append]
      · intro x hx
        simp only [List.mem_singleton] at hx
        subst hx
        simp [BT.addrs]
    | @node a ks cs nd ha hl hk hp hc =>
      simp only [BT.roomy] at hroom
      obtain ⟨r1, r2, r3⟩ := hroom
      have hn : nd.n = ks.length := by rw [← hk, keyList_length]
      obtain ⟨arg, hsearch, hargle⟩ := search_total order nd key (by omega)
      generalize harg1 : (if arg < nd.n ∧ nd.keys arg = key then arg + 1 else arg) = arg1
      have ha1 : arg1 ≤ nd.n := by
        rw [← harg1]
        split_ifs with hc1
        · omega
        · exact hargle
      obtain ⟨pre, c, post, hcsd, hprelen⟩ := list_split_at cs arg1 (by omega)
      subst hcsd
      have hptr : nd.ptr arg1 = some c.addr := by
        rw [← hprelen]
        exact ptr_at nd.ptr (fun t => some t.addr) pre post c hp
      have hlt : arg1 < order + 1 := by omega
      obtain ⟨n1, n2, -, n4, -⟩ := nodup_node_parts hnd
      have hlen : c.addrs.length ≤ fuel := by
        rw [addrs_node_split] at hf
        simp only [List.length_cons, List.length_append] at hf
        omega
      obtain ⟨lf, rest, e1, e2, e3, e4, e5, e6⟩ :=
        ih c (a :: stk0) (hc c (by simp)) (roomyL_iff.1 r3 c (by simp)) n4 hlen
      refine ⟨lf, rest ++ [a], ?_, ?_, ?_, ?_, e5, ?_⟩
      · show findLoop order h key (fuel + 1) a (a :: stk0) = _
        simp only [findLoop, ha, hl, Bool.false_eq_true, ↓reduceIte, hsearch, harg1, hlt, hptr,
          e1, List.append_assoc, List.singleton_append]
      · rw [leaves_node_split]
        simp only [List.mem_append]
        exact Or.inr (Or.inl e2)
      · rw [← List.cons_append, List.nodup_append]
        refine ⟨e3, by simp, ?_⟩
        intro x hx1 hx2
        simp only [List.mem_singleton] at hx2
        subst hx2
        exact n2 (e4 x hx1)
      · intro x hx
        rw [← List.cons_append, List.mem_append] at hx
        rw [addrs_node_split]
        rcases hx with hx | hx
        · simp only [List.mem_cons, List.mem_append]
          exact Or.inr (Or.inr (Or.inl (e4 x hx)))
        · simp only [List.mem_singleton] at hx
          subst hx
          exact List.mem_cons_self _ _
      · intro s hs
        rcases List.mem_append.1 hs with hs | hs
        · exact e6 s hs
        · simp only [List.mem_singleton] at hs
          subst hs
          exact ⟨nd, ha, hl, by omega⟩

end RoomyPath

section RoomyUp

variable {K V : Type} [LinearOrder K]

/-- `adjustNodeForUpOver` is defined whenever the node holds at most `order` keys, the `next`
link of a leaf leads to another live leaf, and the parent is an internal node with room.
The parent gains one key; no other internal node changes. -/
theorem adjust_defined {order : Nat} (fr : Fresh K V) {h : Heap K V} (nx a b : Nat)
    {nd p : Node K V} (ho : 2 ≤ order) (ha : h a = some nd) (hn : nd.n ≤ order) (hax : a < nx)
    (hnext : nd.IS_LEAF = true → ∀ c, nd.ptr 1 = some c →
      c ≠ a ∧ c < nx ∧ ∃ ndc, h c = some ndc ∧ ndc.IS_LEAF = true)
    (hb : h b = some p) (hpl : p.IS_LEAF = false) (hpn : p.n < order) (hba : b ≠ a)
    (hbx : b < nx) :
    ∃ h2 p1, adjustNodeForUpOver order fr h nx a b = some h2 ∧ h2 b = some p1 ∧
      p1.IS_LEAF = false ∧ p1.n = p.n + 1 ∧
      ∀ x q, x ≠ a → x ≠ b → x ≠ nx → h x = some q → q.IS_LEAF = false → h2 x = some q := by
  have hmid : order / 2 < order := Nat.div_lt_self (by omega) (by decide)
  obtain ⟨p1, q1, q2, q3⟩ :=
    insertInternal_defined (nd.keys (order / 2)) (some nx) hpl hpn
  by_cases hl : nd.IS_LEAF = true
  · obtain ⟨hs1, e1, -, -, -, e5⟩ := split_leaf_cells fr ha hl hn (Nat.ne_of_lt hax)
      (fun c hc => ⟨(hnext hl c hc).1, by have := (hnext hl c hc).2.1; omega,
        by obtain ⟨ndc, hh, -⟩ := (hnext hl c hc).2.2; exact ⟨ndc, hh⟩⟩)
    have hnl : ∀ x q, h x = some q → q.IS_LEAF = false → nd.ptr 1 ≠ some x := by
      intro x q hx hq hc
      obtain ⟨ndc, hh, hleaf⟩ := (hnext hl x hc).2.2
      rw [hx] at hh
      cases hh
      rw [hq] at hleaf
      cases hleaf
    have hpa : hs1 b = some p := by
      rw [e5 b hba (by omega) (hnl b p hb hpl)]
      exact hb
    refine ⟨Function.update hs1 b (some p1), p1, ?_, Function.update_same _ _ _, q2, q3, ?_⟩
    · simp only [adjustNodeForUpOver, ha, hmid, ↓reduceIte, e1, hpa, q1]
    · intro x q hxa hxb hxn hx hq
      rw [Function.update_noteq hxb, e5 x hxa hxn (hnl x q hx hq)]
      exact hx
  · have hl0 : nd.IS_LEAF = false := by
      cases hv : nd.IS_LEAF with
      | true => exact absurd hv hl
      | false => rfl
    obtain ⟨hs1, e1, -, -, e5⟩ := split_internal_cells fr ha hl0 hn ho (Nat.ne_of_lt hax)
    have hpa : hs1 b = some p := by
      rw [e5 b hba (by omega)]
      exact hb
    refine ⟨Function.update hs1 b (some p1), p1, ?_, Function.update_same _ _ _, q2, q3, ?_⟩
    · simp only [adjustNodeForUpOver, ha, hmid, ↓reduceIte, e1, hpa, q1]
    · intro x q hxa hxb hxn hx _
      rw [Function.update_noteq hxb, e5 x hxa hxn]
      exact hx

/-- The loop of `maintainAfterInsert` is defined on a stack of distinct internal nodes with
room below a node with at most `order` keys; a node it ends on has at most `order` keys. -/
theorem upLoop_defined {order : Nat} (fr : Fresh K V) (ho : 2 ≤ order) :
    ∀ (stk : List Nat) (node : Nat) (h : Heap K V) (nx : Nat) (nd : Node K V),
      h node = some nd → nd.n ≤ order →
      (nd.IS_LEAF = true → ∀ c, nd.ptr 1 = some c →
        c ≠ node ∧ c < nx ∧ ∃ ndc, h c = some ndc ∧ ndc.IS_LEAF = true) →
      (∀ s ∈ stk, ∃ p, h s = some p ∧ p.IS_LEAF = false ∧ p.n < order) →
      (node :: stk).Nodup → (∀ s ∈ node :: stk, s < nx) →
      ∃ h1 nx1 r, upLoop order fr stk node h nx = some (h1, nx1, r) ∧
        ∀ n1, r = some n1 → n1 < nx1 ∧ ∃ nd1, h1 n1 = some nd1 ∧ nd1.n ≤ order ∧
          (nd1.IS_LEAF = true → ∀ c, nd1.ptr 1 = some c →
            c ≠ n1 ∧ c < nx1 ∧ ∃ ndc, h1 c = some ndc ∧ ndc.IS_LEAF = true)
  | [], node, h, nx, nd, ha, hn, hnext, _, _, hlt => by
    refine ⟨h, nx, some node, rfl, ?_⟩
    intro n1 hn1
    cases hn1
    exact ⟨hlt node (List.mem_cons_self _ _), nd, ha, hn, hnext⟩
  | parent :: stk, node, h, nx, nd, ha, hn, hnext, hstk, hnd, hlt => by
    by_cases hov : nd.isUpOver order = true
    · obtain ⟨p, hb, hpl, hpn⟩ := hstk parent (List.mem_cons_self _ _)
      have hnd1 := List.nodup_cons.1 hnd
      have hnd2 := List.nodup_cons.1 hnd1.2
      have hpa : parent ≠ node := by
        intro e
        exact hnd1.1 (e ▸ List.mem_cons_self _ _)
      obtain ⟨h2, p1, e1, e2, e3, e4, e5⟩ := adjust_defined fr nx node parent ho ha hn
        (hlt node (List.mem_cons_self _ _)) hnext hb hpl hpn hpa
        (hlt parent (List.mem_cons_of_mem _ (List.mem_cons_self _ _)))
      obtain ⟨h3, nx3, r, f1, f2⟩ := upLoop_defined fr ho stk parent h2 (nx + 1) p1 e2
        (by omega)
        (fun hleaf => by rw [e3] at hleaf; cases hleaf)
        (fun s hs => by
          obtain ⟨q, hq1, hq2, hq3⟩ := hstk s (List.mem_cons_of_mem _ hs)
          have hsn : s ≠ node := fun e => hnd1.1 (e ▸ List.mem_cons_of_mem _ hs)
          have hsp : s ≠ parent := fun e => hnd2.1 (e ▸ hs)
          have hsx : s < nx := hlt s (List.mem_cons_of_mem _ (List.mem_cons_of_mem _ hs))
          exact ⟨q, e5 s q hsn hsp (by omega) hq1 hq2, hq2, hq3⟩)
        hnd1.2
        (fun s hs => by have := hlt s (List.mem_cons_of_mem _ hs); omega)
      refine ⟨h3, nx3, r, ?_, f2⟩
      simp only [upLoop, ha, hov, ↓reduceIte, e1, f1]
    · refine ⟨h, nx, none, ?_, ?_⟩
      · simp only [upLoop, ha, hov, Bool.false_eq_true, ↓reduceIte]
      · intro n1 hn1
        cases hn1

/-- `maintainAfterInsert` is defined on such a stack. -/
theorem maintainAfterInsert_defined {order : Nat} (fr : Fresh K V) (ho : 2 ≤ order)
    (t : Tree K V) (node : Nat) (rest : List Nat) (nd : Node K V)
    (ha : t.heap node = some nd) (hn : nd.n ≤ order)
    (hnext : nd.IS_LEAF = true → ∀ c, nd.ptr 1 = some c →
      c ≠ node ∧ c < t.next ∧ ∃ ndc, t.heap c = some ndc ∧ ndc.IS_LEAF = true)
    (hstk : ∀ s ∈ rest, ∃ p, t.heap s = some p ∧ p.IS_LEAF = false ∧ p.n < order)
    (hnd : (node :: rest).Nodup) (hlt : ∀ s ∈ node :: rest, s < t.next) :
    ∃ t1, maintainAfterInsert order fr t (node :: rest) = some t1 := by
  obtain ⟨h1, nx1, r, e1, e2⟩ :=
    upLoop_defined fr ho rest node t.heap t.next nd ha hn hnext hstk hnd hlt
  cases r with
  | none => exact ⟨_, by simp only [maintainAfterInsert, e1]; rfl⟩
  | some n1 =>
    obtain ⟨hlt1, nd1, f1, f2, f3⟩ := e2 n1 rfl
    by_cases hov : nd1.isUpOver order = true
    · have hne : n1 ≠ nx1 := by omega
      have hnode : (Function.update h1 nx1
          (some { newNode fr nx1 false with
            ptr := Function.update (newNode fr nx1 false).ptr 0 (some n1) })) n1 = some nd1 := by
        rw [Function.update_noteq hne]
        exact f1
      have hroot : (Function.update h1 nx1
          (some { newNode fr nx1 false with
            ptr := Function.update (newNode fr nx1 false).ptr 0 (some n1) })) nx1
          = some { newNode fr nx1 false with
            ptr := Function.update (newNode fr nx1 false).ptr 0 (some n1) } :=
        Function.update_same _ _ _
      obtain ⟨h2, p1, g1, -⟩ := adjust_defined fr (nx1 + 1) n1 nx1 ho hnode f2 (by omega)
        (fun hleaf c hc => by
          obtain ⟨c1, c2, ndc, c3, c4⟩ := f3 hleaf c hc
          refine ⟨c1, by omega, ndc, ?_, c4⟩
          rw [Function.update_noteq (by omega)]
          exact c3)
        hroot rfl (by simp only [newNode]; omega) (fun e => hne e.symm) (by omega)
      exact ⟨_, by simp only [maintainAfterInsert, e1, f1, hov, ↓reduceIte, g1]; rfl⟩
    · exact ⟨_, by
        simp only [maintainAfterInsert, e1, f1, hov, Bool.false_eq_true, ↓reduceIte]; rfl⟩

end RoomyUp

section RoomyInsert

variable {K V : Type} [LinearOrder K]

omit [LinearOrder K] in
/-- In a chain without repetition the `next` link of a leaf leads to another leaf of the
chain. -/
theorem Chain_next_of_mem {h : Heap K V} {L : List Nat} (hc : Chain h none L none)
    (hnd : L.Nodup) {a c : Nat} {nd : Node K V} (ha : a ∈ L) (hcell : h a = some nd)
    (hp : nd.ptr 1 = some c) :
    c ∈ L ∧ c ≠ a ∧ ∃ ndc, h c = some ndc ∧ ndc.IS_LEAF = true := by
  obtain ⟨l1, l2, rfl⟩ := List.append_of_mem ha
  rw [Chain_append] at hc
  have hc2 := hc.2
  rw [Chain_cons] at hc2
  obtain ⟨nd1, h1, -, -, h4⟩ := links_leaf_of_some hc2.1
  rw [hcell] at h1
  cases h1
  rw [hp] at h4
  obtain ⟨hm, cell⟩ := chain_next_cell hc2.2 h4.symm
  refine ⟨by simp [hm], ?_, cell⟩
  rintro rfl
  have := (List.nodup_append.1 hnd).2.1
  exact (List.nodup_cons.1 this).1 hm

/-- `insert` is defined on every tree whose nodes have room, whatever the order of the keys
in it. -/
theorem insert_defined {order : Nat} (ho : 2 ≤ order) (fr : Fresh K V) (t : Tree K V)
    (key : K) (value : V) (hr : Roomy order t) :
    ∃ t1 r, insert order fr t key value = some (t1, r) := by
  rcases hr with hroot | ⟨bt, hroot, hrep, hroom, hnd, hlt, hch⟩
  · obtain ⟨nd1, e1, -⟩ := @insert_leaf_defined K V _ order (newNode fr t.next true)
      key value rfl (by simp only [newNode]; omega)
    exact ⟨_, _, by simp only [insert, hroot, e1]; rfl⟩
  · have hlen : bt.addrs.length ≤ t.next + 1 := by
      have := nodup_length_le hnd hlt
      omega
    obtain ⟨lf, rest, e1, e2, e3, e4, ⟨nd, f1, f2, f3⟩, e6⟩ :=
      findLoop_roomy key (t.next + 1) bt [] hrep hroom hnd hlen
    rw [List.append_nil] at e1
    have hfind : findNodeByKey order t key = some (lf :: rest) := by
      simp only [findNodeByKey, hroot, e1]
    obtain ⟨arg, hs, hargle⟩ := search_total order nd key (le_of_lt f3)
    have harg : arg < order := by omega
    have hhas : nd.hasKey order key = some (decide (nd.keys arg = key)) := by
      simp only [Node.hasKey, hs, harg, ↓reduceIte]
    by_cases hk : nd.keys arg = key
    · have hupd : nd.update order key value
          = some { nd with values := Function.update nd.values arg value } := by
        simp only [Node.update, f2, hs, harg, ↓reduceIte]
      exact ⟨_, _, by simp only [insert, hroot, hfind, f1, hhas, hk, decide_True, hupd]; rfl⟩
    · obtain ⟨nd1, g1, g2, g3, g4⟩ := @insert_leaf_defined K V _ order nd key value f2 f3
      have hleaves := leaves_nodup hnd
      obtain ⟨t1, ht1⟩ := maintainAfterInsert_defined fr ho
        { t with heap := Function.update t.heap lf (some nd1) } lf rest nd1
        (Function.update_same _ _ _) (by omega)
        (fun _ c hc => by
          rw [g3] at hc
          obtain ⟨c1, c2, ndc, c3, c4⟩ := Chain_next_of_mem hch hleaves e2 f1 hc
          refine ⟨c2, hlt c (leaves_subset_addrs bt c c1), ndc, ?_, c4⟩
          show Function.update t.heap lf (some nd1) c = some ndc
          rw [Function.update_noteq c2]
          exact c3)
        (fun s hs1 => by
          obtain ⟨p, p1, p2, p3⟩ := e6 s hs1
          have hsl : s ≠ lf := fun e => (List.nodup_cons.1 e3).1 (e ▸ hs1)
          refine ⟨p, ?_, p2, p3⟩
          show Function.update t.heap lf (some nd1) s = some p
          rw [Function.update_noteq hsl]
          exact p1)
        e3 (fun s hs1 => hlt s (e4 s hs1))
      simp only [hroot] at ht1
      exact ⟨_, _, by
        simp only [insert, hroot, hfind, f1, hhas, hk, decide_False, g1, ht1]; rfl⟩

end RoomyInsert

section InsertBounds

variable {K V : Type} [LinearOrder K]

/-- C25: for every order of at least 3 and every tree in which every node holds at most
`order - 1` keys (the heap holds a tree of such nodes with its leaf chain; nothing is asked of
the order of the keys or of the minimal occupancy), `insert` runs to its end, and on its way -
the descent, the test and the insertion in the leaf, the splits and the insertions into
parents - every slot of `keys` and of `values` that is read or written is below `order`,
every child slot is at most `order`, every link slot of a leaf is below 2, and every count
given to a node is at most `order`; a tree in the state the operations keep is in that state
again afterwards. -/
theorem insert_stays_inside_arrays {order : Nat} (ho : 3 ≤ order) (fr : Fresh K V)
    (t : Tree K V) (key : K) (value : V) (hroomy : Roomy order t) :
    ∃ t1 r, insert order fr t key value = some (t1, r) ∧
      (∀ i, Acc.key i ∈ insertAcc order fr t key value → i < order) ∧
      (∀ i, Acc.val i ∈ insertAcc order fr t key value → i < order) ∧
      (∀ i, Acc.child i ∈ insertAcc order fr t key value → i ≤ order) ∧
      (∀ i, Acc.link i ∈ insertAcc order fr t key value → i < 2) ∧
      (∀ n, Acc.count n ∈ insertAcc order fr t key value → n ≤ order) ∧
      (Inv order t → Inv order t1) := by
  obtain ⟨t1, r, h1⟩ := insert_defined (by omega) fr t key value hroomy
  have hok := insertAcc_ok h1
  refine ⟨t1, r, h1, ?_, ?_, ?_, ?_, ?_, ?_⟩
  · intro i hi
    exact (ok_key order i).1 (hok _ hi)
  · intro i hi
    exact (ok_val order i).1 (hok _ hi)
  · intro i hi
    exact Nat.lt_succ_iff.1 ((ok_child order i).1 (hok _ hi))
  · intro i hi
    exact (ok_link order i).1 (hok _ hi)
  · intro n hn
    exact (ok_count order n).1 (hok _ hn)
  · intro hinv
    obtain ⟨t2, r2, h2, h3⟩ := insert_inv ho fr t key value hinv
    rw [h1] at h2
    cases h2
    exact h3

theorem insert_stays_inside_arrays_witness :
    Roomy 3 funcTestTree ∧
      ∃ t1 r, insert 3 zeroFresh funcTestTree 35 35 = some (t1, r) ∧
        (∀ i, Acc.key i ∈ insertAcc 3 zeroFresh funcTestTree 35 35 → i < 3) ∧
        (∀ i, Acc.val i ∈ insertAcc 3 zeroFresh funcTestTree 35 35 → i < 3) ∧
        (∀ i, Acc.child i ∈ insertAcc 3 zeroFresh funcTestTree 35 35 → i ≤ 3) ∧
        (∀ i, Acc.link i ∈ insertAcc 3 zeroFresh funcTestTree 35 35 → i < 2) ∧
        (∀ n, Acc.count n ∈ insertAcc 3 zeroFresh funcTestTree 35 35 → n ≤ 3) ∧
        (Inv 3 funcTestTree → Inv 3 t1) :=
  have hroomy : Roomy 3 funcTestTree :=
    Inv_roomy (by decide)
      (run_inv (by decide) zeroFresh funcTestOps empty funcTestTree [0, 0, 0, 0, 0, 0, 0, 0]
        (Inv_empty 3) rfl)
  ⟨hroomy, insert_stays_inside_arrays (by decide) zeroFresh funcTestTree 35 35 hroomy⟩

end InsertBounds

section InsertSep

variable {K V : Type} [LinearOrder K]

omit [LinearOrder K] in
/-- A key is stored below a node exactly when it is stored below one of its children. -/
theorem mem_keys_node (a : Nat) (ks : List K) (k : K) :
    ∀ cs : List (BT K V), k ∈ (BT.node a ks cs).keys ↔ ∃ c ∈ cs, k ∈ c.keys
  | [] => by simp [keys_node_nil]
  | c :: cs => by
    rw [keys_node_cons a a ks ks, List.mem_append, mem_keys_node a ks k cs]
    simp

omit [LinearOrder K] in
/-- The relations at the separators of a node combine. -/
theorem SepLists_imp {P Q R : K → BT K V → BT K V → Prop}
    (h : ∀ k l r, P k l r → Q k l r → R k l r) :
    ∀ (ks : List K) (cs : List (BT K V)), SepLists P ks cs → SepLists Q ks cs → SepLists R ks cs
  | [], [], hp, _ => by simp [SepLists] at hp
  | [], [_], _, _ => by simp [SepLists]
  | [], _ :: _ :: _, hp, _ => by simp [SepLists] at hp
  | _ :: _, [], hp, _ => by simp [SepLists] at hp
  | _ :: _, [_], hp, _ => by simp [SepLists] at hp
  | k :: ks, l :: r :: cs, hp, hq => by
    simp only [SepLists] at hp hq ⊢
    exact ⟨h k l r hp.1 hq.1, SepLists_imp h ks (r :: cs) hp.2 hq.2⟩

/-- In a tree of the data model the relations at the separators combine. -/
theorem Good_sepAll_imp {order : Nat} {P Q R : K → BT K V → BT K V → Prop}
    (h : ∀ k l r, P k l r → Q k l r → R k l r) :
    ∀ {d : Nat} {bt : BT K V} {cmin cmax : Nat} {lo : WithBot K} {hi : WithTop K},
      Good order d cmin cmax lo hi bt → SepAll P bt → SepAll Q bt → SepAll R bt := by
  intro d
  induction d with
  | zero =>
    intro bt cmin cmax lo hi hg _ _
    cases bt with
    | node a ks cs => simp [Good] at hg
    | leaf a es => exact SepAll.leaf a es
  | succ d ih =>
    intro bt cmin cmax lo hi hg hp hq
    cases bt with
    | leaf a es => simp [Good] at hg
    | node a ks cs =>
      simp only [Good] at hg
      obtain ⟨-, -, -, -, g5⟩ := hg
      cases hp with
      | node _ _ _ hp1 hp2 =>
        cases hq with
        | node _ _ _ hq1 hq2 =>
          refine SepAll.node a ks cs (SepLists_imp h ks cs hp1 hq1) ?_
          intro c hc
          obtain ⟨lo1, hi1, hgc⟩ := Kids_forall ks cs lo hi g5 c hc
          exact ih hgc (hp2 c hc) (hq2 c hc)

/-- In a tree of the data model, separators that are keys of the subtree on their right are
the minimum keys of these subtrees. -/
theorem Good_sepMem_isMin {order d cmin cmax : Nat} {lo : WithBot K} {hi : WithTop K}
    {bt : BT K V} (hg : Good order d cmin cmax lo hi bt) (h : SepAll SepMem bt) :
    SepAll SepIsMin bt :=
  Good_sepAll_imp (fun _ _ _ hp hq => ⟨hp, hq.2⟩) hg h (Good_sepAll hg)

/-- A separator that is the minimum key of the subtree on its right is a key of it. -/
theorem Good_isMin_sepMem {order d cmin cmax : Nat} {lo : WithBot K} {hi : WithTop K}
    {bt : BT K V} (hg : Good order d cmin cmax lo hi bt) (h : SepAll SepIsMin bt) :
    SepAll SepMem bt :=
  Good_sepAll_imp (fun _ _ _ hp _ => hp.1) hg h h

/-- The keys of the subtree stay in it when `insert` has passed through. -/
theorem Ins_keys_subset {order : Nat} {key : K} {value : V} {bt bt1 : BT K V} {nx nx1 : Nat}
    (h : Ins order key value bt nx bt1 nx1) : ∀ k ∈ bt.keys, k ∈ bt1.keys := by
  induction h with
  | leaf a es1 es2 nx h1 h2 =>
    intro k hk
    simp only [keys_leaf, List.map_append, List.map_cons, List.mem_append, List.mem_cons] at hk ⊢
    tauto
  | keep a kpre kpost pre post c c1 nx nx1 hlen hk1 hk2 _ hcnt ih =>
    intro k hk
    rw [mem_keys_node] at hk ⊢
    obtain ⟨x, hx, hkx⟩ := hk
    rcases List.mem_append.1 hx with hx | hx
    · exact ⟨x, List.mem_append_left _ hx, hkx⟩
    · rcases List.mem_cons.1 hx with rfl | hx
      · exact ⟨c1, List.mem_append_right _ (List.mem_cons_self _ _), ih k hkx⟩
      · exact ⟨x, List.mem_append_right _ (List.mem_cons_of_mem _ hx), hkx⟩
  | splitLeaf a kpre kpost pre post c b el er e nx nx1 hlen hk1 hk2 _ hel htot ih =>
    intro k hk
    rw [mem_keys_node] at hk ⊢
    obtain ⟨x, hx, hkx⟩ := hk
    rcases List.mem_append.1 hx with hx | hx
    · exact ⟨x, List.mem_append_left _ hx, hkx⟩
    · rcases List.mem_cons.1 hx with rfl | hx
      · have := ih k hkx
        simp only [keys_leaf, List.map_append, List.map_cons, List.mem_append,
          List.mem_cons] at this
        rcases this with h1 | h1
        · exact ⟨.leaf b el, List.mem_append_right _ (List.mem_cons_self _ _),
            by rw [keys_leaf]; exact h1⟩
        · exact ⟨.leaf nx1 (e :: er),
            List.mem_append_right _ (List.mem_cons_of_mem _ (List.mem_cons_self _ _)),
            by rw [keys_leaf]; simpa using h1⟩
      · exact ⟨x, List.mem_append_right _
          (List.mem_cons_of_mem _ (List.mem_cons_of_mem _ hx)), hkx⟩
  | splitNode a kpre kpost pre post c b kl kr s cl cr nx nx1 hlen hk1 hk2 _ hkl hcl htot ih =>
    intro k hk
    rw [mem_keys_node] at hk ⊢
    obtain ⟨x, hx, hkx⟩ := hk
    rcases List.mem_append.1 hx with hx | hx
    · exact ⟨x, List.mem_append_left _ hx, hkx⟩
    · rcases List.mem_cons.1 hx with rfl | hx
      · have := ih k hkx
        rw [keys_node_append b b nx1 _ kl kr, List.mem_append] at this
        rcases this with h1 | h1
        · exact ⟨.node b kl cl, List.mem_append_right _ (List.mem_cons_self _ _), h1⟩
        · exact ⟨.node nx1 kr cr,
            List.mem_append_right _ (List.mem_cons_of_mem _ (List.mem_cons_self _ _)), h1⟩
      · exact ⟨x, List.mem_append_right _
          (List.mem_cons_of_mem _ (List.mem_cons_of_mem _ hx)), hkx⟩

/-- When `insert` has passed through a subtree of the data model, every separator of the
subtree is still a key of the subtree on its right: a split puts the first key of the new
right node between the halves. -/
theorem Ins_sepMem {order : Nat} {key : K} {value : V} (ho : 3 ≤ order) {bt bt1 : BT K V}
    {nx nx1 : Nat} (h : Ins order key value bt nx bt1 nx1) :
    ∀ {d cmin cmax : Nat} {lo : WithBot K} {hi : WithTop K},
      Good order d cmin cmax lo hi bt → cmax < order → lo ≤ (key : WithBot K) →
      (key : WithTop K) < hi → SepAll SepMem bt → SepAll SepMem bt1 := by
  induction h with
  | leaf a es1 es2 nx h1 h2 =>
    intro d cmin cmax lo hi hg hc hlo hhi hsep
    exact SepAll.leaf _ _
  | keep a kpre kpost pre post c c1 nx nx1 hlen hk1 hk2 hI hcnt ih =>
    intro d cmin cmax lo hi hg hc hlo hhi hsep
    cases d with
    | zero => simp [Good] at hg
    | succ d =>
      simp only [Good] at hg
      obtain ⟨g1, g2, g3, g4, g5⟩ := hg
      obtain ⟨f1, -, -⟩ := Kids_focus hlen g5
      have hkey1 := lastB_le_key lo kpre key hlo hk1
      have hkey2 := key_lt_headB hi kpost key hhi hk2
      cases hsep with
      | node _ _ _ hs hcs =>
        have hc1 := ih f1 (show order - 1 < order by omega) hkey1 hkey2
          (hcs c (List.mem_append_right _ (List.mem_cons_self _ _)))
        refine SepAll.node _ _ _
          (SepLists_replace (Ins_keys_subset hI) kpost post kpre pre hlen hs) ?_
        intro x hx
        rcases List.mem_append.1 hx with hx | hx
        · exact hcs x (List.mem_append_left _ hx)
        · rcases List.mem_cons.1 hx with rfl | hx
          · exact hc1
          · exact hcs x (List.mem_append_right _ (List.mem_cons_of_mem _ hx))
  | splitLeaf a kpre kpost pre post c b el er e nx nx1 hlen hk1 hk2 hI hel htot ih =>
    intro d cmin cmax lo hi hg hc hlo hhi hsep
    cases d with
    | zero => simp [Good] at hg
    | succ d =>
      have hg0 := hg
      simp only [Good] at hg
      obtain ⟨g1, g2, g3, g4, g5⟩ := hg
      obtain ⟨f1, -, -⟩ := Kids_focus hlen g5
      have hkey1 := lastB_le_key lo kpre key hlo hk1
      have hkey2 := key_lt_headB hi kpost key hhi hk2
      have hc1 := Ins_good ho hI f1 (show order - 1 < order by omega) hkey1 hkey2
      cases d with
      | succ d => simp [Good] at hc1
      | zero =>
        obtain ⟨-, s2, s3, s4⟩ := Good_leaf_split nx1 ho hc1 hel htot
        obtain ⟨t1, -⟩ := sorted_insert_sep g3 g4 s3 s4
        have hlow := (Good_keys_sorted s2).2
        cases hsep with
        | node _ _ _ hs hcs =>
          refine SepAll.node _ _ _ (SepLists_split ?_ kpost post kpre pre hlen ?_ hs) ?_
          · rw [keys_leaf]
            simp
          · intro k hk hkc
            have hk2 := Ins_keys_subset hI k hkc
            simp only [keys_leaf, List.map_append, List.mem_append] at hk2 ⊢
            rcases hk2 with h1 | h1
            · exact h1
            · have h3 : e.1 ≤ k := by
                have := (hlow k (by rw [keys_leaf]; exact h1)).1
                exact WithBot.coe_le_coe.1 this
              have h4 : k < e.1 :=
                (List.pairwise_append.1 t1).2.2 k hk e.1 (List.mem_cons_self _ _)
              exact absurd h4 (not_lt.2 h3)
          · intro x hx
            rcases List.mem_append.1 hx with hx | hx
            · exact hcs x (List.mem_append_left _ hx)
            · rcases List.mem_cons.1 hx with rfl | hx
              · exact SepAll.leaf _ _
              · rcases List.mem_cons.1 hx with rfl | hx
                · exact SepAll.leaf _ _
                · exact hcs x (List.mem_append_right _ (List.mem_cons_of_mem _ hx))
  | splitNode a kpre kpost pre post c b kl kr s cl cr nx nx1 hlen hk1 hk2 hI hkl hcl htot ih =>
    intro d cmin cmax lo hi hg hc hlo hhi hsep
    cases d with
    | zero => simp [Good] at hg
    | succ d =>
      simp only [Good] at hg
      obtain ⟨g1, g2, g3, g4, g5⟩ := hg
      obtain ⟨f1, -, -⟩ := Kids_focus hlen g5
      have hkey1 := lastB_le_key lo kpre key hlo hk1
      have hkey2 := key_lt_headB hi kpost key hhi hk2
      have hc1 := Ins_good ho hI f1 (show order - 1 < order by omega) hkey1 hkey2
      cases d with
      | zero => simp [Good] at hc1
      | succ d =>
        obtain ⟨-, s2, s3, s4⟩ := Good_node_split nx1 ho hc1 hkl hcl htot
        obtain ⟨t1, -⟩ := sorted_insert_sep g3 g4 s3 s4
        have hlow := (Good_keys_sorted s2).2
        cases hsep with
        | node _ _ _ hs hcs =>
          have hsc := ih f1 (show order - 1 < order by omega) hkey1 hkey2
            (hcs c (List.mem_append_right _ (List.mem_cons_self _ _)))
          obtain ⟨p1, p2, p3⟩ := @SepAll_cut K V b nx1 kl kr s cl cr (by omega) hsc
          refine SepAll.node _ _ _ (SepLists_split p3 kpost post kpre pre hlen ?_ hs) ?_
          · intro k hk hkc
            have hk2 := Ins_keys_subset hI k hkc
            rw [keys_node_append b b nx1 _ kl kr, List.mem_append] at hk2
            rcases hk2 with h1 | h1
            · exact h1
            · have h3 : s ≤ k := WithBot.coe_le_coe.1 (hlow k h1).1
              have h4 : k < s :=
                (List.pairwise_append.1 t1).2.2 k hk s (List.mem_cons_self _ _)
              exact absurd h4 (not_lt.2 h3)
          · intro x hx
            rcases List.mem_append.1 hx with hx | hx
            · exact hcs x (List.mem_append_left _ hx)
            · rcases List.mem_cons.1 hx with rfl | hx
              · exact p1
              · rcases List.mem_cons.1 hx with rfl | hx
                · exact p2
                · exact hcs x (List.mem_append_right _ (List.mem_cons_of_mem _ hx))

end InsertSep

section InsertSepInv

variable {K V : Type} [LinearOrder K]

/-- `insert` on a state satisfying the invariant in which every separator is the minimum key
of the subtree on its right: the call returns, and the same holds afterwards. -/
theorem insert_sep {order : Nat} (ho : 3 ≤ order) (fr : Fresh K V) (t : Tree K V) (key : K)
    (value : V) (hinv : InvSep order t) :
    ∃ t1 r, insert order fr t key value = some (t1, r) ∧ InvSep order t1 := by
  rcases hinv with ⟨hroot, hhead⟩ | ⟨bt, d, hroot, hr, hg, hnd, hlt, hch, hhead, hsep⟩
  · -- the empty tree
    have hl0 : (newNode fr t.next true).IS_LEAF = true := rfl
    have hn0 : (newNode fr t.next true).n < order := by simp [newNode]; omega
    obtain ⟨nd1, arg, i1, i2, i3, i4, i5, i6⟩ :=
      Node.insert_spec key value hl0 hn0 (by intro i j _ hj; simp [newNode] at hj)
    have hent : nd1.entries = [(key, value)] := by
      rw [i6]
      simp [Node.entries, newNode]
    have hres : insert order fr t key value
        = some ({ t with heap := Function.update t.heap t.next (some nd1), next := t.next + 1,
                         root := some t.next, head := some t.next }, 0) := by
      simp only [insert, hroot, i1]
    refine ⟨_, 0, hres, Or.inr ⟨.leaf t.next [(key, value)], 0,
      rfl, Rep.leaf (Function.update_same _ _ _) i3 hent, ?_, by simp [BT.addrs], ?_, ?_, rfl,
      SepAll.leaf _ _⟩⟩
    · simp only [Good, List.length_singleton, le_refl, List.map_cons, List.map_nil,
        List.sorted_singleton, List.mem_singleton, forall_eq, true_and]
      exact ⟨by omega, bot_le, WithTop.coe_lt_top _⟩
    · intro a ha
      simp only [BT.addrs, List.mem_singleton] at ha
      subst ha
      exact Nat.lt_succ_self _
    · simp only [leaves_leaf, Chain, firstOr, and_true, Function.update_same, links,
        Option.map_some', i3, i4]
      rfl
  · -- a tree with a root
    have hmem := Good_isMin_sepMem hg hsep
    have hdl : d < t.next + 1 := by
      have h1 := Good_depth_lt hg
      have h2 := nodup_length_le hnd hlt
      omega
    obtain ⟨s, lf, hpath, hfind⟩ := findLoop_spec key hg (by omega) hr
    have hfind' := hfind (t.next + 1) [] hdl
    rw [List.append_nil] at hfind'
    obtain ⟨ndl, c1, c2, c3, c4, c5⟩ := Path_leaf_cell hpath hg le_rfl hr
    have hn : ndl.n < order := by omega
    obtain ⟨b, arg, k1, k2, k3, k4, k5⟩ := Node.hasKey_spec key hn c3
    have hstart : insert order fr t key value
        = match b with
          | true =>
            match ndl.update order key value with
            | none => none
            | some nd1 => some ({ t with heap := Function.update t.heap lf (some nd1) }, 1)
          | false =>
            match ndl.insert order key value with
            | none => none
            | some nd1 =>
              match maintainAfterInsert order fr
                  { t with heap := Function.update t.heap lf (some nd1) } (lf :: s) with
              | none => none
              | some t1 => some ({ t1 with size := wrapInt (t1.size + 1) }, 0) := by
      simp only [insert, hroot, findNodeByKey, hfind', c1, k1]
      cases b <;> rfl
    rw [hstart]
    cases b with
    | true =>
      obtain ⟨nd1, u1, u2, u3, u4, u5, u6⟩ :=
        Node.update_spec key value c2 k2 (by have := k3.1; omega) (k4.1 rfl)
      have hkl : nd1.keyList = ndl.keyList := by simp [Node.keyList, u4, u5]
      obtain ⟨bt1, r1, r2, r3, r4, r5, r6, r7⟩ := Path_leaf_update u2 hpath hr hnd hlt
        (fun x hx => by
          rw [c1] at hx
          rw [← Option.some.inj hx]
          exact hkl)
      simp only [u1]
      refine ⟨_, 1, rfl, Or.inr ⟨bt1, d, ?_, r1, r6 _ _ _ _ _ _ hg, ?_, ?_, ?_, ?_,
        Good_sepMem_isMin (r6 _ _ _ _ _ _ hg) (r7 hmem)⟩⟩
      · simp only [r2]; exact hroot
      · rw [r3]; exact hnd
      · rw [r3]; exact hlt
      · rw [r4]
        refine Chain_frame _ none none hch (fun x _ => ?_)
        by_cases hx : x = lf
        · subst hx
          simp [links, c1, u2, c2, u3]
        · simp only
          rw [Function.update_noteq hx]
      · rw [r4]; exact hhead
    | false =>
      have habs : key ∉ ndl.keyList := fun hm => by simpa using (k5 hm).1
      obtain ⟨ndl1, arg1, i1, i2, i3, i4, i5, i6⟩ := Node.insert_spec key value c2 hn c3
      have hlnd := leaves_nodup hnd
      obtain ⟨bt1, nx1, h1, hI, hr1, hf1, hch1, hloop⟩ :=
        upLoop_spec ho fr key value c1 habs i1 hpath [] [] hg
          (by omega) bot_le (WithTop.coe_lt_top _) hr hnd hlt (by simpa using hch)
          (by simpa using hlnd) (by simp)
      simp only [List.nil_append, List.append_nil] at hch1
      have haddr := Ins_addr hI
      have hnx := Ins_next hI
      have hg1 := Ins_good ho hI hg (by omega) bot_le (WithTop.coe_lt_top _)
      have hnd1 := Ins_nodup hI hnd hlt
      have hlt1 : ∀ a ∈ bt1.addrs, a < nx1 := by
        intro a ha
        rcases (Ins_mem_addrs hI a).1 ha with h | h
        · exact lt_of_lt_of_le (hlt a h) hnx
        · exact h.2
      have hhd := Ins_leaves_head hI
      have hmem1 := Ins_sepMem ho hI hg (by omega) bot_le (WithTop.coe_lt_top _) hmem
      obtain ⟨cn, hcn, hcnn⟩ := Rep_cell hr1
      have hcase : bt1.count < order →
          InvSep order { t with heap := h1, next := nx1, size := wrapInt (t.size + 1) } := by
        intro hc
        refine Or.inr ⟨bt1, d, ?_, hr1, Good_recount hg1 (Good_count hg1).1 (by omega), hnd1,
          hlt1, hch1, ?_, Good_sepMem_isMin hg1 hmem1⟩
        · simp only [haddr]; exact hroot
        · simp only [hhd]; exact hhead
      have hl := hloop []
      rw [List.append_nil] at hl
      simp only [i1]
      rcases hl with hl | ⟨hc, hl⟩
      · simp only [upLoop] at hl
        by_cases hover : order ≤ bt1.count
        · have hcnt : bt1.count = order := by
            have := (Good_count hg1).2
            omega
          have hg1' : Good order d 1 order ⊥ ⊤ bt1 := by
            have h3 : order - 1 + 1 = order := by omega
            rw [h3] at hg1
            exact hg1
          obtain ⟨h2, bt2, s1, s2, s3, s4, s5, s6, s7, s8, s9, s10⟩ :=
            root_split ho fr hr1 hg1' hcnt hnd1 hlt1 hch1
          rw [haddr] at s1 hcn
          rw [maintain_root_over fr (t := { t with heap := Function.update t.heap lf (some ndl1) })
            hl hcn (by omega) s1]
          refine ⟨_, 0, rfl, Or.inr ⟨bt2, d + 1, ?_, s3, s4, s5, s6, s7, ?_,
            Good_sepMem_isMin s4 (s10 hmem1)⟩⟩
          · simp only [s2]
          · simp only [s8]
            rw [hhead, ← hhd]
            cases d with
            | zero =>
              rw [Good_zero_leaves hg1]
              rfl
            | succ d => simp
        · rw [haddr] at hcn
          rw [maintain_root_ok fr (t := { t with heap := Function.update t.heap lf (some ndl1) })
            hl hcn (by omega)]
          exact ⟨_, 0, rfl, hcase (by omega)⟩
      · rw [maintain_return fr (t := { t with heap := Function.update t.heap lf (some ndl1) })
          hl]
        exact ⟨_, 0, rfl, hcase hc⟩

/-- The invariant of insert-only runs contains the state invariant. -/
theorem InvSep_inv {order : Nat} {t : Tree K V} (h : InvSep order t) : Inv order t := by
  rcases h with h | ⟨bt, d, h1, h2, h3, h4, h5, h6, h7, -⟩
  · exact Or.inl h
  · exact Or.inr ⟨bt, d, h1, h2, h3, h4, h5, h6, h7⟩

/-- A sequence of `insert` calls from the empty tree runs to its end; afterwards the state
invariant holds and every separator is the minimum key of the subtree on its right. -/
theorem run_inserts_sep {order : Nat} (ho : 3 ≤ order) (fr : Fresh K V) :
    ∀ (kvs : List (K × V)) (t : Tree K V), InvSep order t →
      ∃ t1 rs, run order fr (kvs.map (fun p => Op.ins p.1 p.2)) t = some (t1, rs) ∧
        InvSep order t1
  | [], t, h => ⟨t, [], rfl, h⟩
  | p :: kvs, t, h => by
    obtain ⟨t1, r, h1, h2⟩ := insert_sep ho fr t p.1 p.2 h
    obtain ⟨t2, rs, h3, h4⟩ := run_inserts_sep ho fr kvs t1 h2
    exact ⟨t2, r :: rs, by simp only [List.map_cons, run, step, h1, h3], h4⟩

/-- A call on a state satisfying the invariant, in a tree whose nodes hold at least one key:
the call returns, unless it is a `remove` whose body runs to its end and frees the leaf on
which the call holds the lock. -/
theorem step_returns_or_frees {order : Nat} (hmid : (order - 1) / 2 = 1) (fr : Fresh K V)
    (t : Tree K V) (op : Op K V) (hinv : Inv order t) :
    (∃ t1 r, step order fr t op = some (t1, r)) ∨
      ∃ key t1 r a, op = .rem key ∧ step order fr t op = none ∧
        removeBody order t key = some (t1, r) ∧ lockedLeaf order t key = some a ∧
        t1.heap a = none := by
  cases op with
  | ins key value =>
    obtain ⟨t1, r, h1, -⟩ := insert_inv (by omega) fr t key value hinv
    exact Or.inl ⟨t1, r, h1⟩
  | rem key =>
    obtain ⟨t1, r, h1, -, -⟩ := remove_spec hmid t key hinv
    rcases remove_of_body h1 with ⟨h2, -⟩ | ⟨h2, a, h3, h4⟩
    · exact Or.inl ⟨t1, r, h2⟩
    · exact Or.inr ⟨key, t1, r, a, rfl, h2, h1, h3, h4⟩

end InsertSepInv

section Pointers

variable {K V : Type} [LinearOrder K]

omit [LinearOrder K] in
theorem pointersL_eq_map (cs : List (BT K V)) : BT.pointersL cs = cs.map BT.pointers := by
  induction cs with
  | nil => rfl
  | cons c cs ih => simp [BT.pointersL, ih]

omit [LinearOrder K] in
theorem pointers_ptr (bt : BT K V) : bt.pointers.ptr = some bt.addr := by
  cases bt <;> rfl

omit [LinearOrder K] in
theorem pointersL_leaves :
    ∀ cs : List (BT K V), (∀ c ∈ cs, c.pointers.leaves = c.leaves) →
      PT.leavesL (BT.pointersL cs) = (BT.leafListL cs).map Prod.fst
  | [], _ => rfl
  | c :: cs, h => by
    simp only [BT.pointersL, PT.leavesL, BT.leafListL, List.map_append]
    rw [h c (List.mem_cons_self _ _),
      pointersL_leaves cs (fun x hx => h x (List.mem_cons_of_mem _ hx))]
    rfl

/-- The heap holds the pointer structure of a tree of the data model that it holds: every
internal node reaches its children through all of `ptr[0..n]`; the leaves of the pointer
structure are the leaves of the tree. -/
theorem Good_pointers {order : Nat} {h : Heap K V} :
    ∀ {d : Nat} {bt : BT K V} {cmin cmax : Nat} {lo : WithBot K} {hi : WithTop K},
      Good order d cmin cmax lo hi bt → Rep h bt →
      RepP h bt.pointers ∧ bt.pointers.leaves = bt.leaves := by
  intro d
  induction d with
  | zero =>
    intro bt cmin cmax lo hi hg hr
    cases bt with
    | node a ks cs => simp [Good] at hg
    | leaf a es =>
      cases hr with
      | @leaf _ _ nd ha hl he => exact ⟨RepP.leaf ha hl, rfl⟩
  | succ d ih =>
    intro bt cmin cmax lo hi hg hr
    cases bt with
    | leaf a es => simp [Good] at hg
    | node a ks cs =>
      simp only [Good] at hg
      obtain ⟨-, -, -, -, g5⟩ := hg
      have hlen := Kids_length _ _ _ _ g5
      cases hr with
      | @node _ _ _ nd ha hl hk hp hc =>
        have hn : nd.n = ks.length := by rw [← hk]; simp [Node.keyList]
        have hall : ∀ c ∈ cs, RepP h c.pointers ∧ c.pointers.leaves = c.leaves := by
          intro c hcm
          obtain ⟨lo1, hi1, hgc⟩ := Kids_forall ks cs lo hi g5 c hcm
          exact ih hgc (hc c hcm)
        refine ⟨RepP.node ha hl ?_ ?_, ?_⟩
        · rw [hn, ← hlen, hp, pointersL_eq_map, List.map_map]
          apply List.map_congr_left
          intro c _
          exact (pointers_ptr c).symm
        · intro p hpm
          rw [pointersL_eq_map] at hpm
          obtain ⟨c, hcm, rfl⟩ := List.mem_map.1 hpm
          exact (hall c hcm).1
        · show PT.leavesL (BT.pointersL cs) = (BT.leafListL cs).map Prod.fst
          exact pointersL_leaves cs (fun c hcm => (hall c hcm).2)

end Pointers

section ChainClaim

end ChainClaim

section SeparatorAmended

/-- C16, amended.  For every order of at least 3, every sequence of `insert` calls from the
empty tree runs to its end, and afterwards every separator key `i` of every internal node is
the minimum key stored in the subtree rooted at child `i + 1`, and is greater than every key
stored in the subtree rooted at child `i`.  For the orders 3 and 4, after every `insert` or
`remove` call of a sequence from the empty tree in which every call has returned, every
separator key `i` of every internal node is greater than every key stored in the subtree
rooted at child `i` and at most every key stored in the subtree rooted at child `i + 1`; the
next call returns, unless it is a `remove` whose body runs to its end and frees the leaf on
which the call holds the lock. -/
theorem separators_after_calls {K V : Type} [LinearOrder K] (order : Nat) (ho : 3 ≤ order)
    (fr : Fresh K V) :
    (∀ kvs : List (K × V), ∃ t rs,
        run order fr (kvs.map (fun p => Op.ins p.1 p.2)) empty = some (t, rs) ∧
        ((t.root = none ∧ t.head = none) ∨
          ∃ (bt : BT K V) (d : Nat), t.root = some bt.addr ∧ Rep t.heap bt ∧
            Good order d 1 (order - 1) ⊥ ⊤ bt ∧ RepP t.heap bt.pointers ∧
            SepAll SepIsMin bt ∧ SepAll SepBounds bt)) ∧
    ((order - 1) / 2 = 1 → ∀ (ops : List (Op K V)) (t : Tree K V) (rs : List Nat),
        run order fr ops empty = some (t, rs) →
        ((t.root = none ∧ t.head = none) ∨
          ∃ (bt : BT K V) (d : Nat), t.root = some bt.addr ∧ Rep t.heap bt ∧
            Good order d 1 (order - 1) ⊥ ⊤ bt ∧ RepP t.heap bt.pointers ∧
            SepAll SepBounds bt) ∧
        ∀ op : Op K V, (∃ t1 r, step order fr t op = some (t1, r)) ∨
          ∃ key t1 r a, op = .rem key ∧ step order fr t op = none ∧
            removeBody order t key = some (t1, r) ∧ lockedLeaf order t key = some a ∧
            t1.heap a = none) := by
  refine ⟨fun kvs => ?_, fun hmid ops t rs hrun => ?_⟩
  · obtain ⟨t, rs, h1, h2⟩ := run_inserts_sep ho fr kvs empty (Or.inl ⟨rfl, rfl⟩)
    refine ⟨t, rs, h1, ?_⟩
    rcases h2 with h0 | ⟨bt, d, hroot, hr, hg, -, -, -, -, hsep⟩
    · exact Or.inl h0
    · exact Or.inr ⟨bt, d, hroot, hr, hg, (Good_pointers hg hr).1, hsep, Good_sepAll hg⟩
  · have hinv : Inv order t := run_inv hmid fr ops empty t rs (Inv_empty order) hrun
    refine ⟨?_, fun op => step_returns_or_frees hmid fr t op hinv⟩
    rcases hinv with h0 | ⟨bt, d, hroot, hr, hg, -⟩
    · exact Or.inl h0
    · exact Or.inr ⟨bt, d, hroot, hr, hg, (Good_pointers hg hr).1, Good_sepAll hg⟩

theorem separators_after_calls_witness :
    3 ≤ 3 ∧
    (∃ t rs, run 3 zeroFresh
          ([((1 : Int), (1 : Nat)), (2, 2), (3, 3)].map (fun p => Op.ins p.1 p.2)) empty
          = some (t, rs) ∧
        ((t.root = none ∧ t.head = none) ∨
          ∃ (bt : BT Int Nat) (d : Nat), t.root = some bt.addr ∧ Rep t.heap bt ∧
            Good 3 d 1 (3 - 1) ⊥ ⊤ bt ∧ RepP t.heap bt.pointers ∧
            SepAll SepIsMin bt ∧ SepAll SepBounds bt)) ∧
    (3 - 1) / 2 = 1 ∧
    run 3 zeroFresh sepDemoOps empty = some (sepDemoTree, [0, 0, 0, 0]) ∧
    (((sepDemoTree.root = none ∧ sepDemoTree.head = none) ∨
        ∃ (bt : BT Int Nat) (d : Nat), sepDemoTree.root = some bt.addr ∧
          Rep sepDemoTree.heap bt ∧ Good 3 d 1 (3 - 1) ⊥ ⊤ bt ∧
          RepP sepDemoTree.heap bt.pointers ∧ SepAll SepBounds bt) ∧
      ∀ op : Op Int Nat, (∃ t1 r, step 3 zeroFresh sepDemoTree op = some (t1, r)) ∨
        ∃ key t1 r a, op = .rem key ∧ step 3 zeroFresh sepDemoTree op = none ∧
          removeBody 3 sepDemoTree key = some (t1, r) ∧
          lockedLeaf 3 sepDemoTree key = some a ∧ t1.heap a = none) :=
  ⟨le_rfl, (separators_after_calls 3 le_rfl zeroFresh).1 [(1, 1), (2, 2), (3, 3)], rfl, rfl,
    (separators_after_calls 3 le_rfl zeroFresh).2 rfl sepDemoOps sepDemoTree [0, 0, 0, 0] rfl⟩

end SeparatorAmended

end BPlusTree
